import Mathlib

/-!
Sketch effect: CPU pixel kernels and the worker pool.

A shallow embedding of `CPU_SketchEffect.cpp` and `ThreadPool.cpp`.

* Pixel buffers (`vector<unsigned char>`) are lists of naturals; `buf.getD i 0` reads a byte
  and `List.set` writes one.
* The kernels are embedded twice.  The namespace `Binary32` holds them over `F32`, a model of
  IEEE 754 binary32 with round-to-nearest-even, signed zeros, subnormals, infinities and NaN;
  every statement about a value computed in `float` is made there.  The `libm` functions `exp`
  and `sin` are parameters (`Libm32`); `sqrt` is computed, correctly rounded.
* The same kernels over a linearly ordered field `K` are used for the statements that do not
  depend on the value of a `float`: which bytes a kernel writes, the shape of the pipeline, the
  minimum of bytes taken by `Combine`, and the black-and-white stages.
* A fan-out over the pool is modelled by running the submitted range tasks one after the other
  in submission order; the tasks of one kernel write disjoint bytes of the output buffer and
  only read the input buffer.
-/

namespace SketchEffect

/-! ## Loops, buffers and scalar helpers -/

/-- The loop `for (int i = lo; i < hi; ++i) body(i)` as a state transformer. -/
def forLoop {σ : Type} (lo hi : Nat) (body : Nat → σ → σ) (s : σ) : σ :=
  (List.range' lo (hi - lo)).foldl (fun acc i => body i acc) s

/-- The values taken by `i` in `for (int i = lo; i <= hi; ++i)` with signed bounds. -/
def intRange (lo hi : Int) : List Int :=
  (List.range (hi + 1 - lo).toNat).map (fun (k : Nat) => lo + (k : Int))

/-- The loop `for (int i = lo; i <= hi; ++i) body(i)` with signed bounds. -/
def forLoopInt {σ : Type} (lo hi : Int) (body : Int → σ → σ) (s : σ) : σ :=
  (intRange lo hi).foldl (fun acc i => body i acc) s

/-- The function `glm::clamp(x, minVal, maxVal) = min(max(x, minVal), maxVal)`. -/
def clamp (x minVal maxVal : Int) : Int := min (max x minVal) maxVal

/-- The macro `min(a, b) ((a) < (b) ? (a) : (b))` of `CPU_SketchEffect.h`. -/
def cmin {K : Type} [LinearOrderedField K] (a b : K) : K := if a < b then a else b

/-- The conversion `static_cast<unsigned char>(v)`: truncation toward zero, then the low byte. -/
def toByte {K : Type} [LinearOrderedField K] [FloorRing K] (v : K) : Nat :=
  ((if 0 ≤ v then ⌊v⌋ else ⌈v⌉) % 256).toNat

/-- The four stores `out[idx+0] = r; out[idx+1] = g; out[idx+2] = b; out[idx+3] = a`. -/
def writePixel (out : List Nat) (idx r g b a : Nat) : List Nat :=
  (((out.set (idx + 0) r).set (idx + 1) g).set (idx + 2) b).set (idx + 3) a

/-! ## Range partitioner (the fan-out loops) -/

/-- The sub-range `[start, end)` of worker `t` in the fan-out loops:
`rows = (endRow - startRow) / workers; start = startRow + t * rows;
end = (t == workers - 1) ? endRow : start + rows`. -/
def workerRange (workers startRow endRow t : Nat) : Nat × Nat :=
  let rows := (endRow - startRow) / workers
  let start := startRow + t * rows
  let stop := if t = workers - 1 then endRow else start + rows
  (start, stop)

/-- The list of sub-ranges submitted by `for (t = 0; t < workers; ++t)`. -/
def fanOut (workers startRow endRow : Nat) : List (Nat × Nat) :=
  (List.range workers).map (workerRange workers startRow endRow)

/-- Run the tasks of a fan-out in submission order on the shared output buffer. -/
def runFanOut (workers startRow endRow : Nat) (task : Nat → Nat → List Nat → List Nat)
    (out : List Nat) : List Nat :=
  (fanOut workers startRow endRow).foldl (fun acc r => task r.1 r.2 acc) out

/-! ## Pixel kernels -/

section Kernels

variable {K : Type} [LinearOrderedField K] [FloorRing K]

/-- `GrayNuance(in, index)`. -/
def GrayNuance (inp : List Nat) (index : Nat) : K :=
  let r : K := (inp.getD (index + 0) 0 : K) / 255
  let g : K := (inp.getD (index + 1) 0 : K) / 255
  let b : K := (inp.getD (index + 2) 0 : K) / 255
  21 / 100 * r + 71 / 100 * g + 7 / 100 * b

/-- The Sobel kernel `Gx`. -/
def Gx : List (List Int) := [[-1, 0, 1], [-2, 0, 2], [-1, 0, 1]]

/-- The Sobel kernel `Gy`. -/
def Gy : List (List Int) := [[-1, -2, -1], [0, 0, 0], [1, 2, 1]]

/-- The array access `G[r][c]` for signed `r`, `c`. -/
def kernelAt (G : List (List Int)) (r c : Int) : Int := (G.getD r.toNat []).getD c.toNat 0

/-- The two inner loops of `SOBEL_BINARY_EDGE`: the pair `(gradX, gradY)` at pixel `(x, y)`. -/
def sobelGrad (inp : List Nat) (w h x y : Nat) : K × K :=
  forLoopInt (-1) 1 (fun j acc =>
    forLoopInt (-1) 1 (fun i acc =>
      let nx := clamp ((x : Int) + i) 0 ((w : Int) - 1)
      let ny := clamp ((y : Int) + j) 0 ((h : Int) - 1)
      let index := ((ny * (w : Int) + nx) * 4).toNat
      let gray : K := GrayNuance inp index
      (acc.1 + gray * (kernelAt Gx (j + 1) (i + 1) : K),
       acc.2 + gray * (kernelAt Gy (j + 1) (i + 1) : K))) acc) (0, 0)

/-- The value `binary` of `SOBEL_BINARY_EDGE` at pixel `(x, y)`. -/
def sobelBinary (sqrtF : K → K) (inp : List Nat) (w h : Nat) (threshold : K) (x y : Nat) : Nat :=
  let g : K × K := sobelGrad inp w h x y
  let magnitude := sqrtF (g.1 * g.1 + g.2 * g.2)
  if magnitude ≥ threshold then 0 else 255

/-- The lambda `SOBEL_BINARY_EDGE(start, end)`. -/
def SOBEL_BINARY_EDGE (sqrtF : K → K) (inp : List Nat) (w h : Nat) (threshold : K)
    (start stop : Nat) (out : List Nat) : List Nat :=
  forLoop start stop (fun y out =>
    forLoop 0 w (fun x out =>
      let binary := sobelBinary sqrtF inp w h threshold x y
      let idx := (y * w + x) * 4
      writePixel out idx binary binary binary 255) out) out

/-- `CPU_SketchEffect::EdgeBinarize`: the buffer uploaded to the output texture. -/
def EdgeBinarize (sqrtF : K → K) (inp : List Nat) (w h : Nat) (threshold : K)
    (startRow endRow workers : Nat) : List Nat :=
  runFanOut workers startRow endRow (SOBEL_BINARY_EDGE sqrtF inp w h threshold)
    (List.replicate (w * h * 4) 0)

/-- `CPU_SketchEffect::Weight(mu, sigma)`. -/
def Weight (expF sqrtF : K → K) (piK : K) (mu : Int) (sigma : K) : K :=
  expF (-((mu * mu : Int) : K) / (2 * sigma * sigma)) / (sqrtF (2 * piK) * sigma)

/-- The first weight loop of `Horizontal`/`Vertical`:
`weights[i + radius] = Weight(i, sigma); sum += weights[i + radius]`. -/
def rawWeights (expF sqrtF : K → K) (piK : K) (radius : Nat) (sigma : K) : List K × K :=
  forLoopInt (-(radius : Int)) radius (fun i st =>
    let ws := st.1.set (i + radius).toNat (Weight expF sqrtF piK i sigma)
    (ws, st.2 + ws.getD (i + radius).toNat 0)) (List.replicate (2 * radius + 1) 0, 0)

/-- The normalized weight vector: the second loop `weights[i] /= sum`. -/
def gaussWeights (expF sqrtF : K → K) (piK : K) (radius : Nat) (sigma : K) : List K :=
  let st := rawWeights expF sqrtF piK radius sigma
  forLoop 0 st.1.length (fun i ws => ws.set i (ws.getD i 0 / st.2)) st.1

/-- The inner loop of `HORIZONTAL_BLUR`: `(sumR, sumG, sumB)` at pixel `(x, y)`. -/
def horizontalSums (weights : List K) (inp : List Nat) (w : Nat) (radius : Nat) (x y : Nat) :
    K × K × K :=
  forLoopInt (-(radius : Int)) radius (fun i acc =>
    let nx := clamp ((x : Int) + i) 0 ((w : Int) - 1)
    let index := ((((y : Int) * (w : Int) + nx) * 4)).toNat
    let r : K := (inp.getD index 0 : K) / 255
    let g : K := (inp.getD (index + 1) 0 : K) / 255
    let b : K := (inp.getD (index + 2) 0 : K) / 255
    let weight := weights.getD (i + radius).toNat 0
    (acc.1 + r * weight, acc.2.1 + g * weight, acc.2.2 + b * weight)) (0, 0, 0)

/-- The lambda `HORIZONTAL_BLUR(start, end)`. -/
def HORIZONTAL_BLUR (weights : List K) (inp : List Nat) (w : Nat) (radius : Nat)
    (start stop : Nat) (out : List Nat) : List Nat :=
  forLoop start stop (fun y out =>
    forLoop 0 w (fun x out =>
      let s : K × K × K := horizontalSums weights inp w radius x y
      let idx := (y * w + x) * 4
      writePixel out idx (toByte (s.1 * 255)) (toByte (s.2.1 * 255)) (toByte (s.2.2 * 255)) 255)
      out) out

/-- `CPU_SketchEffect::Horizontal`: the buffer uploaded to the output texture. -/
def Horizontal (expF sqrtF : K → K) (piK : K) (inp : List Nat) (w h : Nat) (radius : Nat)
    (sigma : K) (startRow endRow workers : Nat) : List Nat :=
  runFanOut workers startRow endRow
    (HORIZONTAL_BLUR (gaussWeights expF sqrtF piK radius sigma) inp w radius)
    (List.replicate (w * h * 4) 0)

/-- The inner loop of `VERTICAL_BLUR`: `(sumR, sumG, sumB)` at pixel `(x, y)`. -/
def verticalSums (weights : List K) (inp : List Nat) (w h : Nat) (radius : Nat) (x y : Nat) :
    K × K × K :=
  forLoopInt (-(radius : Int)) radius (fun i acc =>
    let ny := clamp ((y : Int) + i) 0 ((h : Int) - 1)
    let index := (((ny * (w : Int) + (x : Int)) * 4)).toNat
    let r : K := (inp.getD index 0 : K) / 255
    let g : K := (inp.getD (index + 1) 0 : K) / 255
    let b : K := (inp.getD (index + 2) 0 : K) / 255
    let weight := weights.getD (i + radius).toNat 0
    (acc.1 + r * weight, acc.2.1 + g * weight, acc.2.2 + b * weight)) (0, 0, 0)

/-- The lambda `VERTICAL_BLUR(start, end)`: the outer loop runs over columns. -/
def VERTICAL_BLUR (weights : List K) (inp : List Nat) (w h : Nat) (radius : Nat)
    (start stop : Nat) (out : List Nat) : List Nat :=
  forLoop start stop (fun x out =>
    forLoop 0 h (fun y out =>
      let s : K × K × K := verticalSums weights inp w h radius x y
      let idx := (y * w + x) * 4
      writePixel out idx (toByte (s.1 * 255)) (toByte (s.2.1 * 255)) (toByte (s.2.2 * 255)) 255)
      out) out

/-- `CPU_SketchEffect::Vertical`: the fan-out is over the columns `[0, resolution.x)`;
the parameters `startRow` and `endRow` are not used by the body. -/
def Vertical (expF sqrtF : K → K) (piK : K) (inp : List Nat) (w h : Nat) (radius : Nat)
    (sigma : K) (_startRow _endRow workers : Nat) : List Nat :=
  runFanOut workers 0 w
    (VERTICAL_BLUR (gaussWeights expF sqrtF piK radius sigma) inp w h radius)
    (List.replicate (w * h * 4) 0)

/-- The value `hatchBackground` of `HATCHING` for flattened pixel index `i`. -/
def hatchBackground (sinF : K → K) (inp : List Nat) (w h : Nat) (a b c threshold : K)
    (invertBackground : Bool) (i : Nat) : K :=
  let y := i / w
  let x := i % w
  let index := (y * w + x) * 4
  let u : K := (x : K) / (w : K)
  let v : K := (y : K) / (h : K)
  let gray : K := GrayNuance inp index
  let hatchLine := sinF (a * u + b * v)
  if !invertBackground then
    (if gray > threshold then 1 else (if hatchLine > c then 1 else 0))
  else
    (if gray < threshold then 1 else (if hatchLine > c then 0 else 1))

/-- The lambda `HATCHING(start, end)` over flattened pixel indices. -/
def HATCHING (sinF : K → K) (inp : List Nat) (w h : Nat) (a b c threshold : K)
    (invertBackground : Bool) (start stop : Nat) (out : List Nat) : List Nat :=
  forLoop start stop (fun i out =>
    let y := i / w
    let x := i % w
    let index := (y * w + x) * 4
    let value := toByte (hatchBackground sinF inp w h a b c threshold invertBackground i * 255)
    writePixel out index value value value 255) out

/-- `CPU_SketchEffect::Hatching` with `hatchParams = (a, b, c)`.  The output vector is
value-initialised (all zero) by `vector<unsigned char> out(n)`. -/
def Hatching (sinF : K → K) (inp : List Nat) (w h : Nat) (a b c threshold : K)
    (invertBackground : Bool) (workers : Nat) : List Nat :=
  runFanOut workers 0 (w * h) (HATCHING sinF inp w h a b c threshold invertBackground)
    (List.replicate (w * h * 4) 0)

/-- The inner loop of `COMBINE_IMAGES`: `(finalR, finalG, finalB)` at byte offset `i`. -/
def combineMins (ins : List (List Nat)) (i : Nat) : K × K × K :=
  forLoop 0 ins.length (fun t acc =>
    let r : K := ((ins.getD t []).getD i 0 : K) / 255
    let g : K := ((ins.getD t []).getD (i + 1) 0 : K) / 255
    let b : K := ((ins.getD t []).getD (i + 2) 0 : K) / 255
    (cmin acc.1 r, cmin acc.2.1 g, cmin acc.2.2 b)) (1, 1, 1)

/-- The lambda `COMBINE_IMAGES(start, end)`: `for (i = start * 4; i < end * 4; i += 4)`. -/
def COMBINE_IMAGES (K : Type) [LinearOrderedField K] [FloorRing K] (ins : List (List Nat))
    (start stop : Nat) (combined : List Nat) : List Nat :=
  (List.range' (start * 4) (stop - start) 4).foldl (fun combined i =>
    let s : K × K × K := combineMins ins i
    writePixel combined i (toByte (s.1 * 255)) (toByte (s.2.1 * 255)) (toByte (s.2.2 * 255)) 255)
    combined

/-- `CPU_SketchEffect::Combine`: the buffer uploaded to the output texture. -/
def Combine (K : Type) [LinearOrderedField K] [FloorRing K] (ins : List (List Nat))
    (w h workers : Nat) : List Nat :=
  runFanOut workers 0 (w * h) (COMBINE_IMAGES K ins) (List.replicate (w * h * 4) 0)

end Kernels

/-! ## Frame description of buffer transformers -/

/-- `Fills T S f`: the transformer `T` keeps the length of the buffer, stores `f k` at every
byte index `k ∈ S` that lies inside the buffer and leaves every other byte unchanged. -/
def Fills (T : List Nat → List Nat) (S : Set Nat) (f : Nat → Nat) : Prop :=
  ∀ out : List Nat, (T out).length = out.length ∧
    ∀ k, k < out.length →
      (k ∈ S → (T out).getD k 0 = f k) ∧ (k ∉ S → (T out).getD k 0 = out.getD k 0)

/-- The byte of channel `c` (0 = R, 1 = G, 2 = B, otherwise A) of the pixel `(r, g, b, a)`. -/
def pixelByte (r g b a : Nat) (c : Nat) : Nat :=
  if c = 0 then r else if c = 1 then g else if c = 2 then b else a

/-! ## Reference formulas (the specification's wording) -/

section Reference

variable {K : Type} [LinearOrderedField K] [FloorRing K]

/-- Specification: the luminance of the neighbour of `(x, y)` at column offset `i` and row
offset `j`, both coordinates clamped to the image. -/
def neighbourLuminance (inp : List Nat) (w h x y : Nat) (i j : Int) : K :=
  GrayNuance inp
    ((clamp ((y : Int) + j) 0 ((h : Int) - 1) * (w : Int)
      + clamp ((x : Int) + i) 0 ((w : Int) - 1)) * 4).toNat

/-- Specification: the sum over the 3×3 neighbourhood of the neighbour's luminance times the
kernel entry `G[row offset + 1][column offset + 1]`. -/
def sobelSum (G : List (List Int)) (inp : List Nat) (w h x y : Nat) : K :=
  Finset.sum (Finset.Icc (-1 : Int) 1) (fun j =>
    Finset.sum (Finset.Icc (-1 : Int) 1) (fun i =>
      neighbourLuminance inp w h x y i j * (kernelAt G (j + 1) (i + 1) : K)))

end Reference

/-- The RGBA pixel `(x, y)` of a buffer of width `w`: the bytes at `(y*w + x)*4 + c`. -/
def pixelAt (buf : List Nat) (w x y : Nat) : Nat × Nat × Nat × Nat :=
  (buf.getD ((y * w + x) * 4 + 0) 0, buf.getD ((y * w + x) * 4 + 1) 0,
    buf.getD ((y * w + x) * 4 + 2) 0, buf.getD ((y * w + x) * 4 + 3) 0)

/-- The least byte at index `k` over the buffers `ins`, capped at `255`. -/
def minByte (ins : List (List Nat)) (k : Nat) : Nat :=
  ins.foldl (fun m buf => min m (buf.getD k 0)) 255

section ReferenceBlur

variable {K : Type} [LinearOrderedField K]

/-- Specification: the normalized Gaussian weight `w_i`, the weight of offset `i` divided by
the sum of the weights of all offsets in `[-radius, radius]`. -/
def normWeight (expF sqrtF : K → K) (piK : K) (radius : Nat) (sigma : K) (i : Int) : K :=
  Weight expF sqrtF piK i sigma
    / Finset.sum (Finset.Icc (-(radius : Int)) radius) (fun j => Weight expF sqrtF piK j sigma)

/-- Specification: the weighted sum over the horizontal window of channel `ch` at `(x, y)`,
sampling row `y` at the clamped columns `clamp(x + i, 0, w - 1)`. -/
def blurSumH (wt : Int → K) (inp : List Nat) (w radius x y ch : Nat) : K :=
  Finset.sum (Finset.Icc (-(radius : Int)) radius) (fun i =>
    wt i * (inp.getD ((((y : Int) * (w : Int)
      + clamp ((x : Int) + i) 0 ((w : Int) - 1)) * 4).toNat + ch) 0 : K))

/-- Specification: the weighted sum over the vertical window of channel `ch` at `(x, y)`,
sampling column `x` at the clamped rows `clamp(y + i, 0, h - 1)`. -/
def blurSumV (wt : Int → K) (inp : List Nat) (w h radius x y ch : Nat) : K :=
  Finset.sum (Finset.Icc (-(radius : Int)) radius) (fun i =>
    wt i * (inp.getD (((clamp ((y : Int) + i) 0 ((h : Int) - 1) * (w : Int)
      + (x : Int)) * 4).toNat + ch) 0 : K))

end ReferenceBlur

/-! ## Worker pool (`ThreadPool.h`, `ThreadPool.cpp`)

The pool is a transition system.  Every mutex-protected block of `Schedule_Workers`, `Add_Task`
and the destructor is one atomic step; the call `task.func()` (made outside the lock) is one
step acting on the memory `mem` shared by the tasks.  The fields `submitted` and `finished` are
history variables that record the tasks handed to `Add_Task` and the tasks a worker is done
with; the code does not read them.  The counter `P` is a `size_t`, modelled modulo `2^64`. -/

/-- `enum class TaskState`. -/
inductive TaskState where
  | Pending
  | Running
  | Completed
  deriving DecidableEq

/-- `struct Task`: the function acts on the shared memory `σ`. -/
structure Task (σ : Type) where
  func : σ → σ
  state : TaskState
  name : String

/-- The constructor `Task(f, n)`: the initial state is `Pending`. -/
def Task.new {σ : Type} (f : σ → σ) (n : String) : Task σ := ⟨f, TaskState.Pending, n⟩

/-- The set `set_tasks_names` of `Schedule_Workers`. -/
def set_tasks_names : List String :=
  ["COMBINE_IMAGES", "SOBEL_BINARY_EDGE", "HATCHING", "HORIZONTAL_BLUR", "VERTICAL_BLUR"]

/-- The test `!task.name.empty() && set_tasks_names.find(task.name) == set_tasks_names.end()`. -/
def rejected {σ : Type} (t : Task σ) : Bool :=
  t.name != "" && !(set_tasks_names.contains t.name)

/-- Where a worker thread stands in `Schedule_Workers`. -/
inductive Worker (σ : Type) where
  /-- At the top of the loop, before or inside `notify.wait`. -/
  | waiting
  /-- Past the first critical section, holding the dequeued task. -/
  | fetched (task : Task σ)
  /-- Returned from `task.func()`, before the final critical section. -/
  | executed (task : Task σ)
  /-- Returned from `Schedule_Workers`. -/
  | exited

/-- The state of a `ThreadPool` together with the memory its tasks act on. -/
structure Pool (σ : Type) where
  workers : List (Worker σ)
  stop : Bool
  P : Nat
  tasks : List (Task σ)
  mem : σ
  submitted : List (Task σ)
  finished : List (Task σ)

/-- The constructor `ThreadPool(P)`: `n` workers at the top of their loop. -/
def Pool.init {σ : Type} (n : Nat) (m : σ) : Pool σ :=
  { workers := List.replicate n Worker.waiting, stop := false, P := 0, tasks := [], mem := m,
    submitted := [], finished := [] }

/-- `ThreadPool::Add_Task`: enqueue the task in state `Pending`. -/
def Add_Task {σ : Type} (task : σ → σ) (name : String) (s : Pool σ) : Pool σ :=
  { s with tasks := s.tasks ++ [Task.new task name],
           submitted := s.submitted ++ [Task.new task name] }

/-- The predicate `tasks.empty() && P == 0` that `Free_Resource` waits for. -/
def Free_Resource_guard {σ : Type} (s : Pool σ) : Bool := s.tasks.isEmpty && s.P == 0

/-- The statement `++P` on a `size_t`. -/
def incrP (p : Nat) : Nat := (p + 1) % 2 ^ 64

/-- The statement `--P` on a `size_t`. -/
def decrP (p : Nat) : Nat := (p + (2 ^ 64 - 1)) % 2 ^ 64

/-- One step of worker `i` in `Schedule_Workers`; `none` when the worker is blocked in
`notify.wait`, has exited or does not exist. -/
def Schedule_Workers {σ : Type} (i : Nat) (s : Pool σ) : Option (Pool σ) :=
  match s.workers[i]? with
  | none => none
  | some Worker.exited => none
  | some Worker.waiting =>
    if s.stop || !s.tasks.isEmpty then
      if s.stop && s.tasks.isEmpty then
        some { s with workers := s.workers.set i Worker.exited }
      else
        match s.tasks with
        | [] => none
        | t :: rest =>
          some { s with tasks := rest, P := incrP s.P,
                        workers := s.workers.set i
                          (Worker.fetched { t with state := TaskState.Running }) }
    else none
  | some (Worker.fetched t) =>
    if rejected t then
      some { s with P := decrP s.P, workers := s.workers.set i Worker.waiting,
                    finished := s.finished ++ [t] }
    else
      some { s with mem := t.func s.mem, workers := s.workers.set i (Worker.executed t) }
  | some (Worker.executed t) =>
    some { s with P := decrP s.P, workers := s.workers.set i Worker.waiting,
                  finished := s.finished ++ [{ t with state := TaskState.Completed }] }

/-- The destructor `~ThreadPool` up to `notify_all`: set the stop flag. -/
def shutdown {σ : Type} (s : Pool σ) : Pool σ := { s with stop := true }

/-- The events of the transition system. -/
inductive Action (σ : Type) where
  | submit (task : σ → σ) (name : String)
  | work (i : Nat)
  | shutdown

/-- One transition. -/
def step {σ : Type} (a : Action σ) (s : Pool σ) : Option (Pool σ) :=
  match a with
  | Action.submit task name => some (Add_Task task name s)
  | Action.work i => Schedule_Workers i s
  | Action.shutdown => some (shutdown s)

/-- Run a sequence of events; `none` if one of them is not enabled. -/
def run {σ : Type} : List (Action σ) → Pool σ → Option (Pool σ)
  | [], s => some s
  | a :: rest, s => (step a s).bind (run rest)

/-- The task a worker holds between its dequeue and its final decrement of `P`. -/
def Worker.held {σ : Type} : Worker σ → Option (Task σ)
  | Worker.fetched t => some t
  | Worker.executed t => some t
  | _ => none

/-- The task of a worker that has returned from `task.func()`. -/
def Worker.ran {σ : Type} : Worker σ → Option (Task σ)
  | Worker.executed t => some t
  | _ => none

/-- A task with its state forgotten: what `Add_Task` was given. -/
def Task.key {σ : Type} (t : Task σ) : Task σ := Task.new t.func t.name

/-- The tasks currently held by the workers. -/
def heldTasks {σ : Type} (ws : List (Worker σ)) : List (Task σ) := ws.filterMap Worker.held

/-- The tasks whose function has returned but whose worker has not yet decremented `P`. -/
def ranTasks {σ : Type} (ws : List (Worker σ)) : List (Task σ) := ws.filterMap Worker.ran

/-- The invariant of a pool of `n` workers: the counter `P` is the number of held tasks, and
the queued, held and finished tasks are, up to order and state, the submitted ones. -/
def PoolInv {σ : Type} (n : Nat) (s : Pool σ) : Prop :=
  s.workers.length = n ∧ s.P = (heldTasks s.workers).length ∧
    List.Perm ((s.tasks ++ heldTasks s.workers ++ s.finished).map Task.key)
      (s.submitted.map Task.key)

/-- The memory invariant for a pool whose submitted tasks all run the function `f` under
accepted names: the memory is `f` applied once for every task that has been run. -/
def CounterInv {σ : Type} (f : σ → σ) (m₀ : σ) (s : Pool σ) : Prop :=
  (∀ t ∈ s.submitted, rejected t = false ∧ t.func = f) →
    s.mem = f^[(ranTasks s.workers).length + s.finished.length] m₀

/-- The number of steps a worker still needs before it is back at the top of its loop. -/
def Worker.weight {σ : Type} : Worker σ → Nat
  | Worker.fetched _ => 2
  | Worker.executed _ => 1
  | _ => 0

/-- An upper bound on the number of worker steps needed to drain the pool: three per queued
task (dequeue, run, finish) plus the steps of the tasks already held. -/
def Pool.measure {σ : Type} (s : Pool σ) : Nat :=
  3 * s.tasks.length + (s.workers.map Worker.weight).sum

/-- The five CPU kernels of `CPU_SketchEffect` that hand tasks to the pool. -/
inductive Kernel where
  | EdgeBinarize
  | Horizontal
  | Vertical
  | Hatching
  | Combine
  deriving DecidableEq

/-- The string literal each kernel passes to `pool.Add_Task` in its fan-out loop. -/
def Kernel.taskName : Kernel → String
  | Kernel.EdgeBinarize => "SOBEL_BINARY_EDGE"
  | Kernel.Horizontal => "HORIZONTAL_BLUR"
  | Kernel.Vertical => "VERTICAL_BLUR"
  | Kernel.Hatching => "HATCHING"
  | Kernel.Combine => "COMBINE_IMAGES"

/-- The fan-out loop of a kernel seen from the pool: one `Add_Task` per slice, all under the
name of the kernel. -/
def kernelSubmit {σ : Type} (k : Kernel) (slices : List (σ → σ)) : List (Action σ) :=
  slices.map (fun f => Action.submit f k.taskName)

/-! ## Pipeline orchestrator (`SketchEffect::Update`, CPU branch) -/

section Pipeline

variable {K : Type} [LinearOrderedField K] [FloorRing K]

/-- The pixel contents of the named stage buffers: what `glReadPixels` returns from the
framebuffer registered under a name, which is what `glTexImage2D` last uploaded to the texture
attached to it. -/
def Store : Type := String → List Nat

/-- Upload `buf` to the buffer named `name`. -/
def Store.write (st : Store) (name : String) (buf : List Nat) : Store :=
  fun n => if n = name then buf else st n

/-- The `libm` functions used by the kernels. -/
structure Libm (K : Type) where
  exp : K → K
  sqrt : K → K
  sin : K → K
  pi : K

/-- `radiusSize = 12` of the constructor `SketchEffect::SketchEffect`. -/
def radiusSize : Nat := 12

/-- `sigmaSize = float(radiusSize) / 2.0f`. -/
def sigmaSize : K := (radiusSize : K) / 2

/-- `thresholdSobel = 0.3`. -/
def thresholdSobel : K := 3 / 10

/-- `thresholdHatch1 = 0.10`. -/
def thresholdHatch1 : K := 10 / 100

/-- `thresholdHatch2 = 0.25`. -/
def thresholdHatch2 : K := 25 / 100

/-- `thresholdHatch3 = 0.30`. -/
def thresholdHatch3 : K := 30 / 100

/-- `cpuSketchEffect.RenderOriginal("originalCPU", "originalCPU", …)`: the host draws the
loaded image into the framebuffer `originalCPU`; `original` is the image the draw call leaves
there. -/
def cpuRenderOriginal (original : List Nat) (st : Store) : Store :=
  st.write "originalCPU" original

/-- `cpuSketchEffect.Horizontal(input, output, resolution, radius, sigma, startRow, endRow)`. -/
def cpuHorizontal (m : Libm K) (input output : String) (w h radius : Nat) (sigma : K)
    (startRow endRow W : Nat) (st : Store) : Store :=
  st.write output (Horizontal m.exp m.sqrt m.pi (st input) w h radius sigma startRow endRow W)

/-- `cpuSketchEffect.Vertical(input, output, resolution, radius, sigma, startRow, endRow)`. -/
def cpuVertical (m : Libm K) (input output : String) (w h radius : Nat) (sigma : K)
    (startRow endRow W : Nat) (st : Store) : Store :=
  st.write output (Vertical m.exp m.sqrt m.pi (st input) w h radius sigma startRow endRow W)

/-- `cpuSketchEffect.EdgeBinarize(input, output, resolution, threshold, startRow, endRow)`. -/
def cpuEdgeBinarize (m : Libm K) (input output : String) (w h : Nat) (threshold : K)
    (startRow endRow W : Nat) (st : Store) : Store :=
  st.write output (EdgeBinarize m.sqrt (st input) w h threshold startRow endRow W)

/-- `cpuSketchEffect.Hatching(input, output, resolution, vec3(a, b, c), threshold, invert)`. -/
def cpuHatching (m : Libm K) (input output : String) (w h : Nat) (a b c threshold : K)
    (invertBackground : Bool) (W : Nat) (st : Store) : Store :=
  st.write output (Hatching m.sin (st input) w h a b c threshold invertBackground W)

/-- `cpuSketchEffect.Combine(inputs, output, resolution)`. -/
def cpuCombine (K : Type) [LinearOrderedField K] [FloorRing K] (inputs : List String)
    (output : String) (w h W : Nat) (st : Store) : Store :=
  st.write output (Combine K (inputs.map st) w h W)

/-- The CPU branch of `SketchEffect::Update` executed when `onlyExecuteOnce` is set, for the
resolution `w × h` and a pool of `W` workers. -/
def cpuPipeline (m : Libm K) (original : List Nat) (w h W : Nat) (st : Store) : Store :=
  -- Zero Pass: Backup original image
  let st := cpuRenderOriginal original st
  -- First Pass: Horizontal Blur
  let st := cpuHorizontal m "originalCPU" "horizontalCPU" w h radiusSize sigmaSize 0 h W st
  -- Second Pass: Vertical Blur
  let st := cpuVertical m "horizontalCPU" "verticalCPU" w h radiusSize sigmaSize 0 h W st
  -- Third Pass: Sobel
  let st := cpuEdgeBinarize m "originalCPU" "gaussianCPU" w h thresholdSobel 0 h W st
  -- Fourth Pass: Hatching 1
  let st := cpuHatching m "verticalCPU" "hatch1CPU" w h 400 0 (99 / 100) thresholdHatch1
    false W st
  -- Fifth Pass: Hatching 2
  let st := cpuHatching m "verticalCPU" "hatch2CPU" w h 200 200 (95 / 100) thresholdHatch2
    true W st
  -- Sixth Pass: Hatching 3
  let st := cpuHatching m "verticalCPU" "hatch3CPU" w h 250 (-250) (90 / 100) thresholdHatch3
    true W st
  -- Seventh Pass: Combine Hatches
  let st := cpuCombine K ["hatch1CPU", "hatch2CPU", "hatch3CPU"] "combinedHatchCPU" w h W st
  -- Eight Pass: Sobel + Combined Hatches
  cpuCombine K ["gaussianCPU", "combinedHatchCPU"] "finalCPU" w h W st

end Pipeline

/-! ## Predicates on buffers -/

/-- Every pixel of the `w × h` image held in `buf` is `(0,0,0,255)` or `(255,255,255,255)`. -/
def BlackWhite (buf : List Nat) (w h : Nat) : Prop :=
  ∀ x y, x < w → y < h →
    pixelAt buf w x y = (0, 0, 0, 255) ∨ pixelAt buf w x y = (255, 255, 255, 255)

/-- The byte of channel `ch` that `HORIZONTAL_BLUR` samples for offset `i` at pixel `(x, y)`:
`in[(y * w + clamp(x + i, 0, w - 1)) * 4 + ch]`. -/
def sampleH (inp : List Nat) (w x y ch : Nat) (i : Int) : Nat :=
  inp.getD ((((y : Int) * (w : Int) + clamp ((x : Int) + i) 0 ((w : Int) - 1)) * 4).toNat + ch) 0

/-- The byte of channel `ch` that `VERTICAL_BLUR` samples for offset `i` at pixel `(x, y)`:
`in[(clamp(y + i, 0, h - 1) * w + x) * 4 + ch]`. -/
def sampleV (inp : List Nat) (w h x y ch : Nat) (i : Int) : Nat :=
  inp.getD (((clamp ((y : Int) + i) 0 ((h : Int) - 1) * (w : Int) + (x : Int)) * 4).toNat + ch) 0

/-! ## Display and save selection (`SketchEffect::Update`, `SketchEffect::SaveImage`) -/

/-- The texture name bound for display by the `switch (outputMode)` of `SketchEffect::Update`;
the `default` branch binds the original image. -/
def Update_display (gpuProcessing : Bool) (outputMode : Int) : String :=
  if !gpuProcessing then
    if outputMode = 0 then "originalCPU"
    else if outputMode = 1 then "gaussianCPU"
    else if outputMode = 2 then "horizontalCPU"
    else if outputMode = 3 then "verticalCPU"
    else if outputMode = 4 then "hatch1CPU"
    else if outputMode = 5 then "hatch2CPU"
    else if outputMode = 6 then "hatch3CPU"
    else if outputMode = 7 then "combinedHatchCPU"
    else if outputMode = 8 then "finalCPU"
    else "originalCPU"
  else
    if outputMode = 0 then "originalGPU"
    else if outputMode = 1 then "gaussianGPU"
    else if outputMode = 2 then "horizontalGPU"
    else if outputMode = 3 then "verticalGPU"
    else if outputMode = 4 then "hatch1GPU"
    else if outputMode = 5 then "hatch2GPU"
    else if outputMode = 6 then "hatch3GPU"
    else if outputMode = 7 then "combinedHatchGPU"
    else if outputMode = 8 then "finalGPU"
    else "originalGPU"

/-- The name `outMode` chosen by the `switch (outputMode)` of `SketchEffect::SaveImage`;
`none` on the `default` branch, which logs `Invalid outputMode` and returns. -/
def SaveImage_outMode (gpuProcessing : Bool) (outputMode : Int) : Option String :=
  if !gpuProcessing then
    if outputMode = 0 then some "originalCPU"
    else if outputMode = 1 then some "horizontalCPU"
    else if outputMode = 2 then some "verticalCPU"
    else if outputMode = 3 then some "gaussianCPU"
    else if outputMode = 4 then some "hatch1CPU"
    else if outputMode = 5 then some "hatch2CPU"
    else if outputMode = 6 then some "hatch3CPU"
    else if outputMode = 7 then some "combinedHatchCPU"
    else if outputMode = 8 then some "finalCPU"
    else none
  else
    if outputMode = 0 then some "originalGPU"
    else if outputMode = 1 then some "horizontalGPU"
    else if outputMode = 2 then some "verticalGPU"
    else if outputMode = 3 then some "gaussianGPU"
    else if outputMode = 4 then some "hatch1GPU"
    else if outputMode = 5 then some "hatch2GPU"
    else if outputMode = 6 then some "hatch3GPU"
    else if outputMode = 7 then some "combinedHatchGPU"
    else if outputMode = 8 then some "finalGPU"
    else none

/-! ## Named resources of the CPU kernels (`unordered_map<string, GLuint>`) -/

/-- The maps `framebuffers` and `textures`: names with the handle registered under each. -/
abbrev NameMap : Type := List (String × Nat)

/-- The test `m.find(name)`: the handle registered under `name`, `none` for `m.end()`. -/
def NameMap.find (m : NameMap) (name : String) : Option Nat := List.lookup name m

/-- The expression `m[name]` of `std::unordered_map`: the handle registered under `name`, and
the map afterwards; a name that is not a key is inserted with the value-initialised handle 0. -/
def NameMap.index (m : NameMap) (name : String) : Nat × NameMap :=
  match m.find name with
  | some handle => (handle, m)
  | none => (0, m ++ [(name, 0)])

/-- What a CPU kernel sees of the host: the two name maps, the pixels `glReadPixels` returns
from each framebuffer handle, and the `glTexImage2D` calls made so far (bound texture handle
and uploaded buffer). -/
structure Resources where
  framebuffers : NameMap
  textures : NameMap
  pixels : Nat → List Nat
  uploads : List (Nat × List Nat)

/-- The prologue of a CPU kernel: `glBindFramebuffer(GL_FRAMEBUFFER, framebuffers[name])`
followed by `glReadPixels`. -/
def readFramebuffer (name : String) (r : Resources) : List Nat × Resources :=
  let fb := r.framebuffers.index name
  (r.pixels fb.1, { r with framebuffers := fb.2 })

/-- The epilogue of a CPU kernel: `glBindFramebuffer(GL_FRAMEBUFFER, framebuffers[name])`,
`glBindTexture(GL_TEXTURE_2D, textures[name])` and `glTexImage2D` of the computed buffer. -/
def uploadTexture (name : String) (out : List Nat) (r : Resources) : Resources :=
  let fb := r.framebuffers.index name
  let tex := r.textures.index name
  { r with framebuffers := fb.2, textures := tex.2, uploads := r.uploads ++ [(tex.1, out)] }

/-- `CPU_SketchEffect::EdgeBinarize(inputTextureName, outputTextureName, …)` with its name
lookups. -/
def Resources.EdgeBinarize {K : Type} [LinearOrderedField K] (sqrtF : K → K)
    (inputTextureName outputTextureName : String) (w h : Nat) (threshold : K)
    (startRow endRow workers : Nat) (r : Resources) : Resources :=
  let rd := readFramebuffer inputTextureName r
  uploadTexture outputTextureName
    (SketchEffect.EdgeBinarize sqrtF rd.1 w h threshold startRow endRow workers) rd.2

/-- The read loop of `CPU_SketchEffect::Combine` over `inputTextureNames`. -/
def readFramebuffers (names : List String) (r : Resources) : List (List Nat) × Resources :=
  names.foldl (fun acc name =>
    let rd := readFramebuffer name acc.2
    (acc.1 ++ [rd.1], rd.2)) ([], r)

/-- `CPU_SketchEffect::Combine(inputTextureNames, outputTextureName, resolution)` with its name
lookups. -/
def Resources.Combine (K : Type) [LinearOrderedField K] [FloorRing K]
    (inputTextureNames : List String) (outputTextureName : String) (w h workers : Nat)
    (r : Resources) : Resources :=
  let rd := readFramebuffers inputTextureNames r
  uploadTexture outputTextureName (SketchEffect.Combine K rd.1 w h workers) rd.2

/-! ## IEEE 754 binary32 arithmetic (`float`)

The kernels compute in `float`.  A finite `float` is a sign and a magnitude counted in units of
`2^-149`, the least positive subnormal, so every finite value is a whole number of units.  An
operation forms its exact result as a ratio of naturals and rounds it to the nearest
representable magnitude, ties to even; a rounded magnitude above the largest finite one
becomes an infinity.  Evaluation is strict binary32: every operation is rounded on its own, with
no extended precision and no fused multiply-add. -/

/-- A value of type `float`: `fin neg k` is `(-1)^neg * k * 2^-149`. -/
inductive F32 where
  | fin (neg : Bool) (k : Nat)
  | inf (neg : Bool)
  | nan
  deriving DecidableEq

namespace F32

/-- The number of low bits dropped when a magnitude with integer part `q` is rounded to 24
significant bits: the greatest `s` below `1024` with `2^23 ≤ q / 2^s`, and `0` if there is
none. -/
def shiftOf (q : Nat) : Nat :=
  [512, 256, 128, 64, 32, 16, 8, 4, 2, 1].foldl
    (fun s j => if 2 ^ 23 ≤ q >>> (s + j) then s + j else s) 0

/-- The largest finite magnitude, `(2^24 - 1) * 2^104` in units of `2^-149`. -/
def maxMag : Nat := (2 ^ 24 - 1) * 2 ^ 253

/-- Round the magnitude `num / den` (in units of `2^-149`, `den > 0`) to the nearest magnitude
with at most 24 significant bits, ties to even, with no bound on the exponent. -/
def roundRaw (num den : Nat) : Nat :=
  let s := shiftOf (num / den)
  let d := den <<< s
  let m := num / d
  let r := num % d
  (if 2 * r < d then m else if 2 * r = d then (if m % 2 = 0 then m else m + 1) else m + 1) <<< s

/-- Round the magnitude `num / den` to the nearest representable magnitude, ties to even;
`none` when the rounded magnitude exceeds the largest finite one. -/
def roundMag (num den : Nat) : Option Nat :=
  if roundRaw num den ≤ maxMag then some (roundRaw num den) else none

/-- A magnitude with at most 24 significant bits. -/
def Rep (k : Nat) : Prop := ∃ m t, m < 2 ^ 24 ∧ k = m * 2 ^ t

/-- The `float` of sign `neg` nearest to the magnitude `num / den`. -/
def ofMag (neg : Bool) (num den : Nat) : F32 :=
  match roundMag num den with
  | some k => fin neg k
  | none => inf neg

/-- The constant `0.0f`. -/
def zero : F32 := fin false 0

/-- The constant `1.0f`. -/
def one : F32 := fin false (2 ^ 149)

/-- The conversion of an `int` to `float`. -/
def ofInt (n : Int) : F32 := ofMag (decide (n < 0)) (n.natAbs * 2 ^ 149) 1

/-- The `float` literal nearest to the decimal `num / den`. -/
def lit (num den : Nat) : F32 := ofMag false (num * 2 ^ 149) den

/-- The constant `glm::pi<float>()`. -/
def pi : F32 := lit 314159265358979323846264338327950288 100000000000000000000000000000000000

/-- Unary minus. -/
def neg : F32 → F32
  | fin s k => fin (!s) k
  | inf s => inf (!s)
  | nan => nan

/-- The operation `a + b`. -/
def add : F32 → F32 → F32
  | nan, _ => nan
  | _, nan => nan
  | inf s, inf t => if s = t then inf s else nan
  | inf s, fin _ _ => inf s
  | fin _ _, inf t => inf t
  | fin s a, fin t b =>
    if s = t then ofMag s (a + b) 1
    else if a = b then fin false 0
    else if b < a then ofMag s (a - b) 1 else ofMag t (b - a) 1

/-- The operation `a * b`. -/
def mul : F32 → F32 → F32
  | nan, _ => nan
  | _, nan => nan
  | inf s, inf t => inf (xor s t)
  | inf s, fin t b => if b = 0 then nan else inf (xor s t)
  | fin s a, inf t => if a = 0 then nan else inf (xor s t)
  | fin s a, fin t b => ofMag (xor s t) (a * b) (2 ^ 149)

/-- The operation `a / b`. -/
def div : F32 → F32 → F32
  | nan, _ => nan
  | _, nan => nan
  | inf _, inf _ => nan
  | inf s, fin t _ => inf (xor s t)
  | fin s _, inf t => fin (xor s t) 0
  | fin s a, fin t b =>
    if b = 0 then (if a = 0 then nan else inf (xor s t))
    else ofMag (xor s t) (a * 2 ^ 149) b

/-- Newton iteration for the integer square root, started from a guess above the root. -/
def sqrtIter : Nat → Nat → Nat → Nat
  | 0, _, guess => guess
  | fuel + 1, n, guess =>
    let next := (guess + n / guess) / 2
    if next < guess then sqrtIter fuel n next else guess

/-- The integer square root `⌊√n⌋` (for `n < 2^1046`). -/
def isqrt (n : Nat) : Nat :=
  let guess := 1 <<< ((shiftOf n + 25) / 2)
  sqrtIter guess n guess

/-- The function `sqrt` on `float`, correctly rounded: the root of `k` units is computed with
64 extra bits and a sticky bit. -/
def sqrt : F32 → F32
  | nan => nan
  | inf s => if s then nan else inf false
  | fin s k =>
    if k = 0 then fin s 0
    else if s then nan
    else
      let n := k * 2 ^ 149 * 2 ^ 128
      let r := isqrt n
      if r * r = n then ofMag false r (2 ^ 64) else ofMag false (2 * r + 1) (2 ^ 65)

/-- The position of a value on the number line, in units of `2^-149`, with the infinities
beyond every finite value; `none` for NaN. -/
def key : F32 → Option Int
  | fin s k => some (if s then -(k : Int) else (k : Int))
  | inf s => some (if s then -((maxMag : Int) + 1) else (maxMag : Int) + 1)
  | nan => none

/-- The comparison `a < b`; false when either side is NaN. -/
def lt (a b : F32) : Bool :=
  match key a, key b with
  | some x, some y => decide (x < y)
  | _, _ => false

/-- The comparison `a <= b`; false when either side is NaN. -/
def le (a b : F32) : Bool :=
  match key a, key b with
  | some x, some y => decide (x ≤ y)
  | _, _ => false

instance : Add F32 := ⟨add⟩

instance : Mul F32 := ⟨mul⟩

instance : Div F32 := ⟨div⟩

instance : Neg F32 := ⟨neg⟩

instance : LT F32 := ⟨fun a b => lt a b = true⟩

instance : LE F32 := ⟨fun a b => le a b = true⟩

instance (a b : F32) : Decidable (a < b) := inferInstanceAs (Decidable (lt a b = true))

instance (a b : F32) : Decidable (a ≤ b) := inferInstanceAs (Decidable (le a b = true))

/-- The conversion `static_cast<unsigned char>(v)`: truncation toward zero.  For a value
outside `(-1, 256)` the conversion is undefined in C++; the value given is that of the x86-64
conversion to `int` followed by the low byte (`0` for NaN, the infinities and magnitudes from
`2^31`). -/
def toByte : F32 → Nat
  | fin s k =>
    let t := k / 2 ^ 149
    if t < 2 ^ 31 then (if s then (256 - t % 256) % 256 else t % 256) else 0
  | inf _ => 0
  | nan => 0

/-- A finite binary32 value: the magnitude has at most 24 significant bits and does not exceed
the largest finite magnitude. -/
def Finite (f : F32) : Prop := ∃ s k, f = fin s k ∧ Rep k ∧ k ≤ maxMag

/-- A finite binary32 value with the sign bit clear: `+0.0f` or a positive finite value. -/
def NonNeg (f : F32) : Prop := ∃ k, f = fin false k ∧ Rep k ∧ k ≤ maxMag

/-- The value is NaN or has its sign bit clear: it is neither negative nor `-0.0f`. -/
def SignClear (f : F32) : Prop := f = nan ∨ f = inf false ∨ ∃ k, f = fin false k

/-- The value is NaN, `+inf`, or a finite `float` with the sign bit clear. -/
def NonNegOrNaN (f : F32) : Prop := f = nan ∨ f = inf false ∨ ∃ k, f = fin false k ∧ k ≤ maxMag

/-- The value is NaN, `+inf`, or a positive finite `float`. -/
def PosOrNaN (f : F32) : Prop :=
  f = nan ∨ f = inf false ∨ ∃ k, f = fin false k ∧ 0 < k ∧ k ≤ maxMag

/-- The rational value of a finite `float`, and `0` for the infinities and NaN. -/
def toRat : F32 → ℚ
  | fin s k => (if s then -(k : ℚ) else (k : ℚ)) / 2 ^ 149
  | inf _ => 0
  | nan => 0

/-- The value of a finite `float` in units of `2^-149`, and `0` for the infinities and NaN. -/
def toInt : F32 → Int
  | fin s k => if s then -(k : Int) else (k : Int)
  | inf _ => 0
  | nan => 0

/-- The value is finite. -/
def isFinite : F32 → Bool
  | fin _ _ => true
  | _ => false

/-- The value is `+0.0f` or `-0.0f`. -/
def isZero : F32 → Bool
  | fin _ k => k == 0
  | _ => false

end F32

/-- The `libm` functions `exp` and `sin` on `float`, whose values the sources do not
determine. -/
structure Libm32 where
  exp : F32 → F32
  sin : F32 → F32

/-- A `libm` that is fixed only where Annex F of the C standard fixes it, `exp(±0) = 1` and
`sin(±0) = ±0`, and yields NaN for every other argument. -/
def Libm32.annexF : Libm32 :=
  { exp := fun x => if x.isZero then F32.one else F32.nan
    sin := fun x => if x.isZero then x else F32.nan }

namespace Binary32

/-- `GrayNuance(in, index)` in binary32. -/
def GrayNuance (inp : List Nat) (index : Nat) : F32 :=
  let r := F32.ofInt (inp.getD (index + 0) 0) / F32.ofInt 255
  let g := F32.ofInt (inp.getD (index + 1) 0) / F32.ofInt 255
  let b := F32.ofInt (inp.getD (index + 2) 0) / F32.ofInt 255
  F32.lit 21 100 * r + F32.lit 71 100 * g + F32.lit 7 100 * b

/-- The two inner loops of `SOBEL_BINARY_EDGE`: the pair `(gradX, gradY)` at pixel `(x, y)`,
accumulated in binary32 in the order of the loops. -/
def sobelGrad (inp : List Nat) (w h x y : Nat) : F32 × F32 :=
  forLoopInt (-1) 1 (fun j acc =>
    forLoopInt (-1) 1 (fun i acc =>
      let nx := clamp ((x : Int) + i) 0 ((w : Int) - 1)
      let ny := clamp ((y : Int) + j) 0 ((h : Int) - 1)
      let index := ((ny * (w : Int) + nx) * 4).toNat
      let gray := GrayNuance inp index
      (acc.1 + gray * F32.ofInt (kernelAt Gx (j + 1) (i + 1)),
       acc.2 + gray * F32.ofInt (kernelAt Gy (j + 1) (i + 1)))) acc) (F32.zero, F32.zero)

/-- The value `binary` of `SOBEL_BINARY_EDGE` at pixel `(x, y)`. -/
def sobelBinary (inp : List Nat) (w h : Nat) (threshold : F32) (x y : Nat) : Nat :=
  let g := sobelGrad inp w h x y
  let magnitude := F32.sqrt (g.1 * g.1 + g.2 * g.2)
  if magnitude ≥ threshold then 0 else 255

/-- The lambda `SOBEL_BINARY_EDGE(start, end)`. -/
def SOBEL_BINARY_EDGE (inp : List Nat) (w h : Nat) (threshold : F32)
    (start stop : Nat) (out : List Nat) : List Nat :=
  forLoop start stop (fun y out =>
    forLoop 0 w (fun x out =>
      let binary := sobelBinary inp w h threshold x y
      let idx := (y * w + x) * 4
      writePixel out idx binary binary binary 255) out) out

/-- `CPU_SketchEffect::EdgeBinarize`: the buffer uploaded to the output texture. -/
def EdgeBinarize (inp : List Nat) (w h : Nat) (threshold : F32)
    (startRow endRow workers : Nat) : List Nat :=
  runFanOut workers startRow endRow (SOBEL_BINARY_EDGE inp w h threshold)
    (List.replicate (w * h * 4) 0)

/-- `CPU_SketchEffect::Weight(mu, sigma)`:
`exp(-float(mu * mu) / (2.0f * sigma * sigma)) / (sqrt(2.0f * glm::pi<float>()) * sigma)`. -/
def Weight (m : Libm32) (mu : Int) (sigma : F32) : F32 :=
  m.exp (-F32.ofInt (mu * mu) / (F32.ofInt 2 * sigma * sigma))
    / (F32.sqrt (F32.ofInt 2 * F32.pi) * sigma)

/-- The first weight loop of `Horizontal`/`Vertical`:
`weights[i + radius] = Weight(i, sigma); sum += weights[i + radius]`. -/
def rawWeights (m : Libm32) (radius : Nat) (sigma : F32) : List F32 × F32 :=
  forLoopInt (-(radius : Int)) radius (fun i st =>
    let ws := st.1.set (i + radius).toNat (Weight m i sigma)
    (ws, st.2 + ws.getD (i + radius).toNat F32.zero))
    (List.replicate (2 * radius + 1) F32.zero, F32.zero)

/-- The normalized weight vector: the second loop `weights[i] /= sum`. -/
def gaussWeights (m : Libm32) (radius : Nat) (sigma : F32) : List F32 :=
  let st := rawWeights m radius sigma
  forLoop 0 st.1.length (fun i ws => ws.set i (ws.getD i F32.zero / st.2)) st.1

/-- The inner loop of `HORIZONTAL_BLUR`: `(sumR, sumG, sumB)` at pixel `(x, y)`. -/
def horizontalSums (weights : List F32) (inp : List Nat) (w : Nat) (radius : Nat) (x y : Nat) :
    F32 × F32 × F32 :=
  forLoopInt (-(radius : Int)) radius (fun i acc =>
    let nx := clamp ((x : Int) + i) 0 ((w : Int) - 1)
    let index := ((((y : Int) * (w : Int) + nx) * 4)).toNat
    let r := F32.ofInt (inp.getD index 0) / F32.ofInt 255
    let g := F32.ofInt (inp.getD (index + 1) 0) / F32.ofInt 255
    let b := F32.ofInt (inp.getD (index + 2) 0) / F32.ofInt 255
    let weight := weights.getD (i + radius).toNat F32.zero
    (acc.1 + r * weight, acc.2.1 + g * weight, acc.2.2 + b * weight))
    (F32.zero, F32.zero, F32.zero)

/-- The lambda `HORIZONTAL_BLUR(start, end)`. -/
def HORIZONTAL_BLUR (weights : List F32) (inp : List Nat) (w : Nat) (radius : Nat)
    (start stop : Nat) (out : List Nat) : List Nat :=
  forLoop start stop (fun y out =>
    forLoop 0 w (fun x out =>
      let s := horizontalSums weights inp w radius x y
      let idx := (y * w + x) * 4
      writePixel out idx (F32.toByte (s.1 * F32.ofInt 255)) (F32.toByte (s.2.1 * F32.ofInt 255))
        (F32.toByte (s.2.2 * F32.ofInt 255)) 255) out) out

/-- `CPU_SketchEffect::Horizontal`: the buffer uploaded to the output texture. -/
def Horizontal (m : Libm32) (inp : List Nat) (w h : Nat) (radius : Nat)
    (sigma : F32) (startRow endRow workers : Nat) : List Nat :=
  runFanOut workers startRow endRow
    (HORIZONTAL_BLUR (gaussWeights m radius sigma) inp w radius)
    (List.replicate (w * h * 4) 0)

/-- The inner loop of `VERTICAL_BLUR`: `(sumR, sumG, sumB)` at pixel `(x, y)`. -/
def verticalSums (weights : List F32) (inp : List Nat) (w h : Nat) (radius : Nat) (x y : Nat) :
    F32 × F32 × F32 :=
  forLoopInt (-(radius : Int)) radius (fun i acc =>
    let ny := clamp ((y : Int) + i) 0 ((h : Int) - 1)
    let index := (((ny * (w : Int) + (x : Int)) * 4)).toNat
    let r := F32.ofInt (inp.getD index 0) / F32.ofInt 255
    let g := F32.ofInt (inp.getD (index + 1) 0) / F32.ofInt 255
    let b := F32.ofInt (inp.getD (index + 2) 0) / F32.ofInt 255
    let weight := weights.getD (i + radius).toNat F32.zero
    (acc.1 + r * weight, acc.2.1 + g * weight, acc.2.2 + b * weight))
    (F32.zero, F32.zero, F32.zero)

/-- The lambda `VERTICAL_BLUR(start, end)`: the outer loop runs over columns. -/
def VERTICAL_BLUR (weights : List F32) (inp : List Nat) (w h : Nat) (radius : Nat)
    (start stop : Nat) (out : List Nat) : List Nat :=
  forLoop start stop (fun x out =>
    forLoop 0 h (fun y out =>
      let s := verticalSums weights inp w h radius x y
      let idx := (y * w + x) * 4
      writePixel out idx (F32.toByte (s.1 * F32.ofInt 255)) (F32.toByte (s.2.1 * F32.ofInt 255))
        (F32.toByte (s.2.2 * F32.ofInt 255)) 255) out) out

/-- `CPU_SketchEffect::Vertical`: the fan-out is over the columns `[0, resolution.x)`;
the parameters `startRow` and `endRow` are not used by the body. -/
def Vertical (m : Libm32) (inp : List Nat) (w h : Nat) (radius : Nat)
    (sigma : F32) (_startRow _endRow workers : Nat) : List Nat :=
  runFanOut workers 0 w
    (VERTICAL_BLUR (gaussWeights m radius sigma) inp w h radius)
    (List.replicate (w * h * 4) 0)

/-- The value `hatchBackground` of `HATCHING` for flattened pixel index `i`. -/
def hatchBackground (m : Libm32) (inp : List Nat) (w h : Nat) (a b c threshold : F32)
    (invertBackground : Bool) (i : Nat) : F32 :=
  let y := i / w
  let x := i % w
  let index := (y * w + x) * 4
  let u := F32.ofInt x / F32.ofInt w
  let v := F32.ofInt y / F32.ofInt h
  let gray := GrayNuance inp index
  let hatchLine := m.sin (a * u + b * v)
  if !invertBackground then
    (if gray > threshold then F32.one else (if hatchLine > c then F32.one else F32.zero))
  else
    (if gray < threshold then F32.one else (if hatchLine > c then F32.zero else F32.one))

/-- The lambda `HATCHING(start, end)` over flattened pixel indices. -/
def HATCHING (m : Libm32) (inp : List Nat) (w h : Nat) (a b c threshold : F32)
    (invertBackground : Bool) (start stop : Nat) (out : List Nat) : List Nat :=
  forLoop start stop (fun i out =>
    let y := i / w
    let x := i % w
    let index := (y * w + x) * 4
    let value := F32.toByte
      (hatchBackground m inp w h a b c threshold invertBackground i * F32.ofInt 255)
    writePixel out index value value value 255) out

/-- `CPU_SketchEffect::Hatching` with `hatchParams = (a, b, c)`.  The output vector is
value-initialised (all zero) by `vector<unsigned char> out(n)`. -/
def Hatching (m : Libm32) (inp : List Nat) (w h : Nat) (a b c threshold : F32)
    (invertBackground : Bool) (workers : Nat) : List Nat :=
  runFanOut workers 0 (w * h) (HATCHING m inp w h a b c threshold invertBackground)
    (List.replicate (w * h * 4) 0)

/-! ### The formulas of the kernels in binary32 -/

/-- The luminance of the neighbour at offset `(i, j)` of pixel `(x, y)`, coordinates clamped to
the image. -/
def neighbourLuminance (inp : List Nat) (w h x y : Nat) (i j : Int) : F32 :=
  GrayNuance inp
    ((clamp ((y : Int) + j) 0 ((h : Int) - 1) * (w : Int)
      + clamp ((x : Int) + i) 0 ((w : Int) - 1)) * 4).toNat

/-- The offsets `(j, i)` of the 3×3 neighbourhood in the order of the loops: rows
`j = -1, 0, 1`, and within a row `i = -1, 0, 1`. -/
def sobelOffsets : List (Int × Int) :=
  [(-1, -1), (-1, 0), (-1, 1), (0, -1), (0, 0), (0, 1), (1, -1), (1, 0), (1, 1)]

/-- The binary32 sum over the 3×3 neighbourhood of the neighbour's luminance times the kernel
entry `G[row offset + 1][column offset + 1]`, accumulated from `0.0f` in the order of the
loops. -/
def sobelSum (G : List (List Int)) (inp : List Nat) (w h x y : Nat) : F32 :=
  sobelOffsets.foldl (fun acc ji =>
    acc + neighbourLuminance inp w h x y ji.2 ji.1 * F32.ofInt (kernelAt G (ji.1 + 1) (ji.2 + 1)))
    F32.zero

/-- The binary32 sum of the weights `Weight(i, sigma)`, accumulated from `0.0f` for
`i = -radius, …, radius`. -/
def weightSum (m : Libm32) (radius : Nat) (sigma : F32) : F32 :=
  (intRange (-(radius : Int)) radius).foldl (fun acc i => acc + Weight m i sigma) F32.zero

/-- The normalized weight `w_i = Weight(i, sigma) / sum` in binary32. -/
def normWeight (m : Libm32) (radius : Nat) (sigma : F32) (i : Int) : F32 :=
  Weight m i sigma / weightSum m radius sigma

/-- The binary32 sum over a window of samples: from `0.0f`, for `i = -radius, …, radius`, add
`(sample i / 255.0f) * wt i`. -/
def blurSum (wt : Int → F32) (sample : Int → Nat) (radius : Nat) : F32 :=
  (intRange (-(radius : Int)) radius).foldl
    (fun acc i => acc + F32.ofInt (sample i) / F32.ofInt 255 * wt i) F32.zero

/-- The byte `static_cast<unsigned char>(sum * 255.0f)` stored for a window of samples. -/
def blurByte (wt : Int → F32) (sample : Int → Nat) (radius : Nat) : Nat :=
  F32.toByte (blurSum wt sample radius * F32.ofInt 255)

/-- The formula of the specification for a blurred byte: the truncation of the exact sum over
the window of the weight times the sample, with no rounding in between. -/
def exactBlurByte (wt : Int → F32) (sample : Int → Nat) (radius : Nat) : Int :=
  ⌊Finset.sum (Finset.Icc (-(radius : Int)) radius)
    (fun i => (wt i).toRat * (sample i : ℚ))⌋

/-- The formula of the specification for a byte of the separable 2-D blur: the truncation of
the exact sum over `i, j` in the window of `w_i * w_j` times the sample at offsets `(i, j)`. -/
def exactBlur2DByte (wt : Int → F32) (sample : Int → Int → Nat) (radius : Nat) : Int :=
  ⌊Finset.sum (Finset.Icc (-(radius : Int)) radius) (fun j =>
    Finset.sum (Finset.Icc (-(radius : Int)) radius) (fun i =>
      (wt i).toRat * (wt j).toRat * (sample i j : ℚ)))⌋

end Binary32

/-! ## `Combine` in binary32 -/

namespace Binary32

/-- The macro `min(a, b) ((a) < (b) ? (a) : (b))` of `CPU_SketchEffect.h` on `float`. -/
def cmin (a b : F32) : F32 := if a < b then a else b

/-- The inner loop of `COMBINE_IMAGES`: `(finalR, finalG, finalB)` at byte offset `i`. -/
def combineMins (ins : List (List Nat)) (i : Nat) : F32 × F32 × F32 :=
  forLoop 0 ins.length (fun t acc =>
    let r := F32.ofInt ((ins.getD t []).getD i 0) / F32.ofInt 255
    let g := F32.ofInt ((ins.getD t []).getD (i + 1) 0) / F32.ofInt 255
    let b := F32.ofInt ((ins.getD t []).getD (i + 2) 0) / F32.ofInt 255
    (cmin acc.1 r, cmin acc.2.1 g, cmin acc.2.2 b)) (F32.one, F32.one, F32.one)

/-- The lambda `COMBINE_IMAGES(start, end)`: `for (i = start * 4; i < end * 4; i += 4)`. -/
def COMBINE_IMAGES (ins : List (List Nat)) (start stop : Nat) (combined : List Nat) :
    List Nat :=
  (List.range' (start * 4) (stop - start) 4).foldl (fun combined i =>
    let s := combineMins ins i
    writePixel combined i (F32.toByte (s.1 * F32.ofInt 255))
      (F32.toByte (s.2.1 * F32.ofInt 255)) (F32.toByte (s.2.2 * F32.ofInt 255)) 255)
    combined

/-- `CPU_SketchEffect::Combine`: the buffer uploaded to the output texture. -/
def Combine (ins : List (List Nat)) (w h workers : Nat) : List Nat :=
  runFanOut workers 0 (w * h) (COMBINE_IMAGES ins) (List.replicate (w * h * 4) 0)

end Binary32

/-! ## The kernels with checked divisions

The kernels once more, with every division of the source evaluated by a checked operator that
fails (`none`) when the divisor is zero: the integer `/` and `%`, and the `float` `/` and `/=`
(divisor `+0.0f` or `-0.0f`).  A kernel returns `none` when one of the divisions it performs
has a zero divisor, and the buffer it uploads otherwise. -/

namespace Checked

/-- The integer division `a / b`; `none` for a zero divisor. -/
def idiv (a b : Nat) : Option Nat := if b = 0 then none else some (a / b)

/-- The integer remainder `a % b`; `none` for a zero divisor. -/
def imod (a b : Nat) : Option Nat := if b = 0 then none else some (a % b)

/-- The `float` division `a / b`; `none` for a divisor `+0.0f` or `-0.0f`. -/
def fdiv (a b : F32) : Option F32 := if b.isZero then none else some (a / b)

/-- The loop `for (int i = lo; i < hi; ++i) body(i)` with a body that may fail. -/
def loopM {σ : Type} (lo hi : Nat) (body : Nat → σ → Option σ) (s : σ) : Option σ :=
  (List.range' lo (hi - lo)).foldlM (fun acc i => body i acc) s

/-- The loop `for (int i = lo; i <= hi; ++i) body(i)` with signed bounds and a body that may
fail. -/
def loopIntM {σ : Type} (lo hi : Int) (body : Int → σ → Option σ) (s : σ) : Option σ :=
  (intRange lo hi).foldlM (fun acc i => body i acc) s

/-- The fan-out loops: `rows = (endRow - startRow) / workers` is computed once, then the tasks
`[start, end)` of the workers `t = 0, …, workers - 1` run in submission order. -/
def runFanOut (workers startRow endRow : Nat)
    (task : Nat → Nat → List Nat → Option (List Nat)) (out : List Nat) : Option (List Nat) := do
  let rows ← idiv (endRow - startRow) workers
  (List.range workers).foldlM (fun acc t =>
    let start := startRow + t * rows
    let stop := if t = workers - 1 then endRow else start + rows
    task start stop acc) out

/-- `GrayNuance(in, index)`. -/
def GrayNuance (inp : List Nat) (index : Nat) : Option F32 := do
  let r ← fdiv (F32.ofInt (inp.getD (index + 0) 0)) (F32.ofInt 255)
  let g ← fdiv (F32.ofInt (inp.getD (index + 1) 0)) (F32.ofInt 255)
  let b ← fdiv (F32.ofInt (inp.getD (index + 2) 0)) (F32.ofInt 255)
  pure (F32.lit 21 100 * r + F32.lit 71 100 * g + F32.lit 7 100 * b)

/-- The two inner loops of `SOBEL_BINARY_EDGE`. -/
def sobelGrad (inp : List Nat) (w h x y : Nat) : Option (F32 × F32) :=
  loopIntM (-1) 1 (fun j acc =>
    loopIntM (-1) 1 (fun i acc => do
      let nx := clamp ((x : Int) + i) 0 ((w : Int) - 1)
      let ny := clamp ((y : Int) + j) 0 ((h : Int) - 1)
      let index := ((ny * (w : Int) + nx) * 4).toNat
      let gray ← GrayNuance inp index
      pure (acc.1 + gray * F32.ofInt (kernelAt Gx (j + 1) (i + 1)),
        acc.2 + gray * F32.ofInt (kernelAt Gy (j + 1) (i + 1)))) acc) (F32.zero, F32.zero)

/-- The value `binary` of `SOBEL_BINARY_EDGE` at pixel `(x, y)`. -/
def sobelBinary (inp : List Nat) (w h : Nat) (threshold : F32) (x y : Nat) : Option Nat := do
  let g ← sobelGrad inp w h x y
  let magnitude := F32.sqrt (g.1 * g.1 + g.2 * g.2)
  pure (if magnitude ≥ threshold then 0 else 255)

/-- The lambda `SOBEL_BINARY_EDGE(start, end)`. -/
def SOBEL_BINARY_EDGE (inp : List Nat) (w h : Nat) (threshold : F32)
    (start stop : Nat) (out : List Nat) : Option (List Nat) :=
  loopM start stop (fun y out =>
    loopM 0 w (fun x out => do
      let binary ← sobelBinary inp w h threshold x y
      let idx := (y * w + x) * 4
      pure (writePixel out idx binary binary binary 255)) out) out

/-- `CPU_SketchEffect::EdgeBinarize`. -/
def EdgeBinarize (inp : List Nat) (w h : Nat) (threshold : F32)
    (startRow endRow workers : Nat) : Option (List Nat) :=
  runFanOut workers startRow endRow (SOBEL_BINARY_EDGE inp w h threshold)
    (List.replicate (w * h * 4) 0)

/-- `CPU_SketchEffect::Weight(mu, sigma)`: the division by `2.0f * sigma * sigma`, then the
division by `sqrt(2.0f * pi) * sigma`. -/
def Weight (m : Libm32) (mu : Int) (sigma : F32) : Option F32 := do
  let e ← fdiv (-F32.ofInt (mu * mu)) (F32.ofInt 2 * sigma * sigma)
  fdiv (m.exp e) (F32.sqrt (F32.ofInt 2 * F32.pi) * sigma)

/-- The first weight loop of `Horizontal`/`Vertical`. -/
def rawWeights (m : Libm32) (radius : Nat) (sigma : F32) : Option (List F32 × F32) :=
  loopIntM (-(radius : Int)) radius (fun i st => do
    let wi ← Weight m i sigma
    let ws := st.1.set (i + radius).toNat wi
    pure (ws, st.2 + ws.getD (i + radius).toNat F32.zero))
    (List.replicate (2 * radius + 1) F32.zero, F32.zero)

/-- The normalized weight vector: the second loop `weights[i] /= sum`. -/
def gaussWeights (m : Libm32) (radius : Nat) (sigma : F32) : Option (List F32) := do
  let st ← rawWeights m radius sigma
  loopM 0 st.1.length (fun i ws => do
    let q ← fdiv (ws.getD i F32.zero) st.2
    pure (ws.set i q)) st.1

/-- The inner loop of `HORIZONTAL_BLUR`. -/
def horizontalSums (weights : List F32) (inp : List Nat) (w : Nat) (radius : Nat) (x y : Nat) :
    Option (F32 × F32 × F32) :=
  loopIntM (-(radius : Int)) radius (fun i acc => do
    let nx := clamp ((x : Int) + i) 0 ((w : Int) - 1)
    let index := ((((y : Int) * (w : Int) + nx) * 4)).toNat
    let r ← fdiv (F32.ofInt (inp.getD index 0)) (F32.ofInt 255)
    let g ← fdiv (F32.ofInt (inp.getD (index + 1) 0)) (F32.ofInt 255)
    let b ← fdiv (F32.ofInt (inp.getD (index + 2) 0)) (F32.ofInt 255)
    let weight := weights.getD (i + radius).toNat F32.zero
    pure (acc.1 + r * weight, acc.2.1 + g * weight, acc.2.2 + b * weight))
    (F32.zero, F32.zero, F32.zero)

/-- The lambda `HORIZONTAL_BLUR(start, end)`. -/
def HORIZONTAL_BLUR (weights : List F32) (inp : List Nat) (w : Nat) (radius : Nat)
    (start stop : Nat) (out : List Nat) : Option (List Nat) :=
  loopM start stop (fun y out =>
    loopM 0 w (fun x out => do
      let s ← horizontalSums weights inp w radius x y
      let idx := (y * w + x) * 4
      pure (writePixel out idx (F32.toByte (s.1 * F32.ofInt 255))
        (F32.toByte (s.2.1 * F32.ofInt 255)) (F32.toByte (s.2.2 * F32.ofInt 255)) 255)) out)
    out

/-- `CPU_SketchEffect::Horizontal`: the weights are computed and normalized before the
fan-out. -/
def Horizontal (m : Libm32) (inp : List Nat) (w h : Nat) (radius : Nat)
    (sigma : F32) (startRow endRow workers : Nat) : Option (List Nat) := do
  let weights ← gaussWeights m radius sigma
  runFanOut workers startRow endRow (HORIZONTAL_BLUR weights inp w radius)
    (List.replicate (w * h * 4) 0)

/-- The inner loop of `VERTICAL_BLUR`. -/
def verticalSums (weights : List F32) (inp : List Nat) (w h : Nat) (radius : Nat) (x y : Nat) :
    Option (F32 × F32 × F32) :=
  loopIntM (-(radius : Int)) radius (fun i acc => do
    let ny := clamp ((y : Int) + i) 0 ((h : Int) - 1)
    let index := (((ny * (w : Int) + (x : Int)) * 4)).toNat
    let r ← fdiv (F32.ofInt (inp.getD index 0)) (F32.ofInt 255)
    let g ← fdiv (F32.ofInt (inp.getD (index + 1) 0)) (F32.ofInt 255)
    let b ← fdiv (F32.ofInt (inp.getD (index + 2) 0)) (F32.ofInt 255)
    let weight := weights.getD (i + radius).toNat F32.zero
    pure (acc.1 + r * weight, acc.2.1 + g * weight, acc.2.2 + b * weight))
    (F32.zero, F32.zero, F32.zero)

/-- The lambda `VERTICAL_BLUR(start, end)`: the outer loop runs over columns. -/
def VERTICAL_BLUR (weights : List F32) (inp : List Nat) (w h : Nat) (radius : Nat)
    (start stop : Nat) (out : List Nat) : Option (List Nat) :=
  loopM start stop (fun x out =>
    loopM 0 h (fun y out => do
      let s ← verticalSums weights inp w h radius x y
      let idx := (y * w + x) * 4
      pure (writePixel out idx (F32.toByte (s.1 * F32.ofInt 255))
        (F32.toByte (s.2.1 * F32.ofInt 255)) (F32.toByte (s.2.2 * F32.ofInt 255)) 255)) out)
    out

/-- `CPU_SketchEffect::Vertical`: the fan-out is over the columns `[0, resolution.x)`. -/
def Vertical (m : Libm32) (inp : List Nat) (w h : Nat) (radius : Nat)
    (sigma : F32) (_startRow _endRow workers : Nat) : Option (List Nat) := do
  let weights ← gaussWeights m radius sigma
  runFanOut workers 0 w (VERTICAL_BLUR weights inp w h radius)
    (List.replicate (w * h * 4) 0)

/-- The lambda `HATCHING(start, end)` over flattened pixel indices: `y = i / resolution.x`,
`x = i % resolution.x`, `u = float(x) / resolution.x`, `v = float(y) / resolution.y`. -/
def HATCHING (m : Libm32) (inp : List Nat) (w h : Nat) (a b c threshold : F32)
    (invertBackground : Bool) (start stop : Nat) (out : List Nat) : Option (List Nat) :=
  loopM start stop (fun i out => do
    let y ← idiv i w
    let x ← imod i w
    let index := (y * w + x) * 4
    let u ← fdiv (F32.ofInt x) (F32.ofInt w)
    let v ← fdiv (F32.ofInt y) (F32.ofInt h)
    let gray ← GrayNuance inp index
    let hatchLine := m.sin (a * u + b * v)
    let hatchBackground :=
      if !invertBackground then
        (if gray > threshold then F32.one else (if hatchLine > c then F32.one else F32.zero))
      else
        (if gray < threshold then F32.one else (if hatchLine > c then F32.zero else F32.one))
    let value := F32.toByte (hatchBackground * F32.ofInt 255)
    pure (writePixel out index value value value 255)) out

/-- `CPU_SketchEffect::Hatching` with `hatchParams = (a, b, c)`. -/
def Hatching (m : Libm32) (inp : List Nat) (w h : Nat) (a b c threshold : F32)
    (invertBackground : Bool) (workers : Nat) : Option (List Nat) :=
  runFanOut workers 0 (w * h) (HATCHING m inp w h a b c threshold invertBackground)
    (List.replicate (w * h * 4) 0)

/-- The inner loop of `COMBINE_IMAGES`. -/
def combineMins (ins : List (List Nat)) (i : Nat) : Option (F32 × F32 × F32) :=
  loopM 0 ins.length (fun t acc => do
    let r ← fdiv (F32.ofInt ((ins.getD t []).getD i 0)) (F32.ofInt 255)
    let g ← fdiv (F32.ofInt ((ins.getD t []).getD (i + 1) 0)) (F32.ofInt 255)
    let b ← fdiv (F32.ofInt ((ins.getD t []).getD (i + 2) 0)) (F32.ofInt 255)
    pure (Binary32.cmin acc.1 r, Binary32.cmin acc.2.1 g, Binary32.cmin acc.2.2 b))
    (F32.one, F32.one, F32.one)

/-- The lambda `COMBINE_IMAGES(start, end)`: `for (i = start * 4; i < end * 4; i += 4)`. -/
def COMBINE_IMAGES (ins : List (List Nat)) (start stop : Nat) (combined : List Nat) :
    Option (List Nat) :=
  (List.range' (start * 4) (stop - start) 4).foldlM (fun combined i => do
    let s ← combineMins ins i
    pure (writePixel combined i (F32.toByte (s.1 * F32.ofInt 255))
      (F32.toByte (s.2.1 * F32.ofInt 255)) (F32.toByte (s.2.2 * F32.ofInt 255)) 255))
    combined

/-- `CPU_SketchEffect::Combine`. -/
def Combine (ins : List (List Nat)) (w h workers : Nat) : Option (List Nat) :=
  runFanOut workers 0 (w * h) (COMBINE_IMAGES ins) (List.replicate (w * h * 4) 0)

end Checked

/-! ## Theorems -/

theorem workerRange_fst (W s e t : Nat) :
    (workerRange W s e t).1 = s + t * ((e - s) / W) := rfl

theorem workerRange_snd_last (W s e : Nat) : (workerRange W s e (W - 1)).2 = e := by
  simp [workerRange]

theorem workerRange_snd_inner (W s e t : Nat) (ht : t ≠ W - 1) :
    (workerRange W s e t).2 = s + (t + 1) * ((e - s) / W) := by
  simp [workerRange, ht, Nat.add_mul, Nat.add_assoc]

theorem fanOut_length (W s e : Nat) : (fanOut W s e).length = W := by
  simp [fanOut]

theorem fanOut_getD (W s e t : Nat) (ht : t < W) :
    (fanOut W s e).getD t (0, 0) = workerRange W s e t := by
  simp [fanOut, List.getD_eq_getElem?_getD, List.getElem?_map, List.getElem?_range ht]

theorem chunk_mul_le (W s e : Nat) (h : s ≤ e) : s + W * ((e - s) / W) ≤ e := by
  have := Nat.mul_div_le (e - s) W
  omega

/-- Every sub-range lies inside `[startRow, endRow)` and is well formed. -/
theorem workerRange_bounds (W s e t : Nat) (h : s ≤ e) (ht : t < W) :
    s ≤ (workerRange W s e t).1 ∧ (workerRange W s e t).1 ≤ (workerRange W s e t).2 ∧
      (workerRange W s e t).2 ≤ e := by
  have hq := chunk_mul_le W s e h
  rw [workerRange_fst]
  by_cases hl : t = W - 1
  · subst hl
    rw [workerRange_snd_last]
    have : (W - 1) * ((e - s) / W) ≤ W * ((e - s) / W) := Nat.mul_le_mul_right _ (by omega)
    omega
  · rw [workerRange_snd_inner W s e t hl]
    have h1 : (t + 1) * ((e - s) / W) ≤ W * ((e - s) / W) := Nat.mul_le_mul_right _ (by omega)
    have h2 : t * ((e - s) / W) ≤ (t + 1) * ((e - s) / W) := Nat.mul_le_mul_right _ (by omega)
    omega

/-- Ranges of distinct workers are ordered: the earlier one ends before the later one begins. -/
theorem workerRange_ordered (W s e t u : Nat) (htu : t < u) (hu : u < W) :
    (workerRange W s e t).2 ≤ (workerRange W s e u).1 := by
  rw [workerRange_fst, workerRange_snd_inner W s e t (by omega)]
  have : (t + 1) * ((e - s) / W) ≤ u * ((e - s) / W) := Nat.mul_le_mul_right _ (by omega)
  omega

/-- Every index of `[startRow, endRow)` lies in the sub-range of some worker. -/
theorem workerRange_cover (W s e i : Nat) (hW : 1 ≤ W) (hi : s ≤ i ∧ i < e) :
    ∃ t, t < W ∧ (workerRange W s e t).1 ≤ i ∧ i < (workerRange W s e t).2 := by
  by_cases hlast : s + (W - 1) * ((e - s) / W) ≤ i
  · exact ⟨W - 1, by omega, by rw [workerRange_fst]; exact hlast,
      by rw [workerRange_snd_last]; exact hi.2⟩
  · have hq : 0 < (e - s) / W := by
      rcases Nat.eq_zero_or_pos ((e - s) / W) with h0 | h0
      · rw [h0] at hlast; omega
      · exact h0
    have hlt : (i - s) / ((e - s) / W) < W - 1 := by
      rw [Nat.div_lt_iff_lt_mul hq]; omega
    refine ⟨(i - s) / ((e - s) / W), by omega, ?_, ?_⟩
    · rw [workerRange_fst]
      have := Nat.div_mul_le_self (i - s) ((e - s) / W)
      omega
    · rw [workerRange_snd_inner W s e _ (by omega)]
      have h1 := Nat.div_add_mod (i - s) ((e - s) / W)
      have h2 := Nat.mod_lt (i - s) hq
      rw [Nat.add_mul, Nat.one_mul, Nat.mul_comm]
      omega

/-- C1: for `W ≥ 1` workers and `start ≤ end`, the `W` sub-ranges built by the fan-out loops
are `[start + t*chunk, start + (t+1)*chunk)` for `t < W-1` and `[start + (W-1)*chunk, end)` for
the last worker; they are contiguous, pairwise disjoint, cover `[start, end)` exactly once, and
have `chunk` elements each except the last, which has `chunk + (end - start) % W`. -/
theorem fanOut_partition (W s e : Nat) (hW : 1 ≤ W) (h : s ≤ e) :
    (fanOut W s e).length = W ∧
    (∀ t, t < W - 1 → (fanOut W s e).getD t (0, 0)
        = (s + t * ((e - s) / W), s + (t + 1) * ((e - s) / W))) ∧
    (fanOut W s e).getD (W - 1) (0, 0) = (s + (W - 1) * ((e - s) / W), e) ∧
    ((fanOut W s e).getD 0 (0, 0)).1 = s ∧
    (∀ t, t + 1 < W →
        ((fanOut W s e).getD t (0, 0)).2 = ((fanOut W s e).getD (t + 1) (0, 0)).1) ∧
    (∀ t, t < W - 1 → ((fanOut W s e).getD t (0, 0)).1 ≤ ((fanOut W s e).getD t (0, 0)).2 ∧
        ((fanOut W s e).getD t (0, 0)).2 - ((fanOut W s e).getD t (0, 0)).1 = (e - s) / W) ∧
    (((fanOut W s e).getD (W - 1) (0, 0)).1 ≤ ((fanOut W s e).getD (W - 1) (0, 0)).2 ∧
      ((fanOut W s e).getD (W - 1) (0, 0)).2 - ((fanOut W s e).getD (W - 1) (0, 0)).1
        = (e - s) / W + (e - s) % W) ∧
    (∀ i, s ≤ i → i < e → ∃! t, t < W ∧
        ((fanOut W s e).getD t (0, 0)).1 ≤ i ∧ i < ((fanOut W s e).getD t (0, 0)).2) ∧
    (∀ t i, t < W → ((fanOut W s e).getD t (0, 0)).1 ≤ i →
        i < ((fanOut W s e).getD t (0, 0)).2 → s ≤ i ∧ i < e) ∧
    (∀ t u i, t < W → u < W → t ≠ u →
        ¬ ((((fanOut W s e).getD t (0, 0)).1 ≤ i ∧ i < ((fanOut W s e).getD t (0, 0)).2) ∧
           (((fanOut W s e).getD u (0, 0)).1 ≤ i ∧ i < ((fanOut W s e).getD u (0, 0)).2))) := by
  have hdisj : ∀ t u i, t < W → u < W → t ≠ u →
      ¬ (((workerRange W s e t).1 ≤ i ∧ i < (workerRange W s e t).2) ∧
         ((workerRange W s e u).1 ≤ i ∧ i < (workerRange W s e u).2)) := by
    intro t u i ht hu hne hin
    rcases Nat.lt_or_gt_of_ne hne with hlt | hlt
    · have := workerRange_ordered W s e t u hlt hu
      omega
    · have := workerRange_ordered W s e u t hlt ht
      omega
  refine ⟨fanOut_length W s e, ?_, ?_, ?_, ?_, ?_, ?_, ?_, ?_, ?_⟩
  · intro t ht
    rw [fanOut_getD W s e t (by omega)]
    exact Prod.ext (workerRange_fst W s e t) (workerRange_snd_inner W s e t (by omega))
  · rw [fanOut_getD W s e (W - 1) (by omega)]
    exact Prod.ext (workerRange_fst W s e _) (workerRange_snd_last W s e)
  · rw [fanOut_getD W s e 0 (by omega), workerRange_fst]; simp
  · intro t ht
    rw [fanOut_getD W s e t (by omega), fanOut_getD W s e (t + 1) ht, workerRange_fst,
      workerRange_snd_inner W s e t (by omega)]
  · intro t ht
    rw [fanOut_getD W s e t (by omega), workerRange_fst,
      workerRange_snd_inner W s e t (by omega), Nat.add_mul, Nat.one_mul]
    generalize (e - s) / W = q
    omega
  · rw [fanOut_getD W s e (W - 1) (by omega), workerRange_fst, workerRange_snd_last]
    have hb := workerRange_bounds W s e (W - 1) h (by omega)
    rw [workerRange_fst, workerRange_snd_last] at hb
    refine ⟨hb.2.1, ?_⟩
    have h1 := Nat.div_add_mod (e - s) W
    generalize (e - s) / W = q at hb h1 ⊢
    have h2 : W * q = (W - 1) * q + q := by
      obtain ⟨k, rfl⟩ : ∃ k, W = k + 1 := ⟨W - 1, by omega⟩
      rw [Nat.add_sub_cancel, Nat.add_mul, Nat.one_mul]
    omega
  · intro i hi1 hi2
    obtain ⟨t, ht, hlo, hhi⟩ := workerRange_cover W s e i hW ⟨hi1, hi2⟩
    refine ⟨t, ⟨ht, by rw [fanOut_getD W s e t ht]; exact ⟨hlo, hhi⟩⟩, ?_⟩
    rintro u ⟨hu, hu2⟩
    rw [fanOut_getD W s e u hu] at hu2
    by_contra hne
    exact hdisj u t i hu ht hne ⟨hu2, hlo, hhi⟩
  · intro t i ht hlo hhi
    rw [fanOut_getD W s e t ht] at hlo hhi
    have := workerRange_bounds W s e t h ht
    omega
  · intro t u i ht hu hne
    rw [fanOut_getD W s e t ht, fanOut_getD W s e u hu]
    exact hdisj t u i ht hu hne

theorem fanOut_partition_witness :
    (1 ≤ 3 ∧ 2 ≤ 13) ∧ (fanOut 3 2 13).length = 3 ∧
      (fanOut 3 2 13).getD (3 - 1) (0, 0) = (2 + (3 - 1) * ((13 - 2) / 3), 13) :=
  ⟨by decide, (fanOut_partition 3 2 13 (by decide) (by decide)).1,
    (fanOut_partition 3 2 13 (by decide) (by decide)).2.2.1⟩


/-! ### Composition of buffer transformers -/

theorem fills_id (f : Nat → Nat) : Fills (fun out => out) ∅ f := by
  intro out
  exact ⟨rfl, fun k _ => ⟨fun h => absurd h (Set.not_mem_empty k), fun _ => rfl⟩⟩

theorem fills_comp {T₁ T₂ : List Nat → List Nat} {S₁ S₂ : Set Nat} {f : Nat → Nat}
    (h₁ : Fills T₁ S₁ f) (h₂ : Fills T₂ S₂ f) : Fills (fun out => T₂ (T₁ out)) (S₁ ∪ S₂) f := by
  intro out
  obtain ⟨hl₁, hv₁⟩ := h₁ out
  obtain ⟨hl₂, hv₂⟩ := h₂ (T₁ out)
  refine ⟨by rw [hl₂, hl₁], fun k hk => ?_⟩
  have hk' : k < (T₁ out).length := by rw [hl₁]; exact hk
  constructor
  · intro hmem
    by_cases h2 : k ∈ S₂
    · exact (hv₂ k hk').1 h2
    · rw [(hv₂ k hk').2 h2]
      rcases hmem with h1 | h1
      · exact (hv₁ k hk).1 h1
      · exact absurd h1 h2
  · intro hmem
    have h1 : k ∉ S₁ := fun h => hmem (Or.inl h)
    have h2 : k ∉ S₂ := fun h => hmem (Or.inr h)
    rw [(hv₂ k hk').2 h2, (hv₁ k hk).2 h1]

theorem fills_congr {T : List Nat → List Nat} {S S' : Set Nat} {f : Nat → Nat}
    (h : Fills T S f) (hS : ∀ k, k ∈ S' ↔ k ∈ S) : Fills T S' f := by
  have : S' = S := Set.ext hS
  rw [this]; exact h

theorem fills_foldl {ι : Type} (f : Nat → Nat) (body : ι → List Nat → List Nat)
    (S : ι → Set Nat) (l : List ι) (h : ∀ a ∈ l, Fills (body a) (S a) f) :
    Fills (fun out => l.foldl (fun acc a => body a acc) out) {k | ∃ a ∈ l, k ∈ S a} f := by
  induction l using List.reverseRecOn with
  | nil =>
    refine fills_congr (fills_id f) (fun k => ?_)
    simp
  | append_singleton l a ih =>
    have ih' := ih (fun b hb => h b (List.mem_append_left _ hb))
    have ha := h a (List.mem_append_right _ (List.mem_singleton_self a))
    have hc := fills_comp ih' ha
    have heq : (fun out => (l ++ [a]).foldl (fun acc a => body a acc) out)
        = (fun out => body a (l.foldl (fun acc a => body a acc) out)) := by
      funext out; simp [List.foldl_append]
    rw [heq]
    refine fills_congr hc (fun k => ?_)
    simp only [Set.mem_setOf_eq, Set.mem_union, List.mem_append, List.mem_singleton]
    constructor
    · rintro ⟨b, hb | hb, hk⟩
      · exact Or.inl ⟨b, hb, hk⟩
      · subst hb; exact Or.inr hk
    · rintro (⟨b, hb, hk⟩ | hk)
      · exact ⟨b, Or.inl hb, hk⟩
      · exact ⟨a, Or.inr rfl, hk⟩

theorem fills_forLoop (f : Nat → Nat) (body : Nat → List Nat → List Nat) (S : Nat → Set Nat)
    (lo hi : Nat) (h : ∀ i, lo ≤ i → i < hi → Fills (body i) (S i) f) :
    Fills (forLoop lo hi body) {k | ∃ i, lo ≤ i ∧ i < hi ∧ k ∈ S i} f := by
  have hf := fills_foldl f body S (List.range' lo (hi - lo)) (fun i hi' => by
    rw [List.mem_range'_1] at hi'
    exact h i hi'.1 (by omega))
  refine fills_congr hf (fun k => ?_)
  simp only [Set.mem_setOf_eq, List.mem_range'_1]
  constructor
  · rintro ⟨i, h1, h2, h3⟩
    exact ⟨i, ⟨h1, by omega⟩, h3⟩
  · rintro ⟨i, ⟨h1, h2⟩, h3⟩
    exact ⟨i, h1, by omega, h3⟩

theorem fills_runFanOut (f : Nat → Nat) (task : Nat → Nat → List Nat → List Nat)
    (S : Nat → Nat → Set Nat) (W s e : Nat) (h : ∀ lo hi, Fills (task lo hi) (S lo hi) f) :
    Fills (runFanOut W s e task)
      {k | ∃ t, t < W ∧ k ∈ S (workerRange W s e t).1 (workerRange W s e t).2} f := by
  have hf := fills_foldl f (fun r : Nat × Nat => task r.1 r.2) (fun r => S r.1 r.2)
    (fanOut W s e) (fun r _ => h r.1 r.2)
  refine fills_congr hf (fun k => ?_)
  simp only [Set.mem_setOf_eq, fanOut, List.mem_map, List.mem_range]
  constructor
  · rintro ⟨t, ht, hk⟩
    exact ⟨_, ⟨t, ht, rfl⟩, hk⟩
  · rintro ⟨r, ⟨t, ht, rfl⟩, hk⟩
    exact ⟨t, ht, hk⟩

theorem getD_set {α : Type} (l : List α) (i j : Nat) (v d : α) :
    (l.set i v).getD j d = if i = j ∧ j < l.length then v else l.getD j d := by
  rw [List.getD_eq_getElem?_getD, List.getD_eq_getElem?_getD, List.getElem?_set]
  by_cases hij : i = j
  · subst hij
    by_cases hl : i < l.length
    · simp [hl]
    · simp [hl, List.getElem?_eq_none (Nat.le_of_not_lt hl)]
  · simp [hij]

theorem fills_writePixel (f : Nat → Nat) (idx r g b a : Nat) (hr : f idx = r)
    (hg : f (idx + 1) = g) (hb : f (idx + 2) = b) (ha : f (idx + 3) = a) :
    Fills (fun out => writePixel out idx r g b a) {k | idx ≤ k ∧ k < idx + 4} f := by
  intro out
  refine ⟨by simp [writePixel], fun k hk => ?_⟩
  simp only [writePixel, getD_set, List.length_set, Set.mem_setOf_eq, Nat.add_zero]
  constructor
  · rintro ⟨h1, h2⟩
    have hcases : k = idx ∨ k = idx + 1 ∨ k = idx + 2 ∨ k = idx + 3 := by omega
    rcases hcases with h | h | h | h <;> subst h <;> simp [hk, hr, hg, hb, ha]
  · intro hmem
    have h0 : ¬ idx = k := by omega
    have h1 : ¬ idx + 1 = k := by omega
    have h2 : ¬ idx + 2 = k := by omega
    have h3 : ¬ idx + 3 = k := by omega
    simp [h0, h1, h2, h3]

/-! ### The loop shapes of the kernels -/

theorem pixel_decode (w x y c : Nat) (hx : x < w) (hc : c < 4) :
    ((y * w + x) * 4 + c) / 4 = y * w + x ∧ ((y * w + x) * 4 + c) % 4 = c ∧
      (y * w + x) % w = x ∧ (y * w + x) / w = y := by
  have hw : 0 < w := by omega
  refine ⟨by omega, by omega, ?_, ?_⟩
  · rw [Nat.add_comm, Nat.add_mul_mod_self_right, Nat.mod_eq_of_lt hx]
  · rw [Nat.add_comm, Nat.add_mul_div_right _ _ hw, Nat.div_eq_of_lt hx, Nat.zero_add]

theorem pixel_index_lt (w h x y c : Nat) (hx : x < w) (hy : y < h) (hc : c < 4) :
    (y * w + x) * 4 + c < w * h * 4 := by
  have h1 : y * w + x < w * h := by
    calc y * w + x < y * w + w := by omega
      _ = (y + 1) * w := by ring
      _ ≤ h * w := Nat.mul_le_mul_right _ hy
      _ = w * h := Nat.mul_comm _ _
  omega

theorem fills_apply {T : List Nat → List Nat} {S : Set Nat} {f : Nat → Nat} (h : Fills T S f)
    (n k : Nat) (hk : k < n) (hS : k ∈ S) : (T (List.replicate n 0)).getD k 0 = f k :=
  ((h (List.replicate n 0)).2 k (by simpa using hk)).1 hS

theorem fills_apply_not {T : List Nat → List Nat} {S : Set Nat} {f : Nat → Nat}
    (h : Fills T S f) (n k : Nat) (hS : k ∉ S) : (T (List.replicate n 0)).getD k 0 = 0 := by
  by_cases hk : k < n
  · rw [((h (List.replicate n 0)).2 k (by simpa using hk)).2 hS]
    simp [List.getD_eq_getElem?_getD, List.getElem?_replicate, hk]
  · have hl := (h (List.replicate n 0)).1
    rw [List.getD_eq_getElem?_getD, List.getElem?_eq_none (by rw [hl]; simp; omega)]
    rfl

theorem fills_length {T : List Nat → List Nat} {S : Set Nat} {f : Nat → Nat} (h : Fills T S f)
    (n : Nat) : (T (List.replicate n 0)).length = n := by
  rw [(h (List.replicate n 0)).1]; simp

/-- A kernel whose outer loop runs over rows and whose inner loop runs over all columns. -/
theorem fills_rowMajor (w : Nat) (r g b a : Nat → Nat → Nat) (start stop : Nat) :
    Fills (forLoop start stop (fun y out => forLoop 0 w (fun x out =>
        writePixel out ((y * w + x) * 4) (r x y) (g x y) (b x y) (a x y)) out))
      {k | start ≤ k / 4 / w ∧ k / 4 / w < stop ∧ 0 < w}
      (fun k => pixelByte (r (k / 4 % w) (k / 4 / w)) (g (k / 4 % w) (k / 4 / w))
        (b (k / 4 % w) (k / 4 / w)) (a (k / 4 % w) (k / 4 / w)) (k % 4)) := by
  have hrow := fills_forLoop
    (fun k => pixelByte (r (k / 4 % w) (k / 4 / w)) (g (k / 4 % w) (k / 4 / w))
        (b (k / 4 % w) (k / 4 / w)) (a (k / 4 % w) (k / 4 / w)) (k % 4))
    (fun y out => forLoop 0 w (fun x out =>
        writePixel out ((y * w + x) * 4) (r x y) (g x y) (b x y) (a x y)) out)
    (fun y => {k | k / 4 / w = y ∧ 0 < w}) start stop (fun y _ _ => by
      have hin := fills_forLoop
        (fun k => pixelByte (r (k / 4 % w) (k / 4 / w)) (g (k / 4 % w) (k / 4 / w))
          (b (k / 4 % w) (k / 4 / w)) (a (k / 4 % w) (k / 4 / w)) (k % 4))
        (fun x out => writePixel out ((y * w + x) * 4) (r x y) (g x y) (b x y) (a x y))
        (fun x => {k | (y * w + x) * 4 ≤ k ∧ k < (y * w + x) * 4 + 4}) 0 w (fun x _ hx => by
          obtain ⟨d0, m0, hxm, hyd⟩ := pixel_decode w x y 0 hx (by omega)
          obtain ⟨d1, m1, -, -⟩ := pixel_decode w x y 1 hx (by omega)
          obtain ⟨d2, m2, -, -⟩ := pixel_decode w x y 2 hx (by omega)
          obtain ⟨d3, m3, -, -⟩ := pixel_decode w x y 3 hx (by omega)
          rw [Nat.add_zero] at d0 m0
          refine fills_writePixel _ _ _ _ _ _ ?_ ?_ ?_ ?_
          · simp only [d0, m0, hxm, hyd]; simp [pixelByte]
          · simp only [d1, m1, hxm, hyd]; simp [pixelByte]
          · simp only [d2, m2, hxm, hyd]; simp [pixelByte]
          · simp only [d3, m3, hxm, hyd]; simp [pixelByte])
      refine fills_congr hin (fun k => ?_)
      simp only [Set.mem_setOf_eq]
      constructor
      · rintro ⟨hk, hw⟩
        refine ⟨k / 4 % w, Nat.zero_le _, Nat.mod_lt _ hw, ?_⟩
        have := Nat.div_add_mod (k / 4) w
        rw [hk, Nat.mul_comm] at this
        rw [this]; omega
      · rintro ⟨x, -, hx, h1, h2⟩
        have hk : k / 4 = y * w + x := by omega
        rw [hk]
        exact ⟨(pixel_decode w x y 0 hx (by omega)).2.2.2, by omega⟩)
  refine fills_congr hrow (fun k => ?_)
  simp only [Set.mem_setOf_eq]
  constructor
  · rintro ⟨h1, h2, h3⟩
    exact ⟨_, h1, h2, rfl, h3⟩
  · rintro ⟨y, h1, h2, rfl, h3⟩
    exact ⟨h1, h2, h3⟩

/-- A kernel whose outer loop runs over columns and whose inner loop runs over all rows. -/
theorem fills_colMajor (w h : Nat) (r g b a : Nat → Nat → Nat) (start stop : Nat)
    (hstop : stop ≤ w) :
    Fills (forLoop start stop (fun x out => forLoop 0 h (fun y out =>
        writePixel out ((y * w + x) * 4) (r x y) (g x y) (b x y) (a x y)) out))
      {k | start ≤ k / 4 % w ∧ k / 4 % w < stop ∧ k / 4 / w < h}
      (fun k => pixelByte (r (k / 4 % w) (k / 4 / w)) (g (k / 4 % w) (k / 4 / w))
        (b (k / 4 % w) (k / 4 / w)) (a (k / 4 % w) (k / 4 / w)) (k % 4)) := by
  have hcol := fills_forLoop
    (fun k => pixelByte (r (k / 4 % w) (k / 4 / w)) (g (k / 4 % w) (k / 4 / w))
        (b (k / 4 % w) (k / 4 / w)) (a (k / 4 % w) (k / 4 / w)) (k % 4))
    (fun x out => forLoop 0 h (fun y out =>
        writePixel out ((y * w + x) * 4) (r x y) (g x y) (b x y) (a x y)) out)
    (fun x => {k | k / 4 % w = x ∧ k / 4 / w < h}) start stop (fun x _ hxs => by
      have hx : x < w := by omega
      have hin := fills_forLoop
        (fun k => pixelByte (r (k / 4 % w) (k / 4 / w)) (g (k / 4 % w) (k / 4 / w))
          (b (k / 4 % w) (k / 4 / w)) (a (k / 4 % w) (k / 4 / w)) (k % 4))
        (fun y out => writePixel out ((y * w + x) * 4) (r x y) (g x y) (b x y) (a x y))
        (fun y => {k | (y * w + x) * 4 ≤ k ∧ k < (y * w + x) * 4 + 4}) 0 h (fun y _ _ => by
          obtain ⟨d0, m0, hxm, hyd⟩ := pixel_decode w x y 0 hx (by omega)
          obtain ⟨d1, m1, -, -⟩ := pixel_decode w x y 1 hx (by omega)
          obtain ⟨d2, m2, -, -⟩ := pixel_decode w x y 2 hx (by omega)
          obtain ⟨d3, m3, -, -⟩ := pixel_decode w x y 3 hx (by omega)
          rw [Nat.add_zero] at d0 m0
          refine fills_writePixel _ _ _ _ _ _ ?_ ?_ ?_ ?_
          · simp only [d0, m0, hxm, hyd]; simp [pixelByte]
          · simp only [d1, m1, hxm, hyd]; simp [pixelByte]
          · simp only [d2, m2, hxm, hyd]; simp [pixelByte]
          · simp only [d3, m3, hxm, hyd]; simp [pixelByte])
      refine fills_congr hin (fun k => ?_)
      simp only [Set.mem_setOf_eq]
      constructor
      · rintro ⟨hk, hy⟩
        refine ⟨k / 4 / w, Nat.zero_le _, hy, ?_⟩
        have := Nat.div_add_mod (k / 4) w
        rw [hk, Nat.mul_comm] at this
        rw [this]; omega
      · rintro ⟨y, -, hy, h1, h2⟩
        have hk : k / 4 = y * w + x := by omega
        rw [hk]
        obtain ⟨-, -, hxm, hyd⟩ := pixel_decode w x y 0 hx (by omega)
        exact ⟨hxm, by rw [hyd]; exact hy⟩)
  refine fills_congr hcol (fun k => ?_)
  simp only [Set.mem_setOf_eq]
  constructor
  · rintro ⟨h1, h2, h3⟩
    exact ⟨_, h1, h2, rfl, h3⟩
  · rintro ⟨x, h1, h2, rfl, h3⟩
    exact ⟨h1, h2, h3⟩

/-- The fan-out reaches exactly the indices of `[startRow, endRow)`. -/
theorem fanOut_mem_iff (W s e i : Nat) (hW : 1 ≤ W) (h : s ≤ e) :
    (∃ t, t < W ∧ (workerRange W s e t).1 ≤ i ∧ i < (workerRange W s e t).2)
      ↔ s ≤ i ∧ i < e := by
  constructor
  · rintro ⟨t, ht, h1, h2⟩
    have := workerRange_bounds W s e t h ht
    omega
  · intro hi
    exact workerRange_cover W s e i hW hi

/-! ### Fan-out of row-major, column-major and flattened kernels -/

theorem fills_rowMajor_fanOut (w : Nat) (r g b a : Nat → Nat → Nat) (W s e : Nat)
    (hW : 1 ≤ W) (hse : s ≤ e) :
    Fills (runFanOut W s e (fun start stop => forLoop start stop (fun y out =>
        forLoop 0 w (fun x out =>
          writePixel out ((y * w + x) * 4) (r x y) (g x y) (b x y) (a x y)) out)))
      {k | s ≤ k / 4 / w ∧ k / 4 / w < e ∧ 0 < w}
      (fun k => pixelByte (r (k / 4 % w) (k / 4 / w)) (g (k / 4 % w) (k / 4 / w))
        (b (k / 4 % w) (k / 4 / w)) (a (k / 4 % w) (k / 4 / w)) (k % 4)) := by
  have hf := fills_runFanOut _ _ _ W s e (fun lo hi => fills_rowMajor w r g b a lo hi)
  refine fills_congr hf (fun k => ?_)
  simp only [Set.mem_setOf_eq]
  constructor
  · rintro ⟨h1, h2, h3⟩
    obtain ⟨t, ht, hlo, hhi⟩ := (fanOut_mem_iff W s e (k / 4 / w) hW hse).2 ⟨h1, h2⟩
    exact ⟨t, ht, hlo, hhi, h3⟩
  · rintro ⟨t, ht, hlo, hhi, h3⟩
    have := (fanOut_mem_iff W s e (k / 4 / w) hW hse).1 ⟨t, ht, hlo, hhi⟩
    exact ⟨this.1, this.2, h3⟩

/-- Value written by a row-major kernel at channel `c` of a pixel in the processed rows. -/
theorem rowMajor_pixel (w h : Nat) (r g b a : Nat → Nat → Nat) (W s e : Nat)
    (hW : 1 ≤ W) (hse : s ≤ e) (x y c : Nat) (hx : x < w) (hy : y < h) (hys : s ≤ y)
    (hye : y < e) (hc : c < 4) :
    (runFanOut W s e (fun start stop => forLoop start stop (fun y out =>
        forLoop 0 w (fun x out =>
          writePixel out ((y * w + x) * 4) (r x y) (g x y) (b x y) (a x y)) out))
      (List.replicate (w * h * 4) 0)).getD ((y * w + x) * 4 + c) 0
      = pixelByte (r x y) (g x y) (b x y) (a x y) c := by
  obtain ⟨hd, hm, hxm, hyd⟩ := pixel_decode w x y c hx hc
  have hf := fills_apply (fills_rowMajor_fanOut w r g b a W s e hW hse) (w * h * 4)
    ((y * w + x) * 4 + c) (pixel_index_lt w h x y c hx hy hc)
    (by simp only [Set.mem_setOf_eq, hd, hyd]; exact ⟨hys, hye, by omega⟩)
  rw [hf]
  simp only [hd, hm, hxm, hyd]

/-- A row-major kernel leaves the bytes of every row outside `[startRow, endRow)` at zero. -/
theorem rowMajor_untouched (w h : Nat) (r g b a : Nat → Nat → Nat) (W s e : Nat)
    (hW : 1 ≤ W) (hse : s ≤ e) (x y c : Nat) (hx : x < w) (hc : c < 4)
    (hy : ¬ (s ≤ y ∧ y < e)) :
    (runFanOut W s e (fun start stop => forLoop start stop (fun y out =>
        forLoop 0 w (fun x out =>
          writePixel out ((y * w + x) * 4) (r x y) (g x y) (b x y) (a x y)) out))
      (List.replicate (w * h * 4) 0)).getD ((y * w + x) * 4 + c) 0 = 0 := by
  obtain ⟨hd, hm, hxm, hyd⟩ := pixel_decode w x y c hx hc
  refine fills_apply_not (fills_rowMajor_fanOut w r g b a W s e hW hse) (w * h * 4) _ ?_
  simp only [Set.mem_setOf_eq, hd, hyd]
  exact fun hmem => hy ⟨hmem.1, hmem.2.1⟩

theorem rowMajor_length (w h : Nat) (r g b a : Nat → Nat → Nat) (W s e : Nat)
    (hW : 1 ≤ W) (hse : s ≤ e) :
    (runFanOut W s e (fun start stop => forLoop start stop (fun y out =>
        forLoop 0 w (fun x out =>
          writePixel out ((y * w + x) * 4) (r x y) (g x y) (b x y) (a x y)) out))
      (List.replicate (w * h * 4) 0)).length = w * h * 4 :=
  fills_length (fills_rowMajor_fanOut w r g b a W s e hW hse) _

theorem fills_colMajor_fanOut (w h : Nat) (r g b a : Nat → Nat → Nat) (W : Nat)
    (hW : 1 ≤ W) :
    Fills (runFanOut W 0 w (fun start stop => forLoop start stop (fun x out =>
        forLoop 0 h (fun y out =>
          writePixel out ((y * w + x) * 4) (r x y) (g x y) (b x y) (a x y)) out)))
      {k | k / 4 / w < h ∧ 0 < w}
      (fun k => pixelByte (r (k / 4 % w) (k / 4 / w)) (g (k / 4 % w) (k / 4 / w))
        (b (k / 4 % w) (k / 4 / w)) (a (k / 4 % w) (k / 4 / w)) (k % 4)) := by
  have hf := fills_foldl
    (fun k => pixelByte (r (k / 4 % w) (k / 4 / w)) (g (k / 4 % w) (k / 4 / w))
        (b (k / 4 % w) (k / 4 / w)) (a (k / 4 % w) (k / 4 / w)) (k % 4))
    (fun rg : Nat × Nat => forLoop rg.1 rg.2 (fun x out =>
        forLoop 0 h (fun y out =>
          writePixel out ((y * w + x) * 4) (r x y) (g x y) (b x y) (a x y)) out))
    (fun rg => {k | rg.1 ≤ k / 4 % w ∧ k / 4 % w < rg.2 ∧ k / 4 / w < h})
    (fanOut W 0 w) (fun rg hrg => by
      simp only [fanOut, List.mem_map, List.mem_range] at hrg
      obtain ⟨t, ht, rfl⟩ := hrg
      exact fills_colMajor w h r g b a _ _ (workerRange_bounds W 0 w t (Nat.zero_le _) ht).2.2)
  refine fills_congr hf (fun k => ?_)
  simp only [Set.mem_setOf_eq, fanOut, List.mem_map, List.mem_range]
  constructor
  · rintro ⟨h1, h2⟩
    obtain ⟨t, ht, hlo, hhi⟩ := (fanOut_mem_iff W 0 w (k / 4 % w) hW (Nat.zero_le _)).2
      ⟨Nat.zero_le _, Nat.mod_lt _ h2⟩
    exact ⟨_, ⟨t, ht, rfl⟩, hlo, hhi, h1⟩
  · rintro ⟨rg, ⟨t, ht, rfl⟩, hlo, hhi, h1⟩
    have := (fanOut_mem_iff W 0 w (k / 4 % w) hW (Nat.zero_le _)).1 ⟨t, ht, hlo, hhi⟩
    exact ⟨h1, by omega⟩

/-- Value written by a column-major kernel at channel `c` of any pixel of the image. -/
theorem colMajor_pixel (w h : Nat) (r g b a : Nat → Nat → Nat) (W : Nat)
    (hW : 1 ≤ W) (x y c : Nat) (hx : x < w) (hy : y < h) (hc : c < 4) :
    (runFanOut W 0 w (fun start stop => forLoop start stop (fun x out =>
        forLoop 0 h (fun y out =>
          writePixel out ((y * w + x) * 4) (r x y) (g x y) (b x y) (a x y)) out))
      (List.replicate (w * h * 4) 0)).getD ((y * w + x) * 4 + c) 0
      = pixelByte (r x y) (g x y) (b x y) (a x y) c := by
  obtain ⟨hd, hm, hxm, hyd⟩ := pixel_decode w x y c hx hc
  have hf := fills_apply (fills_colMajor_fanOut w h r g b a W hW) (w * h * 4)
    ((y * w + x) * 4 + c) (pixel_index_lt w h x y c hx hy hc)
    (by simp only [Set.mem_setOf_eq, hd, hyd]; exact ⟨hy, by omega⟩)
  rw [hf]
  simp only [hd, hm, hxm, hyd]

theorem rowMajor_pixelAt (w h : Nat) (r g b a : Nat → Nat → Nat) (W s e : Nat)
    (hW : 1 ≤ W) (hse : s ≤ e) (x y : Nat) (hx : x < w) (hy : y < h) (hys : s ≤ y)
    (hye : y < e) :
    pixelAt (runFanOut W s e (fun start stop => forLoop start stop (fun y out =>
        forLoop 0 w (fun x out =>
          writePixel out ((y * w + x) * 4) (r x y) (g x y) (b x y) (a x y)) out))
      (List.replicate (w * h * 4) 0)) w x y = (r x y, g x y, b x y, a x y) := by
  simp only [pixelAt]
  rw [rowMajor_pixel w h r g b a W s e hW hse x y 0 hx hy hys hye (by omega),
    rowMajor_pixel w h r g b a W s e hW hse x y 1 hx hy hys hye (by omega),
    rowMajor_pixel w h r g b a W s e hW hse x y 2 hx hy hys hye (by omega),
    rowMajor_pixel w h r g b a W s e hW hse x y 3 hx hy hys hye (by omega)]
  simp [pixelByte]

theorem colMajor_pixelAt (w h : Nat) (r g b a : Nat → Nat → Nat) (W : Nat)
    (hW : 1 ≤ W) (x y : Nat) (hx : x < w) (hy : y < h) :
    pixelAt (runFanOut W 0 w (fun start stop => forLoop start stop (fun x out =>
        forLoop 0 h (fun y out =>
          writePixel out ((y * w + x) * 4) (r x y) (g x y) (b x y) (a x y)) out))
      (List.replicate (w * h * 4) 0)) w x y = (r x y, g x y, b x y, a x y) := by
  simp only [pixelAt]
  rw [colMajor_pixel w h r g b a W hW x y 0 hx hy (by omega),
    colMajor_pixel w h r g b a W hW x y 1 hx hy (by omega),
    colMajor_pixel w h r g b a W hW x y 2 hx hy (by omega),
    colMajor_pixel w h r g b a W hW x y 3 hx hy (by omega)]
  simp [pixelByte]

/-! ### Kernels over flattened pixel indices -/

/-- The loop shape of `HATCHING`: one pixel per flattened index `i`, stored at
`(y*w + x)*4` with `y = i / w` and `x = i % w`. -/
theorem fills_flat (w : Nat) (r g b a : Nat → Nat) (start stop : Nat) :
    Fills (forLoop start stop (fun i out =>
        writePixel out ((i / w * w + i % w) * 4) (r i) (g i) (b i) (a i)))
      {k | start ≤ k / 4 ∧ k / 4 < stop}
      (fun k => pixelByte (r (k / 4)) (g (k / 4)) (b (k / 4)) (a (k / 4)) (k % 4)) := by
  have hf := fills_forLoop
    (fun k => pixelByte (r (k / 4)) (g (k / 4)) (b (k / 4)) (a (k / 4)) (k % 4))
    (fun i out => writePixel out ((i / w * w + i % w) * 4) (r i) (g i) (b i) (a i))
    (fun i => {k | i * 4 ≤ k ∧ k < i * 4 + 4}) start stop (fun i _ _ => by
      have hi : i / w * w + i % w = i := Nat.div_add_mod' i w
      simp only [hi]
      have d0 : i * 4 / 4 = i := by omega
      have d1 : (i * 4 + 1) / 4 = i := by omega
      have d2 : (i * 4 + 2) / 4 = i := by omega
      have d3 : (i * 4 + 3) / 4 = i := by omega
      have m0 : i * 4 % 4 = 0 := by omega
      have m1 : (i * 4 + 1) % 4 = 1 := by omega
      have m2 : (i * 4 + 2) % 4 = 2 := by omega
      have m3 : (i * 4 + 3) % 4 = 3 := by omega
      refine fills_writePixel _ _ _ _ _ _ ?_ ?_ ?_ ?_
      · simp only [d0, m0]; simp [pixelByte]
      · simp only [d1, m1]; simp [pixelByte]
      · simp only [d2, m2]; simp [pixelByte]
      · simp only [d3, m3]; simp [pixelByte])
  refine fills_congr hf (fun k => ?_)
  simp only [Set.mem_setOf_eq]
  constructor
  · rintro ⟨h1, h2⟩
    exact ⟨k / 4, h1, h2, by omega, by omega⟩
  · rintro ⟨i, h1, h2, h3, h4⟩
    have : k / 4 = i := by omega
    rw [this]; exact ⟨h1, h2⟩

/-- The loop shape of `COMBINE_IMAGES`: `for (i = start*4; i < end*4; i += 4)`. -/
theorem fills_flat4 (r g b a : Nat → Nat) (start stop : Nat) :
    Fills (fun out => (List.range' (start * 4) (stop - start) 4).foldl (fun combined i =>
        writePixel combined i (r i) (g i) (b i) (a i)) out)
      {k | start ≤ k / 4 ∧ k / 4 < stop}
      (fun k => pixelByte (r (k / 4 * 4)) (g (k / 4 * 4)) (b (k / 4 * 4)) (a (k / 4 * 4))
        (k % 4)) := by
  have hf := fills_foldl
    (fun k => pixelByte (r (k / 4 * 4)) (g (k / 4 * 4)) (b (k / 4 * 4)) (a (k / 4 * 4))
        (k % 4))
    (fun i out => writePixel out i (r i) (g i) (b i) (a i))
    (fun i => {k | i ≤ k ∧ k < i + 4}) (List.range' (start * 4) (stop - start) 4)
    (fun i hi => by
      rw [List.mem_range'] at hi
      obtain ⟨j, _, rfl⟩ := hi
      have d0 : (start * 4 + 4 * j) / 4 * 4 = start * 4 + 4 * j := by omega
      have d1 : (start * 4 + 4 * j + 1) / 4 * 4 = start * 4 + 4 * j := by omega
      have d2 : (start * 4 + 4 * j + 2) / 4 * 4 = start * 4 + 4 * j := by omega
      have d3 : (start * 4 + 4 * j + 3) / 4 * 4 = start * 4 + 4 * j := by omega
      have m0 : (start * 4 + 4 * j) % 4 = 0 := by omega
      have m1 : (start * 4 + 4 * j + 1) % 4 = 1 := by omega
      have m2 : (start * 4 + 4 * j + 2) % 4 = 2 := by omega
      have m3 : (start * 4 + 4 * j + 3) % 4 = 3 := by omega
      refine fills_writePixel _ _ _ _ _ _ ?_ ?_ ?_ ?_
      · simp only [d0, m0]; simp [pixelByte]
      · simp only [d1, m1]; simp [pixelByte]
      · simp only [d2, m2]; simp [pixelByte]
      · simp only [d3, m3]; simp [pixelByte])
  refine fills_congr hf (fun k => ?_)
  simp only [Set.mem_setOf_eq, List.mem_range']
  constructor
  · rintro ⟨h1, h2⟩
    exact ⟨start * 4 + 4 * (k / 4 - start), ⟨k / 4 - start, by omega, rfl⟩, by omega, by omega⟩
  · rintro ⟨i, ⟨j, hj, rfl⟩, h3, h4⟩
    have : k / 4 = start + j := by omega
    rw [this]; omega

/-- A fan-out over the flattened pixel range `[0, n)` whose tasks have a flattened shape
reaches every pixel of the range. -/
theorem fills_flat_fanOut (task : Nat → Nat → List Nat → List Nat) (f : Nat → Nat)
    (W n : Nat) (hW : 1 ≤ W)
    (htask : ∀ lo hi, Fills (task lo hi) {k | lo ≤ k / 4 ∧ k / 4 < hi} f) :
    Fills (runFanOut W 0 n task) {k | k / 4 < n} f := by
  have hf := fills_runFanOut f task (fun lo hi => {k | lo ≤ k / 4 ∧ k / 4 < hi}) W 0 n htask
  refine fills_congr hf (fun k => ?_)
  simp only [Set.mem_setOf_eq]
  have := fanOut_mem_iff W 0 n (k / 4) hW (Nat.zero_le _)
  constructor
  · intro hk
    exact this.2 ⟨Nat.zero_le _, hk⟩
  · intro hk
    exact (this.1 hk).2

theorem flat_index (w h x y : Nat) (hx : x < w) (hy : y < h) : y * w + x < w * h := by
  have := pixel_index_lt w h x y 0 hx hy (by omega)
  omega

/-- Value at channel `c` of pixel `(x, y)` after a flattened fan-out over the whole image. -/
theorem flat_pixel (task : Nat → Nat → List Nat → List Nat) (f : Nat → Nat)
    (W w h : Nat) (hW : 1 ≤ W)
    (htask : ∀ lo hi, Fills (task lo hi) {k | lo ≤ k / 4 ∧ k / 4 < hi} f)
    (x y c : Nat) (hx : x < w) (hy : y < h) (hc : c < 4) :
    (runFanOut W 0 (w * h) task (List.replicate (w * h * 4) 0)).getD ((y * w + x) * 4 + c) 0
      = f ((y * w + x) * 4 + c) := by
  refine fills_apply (fills_flat_fanOut task f W (w * h) hW htask) (w * h * 4) _
    (pixel_index_lt w h x y c hx hy hc) ?_
  simp only [Set.mem_setOf_eq]
  have := flat_index w h x y hx hy
  omega

/-! ### Sobel edge detection and binarization -/

theorem forLoopInt_sobel {σ : Type} (body : Int → σ → σ) (s : σ) :
    forLoopInt (-1) 1 body s = body 1 (body 0 (body (-1) s)) := by
  have : intRange (-1) 1 = [-1, 0, 1] := by decide
  rw [forLoopInt, this]
  rfl

theorem sum_Icc_sobel {M : Type} [AddCommMonoid M] (f : Int → M) :
    Finset.sum (Finset.Icc (-1 : Int) 1) f = f (-1) + f 0 + f 1 := by
  have : Finset.Icc (-1 : Int) 1 = {-1, 0, 1} := by decide
  rw [this, Finset.sum_insert (by decide), Finset.sum_insert (by decide), Finset.sum_singleton,
    add_assoc]

/-- The accumulation loops of `SOBEL_BINARY_EDGE` compute the two 3×3 convolution sums. -/
theorem sobelGrad_eq {K : Type} [LinearOrderedField K] (inp : List Nat) (w h x y : Nat) :
    (sobelGrad inp w h x y : K × K)
      = (sobelSum [[-1, 0, 1], [-2, 0, 2], [-1, 0, 1]] inp w h x y,
         sobelSum [[-1, -2, -1], [0, 0, 0], [1, 2, 1]] inp w h x y) := by
  simp only [sobelGrad, forLoopInt_sobel, sobelSum, sum_Icc_sobel, neighbourLuminance, Gx, Gy]
  refine Prod.ext ?_ ?_
  · simp [kernelAt]
    ring
  · simp [kernelAt]
    ring

/-- The pixel written by `EdgeBinarize` in a processed row. -/
theorem EdgeBinarize_pixelAt {K : Type} [LinearOrderedField K] (sqrtF : K → K) (inp : List Nat)
    (w h : Nat) (threshold : K) (startRow endRow W : Nat) (hW : 1 ≤ W)
    (hrows : startRow ≤ endRow) (x y : Nat) (hx : x < w) (hy : y < h) (hys : startRow ≤ y)
    (hye : y < endRow) :
    pixelAt (EdgeBinarize sqrtF inp w h threshold startRow endRow W) w x y
      = if sqrtF ((sobelSum [[-1, 0, 1], [-2, 0, 2], [-1, 0, 1]] inp w h x y) ^ 2
            + (sobelSum [[-1, -2, -1], [0, 0, 0], [1, 2, 1]] inp w h x y) ^ 2) ≥ threshold
        then (0, 0, 0, 255) else (255, 255, 255, 255) := by
  have hp := rowMajor_pixelAt w h (fun x y => sobelBinary sqrtF inp w h threshold x y)
    (fun x y => sobelBinary sqrtF inp w h threshold x y)
    (fun x y => sobelBinary sqrtF inp w h threshold x y) (fun _ _ => 255)
    W startRow endRow hW hrows x y hx hy hys hye
  have hE : EdgeBinarize sqrtF inp w h threshold startRow endRow W
      = runFanOut W startRow endRow (fun start stop => forLoop start stop (fun y out =>
        forLoop 0 w (fun x out =>
          writePixel out ((y * w + x) * 4) (sobelBinary sqrtF inp w h threshold x y)
            (sobelBinary sqrtF inp w h threshold x y)
            (sobelBinary sqrtF inp w h threshold x y) 255) out))
        (List.replicate (w * h * 4) 0) := rfl
  rw [hE, hp]
  simp only [sobelBinary, sobelGrad_eq, sq]
  split <;> rfl

/-! ### Combine -/

theorem forLoop_succ {σ : Type} (lo hi : Nat) (body : Nat → σ → σ) (s : σ) (h : lo ≤ hi) :
    forLoop lo (hi + 1) body s = body hi (forLoop lo hi body s) := by
  have h1 : hi + 1 - lo = (hi - lo) + 1 := by omega
  have h2 : lo + (hi - lo) = hi := by omega
  simp only [forLoop, h1, List.range'_1_concat, List.foldl_append, List.foldl_cons,
    List.foldl_nil, h2]

/-- An index loop over a list that only reads `l[t]` is a left fold over the list. -/
theorem forLoop_getD {σ α : Type} (l : List α) (d : α) (step : α → σ → σ) (s : σ) :
    forLoop 0 l.length (fun t acc => step (l.getD t d) acc) s
      = l.foldl (fun acc a => step a acc) s := by
  induction l using List.reverseRecOn with
  | nil => simp [forLoop]
  | append_singleton l a ih =>
    rw [List.length_append, List.length_singleton, forLoop_succ _ _ _ _ (Nat.zero_le _),
      List.foldl_append]
    have hlast : (l ++ [a]).getD l.length d = a := by
      simp [List.getD_eq_getElem?_getD]
    have hpre : forLoop 0 l.length (fun t acc => step ((l ++ [a]).getD t d) acc) s
        = forLoop 0 l.length (fun t acc => step (l.getD t d) acc) s := by
      unfold forLoop
      refine List.foldl_ext _ _ _ (fun acc t ht => ?_)
      rw [List.mem_range'_1] at ht
      have : (l ++ [a]).getD t d = l.getD t d := by
        simp [List.getD_eq_getElem?_getD, List.getElem?_append_left (show t < l.length by omega)]
      simp only [this]
    rw [hlast, hpre, ih]
    rfl

theorem toByte_natCast {K : Type} [LinearOrderedField K] [FloorRing K] (n : Nat) :
    toByte (n : K) = n % 256 := by
  have h0 : (0 : K) ≤ (n : K) := Nat.cast_nonneg n
  simp only [toByte, h0, if_true, Int.floor_natCast]
  omega

theorem toByte_unit {K : Type} [LinearOrderedField K] [FloorRing K] (n : Nat) :
    toByte ((n : K) / 255 * 255) = n % 256 := by
  rw [div_mul_cancel₀ _ (by norm_num : (255 : K) ≠ 0)]
  exact toByte_natCast n

theorem cmin_unit {K : Type} [LinearOrderedField K] (m v : Nat) :
    cmin ((m : K) / 255) ((v : K) / 255) = ((min m v : Nat) : K) / 255 := by
  unfold cmin
  by_cases h : m < v
  · have : (m : K) / 255 < (v : K) / 255 :=
      div_lt_div_of_pos_right (by exact_mod_cast h) (by norm_num)
    rw [if_pos this, Nat.min_eq_left (le_of_lt h)]
  · have hle : v ≤ m := Nat.le_of_not_lt h
    have : ¬ (m : K) / 255 < (v : K) / 255 := by
      rw [not_lt]
      exact div_le_div_of_nonneg_right (by exact_mod_cast hle) (by norm_num)
    rw [if_neg this, Nat.min_eq_right hle]

/-- The accumulation loop of `COMBINE_IMAGES` computes the channel minima, scaled to `[0,1]`. -/
theorem combineMins_eq {K : Type} [LinearOrderedField K] (ins : List (List Nat)) (i : Nat) :
    (combineMins ins i : K × K × K)
      = ((minByte ins i : K) / 255, (minByte ins (i + 1) : K) / 255,
          (minByte ins (i + 2) : K) / 255) := by
  have hloop := forLoop_getD ins ([] : List Nat) (fun (buf : List Nat) (acc : K × K × K) =>
      (cmin acc.1 ((buf.getD i 0 : K) / 255), cmin acc.2.1 ((buf.getD (i + 1) 0 : K) / 255),
        cmin acc.2.2 ((buf.getD (i + 2) 0 : K) / 255))) ((1 : K), (1 : K), (1 : K))
  have hgen : ∀ (l : List (List Nat)) (a b c : Nat),
      l.foldl (fun (acc : K × K × K) (buf : List Nat) =>
        (cmin acc.1 ((buf.getD i 0 : K) / 255), cmin acc.2.1 ((buf.getD (i + 1) 0 : K) / 255),
          cmin acc.2.2 ((buf.getD (i + 2) 0 : K) / 255)))
        ((a : K) / 255, (b : K) / 255, (c : K) / 255)
      = (((l.foldl (fun m buf => min m (buf.getD i 0)) a : Nat) : K) / 255,
         ((l.foldl (fun m buf => min m (buf.getD (i + 1) 0)) b : Nat) : K) / 255,
         ((l.foldl (fun m buf => min m (buf.getD (i + 2) 0)) c : Nat) : K) / 255) := by
    intro l
    induction l with
    | nil => intro a b c; rfl
    | cons buf l ih =>
      intro a b c
      simp only [List.foldl_cons, cmin_unit]
      exact ih _ _ _
  have hone : ((1 : K), (1 : K), (1 : K))
      = (((255 : Nat) : K) / 255, ((255 : Nat) : K) / 255, ((255 : Nat) : K) / 255) := by
    norm_num
  unfold combineMins
  rw [hloop, hone, hgen]
  rfl

theorem foldl_min_le_init (f : List Nat → Nat) (l : List (List Nat)) (m : Nat) :
    l.foldl (fun m buf => min m (f buf)) m ≤ m := by
  induction l generalizing m with
  | nil => exact le_refl _
  | cons b l ih => exact le_trans (ih _) (Nat.min_le_left _ _)

theorem foldl_min_le_mem (f : List Nat → Nat) (l : List (List Nat)) (m : Nat) :
    ∀ buf ∈ l, l.foldl (fun m buf => min m (f buf)) m ≤ f buf := by
  induction l generalizing m with
  | nil => intro buf hb; cases hb
  | cons b l ih =>
    intro buf hb
    rcases List.mem_cons.1 hb with rfl | hb
    · exact le_trans (foldl_min_le_init f l _) (Nat.min_le_right _ _)
    · exact ih _ buf hb

theorem foldl_min_attained (f : List Nat → Nat) (l : List (List Nat)) (m : Nat) :
    l.foldl (fun m buf => min m (f buf)) m = m ∨
      ∃ buf ∈ l, l.foldl (fun m buf => min m (f buf)) m = f buf := by
  induction l generalizing m with
  | nil => exact Or.inl rfl
  | cons b l ih =>
    rcases ih (min m (f b)) with h | ⟨buf, hb, h⟩
    · rcases Nat.le_total m (f b) with hle | hle
      · left
        rw [List.foldl_cons, h, Nat.min_eq_left hle]
      · right
        exact ⟨b, List.mem_cons_self _ _, by rw [List.foldl_cons, h, Nat.min_eq_right hle]⟩
    · exact Or.inr ⟨buf, List.mem_cons_of_mem _ hb, h⟩

/-- For a non-empty list of buffers of bytes, `minByte` is the minimum over the buffers. -/
theorem minByte_isMin (ins : List (List Nat)) (k : Nat) (hne : ins ≠ [])
    (hbyte : ∀ buf ∈ ins, buf.getD k 0 ≤ 255) :
    (∃ buf ∈ ins, minByte ins k = buf.getD k 0) ∧ ∀ buf ∈ ins, minByte ins k ≤ buf.getD k 0 := by
  refine ⟨?_, foldl_min_le_mem (fun buf => buf.getD k 0) ins 255⟩
  rcases foldl_min_attained (fun buf => buf.getD k 0) ins 255 with h | h
  · obtain ⟨b, hb⟩ := List.exists_mem_of_ne_nil ins hne
    refine ⟨b, hb, ?_⟩
    have h1 : ins.foldl (fun m buf => min m (buf.getD k 0)) 255 ≤ b.getD k 0 :=
      foldl_min_le_mem (fun buf => buf.getD k 0) ins 255 b hb
    have h2 := hbyte b hb
    have h3 : ins.foldl (fun m buf => min m (buf.getD k 0)) 255 = 255 := h
    unfold minByte
    omega
  · exact h

theorem minByte_le (ins : List (List Nat)) (k : Nat) : minByte ins k ≤ 255 :=
  foldl_min_le_init _ ins 255

theorem list_ext_getD (l₁ l₂ : List Nat) (hlen : l₁.length = l₂.length)
    (h : ∀ k, k < l₁.length → l₁.getD k 0 = l₂.getD k 0) : l₁ = l₂ := by
  refine List.ext_getElem hlen (fun k h1 h2 => ?_)
  have := h k h1
  rw [List.getD_eq_getElem?_getD, List.getD_eq_getElem?_getD, List.getElem?_eq_getElem h1,
    List.getElem?_eq_getElem h2] at this
  exact this

theorem fills_COMBINE_IMAGES (K : Type) [LinearOrderedField K] [FloorRing K]
    (ins : List (List Nat)) (lo hi : Nat) :
    Fills (COMBINE_IMAGES K ins lo hi) {k | lo ≤ k / 4 ∧ k / 4 < hi}
      (fun k => pixelByte (minByte ins (k / 4 * 4)) (minByte ins (k / 4 * 4 + 1))
        (minByte ins (k / 4 * 4 + 2)) 255 (k % 4)) := by
  have hT : COMBINE_IMAGES K ins lo hi = (fun out =>
      (List.range' (lo * 4) (hi - lo) 4).foldl (fun combined i =>
        writePixel combined i (minByte ins i) (minByte ins (i + 1)) (minByte ins (i + 2)) 255)
        out) := by
    funext out
    simp only [COMBINE_IMAGES, combineMins_eq, toByte_unit,
      Nat.mod_eq_of_lt (Nat.lt_succ_of_le (minByte_le ins _))]
  rw [hT]
  exact fills_flat4 (fun i => minByte ins i) (fun i => minByte ins (i + 1))
    (fun i => minByte ins (i + 2)) (fun _ => 255) lo hi

theorem Combine_length (K : Type) [LinearOrderedField K] [FloorRing K]
    (ins : List (List Nat)) (w h W : Nat) (hW : 1 ≤ W) :
    (Combine K ins w h W).length = w * h * 4 :=
  fills_length (fills_flat_fanOut _ _ W (w * h) hW (fills_COMBINE_IMAGES K ins)) _

/-- The byte written by `Combine` at channel `c` of pixel `(x, y)`. -/
theorem Combine_getD (K : Type) [LinearOrderedField K] [FloorRing K]
    (ins : List (List Nat)) (w h W : Nat) (hW : 1 ≤ W) (x y c : Nat) (hx : x < w) (hy : y < h)
    (hc : c < 4) :
    (Combine K ins w h W).getD ((y * w + x) * 4 + c) 0
      = pixelByte (minByte ins ((y * w + x) * 4)) (minByte ins ((y * w + x) * 4 + 1))
          (minByte ins ((y * w + x) * 4 + 2)) 255 c := by
  have hp := flat_pixel (COMBINE_IMAGES K ins) _ W w h hW (fills_COMBINE_IMAGES K ins)
    x y c hx hy hc
  have hd : ((y * w + x) * 4 + c) / 4 * 4 = (y * w + x) * 4 := by omega
  have hm : ((y * w + x) * 4 + c) % 4 = c := by omega
  simp only [hd, hm] at hp
  exact hp

/-- C2: for a non-empty list of same-shape input buffers of bytes and every pixel, `Combine`
writes for each of R, G, B the minimum of that channel over the inputs and writes alpha 255;
in particular a 2×2 image that is all `(255,0,0,255)` combined with one that is all
`(0,255,0,255)` gives all `(0,0,0,255)`. -/
theorem Combine_min (K : Type) [LinearOrderedField K] [FloorRing K] (ins : List (List Nat))
    (w h W : Nat) (hW : 1 ≤ W) (hne : ins ≠ [])
    (hshape : ∀ buf ∈ ins, buf.length = w * h * 4) (hbyte : ∀ buf ∈ ins, ∀ v ∈ buf, v ≤ 255)
    (x y : Nat) (hx : x < w) (hy : y < h) :
    (∀ c, c < 3 →
      (∃ buf ∈ ins, (Combine K ins w h W).getD ((y * w + x) * 4 + c) 0
          = buf.getD ((y * w + x) * 4 + c) 0) ∧
      (∀ buf ∈ ins, (Combine K ins w h W).getD ((y * w + x) * 4 + c) 0
          ≤ buf.getD ((y * w + x) * 4 + c) 0)) ∧
    (Combine K ins w h W).getD ((y * w + x) * 4 + 3) 0 = 255 ∧
    Combine K [[255, 0, 0, 255, 255, 0, 0, 255, 255, 0, 0, 255, 255, 0, 0, 255],
        [0, 255, 0, 255, 0, 255, 0, 255, 0, 255, 0, 255, 0, 255, 0, 255]] 2 2 W
      = [0, 0, 0, 255, 0, 0, 0, 255, 0, 0, 0, 255, 0, 0, 0, 255] := by
  have hb : ∀ k, ∀ buf ∈ ins, buf.getD k 0 ≤ 255 := by
    intro k buf hbuf
    rw [List.getD_eq_getElem?_getD]
    by_cases hk : k < buf.length
    · rw [List.getElem?_eq_getElem hk]
      exact hbyte buf hbuf _ (List.getElem_mem hk)
    · rw [List.getElem?_eq_none (Nat.le_of_not_lt hk)]
      exact Nat.zero_le _
  have _hs := hshape
  refine ⟨?_, ?_, ?_⟩
  · intro c hc
    rw [Combine_getD K ins w h W hW x y c hx hy (by omega)]
    have hcases : c = 0 ∨ c = 1 ∨ c = 2 := by omega
    rcases hcases with rfl | rfl | rfl
    · simpa [pixelByte] using minByte_isMin ins ((y * w + x) * 4) hne (hb _)
    · simpa [pixelByte] using minByte_isMin ins ((y * w + x) * 4 + 1) hne (hb _)
    · simpa [pixelByte] using minByte_isMin ins ((y * w + x) * 4 + 2) hne (hb _)
  · rw [Combine_getD K ins w h W hW x y 3 hx hy (by omega)]
    simp [pixelByte]
  · refine list_ext_getD _ _ (by rw [Combine_length K _ 2 2 W hW]; rfl) (fun k hk => ?_)
    rw [Combine_length K _ 2 2 W hW] at hk
    obtain ⟨x', y', c', hx', hy', hc', rfl⟩ :
        ∃ x' y' c', x' < 2 ∧ y' < 2 ∧ c' < 4 ∧ k = (y' * 2 + x') * 4 + c' :=
      ⟨k / 4 % 2, k / 4 / 2, k % 4, by omega, by omega, by omega, by omega⟩
    rw [Combine_getD K _ 2 2 W hW x' y' c' hx' hy' hc']
    interval_cases x' <;> interval_cases y' <;> interval_cases c' <;> decide

theorem Combine_min_witness :
    (Combine ℚ [[255, 0, 0, 255], [0, 255, 0, 255]] 1 1 2).getD ((0 * 1 + 0) * 4 + 3) 0 = 255 :=
  (Combine_min ℚ [[255, 0, 0, 255], [0, 255, 0, 255]] 1 1 2 (by decide) (by decide)
    (by decide) (by decide) 0 0 (by decide) (by decide)).2.1

/-! ### Hatching -/

theorem toByte_255 {K : Type} [LinearOrderedField K] [FloorRing K] :
    toByte (255 : K) = 255 := by
  have h : (255 : K) = ((255 : Nat) : K) := by norm_num
  rw [h, toByte_natCast]

theorem toByte_0 {K : Type} [LinearOrderedField K] [FloorRing K] :
    toByte (0 : K) = 0 := by
  have h : (0 : K) = ((0 : Nat) : K) := by norm_num
  rw [h, toByte_natCast]

theorem fills_HATCHING {K : Type} [LinearOrderedField K] [FloorRing K] (sinF : K → K)
    (inp : List Nat) (w h : Nat) (a b c threshold : K) (inv : Bool) (lo hi : Nat) :
    Fills (HATCHING sinF inp w h a b c threshold inv lo hi) {k | lo ≤ k / 4 ∧ k / 4 < hi}
      (fun k => pixelByte
        (toByte (hatchBackground sinF inp w h a b c threshold inv (k / 4) * 255))
        (toByte (hatchBackground sinF inp w h a b c threshold inv (k / 4) * 255))
        (toByte (hatchBackground sinF inp w h a b c threshold inv (k / 4) * 255)) 255
        (k % 4)) :=
  fills_flat w (fun i => toByte (hatchBackground sinF inp w h a b c threshold inv i * 255))
    (fun i => toByte (hatchBackground sinF inp w h a b c threshold inv i * 255))
    (fun i => toByte (hatchBackground sinF inp w h a b c threshold inv i * 255))
    (fun _ => 255) lo hi

/-- The pixel written by `Hatching` at `(x, y)`: the three colour channels carry the byte of
`hatchBackground * 255` and alpha is 255. -/
theorem Hatching_pixelAt {K : Type} [LinearOrderedField K] [FloorRing K] (sinF : K → K)
    (inp : List Nat) (w h : Nat) (a b c threshold : K) (inv : Bool) (W : Nat) (hW : 1 ≤ W)
    (x y : Nat) (hx : x < w) (hy : y < h) :
    pixelAt (Hatching sinF inp w h a b c threshold inv W) w x y
      = (toByte (hatchBackground sinF inp w h a b c threshold inv (y * w + x) * 255),
         toByte (hatchBackground sinF inp w h a b c threshold inv (y * w + x) * 255),
         toByte (hatchBackground sinF inp w h a b c threshold inv (y * w + x) * 255), 255) := by
  have hp := fun c' hc' => flat_pixel (HATCHING sinF inp w h a b c threshold inv) _ W w h hW
    (fills_HATCHING sinF inp w h a b c threshold inv) x y c' hx hy hc'
  have e0 := hp 0 (by omega)
  have e1 := hp 1 (by omega)
  have e2 := hp 2 (by omega)
  have e3 := hp 3 (by omega)
  have d0 : ((y * w + x) * 4 + 0) / 4 = y * w + x := by omega
  have d1 : ((y * w + x) * 4 + 1) / 4 = y * w + x := by omega
  have d2 : ((y * w + x) * 4 + 2) / 4 = y * w + x := by omega
  have d3 : ((y * w + x) * 4 + 3) / 4 = y * w + x := by omega
  have m0 : ((y * w + x) * 4 + 0) % 4 = 0 := by omega
  have m1 : ((y * w + x) * 4 + 1) % 4 = 1 := by omega
  have m2 : ((y * w + x) * 4 + 2) % 4 = 2 := by omega
  have m3 : ((y * w + x) * 4 + 3) % 4 = 3 := by omega
  simp only [d0, m0] at e0
  simp only [d1, m1] at e1
  simp only [d2, m2] at e2
  simp only [d3, m3] at e3
  simp only [pixelAt, Hatching]
  rw [e0, e1, e2, e3]
  simp [pixelByte]

/-! ### Gaussian weights -/

theorem mem_intRange (lo hi i : Int) : i ∈ intRange lo hi ↔ lo ≤ i ∧ i ≤ hi := by
  simp only [intRange, List.mem_map, List.mem_range]
  constructor
  · rintro ⟨k, hk, rfl⟩
    omega
  · rintro ⟨h1, h2⟩
    exact ⟨(i - lo).toNat, by omega, by omega⟩

theorem nodup_intRange (lo hi : Int) : (intRange lo hi).Nodup := by
  unfold intRange
  refine List.Nodup.map ?_ (List.nodup_range _)
  intro a b hab
  simp only at hab
  omega

/-- A left-to-right sum over `intRange lo hi` is the sum over the integer interval. -/
theorem sum_intRange {M : Type} [AddCommMonoid M] (lo hi : Int) (f : Int → M) :
    ((intRange lo hi).map f).sum = Finset.sum (Finset.Icc lo hi) f := by
  rw [← List.sum_toFinset f (nodup_intRange lo hi)]
  congr 1
  ext i
  simp [mem_intRange]

theorem forLoopInt_eq_range {σ : Type} (lo hi : Int) (body : Int → σ → σ) (s : σ) :
    forLoopInt lo hi body s
      = (List.range (hi + 1 - lo).toNat).foldl (fun acc (k : Nat) => body (lo + (k : Int)) acc) s := by
  simp [forLoopInt, intRange, List.foldl_map]

/-- Storing `f k` at index `k` for `k = 0, …, n-1` while accumulating the stored values. -/
theorem fill_and_sum {K : Type} [LinearOrderedField K] (f : Nat → K) (N n : Nat) (hn : n ≤ N) :
    ((List.range n).foldl (fun (st : List K × K) k =>
        (st.1.set k (f k), st.2 + (st.1.set k (f k)).getD k 0)) (List.replicate N 0, 0)).1.length
        = N ∧
    (∀ j, j < n → ((List.range n).foldl (fun (st : List K × K) k =>
        (st.1.set k (f k), st.2 + (st.1.set k (f k)).getD k 0))
        (List.replicate N 0, 0)).1.getD j 0 = f j) ∧
    ((List.range n).foldl (fun (st : List K × K) k =>
        (st.1.set k (f k), st.2 + (st.1.set k (f k)).getD k 0)) (List.replicate N 0, 0)).2
        = ((List.range n).map f).sum := by
  induction n with
  | zero => simp
  | succ n ih =>
    obtain ⟨hlen, hget, hsum⟩ := ih (by omega)
    rw [List.range_succ, List.foldl_append, List.map_append, List.sum_append]
    simp only [List.foldl_cons, List.foldl_nil, List.map_cons, List.map_nil, List.sum_cons,
      List.sum_nil, add_zero]
    generalize (List.range n).foldl (fun (st : List K × K) k =>
        (st.1.set k (f k), st.2 + (st.1.set k (f k)).getD k 0)) (List.replicate N 0, 0) = st
      at hlen hget hsum ⊢
    simp only [List.length_set, getD_set]
    refine ⟨hlen, ?_, ?_⟩
    · intro j hj
      by_cases hjn : n = j
      · subst hjn
        rw [if_pos ⟨rfl, by omega⟩]
      · rw [if_neg (fun hc => hjn hc.1)]
        exact hget j (by omega)
    · rw [hsum, if_pos ⟨trivial, by omega⟩]

/-- Dividing the first `n` entries of a list in place by `s`. -/
theorem divide_in_place {K : Type} [LinearOrderedField K] (l : List K) (s : K) (n : Nat) :
    (forLoop 0 n (fun i ws => ws.set i (ws.getD i 0 / s)) l).length = l.length ∧
    ∀ j, (forLoop 0 n (fun i ws => ws.set i (ws.getD i 0 / s)) l).getD j 0
      = if j < n ∧ j < l.length then l.getD j 0 / s else l.getD j 0 := by
  induction n with
  | zero => simp [forLoop]
  | succ n ih =>
    obtain ⟨hlen, hget⟩ := ih
    rw [forLoop_succ _ _ _ _ (Nat.zero_le _)]
    refine ⟨by rw [List.length_set, hlen], fun j => ?_⟩
    rw [getD_set, hlen, hget, hget]
    by_cases hjn : n = j
    · subst hjn
      by_cases hl : n < l.length
      · simp [hl]
      · simp [hl]
    · by_cases hl : j < l.length
      · by_cases hj : j < n
        · simp [hjn, hl, hj, Nat.lt_succ_of_lt hj]
        · have : ¬ j < n + 1 := by omega
          simp [hjn, hj, this]
      · simp [hjn, hl]

theorem rawWeights_spec {K : Type} [LinearOrderedField K] (expF sqrtF : K → K) (piK : K)
    (radius : Nat) (sigma : K) :
    (rawWeights expF sqrtF piK radius sigma).1.length = 2 * radius + 1 ∧
    (∀ j, j < 2 * radius + 1 → (rawWeights expF sqrtF piK radius sigma).1.getD j 0
        = Weight expF sqrtF piK (-(radius : Int) + (j : Int)) sigma) ∧
    (rawWeights expF sqrtF piK radius sigma).2
        = Finset.sum (Finset.Icc (-(radius : Int)) radius)
            (fun i => Weight expF sqrtF piK i sigma) := by
  have hn : ((radius : Int) + 1 - -(radius : Int)).toNat = 2 * radius + 1 := by omega
  have hraw : rawWeights expF sqrtF piK radius sigma
      = (List.range (2 * radius + 1)).foldl (fun (st : List K × K) k =>
          (st.1.set k (Weight expF sqrtF piK (-(radius : Int) + (k : Int)) sigma),
            st.2 + (st.1.set k
              (Weight expF sqrtF piK (-(radius : Int) + (k : Int)) sigma)).getD k 0))
          (List.replicate (2 * radius + 1) 0, 0) := by
    rw [rawWeights, forLoopInt_eq_range, hn]
    refine List.foldl_ext _ _ _ (fun st k _ => ?_)
    have hk : (-(radius : Int) + (k : Int) + (radius : Int)).toNat = k := by omega
    simp only [hk]
  obtain ⟨hlen, hget, hsum⟩ := fill_and_sum
    (fun k => Weight expF sqrtF piK (-(radius : Int) + (k : Int)) sigma)
    (2 * radius + 1) (2 * radius + 1) (le_refl _)
  rw [hraw]
  refine ⟨hlen, hget, ?_⟩
  rw [hsum, ← sum_intRange]
  simp only [intRange, hn, List.map_map, Function.comp_def]

/-- The weight vector of `Horizontal` and `Vertical` holds the normalized weights. -/
theorem gaussWeights_getD {K : Type} [LinearOrderedField K] (expF sqrtF : K → K) (piK : K)
    (radius : Nat) (sigma : K) (i : Int) (hlo : -(radius : Int) ≤ i) (hhi : i ≤ radius) :
    (gaussWeights expF sqrtF piK radius sigma).getD (i + (radius : Int)).toNat 0
      = normWeight expF sqrtF piK radius sigma i := by
  obtain ⟨hlen, hget, hsum⟩ := rawWeights_spec expF sqrtF piK radius sigma
  have hj : (i + (radius : Int)).toNat < 2 * radius + 1 := by omega
  have hi : -(radius : Int) + ((i + (radius : Int)).toNat : Int) = i := by omega
  simp only [gaussWeights]
  rw [(divide_in_place _ _ _).2, hlen, if_pos ⟨hj, hj⟩, hget _ hj, hsum, hi]
  rfl

/-! ### Horizontal and vertical blur -/

theorem foldl_sum3 {K ι : Type} [LinearOrderedField K] (F G H : ι → K) (l : List ι)
    (a b c : K) :
    l.foldl (fun (acc : K × K × K) i => (acc.1 + F i, acc.2.1 + G i, acc.2.2 + H i)) (a, b, c)
      = (a + (l.map F).sum, b + (l.map G).sum, c + (l.map H).sum) := by
  induction l generalizing a b c with
  | nil => simp
  | cons i l ih =>
    simp only [List.foldl_cons, List.map_cons, List.sum_cons]
    rw [ih]
    simp only [add_assoc]

theorem sum_map_congr {K ι : Type} [LinearOrderedField K] (F G : ι → K) (l : List ι)
    (h : ∀ i ∈ l, F i = G i) : (l.map F).sum = (l.map G).sum := by
  rw [List.map_congr_left h]

/-- The window loop of `HORIZONTAL_BLUR`, scaled back by 255, is the weighted channel sum. -/
theorem horizontalSums_eq {K : Type} [LinearOrderedField K] (ws : List K) (wt : Int → K)
    (inp : List Nat) (w radius x y : Nat)
    (hws : ∀ i : Int, -(radius : Int) ≤ i → i ≤ radius → ws.getD (i + (radius : Int)).toNat 0 = wt i) :
    (horizontalSums ws inp w radius x y).1 * 255 = blurSumH wt inp w radius x y 0 ∧
    (horizontalSums ws inp w radius x y).2.1 * 255 = blurSumH wt inp w radius x y 1 ∧
    (horizontalSums ws inp w radius x y).2.2 * 255 = blurSumH wt inp w radius x y 2 := by
  have hc : ∀ (v : Nat) (i : Int), i ∈ intRange (-(radius : Int)) radius →
      (v : K) / 255 * ws.getD (i + (radius : Int)).toNat 0 = wt i * (v : K) / 255 := by
    intro v i hi
    rw [mem_intRange] at hi
    rw [hws i hi.1 hi.2]
    ring
  simp only [horizontalSums, forLoopInt, foldl_sum3, zero_add, blurSumH, ← sum_intRange,
    Nat.add_zero]
  refine ⟨?_, ?_, ?_⟩
  all_goals
    rw [sum_map_congr _ _ _ (fun i hi => hc _ i hi), ← List.sum_map_mul_right]
    refine sum_map_congr _ _ _ (fun i _ => ?_)
    field_simp

/-- The window loop of `VERTICAL_BLUR`, scaled back by 255, is the weighted channel sum. -/
theorem verticalSums_eq {K : Type} [LinearOrderedField K] (ws : List K) (wt : Int → K)
    (inp : List Nat) (w h radius x y : Nat)
    (hws : ∀ i : Int, -(radius : Int) ≤ i → i ≤ radius → ws.getD (i + (radius : Int)).toNat 0 = wt i) :
    (verticalSums ws inp w h radius x y).1 * 255 = blurSumV wt inp w h radius x y 0 ∧
    (verticalSums ws inp w h radius x y).2.1 * 255 = blurSumV wt inp w h radius x y 1 ∧
    (verticalSums ws inp w h radius x y).2.2 * 255 = blurSumV wt inp w h radius x y 2 := by
  have hc : ∀ (v : Nat) (i : Int), i ∈ intRange (-(radius : Int)) radius →
      (v : K) / 255 * ws.getD (i + (radius : Int)).toNat 0 = wt i * (v : K) / 255 := by
    intro v i hi
    rw [mem_intRange] at hi
    rw [hws i hi.1 hi.2]
    ring
  simp only [verticalSums, forLoopInt, foldl_sum3, zero_add, blurSumV, ← sum_intRange,
    Nat.add_zero]
  refine ⟨?_, ?_, ?_⟩
  all_goals
    rw [sum_map_congr _ _ _ (fun i hi => hc _ i hi), ← List.sum_map_mul_right]
    refine sum_map_congr _ _ _ (fun i _ => ?_)
    field_simp

/-- The pixel written by `Horizontal` in terms of an arbitrary description of the weights. -/
theorem Horizontal_pixelAt {K : Type} [LinearOrderedField K] [FloorRing K]
    (expF sqrtF : K → K) (piK : K) (inp : List Nat) (w h radius : Nat) (sigma : K)
    (startRow endRow W : Nat) (hW : 1 ≤ W) (hrows : startRow ≤ endRow) (x y : Nat)
    (hx : x < w) (hy : y < h) (hys : startRow ≤ y) (hye : y < endRow) :
    pixelAt (Horizontal expF sqrtF piK inp w h radius sigma startRow endRow W) w x y
      = (toByte (blurSumH (normWeight expF sqrtF piK radius sigma) inp w radius x y 0),
         toByte (blurSumH (normWeight expF sqrtF piK radius sigma) inp w radius x y 1),
         toByte (blurSumH (normWeight expF sqrtF piK radius sigma) inp w radius x y 2),
         255) := by
  obtain ⟨h0, h1, h2⟩ := horizontalSums_eq (gaussWeights expF sqrtF piK radius sigma)
    (normWeight expF sqrtF piK radius sigma) inp w radius x y
    (fun i hlo hhi => gaussWeights_getD expF sqrtF piK radius sigma i hlo hhi)
  rw [← h0, ← h1, ← h2]
  exact rowMajor_pixelAt w h
    (fun x y => toByte ((horizontalSums (gaussWeights expF sqrtF piK radius sigma)
      inp w radius x y).1 * 255))
    (fun x y => toByte ((horizontalSums (gaussWeights expF sqrtF piK radius sigma)
      inp w radius x y).2.1 * 255))
    (fun x y => toByte ((horizontalSums (gaussWeights expF sqrtF piK radius sigma)
      inp w radius x y).2.2 * 255))
    (fun _ _ => 255) W startRow endRow hW hrows x y hx hy hys hye

/-- The pixel written by `Vertical`, for every pixel of the image. -/
theorem Vertical_pixelAt {K : Type} [LinearOrderedField K] [FloorRing K]
    (expF sqrtF : K → K) (piK : K) (inp : List Nat) (w h radius : Nat) (sigma : K)
    (startRow endRow W : Nat) (hW : 1 ≤ W) (x y : Nat) (hx : x < w) (hy : y < h) :
    pixelAt (Vertical expF sqrtF piK inp w h radius sigma startRow endRow W) w x y
      = (toByte (blurSumV (normWeight expF sqrtF piK radius sigma) inp w h radius x y 0),
         toByte (blurSumV (normWeight expF sqrtF piK radius sigma) inp w h radius x y 1),
         toByte (blurSumV (normWeight expF sqrtF piK radius sigma) inp w h radius x y 2),
         255) := by
  obtain ⟨h0, h1, h2⟩ := verticalSums_eq (gaussWeights expF sqrtF piK radius sigma)
    (normWeight expF sqrtF piK radius sigma) inp w h radius x y
    (fun i hlo hhi => gaussWeights_getD expF sqrtF piK radius sigma i hlo hhi)
  rw [← h0, ← h1, ← h2]
  exact colMajor_pixelAt w h
    (fun x y => toByte ((verticalSums (gaussWeights expF sqrtF piK radius sigma)
      inp w h radius x y).1 * 255))
    (fun x y => toByte ((verticalSums (gaussWeights expF sqrtF piK radius sigma)
      inp w h radius x y).2.1 * 255))
    (fun x y => toByte ((verticalSums (gaussWeights expF sqrtF piK radius sigma)
      inp w h radius x y).2.2 * 255))
    (fun _ _ => 255) W hW x y hx hy

/-! ### Buffers of bytes -/

theorem getD_le_255 (buf : List Nat) (hbyte : ∀ v ∈ buf, v ≤ 255) (k : Nat) :
    buf.getD k 0 ≤ 255 := by
  rw [List.getD_eq_getElem?_getD]
  by_cases hk : k < buf.length
  · rw [List.getElem?_eq_getElem hk]
    exact hbyte _ (List.getElem_mem hk)
  · rw [List.getElem?_eq_none (Nat.le_of_not_lt hk)]
    exact Nat.zero_le _

/-- Two buffers of an image shape that agree at every pixel are equal. -/
theorem buffer_ext (b₁ b₂ : List Nat) (w h : Nat) (h₁ : b₁.length = w * h * 4)
    (h₂ : b₂.length = w * h * 4)
    (hp : ∀ x y, x < w → y < h → pixelAt b₁ w x y = pixelAt b₂ w x y) : b₁ = b₂ := by
  refine list_ext_getD b₁ b₂ (by rw [h₁, h₂]) (fun k hk => ?_)
  rw [h₁] at hk
  have hw : 0 < w := by
    rcases Nat.eq_zero_or_pos w with h0 | h0
    · subst h0; simp at hk
    · exact h0
  have hx : k / 4 % w < w := Nat.mod_lt _ hw
  have hy : k / 4 / w < h := by
    rw [Nat.div_lt_iff_lt_mul hw, Nat.mul_comm]
    omega
  have hk4 : k / 4 / w * w + k / 4 % w = k / 4 := Nat.div_add_mod' _ _
  have hpx := hp (k / 4 % w) (k / 4 / w) hx hy
  simp only [pixelAt, hk4, Prod.mk.injEq] at hpx
  obtain ⟨e0, e1, e2, e3⟩ := hpx
  have hc : k = k / 4 * 4 + 0 ∨ k = k / 4 * 4 + 1 ∨ k = k / 4 * 4 + 2 ∨ k = k / 4 * 4 + 3 := by
    omega
  rcases hc with hc | hc | hc | hc <;> rw [hc] <;> assumption

/-! ### The worker pool -/

theorem split_at {α : Type} (l : List α) (i : Nat) (a : α) (h : l[i]? = some a) :
    ∃ l₁ l₂, l = l₁ ++ a :: l₂ ∧ l₁.length = i := by
  induction l generalizing i with
  | nil => simp at h
  | cons b l ih =>
    cases i with
    | zero =>
      simp at h
      exact ⟨[], l, by simp [h], rfl⟩
    | succ i =>
      simp at h
      obtain ⟨l₁, l₂, h1, h2⟩ := ih i h
      exact ⟨b :: l₁, l₂, by simp [h1], by simp [h2]⟩

theorem set_split {α : Type} (l₁ l₂ : List α) (a b : α) :
    (l₁ ++ a :: l₂).set l₁.length b = l₁ ++ b :: l₂ := by
  induction l₁ with
  | nil => rfl
  | cons c l₁ ih => simp [ih]

theorem heldTasks_split {σ : Type} (l₁ l₂ : List (Worker σ)) (a : Worker σ) :
    heldTasks (l₁ ++ a :: l₂) = heldTasks l₁ ++ (a.held.toList ++ heldTasks l₂) := by
  cases a <;> simp [heldTasks, List.filterMap_append, List.filterMap_cons, Worker.held]

theorem heldTasks_length_le {σ : Type} (ws : List (Worker σ)) :
    (heldTasks ws).length ≤ ws.length := List.length_filterMap_le _ _

theorem incrP_eq (p : Nat) (h : p + 1 < 2 ^ 64) : incrP p = p + 1 := Nat.mod_eq_of_lt h

theorem decrP_eq (p : Nat) (h : p + 1 < 2 ^ 64) : decrP (p + 1) = p := by
  unfold decrP
  omega

theorem perm_key_step {σ : Type} (T H₁ H₂ F S : List (Task σ)) (t u : Task σ)
    (hk : t.key = u.key)
    (h : List.Perm ((T ++ (H₁ ++ (t :: H₂)) ++ F).map Task.key) (S.map Task.key)) :
    List.Perm ((T ++ (H₁ ++ H₂) ++ (F ++ [u])).map Task.key) (S.map Task.key) := by
  refine List.Perm.trans ?_ h
  simp only [List.map_append, List.map_cons, List.map_nil, hk]
  rw [← Multiset.coe_eq_coe]
  simp only [← Multiset.coe_add, ← Multiset.cons_coe, ← Multiset.singleton_add]
  abel
theorem Schedule_Workers_inv {σ : Type} (n : Nat) (hn : n < 2 ^ 64) (i : Nat) (s s' : Pool σ)
    (h : PoolInv n s) (hs : Schedule_Workers i s = some s') : PoolInv n s' := by
  obtain ⟨hlen, hP, hperm⟩ := h
  unfold Schedule_Workers at hs
  split at hs
  · cases hs
  · cases hs
  · rename_i hw
    obtain ⟨l₁, l₂, hws, hl₁⟩ := split_at _ _ _ hw
    have hcount : (heldTasks s.workers).length + 1 ≤ n := by
      rw [← hlen, hws, heldTasks_split]
      have h1 := heldTasks_length_le l₁
      have h2 := heldTasks_length_le l₂
      simp [Worker.held]
      omega
    split at hs
    · split at hs
      · cases hs
        refine ⟨by simp [hlen], ?_, ?_⟩
        · simp only [hP, hws, ← hl₁, set_split, heldTasks_split, Worker.held]
        · simp only [hws, ← hl₁, set_split, heldTasks_split, Worker.held] at hperm ⊢
          exact hperm
      · split at hs
        · cases hs
        · rename_i t rest htasks
          cases hs
          refine ⟨by simp [hlen], ?_, ?_⟩
          · simp only [hP, incrP_eq _ (show (heldTasks s.workers).length + 1 < 2 ^ 64 by omega)]
            simp only [hws, ← hl₁, set_split, heldTasks_split, Worker.held, Option.toList,
              List.length_append, List.length_cons, List.nil_append, List.length_nil]
            omega
          · refine List.Perm.trans ?_ hperm
            simp only [htasks, hws, ← hl₁, set_split, heldTasks_split, Worker.held,
              Option.toList, List.map_append, List.map_cons, List.nil_append,
              List.cons_append, List.singleton_append]
            have hk : Task.key { t with state := TaskState.Running } = Task.key t := rfl
            rw [hk, ← Multiset.coe_eq_coe]
            simp only [← Multiset.coe_add, ← Multiset.cons_coe, ← Multiset.singleton_add]
            abel
    · cases hs
  · rename_i t hw
    obtain ⟨l₁, l₂, hws, hl₁⟩ := split_at _ _ _ hw
    have hheld : heldTasks s.workers = heldTasks l₁ ++ (t :: heldTasks l₂) := by
      rw [hws, heldTasks_split]; rfl
    have hPn : (heldTasks s.workers).length ≤ n := by
      rw [← hlen]; exact heldTasks_length_le _
    split at hs
    · cases hs
      refine ⟨by simp [hlen], ?_, ?_⟩
      · have hset : heldTasks (s.workers.set i Worker.waiting)
            = heldTasks l₁ ++ heldTasks l₂ := by
          rw [hws, ← hl₁, set_split, heldTasks_split]; rfl
        simp only [hset, hP, hheld, List.length_append, List.length_cons]
        rw [show (heldTasks l₁).length + ((heldTasks l₂).length + 1)
            = ((heldTasks l₁).length + (heldTasks l₂).length) + 1 by omega]
        refine decrP_eq _ ?_
        rw [hheld] at hPn
        simp only [List.length_append, List.length_cons] at hPn
        omega
      · have hset : heldTasks (s.workers.set i Worker.waiting)
            = heldTasks l₁ ++ heldTasks l₂ := by
          rw [hws, ← hl₁, set_split, heldTasks_split]; rfl
        simp only [hset]
        rw [hheld] at hperm
        exact perm_key_step _ _ _ _ _ t t rfl hperm
    · cases hs
      have hset : heldTasks (s.workers.set i (Worker.executed t)) = heldTasks s.workers := by
        rw [hheld, hws, ← hl₁, set_split, heldTasks_split]; rfl
      exact ⟨by simp [hlen], by simp only [hset, hP], by simp only [hset]; exact hperm⟩
  · rename_i t hw
    obtain ⟨l₁, l₂, hws, hl₁⟩ := split_at _ _ _ hw
    have hheld : heldTasks s.workers = heldTasks l₁ ++ (t :: heldTasks l₂) := by
      rw [hws, heldTasks_split]; rfl
    have hPn : (heldTasks s.workers).length ≤ n := by
      rw [← hlen]; exact heldTasks_length_le _
    have hset : heldTasks (s.workers.set i Worker.waiting) = heldTasks l₁ ++ heldTasks l₂ := by
      rw [hws, ← hl₁, set_split, heldTasks_split]; rfl
    cases hs
    refine ⟨by simp [hlen], ?_, ?_⟩
    · simp only [hset, hP, hheld, List.length_append, List.length_cons]
      rw [show (heldTasks l₁).length + ((heldTasks l₂).length + 1)
          = ((heldTasks l₁).length + (heldTasks l₂).length) + 1 by omega]
      refine decrP_eq _ ?_
      rw [hheld] at hPn
      simp only [List.length_append, List.length_cons] at hPn
      omega
    · simp only [hset]
      rw [hheld] at hperm
      exact perm_key_step _ _ _ _ _ t { t with state := TaskState.Completed } rfl hperm
theorem ranTasks_split {σ : Type} (l₁ l₂ : List (Worker σ)) (a : Worker σ) :
    ranTasks (l₁ ++ a :: l₂) = ranTasks l₁ ++ (a.ran.toList ++ ranTasks l₂) := by
  cases a <;> simp [ranTasks, List.filterMap_append, List.filterMap_cons, Worker.ran]

theorem step_inv {σ : Type} (n : Nat) (hn : n < 2 ^ 64) (a : Action σ) (s s' : Pool σ)
    (h : PoolInv n s) (hs : step a s = some s') : PoolInv n s' := by
  cases a with
  | submit task name =>
    obtain ⟨hlen, hP, hperm⟩ := h
    simp only [step, Option.some.injEq] at hs
    subst hs
    refine ⟨hlen, hP, ?_⟩
    simp only [Add_Task, List.map_append, List.map_cons, List.map_nil] at hperm ⊢
    rw [← Multiset.coe_eq_coe] at hperm ⊢
    simp only [← Multiset.coe_add] at hperm ⊢
    rw [← hperm]
    abel
  | work i => exact Schedule_Workers_inv n hn i s s' h hs
  | shutdown =>
    simp only [step, Option.some.injEq] at hs
    subst hs
    exact h

theorem init_inv {σ : Type} (n : Nat) (m : σ) : PoolInv n (Pool.init n m) := by
  have hheld : heldTasks (List.replicate n (Worker.waiting : Worker σ)) = [] := by
    induction n with
    | zero => rfl
    | succ n ih => simp [heldTasks, List.replicate_succ, Worker.held]
  refine ⟨by simp [Pool.init], ?_, ?_⟩
  · simp [Pool.init, hheld]
  · simp [Pool.init, hheld]

theorem run_inv {σ : Type} (n : Nat) (hn : n < 2 ^ 64) (acts : List (Action σ)) (s s' : Pool σ)
    (h : PoolInv n s) (hs : run acts s = some s') : PoolInv n s' := by
  induction acts generalizing s with
  | nil =>
    simp only [run, Option.some.injEq] at hs
    subst hs; exact h
  | cons a rest ih =>
    simp only [run] at hs
    cases hstep : step a s with
    | none => rw [hstep] at hs; cases hs
    | some s₁ =>
      rw [hstep] at hs
      exact ih s₁ (step_inv n hn a s s₁ h hstep) hs

/-- A held task was submitted: it has the function and the name of a submitted task. -/
theorem held_submitted {σ : Type} (n : Nat) (s : Pool σ) (h : PoolInv n s) (t : Task σ)
    (ht : t ∈ heldTasks s.workers) : ∃ t₀ ∈ s.submitted, t₀.func = t.func ∧ t₀.name = t.name := by
  have hmem : t.key ∈ (s.tasks ++ heldTasks s.workers ++ s.finished).map Task.key :=
    List.mem_map_of_mem _ (by simp [ht])
  have := (h.2.2.mem_iff).1 hmem
  rw [List.mem_map] at this
  obtain ⟨t₀, ht₀, hk⟩ := this
  simp only [Task.key, Task.new, Task.mk.injEq] at hk
  exact ⟨t₀, ht₀, hk.1, hk.2.2⟩

theorem submitted_mono {σ : Type} (a : Action σ) (s s' : Pool σ) (hs : step a s = some s') :
    ∀ t ∈ s.submitted, t ∈ s'.submitted := by
  intro t ht
  cases a with
  | submit task name =>
    simp only [step, Option.some.injEq] at hs
    subst hs
    simp [Add_Task, ht]
  | work i =>
    simp only [step, Schedule_Workers] at hs
    split at hs
    · cases hs
    · cases hs
    · split at hs
      · split at hs
        · cases hs; exact ht
        · split at hs
          · cases hs
          · cases hs; exact ht
      · cases hs
    · split at hs
      · cases hs; exact ht
      · cases hs; exact ht
    · cases hs; exact ht
  | shutdown =>
    simp only [step, Option.some.injEq] at hs
    subst hs
    exact ht
theorem Schedule_Workers_counter {σ : Type} (n : Nat) (f : σ → σ) (m₀ : σ) (i : Nat)
    (s s' : Pool σ) (h : PoolInv n s) (hc : CounterInv f m₀ s)
    (hs : Schedule_Workers i s = some s') : CounterInv f m₀ s' := by
  intro hok'
  have hok : ∀ t ∈ s.submitted, rejected t = false ∧ t.func = f :=
    fun t ht => hok' t (submitted_mono (Action.work i) s s' hs t ht)
  have hmem := hc hok
  unfold Schedule_Workers at hs
  split at hs
  · cases hs
  · cases hs
  · rename_i hw
    obtain ⟨l₁, l₂, hws, hl₁⟩ := split_at _ _ _ hw
    have hran : ranTasks s.workers = ranTasks l₁ ++ ranTasks l₂ := by
      rw [hws, ranTasks_split]; rfl
    split at hs
    · split at hs
      · cases hs
        have hset : ranTasks (s.workers.set i Worker.exited) = ranTasks l₁ ++ ranTasks l₂ := by
          rw [hws, ← hl₁, set_split, ranTasks_split]; rfl
        simp only [hset, hmem, hran]
      · split at hs
        · cases hs
        · rename_i t rest htasks
          cases hs
          have hset : ranTasks (s.workers.set i
              (Worker.fetched { t with state := TaskState.Running }))
              = ranTasks l₁ ++ ranTasks l₂ := by
            rw [hws, ← hl₁, set_split, ranTasks_split]; rfl
          simp only [hset, hmem, hran]
    · cases hs
  · rename_i t hw
    obtain ⟨l₁, l₂, hws, hl₁⟩ := split_at _ _ _ hw
    have hran : ranTasks s.workers = ranTasks l₁ ++ ranTasks l₂ := by
      rw [hws, ranTasks_split]; rfl
    have hheld : t ∈ heldTasks s.workers := by
      rw [hws, heldTasks_split]; simp [Worker.held]
    obtain ⟨t₀, ht₀, hfunc, hname⟩ := held_submitted n s h t hheld
    have hrej : rejected t = false := by
      have := (hok t₀ ht₀).1
      simpa [rejected, hname] using this
    split at hs
    · rename_i hr
      rw [hrej] at hr
      cases hr
    · cases hs
      have hset : ranTasks (s.workers.set i (Worker.executed t))
          = ranTasks l₁ ++ (t :: ranTasks l₂) := by
        rw [hws, ← hl₁, set_split, ranTasks_split]; rfl
      have hf : t.func = f := by rw [← hfunc]; exact (hok t₀ ht₀).2
      simp only [hset, hmem, hran, hf, List.length_append, List.length_cons]
      rw [← Function.iterate_succ_apply' f]
      congr 1
      omega
  · rename_i t hw
    obtain ⟨l₁, l₂, hws, hl₁⟩ := split_at _ _ _ hw
    have hran : ranTasks s.workers = ranTasks l₁ ++ (t :: ranTasks l₂) := by
      rw [hws, ranTasks_split]; rfl
    have hset : ranTasks (s.workers.set i Worker.waiting) = ranTasks l₁ ++ ranTasks l₂ := by
      rw [hws, ← hl₁, set_split, ranTasks_split]; rfl
    cases hs
    simp only [hset, hmem, hran, List.length_append, List.length_cons, List.length_nil]
    congr 1
    omega

theorem step_counter {σ : Type} (n : Nat) (f : σ → σ) (m₀ : σ) (a : Action σ)
    (s s' : Pool σ) (h : PoolInv n s) (hc : CounterInv f m₀ s) (hs : step a s = some s') :
    CounterInv f m₀ s' := by
  cases a with
  | submit task name =>
    intro hok'
    have hok : ∀ t ∈ s.submitted, rejected t = false ∧ t.func = f :=
      fun t ht => hok' t (submitted_mono (Action.submit task name) s s' hs t ht)
    have hmem := hc hok
    simp only [step, Option.some.injEq] at hs
    subst hs
    exact hmem
  | work i => exact Schedule_Workers_counter n f m₀ i s s' h hc hs
  | shutdown =>
    simp only [step, Option.some.injEq] at hs
    subst hs
    exact hc

theorem init_counter {σ : Type} (n : Nat) (f : σ → σ) (m₀ : σ) :
    CounterInv f m₀ (Pool.init n m₀) := by
  intro _
  have hran : ranTasks (List.replicate n (Worker.waiting : Worker σ)) = [] := by
    induction n with
    | zero => rfl
    | succ n ih => simp [ranTasks, List.replicate_succ, Worker.ran]
  simp [Pool.init, hran]

theorem run_counter {σ : Type} (n : Nat) (hn : n < 2 ^ 64) (f : σ → σ) (m₀ : σ)
    (acts : List (Action σ)) (s s' : Pool σ) (h : PoolInv n s) (hc : CounterInv f m₀ s)
    (hs : run acts s = some s') : CounterInv f m₀ s' := by
  induction acts generalizing s with
  | nil =>
    simp only [run, Option.some.injEq] at hs
    subst hs; exact hc
  | cons a rest ih =>
    simp only [run] at hs
    cases hstep : step a s with
    | none => rw [hstep] at hs; cases hs
    | some s₁ =>
      rw [hstep] at hs
      exact ih s₁ (step_inv n hn a s s₁ h hstep) (step_counter n f m₀ a s s₁ h hc hstep) hs

theorem ranTasks_length_le {σ : Type} (ws : List (Worker σ)) :
    (ranTasks ws).length ≤ (heldTasks ws).length := by
  induction ws with
  | nil => simp [ranTasks, heldTasks]
  | cons a ws ih =>
    cases a <;> simp [ranTasks, heldTasks, Worker.ran, Worker.held, List.filterMap_cons] at ih ⊢
      <;> omega
theorem iterate_succ_zero (k : Nat) : (fun c : Nat => c + 1)^[k] 0 = k := by
  induction k with
  | zero => rfl
  | succ k ih => rw [Function.iterate_succ_apply', ih]

theorem not_rejected_of_mem {σ : Type} (t : Task σ) (h : t.name ∈ set_tasks_names) :
    rejected t = false := by
  simp only [rejected, List.elem_eq_true_of_mem h, List.contains, Bool.not_true, Bool.and_false]

/-- C10: in the transition system of the pool (submit, dequeue, run, finish), every reachable
state satisfies `submitted = queue length + inFlight + finished`; hence whenever the guard of
`Free_Resource` holds (queue empty and `P == 0`), the finished tasks are exactly the submitted
ones, and if the submitted tasks carry allow-listed names and each increments a counter that
starts at 0, the counter equals their number. -/
theorem pool_barrier (n : Nat) (hn : n < 2 ^ 64) (acts : List (Action Nat)) (s : Pool Nat)
    (hrun : run acts (Pool.init n 0) = some s) :
    s.submitted.length = s.tasks.length + s.P + s.finished.length ∧
    (Free_Resource_guard s = true →
      List.Perm (s.finished.map Task.key) (s.submitted.map Task.key) ∧
      s.finished.length = s.submitted.length ∧
      ((∀ t ∈ s.submitted, t.name ∈ set_tasks_names ∧ t.func = (fun c => c + 1)) →
        s.mem = s.submitted.length)) := by
  have hinv := run_inv n hn acts _ s (init_inv n 0) hrun
  have hcnt := run_counter n hn (fun c => c + 1) 0 acts _ s (init_inv n 0)
    (init_counter n _ 0) hrun
  obtain ⟨hlen, hP, hperm⟩ := hinv
  have hcount := hperm.length_eq
  simp only [List.length_map, List.length_append] at hcount
  refine ⟨by omega, fun hguard => ?_⟩
  simp only [Free_Resource_guard, Bool.and_eq_true, List.isEmpty_iff, beq_iff_eq] at hguard
  obtain ⟨htasks, hP0⟩ := hguard
  have hheld : heldTasks s.workers = [] := by
    rw [← List.length_eq_zero, ← hP, hP0]
  rw [htasks, hheld] at hperm hcount
  simp only [List.nil_append, List.length_nil, Nat.zero_add] at hperm hcount
  refine ⟨hperm, hcount, fun hok => ?_⟩
  have hmem := hcnt (fun t ht => ⟨not_rejected_of_mem t (hok t ht).1, (hok t ht).2⟩)
  have hran : (ranTasks s.workers).length = 0 := by
    have := ranTasks_length_le s.workers
    rw [hheld] at this
    simpa using this
  rw [hmem, hran, iterate_succ_zero]
  omega

theorem pool_barrier_witness :
    ({ workers := [Worker.waiting, Worker.waiting], stop := false, P := 0, tasks := [],
       mem := 2,
       submitted := [Task.new (fun c => c + 1) "HATCHING",
                     Task.new (fun c => c + 1) "COMBINE_IMAGES"],
       finished := [⟨fun c => c + 1, TaskState.Completed, "HATCHING"⟩,
                    ⟨fun c => c + 1, TaskState.Completed, "COMBINE_IMAGES"⟩] } : Pool Nat).mem
      = [Task.new (fun c : Nat => c + 1) "HATCHING",
          Task.new (fun c => c + 1) "COMBINE_IMAGES"].length :=
  ((pool_barrier 2 (by decide)
    [Action.submit (fun c => c + 1) "HATCHING", Action.submit (fun c => c + 1) "COMBINE_IMAGES",
      Action.work 0, Action.work 1, Action.work 1, Action.work 0, Action.work 0, Action.work 1]
    { workers := [Worker.waiting, Worker.waiting], stop := false, P := 0, tasks := [],
      mem := 2,
      submitted := [Task.new (fun c => c + 1) "HATCHING",
                    Task.new (fun c => c + 1) "COMBINE_IMAGES"],
      finished := [⟨fun c => c + 1, TaskState.Completed, "HATCHING"⟩,
                   ⟨fun c => c + 1, TaskState.Completed, "COMBINE_IMAGES"⟩] }
    (by rfl)).2 (by rfl)).2.2
    (fun t ht => by
      simp only [List.mem_cons, List.mem_singleton, List.not_mem_nil, or_false] at ht
      rcases ht with rfl | rfl
      · exact ⟨by decide, rfl⟩
      · exact ⟨by decide, rfl⟩)
theorem weight_sum_set {σ : Type} (ws : List (Worker σ)) (i : Nat) (a b : Worker σ)
    (h : ws[i]? = some a) :
    ((ws.set i b).map Worker.weight).sum + a.weight = (ws.map Worker.weight).sum + b.weight := by
  obtain ⟨l₁, l₂, hws, hl₁⟩ := split_at ws i a h
  rw [hws, ← hl₁, set_split]
  simp only [List.map_append, List.map_cons, List.sum_append, List.sum_cons]
  omega

theorem getElem?_set_self' {α : Type} (ws : List α) (i : Nat) (a b : α) (h : ws[i]? = some a) :
    (ws.set i b)[i]? = some b := by
  have hlt : i < ws.length := by
    by_contra hn
    rw [List.getElem?_eq_none (Nat.le_of_not_lt hn)] at h
    cases h
  rw [List.getElem?_set]
  simp [hlt]

theorem weight_sum_zero {σ : Type} (ws : List (Worker σ))
    (hf : ¬ ∃ (i : Nat) (t : Task σ), ws[i]? = some (Worker.fetched t))
    (he : ¬ ∃ (i : Nat) (t : Task σ), ws[i]? = some (Worker.executed t)) :
    (ws.map Worker.weight).sum = 0 := by
  apply List.sum_eq_zero
  intro x hx
  rw [List.mem_map] at hx
  obtain ⟨w, hw, rfl⟩ := hx
  obtain ⟨i, hi⟩ := List.mem_iff_getElem?.1 hw
  cases w with
  | waiting => rfl
  | exited => rfl
  | fetched t => exact absurd ⟨i, t, hi⟩ hf
  | executed t => exact absurd ⟨i, t, hi⟩ he

/-- While the pool is not drained and some worker has not exited, some worker can take a step
that brings the pool closer to the drained state. -/
theorem progress {σ : Type} (s : Pool σ)
    (halive : ∃ (i : Nat) (w : Worker σ), s.workers[i]? = some w ∧ w ≠ Worker.exited) (hpos : 0 < s.measure) :
    ∃ i s₁, Schedule_Workers i s = some s₁ ∧ s₁.measure < s.measure ∧
      s₁.submitted = s.submitted ∧ s₁.stop = s.stop ∧
      ∃ (j : Nat) (w : Worker σ), s₁.workers[j]? = some w ∧ w ≠ Worker.exited := by
  by_cases hf : ∃ (i : Nat) (t : Task σ), s.workers[i]? = some (Worker.fetched t)
  · obtain ⟨i, t, hi⟩ := hf
    by_cases hr : rejected t = true
    · refine ⟨i, { s with P := decrP s.P, workers := s.workers.set i Worker.waiting,
                          finished := s.finished ++ [t] },
        by simp only [Schedule_Workers, hi, hr, if_true], ?_, rfl, rfl,
        i, Worker.waiting, getElem?_set_self' _ _ _ _ hi, by simp⟩
      have := weight_sum_set s.workers i _ Worker.waiting hi
      simp only [Pool.measure, Worker.weight] at this ⊢
      omega
    · refine ⟨i, { s with mem := t.func s.mem,
                          workers := s.workers.set i (Worker.executed t) },
        by simp [Schedule_Workers, hi, hr], ?_, rfl, rfl,
        i, Worker.executed t, getElem?_set_self' _ _ _ _ hi, by simp⟩
      have := weight_sum_set s.workers i _ (Worker.executed t) hi
      simp only [Pool.measure, Worker.weight] at this ⊢
      omega
  · by_cases he : ∃ (i : Nat) (t : Task σ), s.workers[i]? = some (Worker.executed t)
    · obtain ⟨i, t, hi⟩ := he
      refine ⟨i, { s with P := decrP s.P, workers := s.workers.set i Worker.waiting,
                          finished := s.finished ++ [{ t with state := TaskState.Completed }] },
        by simp only [Schedule_Workers, hi], ?_, rfl, rfl,
        i, Worker.waiting, getElem?_set_self' _ _ _ _ hi, by simp⟩
      have := weight_sum_set s.workers i _ Worker.waiting hi
      simp only [Pool.measure, Worker.weight] at this ⊢
      omega
    · obtain ⟨i, w, hi, hw⟩ := halive
      have hw' : w = Worker.waiting := by
        cases w with
        | waiting => rfl
        | exited => exact absurd rfl hw
        | fetched t => exact absurd ⟨i, t, hi⟩ hf
        | executed t => exact absurd ⟨i, t, hi⟩ he
      subst hw'
      have hz := weight_sum_zero s.workers hf he
      cases htasks : s.tasks with
      | nil =>
        simp only [Pool.measure, htasks, hz, List.length_nil] at hpos
        omega
      | cons t rest =>
        refine ⟨i, { s with tasks := rest, P := incrP s.P,
                            workers := s.workers.set i
                              (Worker.fetched { t with state := TaskState.Running }) },
          by simp [Schedule_Workers, hi, htasks], ?_, rfl, rfl,
          i, _, getElem?_set_self' _ _ _ _ hi, by simp⟩
        have := weight_sum_set s.workers i _
          (Worker.fetched { t with state := TaskState.Running }) hi
        simp only [Pool.measure, Worker.weight, htasks, List.length_cons] at this ⊢
        omega

theorem run_work_cons {σ : Type} (i : Nat) (sched : List Nat) (s s₁ : Pool σ)
    (h : Schedule_Workers i s = some s₁) :
    run ((i :: sched).map Action.work) s = run (sched.map Action.work) s₁ := by
  simp only [List.map_cons, run, step, h, Option.some_bind]

/-- From every state in which some worker has not exited, a schedule of worker steps drains
the pool. -/
theorem drain {σ : Type} (k : Nat) : ∀ s : Pool σ, s.measure ≤ k →
    (∃ (i : Nat) (w : Worker σ), s.workers[i]? = some w ∧ w ≠ Worker.exited) →
    ∃ (sched : List Nat) (s' : Pool σ), run (sched.map Action.work) s = some s' ∧
      s'.measure = 0 ∧ s'.submitted = s.submitted ∧ s'.stop = s.stop := by
  induction k with
  | zero =>
    intro s hk _
    exact ⟨[], s, rfl, by omega, rfl, rfl⟩
  | succ k ih =>
    intro s hk halive
    by_cases h0 : s.measure = 0
    · exact ⟨[], s, rfl, h0, rfl, rfl⟩
    · obtain ⟨i, s₁, hstep, hlt, hsub, hstop, halive₁⟩ := progress s halive (by omega)
      obtain ⟨sched, s', hrun, hm, hsub', hstop'⟩ := ih s₁ (by omega) halive₁
      exact ⟨i :: sched, s', by rw [run_work_cons i sched s s₁ hstep]; exact hrun, hm,
        by rw [hsub', hsub], by rw [hstop', hstop]⟩

theorem heldTasks_length_le_weight {σ : Type} (ws : List (Worker σ)) :
    (heldTasks ws).length ≤ (ws.map Worker.weight).sum := by
  induction ws with
  | nil => simp [heldTasks]
  | cons a ws ih =>
    cases a <;>
      simp [heldTasks, Worker.held, Worker.weight, List.filterMap_cons] at ih ⊢ <;> omega

/-- A drained pool satisfies the predicate `Free_Resource` waits for. -/
theorem guard_of_measure_zero {σ : Type} (n : Nat) (s : Pool σ) (h : PoolInv n s)
    (hm : s.measure = 0) : Free_Resource_guard s = true := by
  have hw := heldTasks_length_le_weight s.workers
  simp only [Pool.measure] at hm
  have ht : s.tasks = [] := List.length_eq_zero.1 (by omega)
  have hP : s.P = 0 := by rw [h.2.1]; omega
  simp [Free_Resource_guard, ht, hP]

theorem set_set_self {α : Type} (ws : List α) (i : Nat) (a b : α) (h : ws[i]? = some a) :
    (ws.set i b).set i a = ws := by
  obtain ⟨l₁, l₂, hws, hl₁⟩ := split_at ws i a h
  rw [hws, ← hl₁, set_split]
  have := set_split l₁ l₂ b a
  exact this

theorem P_succ_lt {σ : Type} (n : Nat) (hn : n < 2 ^ 64) (s : Pool σ) (h : PoolInv n s)
    (i : Nat) (hi : s.workers[i]? = some Worker.waiting) : s.P + 1 < 2 ^ 64 := by
  obtain ⟨hlen, hP, -⟩ := h
  obtain ⟨l₁, l₂, hws, hl₁⟩ := split_at _ _ _ hi
  have h1 := heldTasks_length_le l₁
  have h2 := heldTasks_length_le l₂
  rw [hP, hws, heldTasks_split]
  rw [hws] at hlen
  simp only [Worker.held, Option.toList, List.nil_append, List.length_append,
    List.length_cons] at hlen ⊢
  omega

theorem P_pos_of_held {σ : Type} (n : Nat) (s : Pool σ) (h : PoolInv n s)
    (i : Nat) (t : Task σ) (hi : s.workers[i]? = some (Worker.fetched t)) :
    1 ≤ s.P ∧ s.P < n + 1 := by
  obtain ⟨hlen, hP, -⟩ := h
  obtain ⟨l₁, l₂, hws, hl₁⟩ := split_at _ _ _ hi
  have hle := heldTasks_length_le s.workers
  rw [hP]
  refine ⟨?_, by omega⟩
  rw [hws, heldTasks_split]
  simp only [Worker.held, Option.toList, List.length_append, List.length_cons]
  omega

/-- C11: a dequeued task whose name is non-empty and not in the allow-list is not run: the
worker that dequeued it (raising `P` by one) takes the rejection branch, which leaves the
memory untouched and lowers `P` by one, so after the two steps `P` has the value it had before
the dequeue; and from every reachable state in which some worker has not exited, the workers
can process the remaining tasks, rejected ones included, until the guard of `Free_Resource`
(queue empty and `P == 0`) holds. -/
theorem rejected_task_no_deadlock {σ : Type} (n : Nat) (hn : n < 2 ^ 64) (m₀ : σ)
    (acts : List (Action σ)) (s : Pool σ) (hrun : run acts (Pool.init n m₀) = some s) :
    (∀ (i : Nat) (t : Task σ) (rest : List (Task σ)),
      s.workers[i]? = some Worker.waiting → s.tasks = t :: rest →
      Schedule_Workers i s
        = some { s with tasks := rest, P := s.P + 1,
                        workers := s.workers.set i
                          (Worker.fetched { t with state := TaskState.Running }) }) ∧
    (∀ (i : Nat) (t : Task σ), s.workers[i]? = some (Worker.fetched t) → rejected t = true →
      1 ≤ s.P ∧
      Schedule_Workers i s
        = some { s with P := s.P - 1, workers := s.workers.set i Worker.waiting,
                        finished := s.finished ++ [t] }) ∧
    (∀ (i : Nat) (t : Task σ) (rest : List (Task σ)),
      s.workers[i]? = some Worker.waiting → s.tasks = t :: rest → rejected t = true →
      run [Action.work i, Action.work i] s
        = some { s with tasks := rest,
                        finished := s.finished ++ [{ t with state := TaskState.Running }] }) ∧
    ((∃ (i : Nat) (w : Worker σ), s.workers[i]? = some w ∧ w ≠ Worker.exited) →
      ∃ (sched : List Nat) (s' : Pool σ), run (sched.map Action.work) s = some s' ∧
        Free_Resource_guard s' = true ∧ s'.submitted = s.submitted) := by
  have hinv := run_inv n hn acts _ s (init_inv n m₀) hrun
  have hdeq : ∀ (i : Nat) (t : Task σ) (rest : List (Task σ)),
      s.workers[i]? = some Worker.waiting → s.tasks = t :: rest →
      Schedule_Workers i s
        = some { s with tasks := rest, P := s.P + 1,
                        workers := s.workers.set i
                          (Worker.fetched { t with state := TaskState.Running }) } := by
    intro i t rest hi htasks
    simp [Schedule_Workers, hi, htasks, incrP_eq _ (P_succ_lt n hn s hinv i hi)]
  refine ⟨hdeq, ?_, ?_, ?_⟩
  · intro i t hi hr
    obtain ⟨h1, h2⟩ := P_pos_of_held n s hinv i t hi
    refine ⟨h1, ?_⟩
    have hd : decrP s.P = s.P - 1 := by
      obtain ⟨p, hp⟩ : ∃ p, s.P = p + 1 := ⟨s.P - 1, by omega⟩
      rw [hp, decrP_eq p (by omega)]
      rfl
    simp only [Schedule_Workers, hi, hr, if_true, hd]
  · intro i t rest hi htasks hr
    have hlt := P_succ_lt n hn s hinv i hi
    have hget := getElem?_set_self' s.workers i Worker.waiting
      (Worker.fetched { t with state := TaskState.Running }) hi
    have hr' : rejected ({ t with state := TaskState.Running } : Task σ) = true := hr
    have h1 := hdeq i t rest hi htasks
    have h2 : Schedule_Workers i
        { s with tasks := rest, P := s.P + 1,
                 workers := s.workers.set i
                   (Worker.fetched { t with state := TaskState.Running }) }
        = some { s with tasks := rest,
                        finished := s.finished ++ [{ t with state := TaskState.Running }] } := by
      simp only [Schedule_Workers, hget, hr', if_true, decrP_eq s.P hlt,
        set_set_self s.workers i _ _ hi]
    simp only [run, step, h1, h2, Option.some_bind]
  · intro halive
    obtain ⟨sched, s', hrun', hm, hsub, -⟩ := drain s.measure s (le_refl _) halive
    have hinv' : PoolInv n s' := by
      refine run_inv n hn (sched.map Action.work) s s' hinv hrun'
    exact ⟨sched, s', hrun', guard_of_measure_zero n s' hinv' hm, hsub⟩

theorem rejected_task_no_deadlock_witness :
    run [Action.work 0, Action.work 0]
        ({ workers := [Worker.waiting], stop := false, P := 0,
           tasks := [Task.new (fun c => c + 1) "UNKNOWN_KERNEL"], mem := 0,
           submitted := [Task.new (fun c => c + 1) "UNKNOWN_KERNEL"], finished := [] } : Pool Nat)
      = some { workers := [Worker.waiting], stop := false, P := 0, tasks := [], mem := 0,
               submitted := [Task.new (fun c => c + 1) "UNKNOWN_KERNEL"],
               finished := [⟨fun c => c + 1, TaskState.Running, "UNKNOWN_KERNEL"⟩] } :=
  (rejected_task_no_deadlock 1 (by decide) 0 [Action.submit (fun c => c + 1) "UNKNOWN_KERNEL"]
    { workers := [Worker.waiting], stop := false, P := 0,
      tasks := [Task.new (fun c => c + 1) "UNKNOWN_KERNEL"], mem := 0,
      submitted := [Task.new (fun c => c + 1) "UNKNOWN_KERNEL"], finished := [] }
    (by rfl)).2.2.1 0 (Task.new (fun c => c + 1) "UNKNOWN_KERNEL") [] (by rfl) (by rfl) (by rfl)

/-- The worker accepts exactly the empty name and the five kernel names. -/
theorem rejected_eq_false_iff {σ : Type} (t : Task σ) :
    rejected t = false ↔
      (t.name = "" ∨ t.name = "COMBINE_IMAGES" ∨ t.name = "SOBEL_BINARY_EDGE" ∨
        t.name = "HATCHING" ∨ t.name = "HORIZONTAL_BLUR" ∨ t.name = "VERTICAL_BLUR") := by
  simp only [rejected, set_tasks_names, Bool.and_eq_false_imp, bne_iff_ne, ne_eq,
    Bool.not_eq_false', List.contains_cons, List.contains_nil, Bool.or_false, Bool.or_eq_true,
    beq_iff_eq]
  tauto

/-- C12: the function of a dequeued task is run by the worker if and only if its name is empty
or is one of exactly `COMBINE_IMAGES`, `SOBEL_BINARY_EDGE`, `HATCHING`, `HORIZONTAL_BLUR`,
`VERTICAL_BLUR` (exact string comparison); otherwise the worker takes the rejection branch.
The name is only looked at in this step: `Add_Task` enqueues every task and the dequeue step
hands over the front task whatever its name is. -/
theorem name_checked_at_execution {σ : Type} (s : Pool σ) (i : Nat) (t : Task σ)
    (hi : s.workers[i]? = some (Worker.fetched t)) :
    ((t.name = "" ∨ t.name = "COMBINE_IMAGES" ∨ t.name = "SOBEL_BINARY_EDGE" ∨
        t.name = "HATCHING" ∨ t.name = "HORIZONTAL_BLUR" ∨ t.name = "VERTICAL_BLUR") →
      Schedule_Workers i s
        = some { s with mem := t.func s.mem,
                        workers := s.workers.set i (Worker.executed t) }) ∧
    (¬ (t.name = "" ∨ t.name = "COMBINE_IMAGES" ∨ t.name = "SOBEL_BINARY_EDGE" ∨
        t.name = "HATCHING" ∨ t.name = "HORIZONTAL_BLUR" ∨ t.name = "VERTICAL_BLUR") →
      Schedule_Workers i s
        = some { s with P := decrP s.P, workers := s.workers.set i Worker.waiting,
                        finished := s.finished ++ [t] }) ∧
    (∀ (f : σ → σ) (name : String),
      step (Action.submit f name) s
        = some { s with tasks := s.tasks ++ [Task.new f name],
                        submitted := s.submitted ++ [Task.new f name] }) ∧
    (∀ (j : Nat) (u : Task σ) (rest : List (Task σ)),
      s.workers[j]? = some Worker.waiting → s.tasks = u :: rest →
      Schedule_Workers j s
        = some { s with tasks := rest, P := incrP s.P,
                        workers := s.workers.set j
                          (Worker.fetched { u with state := TaskState.Running }) }) ∧
    rejected (Task.new (fun m : σ => m) "hatching") = true ∧
    rejected (Task.new (fun m : σ => m) "HATCHING ") = true := by
  refine ⟨?_, ?_, ?_, ?_, by simp [rejected, set_tasks_names, Task.new],
    by simp [rejected, set_tasks_names, Task.new]⟩
  · intro hok
    have hr : rejected t = false := (rejected_eq_false_iff t).2 hok
    simp [Schedule_Workers, hi, hr]
  · intro hbad
    have hr : rejected t = true := by
      cases h : rejected t with
      | true => rfl
      | false => exact absurd ((rejected_eq_false_iff t).1 h) hbad
    simp only [Schedule_Workers, hi, hr, if_true]
  · intro f name
    rfl
  · intro j u rest hj htasks
    simp [Schedule_Workers, hj, htasks]

theorem name_checked_at_execution_witness :
    Schedule_Workers 0
        ({ workers := [Worker.fetched ⟨fun c => c + 1, TaskState.Running, "HATCHING"⟩],
           stop := false, P := 1, tasks := [], mem := 0,
           submitted := [Task.new (fun c => c + 1) "HATCHING"], finished := [] } : Pool Nat)
      = some { workers := [Worker.executed ⟨fun c => c + 1, TaskState.Running, "HATCHING"⟩],
               stop := false, P := 1, tasks := [], mem := 1,
               submitted := [Task.new (fun c => c + 1) "HATCHING"], finished := [] } :=
  (name_checked_at_execution
    ({ workers := [Worker.fetched ⟨fun c => c + 1, TaskState.Running, "HATCHING"⟩],
       stop := false, P := 1, tasks := [], mem := 0,
       submitted := [Task.new (fun c => c + 1) "HATCHING"], finished := [] } : Pool Nat)
    0 ⟨fun c => c + 1, TaskState.Running, "HATCHING"⟩ (by rfl)).1
    (Or.inr (Or.inr (Or.inr (Or.inl rfl))))

/-! ### Clamped sampling -/

/-- The byte offset of a pixel with in-range signed coordinates. -/
theorem clamped_index (w h : Nat) (nx ny : Int) (h0 : 0 ≤ nx) (h1 : nx < w) (h2 : 0 ≤ ny)
    (h3 : ny < h) :
    ((ny * (w : Int) + nx) * 4).toNat = (ny.toNat * w + nx.toNat) * 4 ∧
      ny.toNat * w + nx.toNat < w * h ∧ nx.toNat < w ∧ ny.toNat < h := by
  obtain ⟨a, rfl⟩ := Int.eq_ofNat_of_zero_le h0
  obtain ⟨b, rfl⟩ := Int.eq_ofNat_of_zero_le h2
  have ha : a < w := by exact_mod_cast h1
  have hb : b < h := by exact_mod_cast h3
  refine ⟨?_, ?_, by simpa using ha, by simpa using hb⟩
  · have : (((b : Int) * (w : Int) + (a : Int)) * 4) = (((b * w + a) * 4 : Nat) : Int) := by
      push_cast; ring
    rw [this, Int.toNat_natCast, Int.toNat_natCast, Int.toNat_natCast]
  · simpa using flat_index w h a b ha hb

theorem clamp_bounds (v : Int) (d : Nat) (hd : 0 < d) :
    0 ≤ clamp v 0 ((d : Int) - 1) ∧ clamp v 0 ((d : Int) - 1) < d := by
  simp only [clamp]
  omega

/-- C18: for a pixel `(x, y)` inside a `w × h` image and any offsets `i`, `j`, the sampled
coordinate `clamp(x + i, 0, w - 1)` is the offset coordinate when that lies inside the image
and the nearest border coordinate otherwise (no wrap-around), likewise for rows, so the byte
indices read by `EdgeBinarize`, `Horizontal` and `Vertical` are below `w * h * 4`. -/
theorem clamp_sampling (w h x y : Nat) (hx : x < w) (hy : y < h) (i j : Int) :
    (0 ≤ (x : Int) + i → (x : Int) + i ≤ (w : Int) - 1 →
      clamp ((x : Int) + i) 0 ((w : Int) - 1) = (x : Int) + i) ∧
    ((x : Int) + i < 0 → clamp ((x : Int) + i) 0 ((w : Int) - 1) = 0) ∧
    ((w : Int) - 1 < (x : Int) + i → clamp ((x : Int) + i) 0 ((w : Int) - 1) = (w : Int) - 1) ∧
    (0 ≤ (y : Int) + j → (y : Int) + j ≤ (h : Int) - 1 →
      clamp ((y : Int) + j) 0 ((h : Int) - 1) = (y : Int) + j) ∧
    ((y : Int) + j < 0 → clamp ((y : Int) + j) 0 ((h : Int) - 1) = 0) ∧
    ((h : Int) - 1 < (y : Int) + j → clamp ((y : Int) + j) 0 ((h : Int) - 1) = (h : Int) - 1) ∧
    (∀ c, c < 4 →
      ((clamp ((y : Int) + j) 0 ((h : Int) - 1) * (w : Int)
        + clamp ((x : Int) + i) 0 ((w : Int) - 1)) * 4).toNat + c < w * h * 4 ∧
      ((((y : Int) * (w : Int) + clamp ((x : Int) + i) 0 ((w : Int) - 1)) * 4)).toNat + c
        < w * h * 4 ∧
      (((clamp ((y : Int) + j) 0 ((h : Int) - 1) * (w : Int) + (x : Int)) * 4)).toNat + c
        < w * h * 4) := by
  have hcx := clamp_bounds ((x : Int) + i) w (by omega)
  have hcy := clamp_bounds ((y : Int) + j) h (by omega)
  refine ⟨?_, ?_, ?_, ?_, ?_, ?_, ?_⟩
  · intro h1 h2; simp only [clamp]; omega
  · intro h1; simp only [clamp]; omega
  · intro h1; simp only [clamp]; omega
  · intro h1 h2; simp only [clamp]; omega
  · intro h1; simp only [clamp]; omega
  · intro h1; simp only [clamp]; omega
  · intro c hc
    obtain ⟨e1, b1, -, -⟩ := clamped_index w h _ _ hcx.1 hcx.2 hcy.1 hcy.2
    obtain ⟨e2, b2, -, -⟩ := clamped_index w h _ (y : Int) hcx.1 hcx.2 (by omega)
      (by exact_mod_cast hy)
    obtain ⟨e3, b3, -, -⟩ := clamped_index w h (x : Int) _ (by omega) (by exact_mod_cast hx)
      hcy.1 hcy.2
    rw [e1, e2, e3]
    omega

theorem clamp_sampling_witness :
    clamp (((3 : Nat) : Int) + 1) 0 (((4 : Nat) : Int) - 1) = ((4 : Nat) : Int) - 1 :=
  (clamp_sampling 4 4 3 0 (by decide) (by decide) 1 (-1)).2.2.1 (by decide)

/-! ### Pixels of a constant buffer -/

theorem pixelAt_replicate (w h v x y : Nat) (hx : x < w) (hy : y < h) :
    pixelAt (List.replicate (w * h * 4) v) w x y = (v, v, v, v) := by
  have h0 := pixel_index_lt w h x y 0 hx hy (by omega)
  have h1 := pixel_index_lt w h x y 1 hx hy (by omega)
  have h2 := pixel_index_lt w h x y 2 hx hy (by omega)
  have h3 := pixel_index_lt w h x y 3 hx hy (by omega)
  simp only [pixelAt, List.getD_eq_getElem?_getD, List.getElem?_replicate, h0, h1, h2, h3,
    if_true, Option.getD_some]

/-! ### Algebraic properties of Combine -/

theorem Combine_pixelAt (K : Type) [LinearOrderedField K] [FloorRing K]
    (ins : List (List Nat)) (w h W : Nat) (hW : 1 ≤ W) (x y : Nat) (hx : x < w) (hy : y < h) :
    pixelAt (Combine K ins w h W) w x y
      = (minByte ins ((y * w + x) * 4 + 0), minByte ins ((y * w + x) * 4 + 1),
          minByte ins ((y * w + x) * 4 + 2), 255) := by
  simp only [pixelAt]
  rw [Combine_getD K ins w h W hW x y 0 hx hy (by omega),
    Combine_getD K ins w h W hW x y 1 hx hy (by omega),
    Combine_getD K ins w h W hW x y 2 hx hy (by omega),
    Combine_getD K ins w h W hW x y 3 hx hy (by omega)]
  simp [pixelByte]

/-- Two input lists with the same channel minima at every colour byte of the image give the
same combined buffer, whatever the worker counts. -/
theorem Combine_congr (K : Type) [LinearOrderedField K] [FloorRing K]
    (l₁ l₂ : List (List Nat)) (w h W W' : Nat) (hW : 1 ≤ W) (hW' : 1 ≤ W')
    (hmin : ∀ x y c, x < w → y < h → c < 3 →
      minByte l₁ ((y * w + x) * 4 + c) = minByte l₂ ((y * w + x) * 4 + c)) :
    Combine K l₁ w h W = Combine K l₂ w h W' := by
  refine buffer_ext _ _ w h (Combine_length K l₁ w h W hW) (Combine_length K l₂ w h W' hW')
    (fun x y hx hy => ?_)
  rw [Combine_pixelAt K l₁ w h W hW x y hx hy, Combine_pixelAt K l₂ w h W' hW' x y hx hy,
    hmin x y 0 hx hy (by omega), hmin x y 1 hx hy (by omega), hmin x y 2 hx hy (by omega)]

theorem minByte_perm (l₁ l₂ : List (List Nat)) (hp : l₁.Perm l₂) (k : Nat) :
    minByte l₁ k = minByte l₂ k := by
  unfold minByte
  refine hp.foldl_eq' (fun x _ y _ z => ?_) 255
  omega

theorem minByte_pair (a b : List Nat) (k : Nat) :
    minByte [a, b] k = min (min 255 (a.getD k 0)) (b.getD k 0) := rfl

theorem minByte_triple (a b c : List Nat) (k : Nat) :
    minByte [a, b, c] k = min (min (min 255 (a.getD k 0)) (b.getD k 0)) (c.getD k 0) := rfl

theorem Combine_getD_colour (K : Type) [LinearOrderedField K] [FloorRing K]
    (ins : List (List Nat)) (w h W : Nat) (hW : 1 ≤ W) (x y c : Nat) (hx : x < w) (hy : y < h)
    (hc : c < 3) :
    (Combine K ins w h W).getD ((y * w + x) * 4 + c) 0 = minByte ins ((y * w + x) * 4 + c) := by
  rw [Combine_getD K ins w h W hW x y c hx hy (by omega)]
  have hcases : c = 0 ∨ c = 1 ∨ c = 2 := by omega
  rcases hcases with rfl | rfl | rfl
  · rfl
  · rfl
  · rfl

/-- C15: `Combine` is commutative and associative: its output is the same for every
permutation of its input list, and for all images `A`, `B`, `C` of the shape `w × h`,
`Combine([Combine([A,B]), C]) = Combine([A, Combine([B,C])]) = Combine([A,B,C])`. -/
theorem Combine_comm_assoc (K : Type) [LinearOrderedField K] [FloorRing K] (w h W : Nat)
    (hW : 1 ≤ W) :
    (∀ l₁ l₂ : List (List Nat), l₁.Perm l₂ → Combine K l₁ w h W = Combine K l₂ w h W) ∧
    (∀ A B C : List Nat, A.length = w * h * 4 → B.length = w * h * 4 → C.length = w * h * 4 →
      Combine K [Combine K [A, B] w h W, C] w h W = Combine K [A, B, C] w h W ∧
      Combine K [A, Combine K [B, C] w h W] w h W = Combine K [A, B, C] w h W) := by
  refine ⟨fun l₁ l₂ hp => Combine_congr K l₁ l₂ w h W W hW hW
    (fun x y c _ _ _ => minByte_perm l₁ l₂ hp _), ?_⟩
  intro A B C _ _ _
  constructor
  · refine Combine_congr K _ _ w h W W hW hW (fun x y c hx hy hc => ?_)
    rw [minByte_pair, minByte_triple, Combine_getD_colour K [A, B] w h W hW x y c hx hy hc,
      minByte_pair]
    omega
  · refine Combine_congr K _ _ w h W W hW hW (fun x y c hx hy hc => ?_)
    rw [minByte_pair, minByte_triple, Combine_getD_colour K [B, C] w h W hW x y c hx hy hc,
      minByte_pair]
    omega

theorem Combine_comm_assoc_witness :
    Combine ℚ [[1, 2, 3, 4], [5, 0, 7, 8]] 1 1 2 = Combine ℚ [[5, 0, 7, 8], [1, 2, 3, 4]] 1 1 2 :=
  (Combine_comm_assoc ℚ 1 1 2 (by decide)).1 _ _ (List.Perm.swap _ _ _)

theorem minByte_replicate (img : List Nat) (N k : Nat) (hN : 1 ≤ N)
    (hbyte : ∀ v ∈ img, v ≤ 255) : minByte (List.replicate N img) k = img.getD k 0 := by
  have hne : List.replicate N img ≠ [] := by
    intro h
    have := congrArg List.length h
    simp at this
    omega
  obtain ⟨⟨buf, hbuf, hmin⟩, -⟩ := minByte_isMin (List.replicate N img) k hne
    (fun buf hb => by rw [List.eq_of_mem_replicate hb]; exact getD_le_255 img hbyte k)
  rw [hmin, List.eq_of_mem_replicate hbuf]

/-- C14 (as stated) fails: combining one copy of the 1×1 image `(10,20,30,40)` gives
`(10,20,30,255)`, which differs from the input in the alpha byte. -/
theorem Combine_identical_counterexample :
    Combine ℚ (List.replicate 1 [10, 20, 30, 40]) 1 1 1 ≠ [10, 20, 30, 40] := by
  intro heq
  have hp := Combine_getD ℚ (List.replicate 1 [10, 20, 30, 40]) 1 1 1 (by decide) 0 0 3
    (by decide) (by decide) (by decide)
  rw [heq] at hp
  simp [pixelByte] at hp

/-- C14 (amended): for every `N >= 1` and every image of bytes, `Combine` applied to `N`
copies of the image returns its R, G and B bytes unchanged and alpha 255; the output equals
the image byte for byte exactly when every alpha byte of the image is 255. -/
theorem Combine_identical (K : Type) [LinearOrderedField K] [FloorRing K] (img : List Nat)
    (w h W N : Nat) (hW : 1 ≤ W) (hN : 1 ≤ N) (hlen : img.length = w * h * 4)
    (hbyte : ∀ v ∈ img, v ≤ 255) :
    (∀ x y, x < w → y < h →
      pixelAt (Combine K (List.replicate N img) w h W) w x y
        = ((pixelAt img w x y).1, (pixelAt img w x y).2.1, (pixelAt img w x y).2.2.1, 255)) ∧
    (Combine K (List.replicate N img) w h W = img
      ↔ ∀ x y, x < w → y < h → (pixelAt img w x y).2.2.2 = 255) := by
  have hpix : ∀ x y, x < w → y < h →
      pixelAt (Combine K (List.replicate N img) w h W) w x y
        = ((pixelAt img w x y).1, (pixelAt img w x y).2.1, (pixelAt img w x y).2.2.1, 255) := by
    intro x y hx hy
    rw [Combine_pixelAt K _ w h W hW x y hx hy]
    simp only [minByte_replicate img N _ hN hbyte, pixelAt]
  refine ⟨hpix, ?_⟩
  constructor
  · intro heq x y hx hy
    have := hpix x y hx hy
    rw [heq] at this
    exact congrArg (fun p : Nat × Nat × Nat × Nat => p.2.2.2) this
  · intro halpha
    refine buffer_ext _ _ w h (Combine_length K _ w h W hW) hlen (fun x y hx hy => ?_)
    rw [hpix x y hx hy, ← halpha x y hx hy]

theorem Combine_identical_witness :
    pixelAt (Combine ℚ (List.replicate 3 [10, 20, 30, 40]) 1 1 2) 1 0 0
      = ((pixelAt [10, 20, 30, 40] 1 0 0).1, (pixelAt [10, 20, 30, 40] 1 0 0).2.1,
          (pixelAt [10, 20, 30, 40] 1 0 0).2.2.1, 255) :=
  (Combine_identical ℚ [10, 20, 30, 40] 1 1 2 3 (by decide) (by decide) (by decide)
    (by decide)).1 0 0 (by decide) (by decide)

/-! ### Pixels and bytes -/

theorem pixelAt_getD (buf : List Nat) (w x y : Nat) :
    buf.getD ((y * w + x) * 4 + 0) 0 = (pixelAt buf w x y).1 ∧
    buf.getD ((y * w + x) * 4 + 1) 0 = (pixelAt buf w x y).2.1 ∧
    buf.getD ((y * w + x) * 4 + 2) 0 = (pixelAt buf w x y).2.2.1 ∧
    buf.getD ((y * w + x) * 4 + 3) 0 = (pixelAt buf w x y).2.2.2 := ⟨rfl, rfl, rfl, rfl⟩

/-! ### The CPU pipeline -/

/-- C19: one CPU pipeline run computes
`final = Combine([EdgeBinarize(original), Combine([H1, H2, H3])])` with
`V = Vertical(Horizontal(original))` and `H1`, `H2`, `H3` the `Hatching` of `V` with parameters
`((400, 0, 0.99), 0.10, not inverted)`, `((200, 200, 0.95), 0.25, inverted)` and
`((250, -250, 0.90), 0.30, inverted)`; the Sobel stage reads the unblurred original, the
hatching passes read the two-pass blur, and no stage buffer depends on the initial contents of
the store. -/
theorem cpuPipeline_stages {K : Type} [LinearOrderedField K] [FloorRing K] (m : Libm K)
    (original : List Nat) (w h W : Nat) (st : Store) :
    cpuPipeline m original w h W st "originalCPU" = original ∧
    cpuPipeline m original w h W st "horizontalCPU"
      = Horizontal m.exp m.sqrt m.pi original w h 12 6 0 h W ∧
    cpuPipeline m original w h W st "verticalCPU"
      = Vertical m.exp m.sqrt m.pi
          (Horizontal m.exp m.sqrt m.pi original w h 12 6 0 h W) w h 12 6 0 h W ∧
    cpuPipeline m original w h W st "gaussianCPU"
      = EdgeBinarize m.sqrt original w h (3 / 10) 0 h W ∧
    cpuPipeline m original w h W st "hatch1CPU"
      = Hatching m.sin (cpuPipeline m original w h W st "verticalCPU") w h
          400 0 (99 / 100) (10 / 100) false W ∧
    cpuPipeline m original w h W st "hatch2CPU"
      = Hatching m.sin (cpuPipeline m original w h W st "verticalCPU") w h
          200 200 (95 / 100) (25 / 100) true W ∧
    cpuPipeline m original w h W st "hatch3CPU"
      = Hatching m.sin (cpuPipeline m original w h W st "verticalCPU") w h
          250 (-250) (90 / 100) (30 / 100) true W ∧
    cpuPipeline m original w h W st "combinedHatchCPU"
      = Combine K [cpuPipeline m original w h W st "hatch1CPU",
          cpuPipeline m original w h W st "hatch2CPU",
          cpuPipeline m original w h W st "hatch3CPU"] w h W ∧
    cpuPipeline m original w h W st "finalCPU"
      = Combine K [EdgeBinarize m.sqrt original w h (3 / 10) 0 h W,
          Combine K [cpuPipeline m original w h W st "hatch1CPU",
            cpuPipeline m original w h W st "hatch2CPU",
            cpuPipeline m original w h W st "hatch3CPU"] w h W] w h W ∧
    ∀ (st' : Store) (name : String),
      name ∈ ["originalCPU", "horizontalCPU", "verticalCPU", "gaussianCPU", "hatch1CPU",
        "hatch2CPU", "hatch3CPU", "combinedHatchCPU", "finalCPU"] →
      cpuPipeline m original w h W st' name = cpuPipeline m original w h W st name := by
  have hsig : (sigmaSize : K) = 6 := by
    simp only [sigmaSize, radiusSize]
    norm_num
  refine ⟨?_, ?_, ?_, ?_, ?_, ?_, ?_, ?_, ?_, ?_⟩
  all_goals
    simp [cpuPipeline, cpuCombine, cpuHatching, cpuEdgeBinarize, cpuVertical, cpuHorizontal,
      cpuRenderOriginal, Store.write, hsig, radiusSize, thresholdSobel, thresholdHatch1,
      thresholdHatch2, thresholdHatch3]

theorem cpuPipeline_stages_witness :
    cpuPipeline (K := ℚ) ⟨fun t => 1 / (1 + t * t), fun t => t, fun t => t, 3⟩
        [255, 7, 0, 9] 1 1 1 (fun _ => [1, 2, 3]) "finalCPU"
      = cpuPipeline (K := ℚ) ⟨fun t => 1 / (1 + t * t), fun t => t, fun t => t, 3⟩
        [255, 7, 0, 9] 1 1 1 (fun _ => []) "finalCPU" :=
  (cpuPipeline_stages (K := ℚ) ⟨fun t => 1 / (1 + t * t), fun t => t, fun t => t, 3⟩
    [255, 7, 0, 9] 1 1 1 (fun _ => [])).2.2.2.2.2.2.2.2.2 (fun _ => [1, 2, 3]) "finalCPU"
    (by decide)

/-! ### Worker exit, counter and task states -/

theorem getElem?_set_cases {α : Type} (ws : List α) (i j : Nat) (b w : α)
    (h : (ws.set i b)[j]? = some w) : (j = i ∧ w = b) ∨ ws[j]? = some w := by
  rw [List.getElem?_set] at h
  by_cases hij : i = j
  · subst hij
    rw [if_pos rfl] at h
    by_cases hl : i < ws.length
    · rw [if_pos hl] at h
      exact Or.inl ⟨rfl, (Option.some.inj h).symm⟩
    · rw [if_neg hl] at h
      cases h
  · rw [if_neg hij] at h
    exact Or.inr h

theorem P_bounds_of_held {σ : Type} (n : Nat) (s : Pool σ) (h : PoolInv n s)
    (i : Nat) (w : Worker σ) (t : Task σ) (hi : s.workers[i]? = some w)
    (hw : w.held = some t) : 1 ≤ s.P ∧ s.P ≤ n := by
  obtain ⟨hlen, hP, -⟩ := h
  obtain ⟨l₁, l₂, hws, hl₁⟩ := split_at _ _ _ hi
  have hle := heldTasks_length_le s.workers
  rw [hP]
  refine ⟨?_, by omega⟩
  rw [hws, heldTasks_split, hw]
  simp only [Option.toList, List.length_append, List.length_cons]
  omega

theorem decrP_pred (p : Nat) (h1 : 1 ≤ p) (h2 : p < 2 ^ 64) : decrP p = p - 1 := by
  obtain ⟨q, rfl⟩ : ∃ q, p = q + 1 := ⟨p - 1, by omega⟩
  rw [decrP_eq q h2]
  rfl

/-- A worker that has exited did so after the stop flag was set. -/
theorem exited_stop {σ : Type} (acts : List (Action σ)) (s s' : Pool σ)
    (h : ∀ (i : Nat), s.workers[i]? = some Worker.exited → s.stop = true)
    (hrun : run acts s = some s') :
    ∀ (i : Nat), s'.workers[i]? = some Worker.exited → s'.stop = true := by
  induction acts generalizing s with
  | nil =>
    simp only [run, Option.some.injEq] at hrun
    subst hrun; exact h
  | cons a rest ih =>
    simp only [run] at hrun
    cases hstep : step a s with
    | none => rw [hstep] at hrun; cases hrun
    | some s₁ =>
      rw [hstep] at hrun
      refine ih s₁ ?_ hrun
      cases a with
      | submit task name =>
        simp only [step, Option.some.injEq] at hstep
        subst hstep
        exact h
      | shutdown =>
        simp only [step, Option.some.injEq] at hstep
        subst hstep
        intro _ _; rfl
      | work i =>
        simp only [step, Schedule_Workers] at hstep
        split at hstep
        · cases hstep
        · cases hstep
        · split at hstep
          · split at hstep
            · rename_i hse
              cases hstep
              intro j _
              simp only [Bool.and_eq_true] at hse
              exact hse.1
            · split at hstep
              · cases hstep
              · cases hstep
                intro j hj
                rcases getElem?_set_cases _ _ _ _ _ hj with ⟨-, hw⟩ | hj'
                · cases hw
                · exact h j hj'
          · cases hstep
        · split at hstep
          · cases hstep
            intro j hj
            rcases getElem?_set_cases _ _ _ _ _ hj with ⟨-, hw⟩ | hj'
            · cases hw
            · exact h j hj'
          · cases hstep
            intro j hj
            rcases getElem?_set_cases _ _ _ _ _ hj with ⟨-, hw⟩ | hj'
            · cases hw
            · exact h j hj'
        · cases hstep
          intro j hj
          rcases getElem?_set_cases _ _ _ _ _ hj with ⟨-, hw⟩ | hj'
          · cases hw
          · exact h j hj'

theorem init_no_exited {σ : Type} (n : Nat) (m : σ) (i : Nat)
    (h : (Pool.init n m).workers[i]? = some Worker.exited) : (Pool.init n m).stop = true := by
  simp only [Pool.init, List.getElem?_replicate] at h
  split at h <;> cases h

/-- The step that makes a worker exit is taken with the stop flag set and the queue empty. -/
theorem exit_step {σ : Type} (s s' : Pool σ) (i : Nat)
    (hs : Schedule_Workers i s = some s') (he : s'.workers[i]? = some Worker.exited) :
    s.stop = true ∧ s.tasks = [] ∧ s.workers[i]? = some Worker.waiting := by
  unfold Schedule_Workers at hs
  split at hs
  · cases hs
  · cases hs
  · rename_i hw
    split at hs
    · split at hs
      · rename_i hse
        simp only [Bool.and_eq_true, List.isEmpty_iff] at hse
        exact ⟨hse.1, hse.2, hw⟩
      · split at hs
        · cases hs
        · cases hs
          rw [getElem?_set_self' _ _ _ _ hw] at he
          cases he
    · cases hs
  · rename_i t hw
    split at hs
    · cases hs
      rw [getElem?_set_self' _ _ _ _ hw] at he
      cases he
    · cases hs
      rw [getElem?_set_self' _ _ _ _ hw] at he
      cases he
  · rename_i t hw
    cases hs
    rw [getElem?_set_self' _ _ _ _ hw] at he
    cases he

/-- C22: a worker terminates only by a step taken with the stop flag set and the queue empty
(so an exited worker implies the stop flag); when stop is set while the queue is non-empty, a
waiting worker dequeues the front task and processes it instead of exiting. -/
theorem worker_exit_only_when_drained {σ : Type} (n : Nat) (hn : n < 2 ^ 64) (m₀ : σ)
    (acts : List (Action σ)) (s : Pool σ) (hrun : run acts (Pool.init n m₀) = some s) :
    (∀ (i : Nat) (s' : Pool σ), Schedule_Workers i s = some s' →
      s'.workers[i]? = some Worker.exited →
      s.stop = true ∧ s.tasks = [] ∧ s.workers[i]? = some Worker.waiting) ∧
    (∀ (i : Nat), s.workers[i]? = some Worker.exited → s.stop = true) ∧
    (∀ (i : Nat), s.stop = true → s.tasks = [] → s.workers[i]? = some Worker.waiting →
      Schedule_Workers i s = some { s with workers := s.workers.set i Worker.exited }) ∧
    (∀ (i : Nat) (t : Task σ) (rest : List (Task σ)),
      s.stop = true → s.workers[i]? = some Worker.waiting → s.tasks = t :: rest →
      Schedule_Workers i s
        = some { s with tasks := rest, P := s.P + 1,
                        workers := s.workers.set i
                          (Worker.fetched { t with state := TaskState.Running }) }) ∧
    (∀ (i : Nat) (t : Task σ) (rest : List (Task σ)),
      s.stop = true → s.workers[i]? = some Worker.waiting → s.tasks = t :: rest →
      rejected t = false →
      run [Action.work i, Action.work i, Action.work i] s
        = some { s with tasks := rest, mem := t.func s.mem,
                        finished := s.finished ++ [{ t with state := TaskState.Completed }] }) := by
  have hinv := run_inv n hn acts _ s (init_inv n m₀) hrun
  have hdeq : ∀ (i : Nat) (t : Task σ) (rest : List (Task σ)),
      s.workers[i]? = some Worker.waiting → s.tasks = t :: rest →
      Schedule_Workers i s
        = some { s with tasks := rest, P := s.P + 1,
                        workers := s.workers.set i
                          (Worker.fetched { t with state := TaskState.Running }) } := by
    intro i t rest hi htasks
    simp [Schedule_Workers, hi, htasks, incrP_eq _ (P_succ_lt n hn s hinv i hi)]
  refine ⟨fun i s' hs he => exit_step s s' i hs he,
    exited_stop acts _ s (fun i hi => init_no_exited n m₀ i hi) hrun, ?_,
    fun i t rest _ hi htasks => hdeq i t rest hi htasks, ?_⟩
  · intro i hstop htasks hi
    simp [Schedule_Workers, hi, hstop, htasks]
  · intro i t rest _ hi htasks hr
    have hlt := P_succ_lt n hn s hinv i hi
    have hr' : rejected ({ t with state := TaskState.Running } : Task σ) = false := hr
    have hget := getElem?_set_self' s.workers i Worker.waiting
      (Worker.fetched { t with state := TaskState.Running }) hi
    have hget2 : ((s.workers.set i (Worker.fetched { t with state := TaskState.Running })).set i
        (Worker.executed { t with state := TaskState.Running }))[i]?
        = some (Worker.executed { t with state := TaskState.Running }) :=
      getElem?_set_self' _ i _ _ hget
    have h1 := hdeq i t rest hi htasks
    have h2 : Schedule_Workers i
        { s with tasks := rest, P := s.P + 1,
                 workers := s.workers.set i
                   (Worker.fetched { t with state := TaskState.Running }) }
        = some { s with tasks := rest, P := s.P + 1, mem := t.func s.mem,
                        workers := (s.workers.set i
                          (Worker.fetched { t with state := TaskState.Running })).set i
                          (Worker.executed { t with state := TaskState.Running }) } := by
      simp [Schedule_Workers, hget, hr']
    have h3 : Schedule_Workers i
        { s with tasks := rest, P := s.P + 1, mem := t.func s.mem,
                 workers := (s.workers.set i
                   (Worker.fetched { t with state := TaskState.Running })).set i
                   (Worker.executed { t with state := TaskState.Running }) }
        = some { s with tasks := rest, mem := t.func s.mem,
                        finished := s.finished ++ [{ t with state := TaskState.Completed }] } := by
      simp only [Schedule_Workers, hget2]
      simp only [decrP_eq s.P hlt, List.set_set, set_set_self s.workers i _ _ hi]
    simp only [run, step, h1, h2, h3, Option.some_bind]

theorem worker_exit_only_when_drained_witness :
    Schedule_Workers 0
        ({ workers := [Worker.waiting], stop := true, P := 0,
           tasks := [Task.new (fun c => c + 1) "HATCHING"], mem := 0,
           submitted := [Task.new (fun c => c + 1) "HATCHING"], finished := [] } : Pool Nat)
      = some { workers := [Worker.fetched ⟨fun c => c + 1, TaskState.Running, "HATCHING"⟩],
               stop := true, P := 1, tasks := [], mem := 0,
               submitted := [Task.new (fun c => c + 1) "HATCHING"], finished := [] } :=
  (worker_exit_only_when_drained 1 (by decide) 0
    [Action.submit (fun c => c + 1) "HATCHING", Action.shutdown]
    { workers := [Worker.waiting], stop := true, P := 0,
      tasks := [Task.new (fun c => c + 1) "HATCHING"], mem := 0,
      submitted := [Task.new (fun c => c + 1) "HATCHING"], finished := [] }
    (by rfl)).2.2.2.1 0 (Task.new (fun c => c + 1) "HATCHING") [] (by rfl) (by rfl) (by rfl)

/-- C29: in every reachable state of a pool of `n` workers the counter `P` is the number of
workers holding a dequeued task, hence at most `n`; a dequeue adds one, running the task leaves
the counter alone, and the rejected path and the executed path each subtract one from a counter
that is at least one; submitting and shutting down leave it alone. -/
theorem inFlight_counts_held {σ : Type} (n : Nat) (hn : n < 2 ^ 64) (m₀ : σ)
    (acts : List (Action σ)) (s : Pool σ) (hrun : run acts (Pool.init n m₀) = some s) :
    s.P = (heldTasks s.workers).length ∧ s.P ≤ n ∧
    (∀ (f : σ → σ) (name : String), (Add_Task f name s).P = s.P) ∧ (shutdown s).P = s.P ∧
    (∀ (i : Nat) (s' : Pool σ), Schedule_Workers i s = some s' →
      (s.workers[i]? = some Worker.waiting ∧
        ((s'.workers[i]? = some Worker.exited ∧ s'.P = s.P) ∨
         (∃ (t : Task σ), s'.workers[i]? = some (Worker.fetched t) ∧ s'.P = s.P + 1))) ∨
      (∃ (t : Task σ), s.workers[i]? = some (Worker.fetched t) ∧ rejected t = true ∧
        s'.workers[i]? = some Worker.waiting ∧ 1 ≤ s.P ∧ s'.P = s.P - 1) ∨
      (∃ (t : Task σ), s.workers[i]? = some (Worker.fetched t) ∧ rejected t = false ∧
        s'.workers[i]? = some (Worker.executed t) ∧ s'.P = s.P) ∨
      (∃ (t : Task σ), s.workers[i]? = some (Worker.executed t) ∧
        s'.workers[i]? = some Worker.waiting ∧ 1 ≤ s.P ∧ s'.P = s.P - 1)) := by
  have hinv := run_inv n hn acts _ s (init_inv n m₀) hrun
  have hle : s.P ≤ n := by
    obtain ⟨hlen, hP, -⟩ := hinv
    have := heldTasks_length_le s.workers
    omega
  refine ⟨hinv.2.1, hle, fun _ _ => rfl, rfl, ?_⟩
  intro i s' hs
  unfold Schedule_Workers at hs
  split at hs
  · cases hs
  · cases hs
  · rename_i hi
    refine Or.inl ⟨hi, ?_⟩
    split at hs
    · split at hs
      · cases hs
        exact Or.inl ⟨getElem?_set_self' _ _ _ _ hi, rfl⟩
      · split at hs
        · cases hs
        · cases hs
          exact Or.inr ⟨_, getElem?_set_self' _ _ _ _ hi,
            incrP_eq _ (P_succ_lt n hn s hinv i hi)⟩
    · cases hs
  · rename_i t hi
    have hb := P_bounds_of_held n s hinv i _ t hi rfl
    split at hs
    · rename_i hr
      cases hs
      exact Or.inr (Or.inl ⟨t, hi, hr, getElem?_set_self' _ _ _ _ hi, hb.1,
        decrP_pred _ hb.1 (by omega)⟩)
    · rename_i hr
      cases hs
      exact Or.inr (Or.inr (Or.inl ⟨t, hi, by simpa using hr,
        getElem?_set_self' _ _ _ _ hi, rfl⟩))
  · rename_i t hi
    have hb := P_bounds_of_held n s hinv i _ t hi rfl
    cases hs
    exact Or.inr (Or.inr (Or.inr ⟨t, hi, getElem?_set_self' _ _ _ _ hi, hb.1,
      decrP_pred _ hb.1 (by omega)⟩))

theorem inFlight_counts_held_witness :
    ({ workers := [Worker.fetched ⟨fun c => c + 1, TaskState.Running, "HATCHING"⟩,
                   Worker.waiting],
       stop := false, P := 1, tasks := [], mem := 0,
       submitted := [Task.new (fun c => c + 1) "HATCHING"], finished := [] } : Pool Nat).P
      = (heldTasks [Worker.fetched ⟨fun c => c + 1, TaskState.Running, "HATCHING"⟩,
                    (Worker.waiting : Worker Nat)]).length :=
  (inFlight_counts_held 2 (by decide) 0
    [Action.submit (fun c => c + 1) "HATCHING", Action.work 0]
    { workers := [Worker.fetched ⟨fun c => c + 1, TaskState.Running, "HATCHING"⟩,
                  Worker.waiting],
      stop := false, P := 1, tasks := [], mem := 0,
      submitted := [Task.new (fun c => c + 1) "HATCHING"], finished := [] }
    (by rfl)).1

/-- C23 (failing input): a task submitted under the name `UNKNOWN_KERNEL` is dequeued and
rejected by the only worker; when that worker is back at the top of its loop, the task it
handled is recorded in state `Running`, not `Completed`, although the same run with the name
`HATCHING` ends with the task `Completed`. -/
theorem rejected_task_left_running :
    (run [Action.submit (fun c => c + 1) "UNKNOWN_KERNEL", Action.work 0, Action.work 0]
        (Pool.init 1 (0 : Nat))).map
        (fun s => (s.workers.map Worker.weight, s.P, s.tasks.length,
          s.finished.map (fun t => (t.name, t.state))))
      = some ([0], 0, 0, [("UNKNOWN_KERNEL", TaskState.Running)]) ∧
    (run [Action.submit (fun c => c + 1) "HATCHING", Action.work 0, Action.work 0, Action.work 0]
        (Pool.init 1 (0 : Nat))).map
        (fun s => (s.workers.map Worker.weight, s.P, s.tasks.length,
          s.finished.map (fun t => (t.name, t.state))))
      = some ([0], 0, 0, [("HATCHING", TaskState.Completed)]) := by
  constructor <;> rfl

theorem Schedule_Workers_submitted {σ : Type} (i : Nat) (s s' : Pool σ)
    (hs : Schedule_Workers i s = some s') : s'.submitted = s.submitted := by
  unfold Schedule_Workers at hs
  split at hs
  · cases hs
  · cases hs
  · split at hs
    · split at hs
      · cases hs; rfl
      · split at hs
        · cases hs
        · cases hs; rfl
    · cases hs
  · split at hs <;> (cases hs; rfl)
  · cases hs; rfl

/-- Every submitted task was submitted by one of the events of the run. -/
theorem submitted_of_run {σ : Type} (acts : List (Action σ)) (s s' : Pool σ)
    (hs : run acts s = some s') (t : Task σ) (ht : t ∈ s'.submitted) :
    t ∈ s.submitted ∨
      ∃ (f : σ → σ) (name : String), Action.submit f name ∈ acts ∧ t = Task.new f name := by
  induction acts generalizing s with
  | nil =>
    simp only [run, Option.some.injEq] at hs
    subst hs; exact Or.inl ht
  | cons a rest ih =>
    simp only [run] at hs
    cases hstep : step a s with
    | none => rw [hstep] at hs; cases hs
    | some s₁ =>
      rw [hstep] at hs
      rcases ih s₁ hs with h | ⟨f, name, hmem, heq⟩
      · cases a with
        | submit task name =>
          simp only [step, Option.some.injEq] at hstep
          subst hstep
          simp only [Add_Task, List.mem_append, List.mem_singleton] at h
          rcases h with h | h
          · exact Or.inl h
          · exact Or.inr ⟨task, name, List.mem_cons_self _ _, h⟩
        | work i =>
          simp only [step] at hstep
          rw [Schedule_Workers_submitted i s s₁ hstep] at h
          exact Or.inl h
        | shutdown =>
          simp only [step, Option.some.injEq] at hstep
          subst hstep
          exact Or.inl h
      · exact Or.inr ⟨f, name, List.mem_cons_of_mem _ hmem, heq⟩

theorem taskName_mem (k : Kernel) : k.taskName ∈ set_tasks_names := by
  cases k <;> simp [Kernel.taskName, set_tasks_names]

/-- C24: the name each of the five CPU kernels passes to `Add_Task` is a member of the
allow-list of the worker, so a task submitted by a kernel is not rejected; in every state
reached by a run whose submissions all come from kernels, a worker holding a dequeued task
takes the execute branch. -/
theorem kernel_tasks_never_rejected {σ : Type} (n : Nat) (hn : n < 2 ^ 64) (m₀ : σ)
    (acts : List (Action σ)) (s : Pool σ) (hrun : run acts (Pool.init n m₀) = some s)
    (hk : ∀ (f : σ → σ) (name : String), Action.submit f name ∈ acts →
      ∃ (k : Kernel), name = k.taskName) :
    Kernel.EdgeBinarize.taskName = "SOBEL_BINARY_EDGE" ∧
    Kernel.Horizontal.taskName = "HORIZONTAL_BLUR" ∧
    Kernel.Vertical.taskName = "VERTICAL_BLUR" ∧
    Kernel.Hatching.taskName = "HATCHING" ∧
    Kernel.Combine.taskName = "COMBINE_IMAGES" ∧
    (∀ (k : Kernel), k.taskName ∈ set_tasks_names) ∧
    (∀ (k : Kernel) (f : σ → σ), rejected (Task.new f k.taskName) = false) ∧
    (∀ (i : Nat) (t : Task σ), s.workers[i]? = some (Worker.fetched t) →
      rejected t = false ∧
      Schedule_Workers i s
        = some { s with mem := t.func s.mem,
                        workers := s.workers.set i (Worker.executed t) }) := by
  refine ⟨rfl, rfl, rfl, rfl, rfl, taskName_mem,
    fun k f => not_rejected_of_mem _ (taskName_mem k), ?_⟩
  intro i t hi
  have hinv := run_inv n hn acts _ s (init_inv n m₀) hrun
  have hheld : t ∈ heldTasks s.workers := by
    obtain ⟨l₁, l₂, hws, -⟩ := split_at _ _ _ hi
    rw [hws, heldTasks_split]
    simp [Worker.held]
  obtain ⟨t₀, ht₀, -, hname⟩ := held_submitted n s hinv t hheld
  have hr : rejected t = false := by
    rcases submitted_of_run acts _ s hrun t₀ ht₀ with h | ⟨f, name, hmem, heq⟩
    · simp [Pool.init] at h
    · obtain ⟨k, hk'⟩ := hk f name hmem
      apply not_rejected_of_mem
      rw [← hname, heq, hk']
      exact taskName_mem k
  refine ⟨hr, ?_⟩
  simp [Schedule_Workers, hi, hr]

theorem kernel_tasks_never_rejected_witness :
    rejected (⟨fun c => c + 1, TaskState.Running, "SOBEL_BINARY_EDGE"⟩ : Task Nat) = false ∧
    Schedule_Workers 0
        ({ workers := [Worker.fetched ⟨fun c => c + 1, TaskState.Running, "SOBEL_BINARY_EDGE"⟩],
           stop := false, P := 1, tasks := [Task.new (fun c => c + 1) "SOBEL_BINARY_EDGE"],
           mem := 0,
           submitted := [Task.new (fun c => c + 1) "SOBEL_BINARY_EDGE",
                         Task.new (fun c => c + 1) "SOBEL_BINARY_EDGE"],
           finished := [] } : Pool Nat)
      = some { workers := [Worker.executed ⟨fun c => c + 1, TaskState.Running,
                             "SOBEL_BINARY_EDGE"⟩],
               stop := false, P := 1, tasks := [Task.new (fun c => c + 1) "SOBEL_BINARY_EDGE"],
               mem := 1,
               submitted := [Task.new (fun c => c + 1) "SOBEL_BINARY_EDGE",
                             Task.new (fun c => c + 1) "SOBEL_BINARY_EDGE"],
               finished := [] } :=
  (kernel_tasks_never_rejected 1 (by decide) 0
    (kernelSubmit Kernel.EdgeBinarize [fun c => c + 1, fun c => c + 1] ++ [Action.work 0])
    { workers := [Worker.fetched ⟨fun c => c + 1, TaskState.Running, "SOBEL_BINARY_EDGE"⟩],
      stop := false, P := 1, tasks := [Task.new (fun c => c + 1) "SOBEL_BINARY_EDGE"],
      mem := 0,
      submitted := [Task.new (fun c => c + 1) "SOBEL_BINARY_EDGE",
                    Task.new (fun c => c + 1) "SOBEL_BINARY_EDGE"],
      finished := [] }
    (by rfl)
    (by
      intro f name h
      simp only [kernelSubmit, List.map_cons, List.map_nil, List.cons_append, List.nil_append,
        List.mem_cons, Action.submit.injEq, List.mem_singleton, reduceCtorEq, and_false,
        or_false, List.mem_nil_iff] at h
      exact ⟨Kernel.EdgeBinarize, by rcases h with h | h <;> exact h.2⟩)).2.2.2.2.2.2.2 0
    ⟨fun c => c + 1, TaskState.Running, "SOBEL_BINARY_EDGE"⟩ (by rfl)

/-! ### Rows written by the row-parallel kernels -/

theorem rowMajor_untouched_pixelAt (w h : Nat) (r g b a : Nat → Nat → Nat) (W s e : Nat)
    (hW : 1 ≤ W) (hse : s ≤ e) (x y : Nat) (hx : x < w) (hy : ¬ (s ≤ y ∧ y < e)) :
    pixelAt (runFanOut W s e (fun start stop => forLoop start stop (fun y out =>
        forLoop 0 w (fun x out =>
          writePixel out ((y * w + x) * 4) (r x y) (g x y) (b x y) (a x y)) out))
      (List.replicate (w * h * 4) 0)) w x y = (0, 0, 0, 0) := by
  simp only [pixelAt]
  rw [rowMajor_untouched w h r g b a W s e hW hse x y 0 hx (by omega) hy,
    rowMajor_untouched w h r g b a W s e hW hse x y 1 hx (by omega) hy,
    rowMajor_untouched w h r g b a W s e hW hse x y 2 hx (by omega) hy,
    rowMajor_untouched w h r g b a W s e hW hse x y 3 hx (by omega) hy]

theorem EdgeBinarize_untouched {K : Type} [LinearOrderedField K] (sqrtF : K → K)
    (inp : List Nat) (w h : Nat) (threshold : K) (startRow endRow W : Nat) (hW : 1 ≤ W)
    (hrows : startRow ≤ endRow) (x y : Nat) (hx : x < w)
    (hy : ¬ (startRow ≤ y ∧ y < endRow)) :
    pixelAt (EdgeBinarize sqrtF inp w h threshold startRow endRow W) w x y = (0, 0, 0, 0) :=
  rowMajor_untouched_pixelAt w h (fun x y => sobelBinary sqrtF inp w h threshold x y)
    (fun x y => sobelBinary sqrtF inp w h threshold x y)
    (fun x y => sobelBinary sqrtF inp w h threshold x y) (fun _ _ => 255)
    W startRow endRow hW hrows x y hx hy

theorem Horizontal_untouched {K : Type} [LinearOrderedField K] [FloorRing K]
    (expF sqrtF : K → K) (piK : K) (inp : List Nat) (w h radius : Nat) (sigma : K)
    (startRow endRow W : Nat) (hW : 1 ≤ W) (hrows : startRow ≤ endRow) (x y : Nat)
    (hx : x < w) (hy : ¬ (startRow ≤ y ∧ y < endRow)) :
    pixelAt (Horizontal expF sqrtF piK inp w h radius sigma startRow endRow W) w x y
      = (0, 0, 0, 0) :=
  rowMajor_untouched_pixelAt w h
    (fun x y => toByte ((horizontalSums (gaussWeights expF sqrtF piK radius sigma)
      inp w radius x y).1 * 255))
    (fun x y => toByte ((horizontalSums (gaussWeights expF sqrtF piK radius sigma)
      inp w radius x y).2.1 * 255))
    (fun x y => toByte ((horizontalSums (gaussWeights expF sqrtF piK radius sigma)
      inp w radius x y).2.2 * 255))
    (fun _ _ => 255) W startRow endRow hW hrows x y hx hy

/-- C27: for `startRow ≤ endRow ≤ h` and `W ≥ 1` workers, a pixel `(x, y)` of the output of
`EdgeBinarize` and of `Horizontal` is written (alpha 255) exactly when `startRow ≤ y < endRow`
and otherwise keeps the zero-initialised `(0,0,0,0)`; `Vertical` writes every pixel of the image
(alpha 255) and its output does not depend on `startRow` and `endRow`. -/
theorem rows_written {K : Type} [LinearOrderedField K] [FloorRing K]
    (expF sqrtF : K → K) (piK : K) (inp : List Nat) (w h radius : Nat) (sigma threshold : K)
    (startRow endRow W : Nat) (hW : 1 ≤ W) (hrows : startRow ≤ endRow) (hend : endRow ≤ h)
    (x y : Nat) (hx : x < w) (hy : y < h) :
    ((startRow ≤ y ∧ y < endRow) →
      (pixelAt (EdgeBinarize sqrtF inp w h threshold startRow endRow W) w x y).2.2.2 = 255 ∧
      (pixelAt (Horizontal expF sqrtF piK inp w h radius sigma startRow endRow W) w x y).2.2.2
        = 255) ∧
    (¬ (startRow ≤ y ∧ y < endRow) →
      pixelAt (EdgeBinarize sqrtF inp w h threshold startRow endRow W) w x y = (0, 0, 0, 0) ∧
      pixelAt (Horizontal expF sqrtF piK inp w h radius sigma startRow endRow W) w x y
        = (0, 0, 0, 0)) ∧
    (pixelAt (Vertical expF sqrtF piK inp w h radius sigma startRow endRow W) w x y).2.2.2 = 255 ∧
    Vertical expF sqrtF piK inp w h radius sigma startRow endRow W
      = Vertical expF sqrtF piK inp w h radius sigma 0 h W := by
  have _ := hend
  refine ⟨?_, ?_, ?_, rfl⟩
  · rintro ⟨hys, hye⟩
    rw [EdgeBinarize_pixelAt sqrtF inp w h threshold startRow endRow W hW hrows x y hx hy hys hye,
      Horizontal_pixelAt expF sqrtF piK inp w h radius sigma startRow endRow W hW hrows x y hx hy
        hys hye]
    refine ⟨?_, rfl⟩
    split <;> rfl
  · intro hout
    exact ⟨EdgeBinarize_untouched sqrtF inp w h threshold startRow endRow W hW hrows x y hx hout,
      Horizontal_untouched expF sqrtF piK inp w h radius sigma startRow endRow W hW hrows x y hx
        hout⟩
  · rw [Vertical_pixelAt expF sqrtF piK inp w h radius sigma startRow endRow W hW x y hx hy]

theorem rows_written_witness :
    pixelAt (EdgeBinarize (fun v : ℚ => v) [255, 255, 255, 255, 0, 0, 0, 255] 1 2 (3 / 10) 1 2 1)
        1 0 0 = (0, 0, 0, 0) ∧
    pixelAt (Horizontal (fun v : ℚ => v) (fun v : ℚ => v) 3 [255, 255, 255, 255, 0, 0, 0, 255]
        1 2 1 1 1 2 1) 1 0 0 = (0, 0, 0, 0) :=
  (rows_written (fun v : ℚ => v) (fun v : ℚ => v) 3 [255, 255, 255, 255, 0, 0, 0, 255]
    1 2 1 1 (3 / 10) 1 2 1 (by decide) (by decide) (by decide) 0 0 (by decide)
    (by decide)).2.1 (by decide)

/-- C28: `Combine` called with an empty list of inputs writes `(255,255,255,255)` to every
pixel of the image, for every width, height and `W ≥ 1` workers: the output buffer is all
`255`. -/
theorem Combine_empty (K : Type) [LinearOrderedField K] [FloorRing K] (w h W : Nat)
    (hW : 1 ≤ W) :
    (∀ x y, x < w → y < h → pixelAt (Combine K [] w h W) w x y = (255, 255, 255, 255)) ∧
    Combine K [] w h W = List.replicate (w * h * 4) 255 := by
  have hp : ∀ x y, x < w → y < h →
      pixelAt (Combine K [] w h W) w x y = (255, 255, 255, 255) := by
    intro x y hx hy
    rw [Combine_pixelAt K [] w h W hW x y hx hy]
    rfl
  refine ⟨hp, buffer_ext _ _ w h (Combine_length K [] w h W hW) (List.length_replicate _ _) ?_⟩
  intro x y hx hy
  rw [hp x y hx hy, pixelAt_replicate w h 255 x y hx hy]

theorem Combine_empty_witness :
    Combine ℚ [] 2 1 1 = List.replicate (2 * 1 * 4) 255 :=
  (Combine_empty ℚ 2 1 1 (by decide)).2

/-! ### Black-and-white stages -/

theorem EdgeBinarize_blackWhite {K : Type} [LinearOrderedField K] (sqrtF : K → K)
    (inp : List Nat) (w h : Nat) (threshold : K) (W : Nat) (hW : 1 ≤ W) :
    BlackWhite (EdgeBinarize sqrtF inp w h threshold 0 h W) w h := by
  intro x y hx hy
  rw [EdgeBinarize_pixelAt sqrtF inp w h threshold 0 h W hW (Nat.zero_le _) x y hx hy
    (Nat.zero_le _) hy]
  split
  · exact Or.inl rfl
  · exact Or.inr rfl

theorem hatchBackground_zero_one {K : Type} [LinearOrderedField K] (sinF : K → K)
    (inp : List Nat) (w h : Nat) (a b c threshold : K) (inv : Bool) (i : Nat) :
    hatchBackground sinF inp w h a b c threshold inv i = 0 ∨
      hatchBackground sinF inp w h a b c threshold inv i = 1 := by
  simp only [hatchBackground]
  split
  · split
    · exact Or.inr rfl
    · split
      · exact Or.inr rfl
      · exact Or.inl rfl
  · split
    · exact Or.inr rfl
    · split
      · exact Or.inl rfl
      · exact Or.inr rfl

theorem Hatching_blackWhite {K : Type} [LinearOrderedField K] [FloorRing K] (sinF : K → K)
    (inp : List Nat) (w h : Nat) (a b c threshold : K) (inv : Bool) (W : Nat) (hW : 1 ≤ W) :
    BlackWhite (Hatching sinF inp w h a b c threshold inv W) w h := by
  intro x y hx hy
  rw [Hatching_pixelAt sinF inp w h a b c threshold inv W hW x y hx hy]
  rcases hatchBackground_zero_one sinF inp w h a b c threshold inv (y * w + x) with h0 | h1
  · rw [h0, zero_mul, toByte_0]
    exact Or.inl rfl
  · rw [h1, one_mul, toByte_255]
    exact Or.inr rfl

/-- The three colour minima over inputs whose pixel `(x, y)` is black or white are all `0` or
all `255`. -/
theorem foldl_min_blackWhite (ins : List (List Nat)) (w x y : Nat)
    (hbw : ∀ buf ∈ ins,
      pixelAt buf w x y = (0, 0, 0, 255) ∨ pixelAt buf w x y = (255, 255, 255, 255))
    (m : Nat) (hm : m = 0 ∨ m = 255) :
    (ins.foldl (fun m buf => min m (buf.getD ((y * w + x) * 4 + 0) 0)) m = 0 ∧
      ins.foldl (fun m buf => min m (buf.getD ((y * w + x) * 4 + 1) 0)) m = 0 ∧
      ins.foldl (fun m buf => min m (buf.getD ((y * w + x) * 4 + 2) 0)) m = 0) ∨
    (ins.foldl (fun m buf => min m (buf.getD ((y * w + x) * 4 + 0) 0)) m = 255 ∧
      ins.foldl (fun m buf => min m (buf.getD ((y * w + x) * 4 + 1) 0)) m = 255 ∧
      ins.foldl (fun m buf => min m (buf.getD ((y * w + x) * 4 + 2) 0)) m = 255) := by
  induction ins generalizing m with
  | nil =>
    rcases hm with rfl | rfl
    · exact Or.inl ⟨rfl, rfl, rfl⟩
    · exact Or.inr ⟨rfl, rfl, rfl⟩
  | cons b l ih =>
    have hb := hbw b (List.mem_cons_self _ _)
    have hl : ∀ buf ∈ l,
        pixelAt buf w x y = (0, 0, 0, 255) ∨ pixelAt buf w x y = (255, 255, 255, 255) :=
      fun buf hbuf => hbw buf (List.mem_cons_of_mem _ hbuf)
    simp only [List.foldl_cons]
    simp only [pixelAt, Prod.mk.injEq] at hb
    rcases hb with ⟨e0, e1, e2, -⟩ | ⟨e0, e1, e2, -⟩
    · rw [e0, e1, e2]
      exact ih hl (min m 0) (Or.inl (Nat.min_zero _))
    · rw [e0, e1, e2]
      refine ih hl (min m 255) ?_
      rcases hm with rfl | rfl
      · exact Or.inl rfl
      · exact Or.inr rfl

theorem Combine_blackWhite (K : Type) [LinearOrderedField K] [FloorRing K]
    (ins : List (List Nat)) (w h W : Nat) (hW : 1 ≤ W)
    (hbw : ∀ buf ∈ ins, BlackWhite buf w h) : BlackWhite (Combine K ins w h W) w h := by
  intro x y hx hy
  rw [Combine_pixelAt K ins w h W hW x y hx hy]
  rcases foldl_min_blackWhite ins w x y (fun buf hbuf => hbw buf hbuf x y hx hy) 255
    (Or.inr rfl) with ⟨h0, h1, h2⟩ | ⟨h0, h1, h2⟩
  · left
    simp only [minByte, h0, h1, h2]
  · right
    simp only [minByte, h0, h1, h2]

theorem cpuPipeline_bw_stages {K : Type} [LinearOrderedField K] [FloorRing K] (m : Libm K)
    (original : List Nat) (w h W : Nat) (st : Store) :
    cpuPipeline m original w h W st "gaussianCPU"
      = EdgeBinarize m.sqrt original w h (3 / 10) 0 h W ∧
    cpuPipeline m original w h W st "hatch1CPU"
      = Hatching m.sin (cpuPipeline m original w h W st "verticalCPU") w h
          400 0 (99 / 100) (10 / 100) false W ∧
    cpuPipeline m original w h W st "hatch2CPU"
      = Hatching m.sin (cpuPipeline m original w h W st "verticalCPU") w h
          200 200 (95 / 100) (25 / 100) true W ∧
    cpuPipeline m original w h W st "hatch3CPU"
      = Hatching m.sin (cpuPipeline m original w h W st "verticalCPU") w h
          250 (-250) (90 / 100) (30 / 100) true W ∧
    cpuPipeline m original w h W st "combinedHatchCPU"
      = Combine K [cpuPipeline m original w h W st "hatch1CPU",
          cpuPipeline m original w h W st "hatch2CPU",
          cpuPipeline m original w h W st "hatch3CPU"] w h W ∧
    cpuPipeline m original w h W st "finalCPU"
      = Combine K [cpuPipeline m original w h W st "gaussianCPU",
          cpuPipeline m original w h W st "combinedHatchCPU"] w h W := by
  have hsig : (sigmaSize : K) = 6 := by
    simp only [sigmaSize, radiusSize]
    norm_num
  refine ⟨?_, ?_, ?_, ?_, ?_, ?_⟩
  all_goals
    simp [cpuPipeline, cpuCombine, cpuHatching, cpuEdgeBinarize, cpuVertical, cpuHorizontal,
      cpuRenderOriginal, Store.write, hsig, radiusSize, thresholdSobel, thresholdHatch1,
      thresholdHatch2, thresholdHatch3]

/-- C25: for every input image and `W ≥ 1` workers, every pixel of the final buffer of the CPU
pipeline, and of the Sobel, the three hatch and the combined-hatch buffers it is built from, is
exactly `(0,0,0,255)` or `(255,255,255,255)`; `Combine` of black-and-white images is
black-and-white. -/
theorem cpuPipeline_blackWhite {K : Type} [LinearOrderedField K] [FloorRing K] (m : Libm K)
    (original : List Nat) (w h W : Nat) (hW : 1 ≤ W) (st : Store) :
    BlackWhite (cpuPipeline m original w h W st "gaussianCPU") w h ∧
    BlackWhite (cpuPipeline m original w h W st "hatch1CPU") w h ∧
    BlackWhite (cpuPipeline m original w h W st "hatch2CPU") w h ∧
    BlackWhite (cpuPipeline m original w h W st "hatch3CPU") w h ∧
    BlackWhite (cpuPipeline m original w h W st "combinedHatchCPU") w h ∧
    BlackWhite (cpuPipeline m original w h W st "finalCPU") w h ∧
    (∀ (ins : List (List Nat)), (∀ buf ∈ ins, BlackWhite buf w h) →
      BlackWhite (Combine K ins w h W) w h) := by
  obtain ⟨hg, h1, h2, h3, hc, hf⟩ := cpuPipeline_bw_stages m original w h W st
  have bg : BlackWhite (cpuPipeline m original w h W st "gaussianCPU") w h := by
    rw [hg]; exact EdgeBinarize_blackWhite _ _ _ _ _ _ hW
  have b1 : BlackWhite (cpuPipeline m original w h W st "hatch1CPU") w h := by
    rw [h1]; exact Hatching_blackWhite _ _ _ _ _ _ _ _ _ _ hW
  have b2 : BlackWhite (cpuPipeline m original w h W st "hatch2CPU") w h := by
    rw [h2]; exact Hatching_blackWhite _ _ _ _ _ _ _ _ _ _ hW
  have b3 : BlackWhite (cpuPipeline m original w h W st "hatch3CPU") w h := by
    rw [h3]; exact Hatching_blackWhite _ _ _ _ _ _ _ _ _ _ hW
  have bc : BlackWhite (cpuPipeline m original w h W st "combinedHatchCPU") w h := by
    rw [hc]
    refine Combine_blackWhite K _ w h W hW ?_
    intro buf hbuf
    simp only [List.mem_cons, List.mem_singleton, List.mem_nil_iff, or_false] at hbuf
    rcases hbuf with rfl | rfl | rfl
    · exact b1
    · exact b2
    · exact b3
  refine ⟨bg, b1, b2, b3, bc, ?_, fun ins hins => Combine_blackWhite K ins w h W hW hins⟩
  rw [hf]
  refine Combine_blackWhite K _ w h W hW ?_
  intro buf hbuf
  simp only [List.mem_cons, List.mem_singleton, List.mem_nil_iff, or_false] at hbuf
  rcases hbuf with rfl | rfl
  · exact bg
  · exact bc

theorem cpuPipeline_blackWhite_witness :
    BlackWhite (cpuPipeline (K := ℚ) ⟨fun t => 1 / (1 + t * t), fun t => t, fun t => t, 3⟩
      [255, 7, 0, 9] 1 1 1 (fun _ => []) "finalCPU") 1 1 :=
  (cpuPipeline_blackWhite (K := ℚ) ⟨fun t => 1 / (1 + t * t), fun t => t, fun t => t, 3⟩
    [255, 7, 0, 9] 1 1 1 (by decide) (fun _ => [])).2.2.2.2.2.1

/-! ### Display and save selection; missing resource names -/

/-- C30 (failing input): with `outputMode = 1` in CPU mode, `Update` binds `gaussianCPU` for
display while `SaveImage` selects `horizontalCPU`.  The two selections differ for the modes 1, 2
and 3, in CPU mode and in GPU mode, and agree for the modes 0 and 4 to 8. -/
theorem display_save_mismatch :
    Update_display false 1 = "gaussianCPU" ∧
    SaveImage_outMode false 1 = some "horizontalCPU" ∧
    Update_display true 1 = "gaussianGPU" ∧
    SaveImage_outMode true 1 = some "horizontalGPU" ∧
    (∀ gpu : Bool, ∀ mode ∈ ([1, 2, 3] : List Int),
      SaveImage_outMode gpu mode ≠ some (Update_display gpu mode)) ∧
    (∀ gpu : Bool, ∀ mode ∈ ([0, 4, 5, 6, 7, 8] : List Int),
      SaveImage_outMode gpu mode = some (Update_display gpu mode)) := by
  decide

/-- C21 (failing input): `EdgeBinarize` called with the input name `missingCPU`, which is not
a key of `framebuffers`, is not aborted: the lookup inserts `missingCPU` into `framebuffers`
with handle 0, the kernel runs on the pixels of framebuffer 0, and the result is uploaded to
the texture of the output name.  With an output name that is not a key, both maps gain the
name and the result is uploaded to texture 0.  `Combine` behaves alike. -/
theorem missing_name_not_aborted :
    (Resources.EdgeBinarize (fun v : ℚ => v) "missingCPU" "gaussianCPU" 1 1 (3 / 10) 0 1 1
        { framebuffers := [("originalCPU", 1), ("gaussianCPU", 2)],
          textures := [("originalCPU", 11), ("gaussianCPU", 12)],
          pixels := fun _ => [0, 0, 0, 255], uploads := [] }).framebuffers
      = [("originalCPU", 1), ("gaussianCPU", 2), ("missingCPU", 0)] ∧
    (Resources.EdgeBinarize (fun v : ℚ => v) "missingCPU" "gaussianCPU" 1 1 (3 / 10) 0 1 1
        { framebuffers := [("originalCPU", 1), ("gaussianCPU", 2)],
          textures := [("originalCPU", 11), ("gaussianCPU", 12)],
          pixels := fun _ => [0, 0, 0, 255], uploads := [] }).uploads
      = [(12, EdgeBinarize (fun v : ℚ => v) [0, 0, 0, 255] 1 1 (3 / 10) 0 1 1)] ∧
    (Resources.EdgeBinarize (fun v : ℚ => v) "originalCPU" "missingCPU" 1 1 (3 / 10) 0 1 1
        { framebuffers := [("originalCPU", 1), ("gaussianCPU", 2)],
          textures := [("originalCPU", 11), ("gaussianCPU", 12)],
          pixels := fun _ => [0, 0, 0, 255], uploads := [] }).framebuffers
      = [("originalCPU", 1), ("gaussianCPU", 2), ("missingCPU", 0)] ∧
    (Resources.EdgeBinarize (fun v : ℚ => v) "originalCPU" "missingCPU" 1 1 (3 / 10) 0 1 1
        { framebuffers := [("originalCPU", 1), ("gaussianCPU", 2)],
          textures := [("originalCPU", 11), ("gaussianCPU", 12)],
          pixels := fun _ => [0, 0, 0, 255], uploads := [] }).textures
      = [("originalCPU", 11), ("gaussianCPU", 12), ("missingCPU", 0)] ∧
    (Resources.EdgeBinarize (fun v : ℚ => v) "originalCPU" "missingCPU" 1 1 (3 / 10) 0 1 1
        { framebuffers := [("originalCPU", 1), ("gaussianCPU", 2)],
          textures := [("originalCPU", 11), ("gaussianCPU", 12)],
          pixels := fun _ => [0, 0, 0, 255], uploads := [] }).uploads
      = [(0, EdgeBinarize (fun v : ℚ => v) [0, 0, 0, 255] 1 1 (3 / 10) 0 1 1)] ∧
    (Resources.Combine ℚ ["gaussianCPU", "missingCPU"] "originalCPU" 1 1 1
        { framebuffers := [("originalCPU", 1), ("gaussianCPU", 2)],
          textures := [("originalCPU", 11), ("gaussianCPU", 12)],
          pixels := fun _ => [0, 0, 0, 255], uploads := [] }).framebuffers
      = [("originalCPU", 1), ("gaussianCPU", 2), ("missingCPU", 0)] ∧
    (Resources.Combine ℚ ["gaussianCPU", "missingCPU"] "originalCPU" 1 1 1
        { framebuffers := [("originalCPU", 1), ("gaussianCPU", 2)],
          textures := [("originalCPU", 11), ("gaussianCPU", 12)],
          pixels := fun _ => [0, 0, 0, 255], uploads := [] }).uploads
      = [(11, Combine ℚ [[0, 0, 0, 255], [0, 0, 0, 255]] 1 1 1)] := by
  refine ⟨?_, ?_, ?_, ?_, ?_, ?_, ?_⟩ <;> rfl

namespace F32

/-! ### Rounding to nearest -/

theorem shiftOf_step (q s j : Nat) (h1 : s = 0 ∨ 2 ^ 23 ≤ q >>> s)
    (h2 : q >>> (s + 2 * j) < 2 ^ 23) :
    ((if 2 ^ 23 ≤ q >>> (s + j) then s + j else s) = 0 ∨
        2 ^ 23 ≤ q >>> (if 2 ^ 23 ≤ q >>> (s + j) then s + j else s)) ∧
      q >>> ((if 2 ^ 23 ≤ q >>> (s + j) then s + j else s) + j) < 2 ^ 23 := by
  split
  · rename_i h
    refine ⟨Or.inr h, ?_⟩
    have : s + j + j = s + 2 * j := by omega
    rw [this]
    exact h2
  · rename_i h
    exact ⟨h1, by omega⟩

theorem shiftOf_spec (q : Nat) (hq : q < 2 ^ 1047) :
    (shiftOf q = 0 ∨ 2 ^ 23 ≤ q >>> shiftOf q) ∧ q >>> shiftOf q < 2 ^ 24 := by
  have h0 : q >>> (0 + 2 * 512) < 2 ^ 23 := by
    rw [Nat.shiftRight_eq_div_pow]
    have : (2 : Nat) ^ 1047 = 2 ^ (0 + 2 * 512) * 2 ^ 23 := by rw [← pow_add]
    rw [Nat.div_lt_iff_lt_mul (by positivity)]
    omega
  have s1 := shiftOf_step q 0 512 (Or.inl rfl) h0
  have s2 := shiftOf_step q _ 256 s1.1 s1.2
  have s3 := shiftOf_step q _ 128 s2.1 s2.2
  have s4 := shiftOf_step q _ 64 s3.1 s3.2
  have s5 := shiftOf_step q _ 32 s4.1 s4.2
  have s6 := shiftOf_step q _ 16 s5.1 s5.2
  have s7 := shiftOf_step q _ 8 s6.1 s6.2
  have s8 := shiftOf_step q _ 4 s7.1 s7.2
  have s9 := shiftOf_step q _ 2 s8.1 s8.2
  have s10 := shiftOf_step q _ 1 s9.1 s9.2
  refine ⟨s10.1, ?_⟩
  have h := s10.2
  simp only [shiftOf, List.foldl_cons, List.foldl_nil]
  rw [Nat.shiftRight_eq_div_pow] at h ⊢
  rw [pow_succ, ← Nat.div_div_eq_div_mul] at h
  omega


theorem roundRaw_cases (num den : Nat) (hq : num / den < 2 ^ 1047) :
    ∃ s m r : Nat, num = m * (den * 2 ^ s) + r ∧ (r < den * 2 ^ s ∨ den = 0) ∧ m < 2 ^ 24 ∧
      (s = 0 ∨ 2 ^ 23 ≤ m) ∧
      ((roundRaw num den = m * 2 ^ s ∧ 2 * r ≤ den * 2 ^ s) ∨
        (roundRaw num den = (m + 1) * 2 ^ s ∧ den * 2 ^ s ≤ 2 * r)) := by
  obtain ⟨h1, h2⟩ := shiftOf_spec (num / den) hq
  have hm : num / (den * 2 ^ shiftOf (num / den)) = (num / den) >>> shiftOf (num / den) := by
    rw [Nat.shiftRight_eq_div_pow, Nat.div_div_eq_div_mul]
  refine ⟨shiftOf (num / den), num / (den * 2 ^ shiftOf (num / den)),
    num % (den * 2 ^ shiftOf (num / den)), ?_, ?_, ?_, ?_, ?_⟩
  · rw [Nat.mul_comm]
    exact (Nat.div_add_mod _ _).symm
  · rcases Nat.eq_zero_or_pos den with h | h
    · exact Or.inr h
    · have hd : 0 < den * 2 ^ shiftOf (num / den) := Nat.mul_pos h (Nat.two_pow_pos _)
      exact Or.inl (Nat.mod_lt _ hd)
  · rw [hm]; exact h2
  · rw [hm]; exact h1
  · clear hq h1 h2 hm
    simp only [roundRaw, Nat.shiftLeft_eq]
    split
    · rename_i h
      exact Or.inl ⟨rfl, by omega⟩
    · rename_i h
      split
      · rename_i h'
        split
        · exact Or.inl ⟨rfl, by omega⟩
        · exact Or.inr ⟨rfl, by omega⟩
      · rename_i h'
        exact Or.inr ⟨rfl, by omega⟩

theorem rep_gap (s m k : Nat) (_hm : m < 2 ^ 24) (hs : s = 0 ∨ 2 ^ 23 ≤ m) (hk : Rep k) :
    k ≤ m * 2 ^ s ∨ (m + 1) * 2 ^ s ≤ k := by
  by_contra hcon
  push_neg at hcon
  obtain ⟨hlo, hhi⟩ := hcon
  rcases hs with rfl | hs
  · simp only [pow_zero, mul_one] at hlo hhi
    omega
  · obtain ⟨m0, t, hm0, rfl⟩ := hk
    rcases le_or_lt s t with hst | hst
    · obtain ⟨e, rfl⟩ := Nat.exists_eq_add_of_le hst
      have hp : (2 : Nat) ^ (s + e) = 2 ^ e * 2 ^ s := by rw [← pow_add, Nat.add_comm]
      rw [hp, ← mul_assoc] at hlo hhi
      have h1 := Nat.lt_of_mul_lt_mul_right hlo
      have h2 := Nat.lt_of_mul_lt_mul_right hhi
      omega
    · obtain ⟨e, rfl⟩ := Nat.exists_eq_add_of_lt hst
      have hp : (2 : Nat) ^ (t + e + 1) = 2 ^ (e + 1) * 2 ^ t := by
        rw [← pow_add]; congr 1; omega
      rw [hp, ← mul_assoc] at hlo
      have h1 := Nat.lt_of_mul_lt_mul_right hlo
      have h2 : 2 ^ 23 * 2 ^ 1 ≤ m * 2 ^ (e + 1) :=
        Nat.mul_le_mul hs (Nat.pow_le_pow_right (by norm_num) (by omega))
      omega

theorem rep_mul_pow (m s : Nat) (hm : m ≤ 2 ^ 24) : Rep (m * 2 ^ s) := by
  rcases Nat.lt_or_ge m (2 ^ 24) with h | h
  · exact ⟨m, s, h, rfl⟩
  · have : m = 2 ^ 24 := le_antisymm hm h
    subst this
    exact ⟨2 ^ 23, s + 1, by norm_num, by rw [pow_succ]; ring⟩

theorem roundRaw_rep (num den : Nat) (hq : num / den < 2 ^ 1047) : Rep (roundRaw num den) := by
  obtain ⟨s, m, r, -, -, hm, -, h | h⟩ := roundRaw_cases num den hq
  · rw [h.1]; exact rep_mul_pow m s (le_of_lt hm)
  · rw [h.1]; exact rep_mul_pow (m + 1) s hm

/-- The rounded magnitude is at least as near to `num / den` as every magnitude with 24
significant bits. -/
theorem roundRaw_nearest (num den : Nat) (hden : 0 < den) (hq : num / den < 2 ^ 1047)
    (k : Nat) (hk : Rep k) :
    |((roundRaw num den : Nat) : Int) * den - num| ≤ |((k : Nat) : Int) * den - num| := by
  obtain ⟨s, m, r, hnum, hr, hm, hs, h⟩ := roundRaw_cases num den hq
  have hr' : r < den * 2 ^ s := by
    rcases hr with h | h
    · exact h
    · omega
  have hnumZ : (num : Int) = (m : Int) * ((den : Int) * 2 ^ s) + r := by exact_mod_cast hnum
  have hrZ : (r : Int) < (den : Int) * 2 ^ s := by exact_mod_cast hr'
  have hr0 : (0 : Int) ≤ r := Int.natCast_nonneg r
  have hd0 : (0 : Int) ≤ (den : Int) := Int.natCast_nonneg den
  have hgap := rep_gap s m k hm hs hk
  have hR : |((roundRaw num den : Nat) : Int) * den - num| ≤ r ∧
      |((roundRaw num den : Nat) : Int) * den - num| ≤ (den : Int) * 2 ^ s - r := by
    rcases h with ⟨e, hle⟩ | ⟨e, hle⟩
    · have hleZ : 2 * (r : Int) ≤ (den : Int) * 2 ^ s := by exact_mod_cast hle
      have : ((roundRaw num den : Nat) : Int) * den - num = -(r : Int) := by
        rw [e, hnumZ]; push_cast; ring
      rw [this, abs_neg, abs_of_nonneg hr0]
      constructor <;> linarith
    · have hleZ : (den : Int) * 2 ^ s ≤ 2 * (r : Int) := by exact_mod_cast hle
      have : ((roundRaw num den : Nat) : Int) * den - num = (den : Int) * 2 ^ s - r := by
        rw [e, hnumZ]; push_cast; ring
      rw [this, abs_of_nonneg (by linarith)]
      constructor <;> linarith
  rcases hgap with hle | hge
  · have hleZ : (k : Int) ≤ (m : Int) * 2 ^ s := by exact_mod_cast hle
    have h1 : (k : Int) * den ≤ (m : Int) * 2 ^ s * den := mul_le_mul_of_nonneg_right hleZ hd0
    have : (k : Int) * den - num ≤ -(r : Int) := by rw [hnumZ]; linarith
    have h2 : (r : Int) ≤ |(k : Int) * den - num| := by
      rw [abs_of_nonpos (by linarith)]; linarith
    exact le_trans hR.1 h2
  · have hgeZ : ((m : Int) + 1) * 2 ^ s ≤ (k : Int) := by exact_mod_cast hge
    have h1 : ((m : Int) + 1) * 2 ^ s * den ≤ (k : Int) * den :=
      mul_le_mul_of_nonneg_right hgeZ hd0
    have : (den : Int) * 2 ^ s - r ≤ (k : Int) * den - num := by rw [hnumZ]; linarith
    have h2 : (den : Int) * 2 ^ s - r ≤ |(k : Int) * den - num| :=
      le_trans this (le_abs_self _)
    exact le_trans hR.2 h2


theorem maxMag_lt : maxMag < 2 ^ 1047 := by
  have h1 : maxMag < 2 ^ 24 * 2 ^ 253 := by
    unfold maxMag
    exact Nat.mul_lt_mul_of_pos_right (by norm_num) (Nat.two_pow_pos _)
  have h2 : (2 : Nat) ^ 24 * 2 ^ 253 ≤ 2 ^ 1047 := by
    rw [← pow_add]
    exact Nat.pow_le_pow_right (by norm_num) (by norm_num)
  omega

theorem div_lt_of_le_mul (num den T : Nat) (_hden : 0 < den) (hT : T < 2 ^ 1047)
    (h : num ≤ T * den) : num / den < 2 ^ 1047 :=
  lt_of_le_of_lt (Nat.div_le_of_le_mul (by rw [Nat.mul_comm]; exact h)) hT

/-- Rounding does not go above a representable upper bound. -/
theorem roundRaw_le_of_le (num den T : Nat) (hden : 0 < den) (hT : Rep T) (hT' : T < 2 ^ 1047)
    (h : num ≤ T * den) : roundRaw num den ≤ T := by
  by_contra hcon
  push_neg at hcon
  have hn := roundRaw_nearest num den hden (div_lt_of_le_mul num den T hden hT' h) T hT
  have h1 : ((T : Nat) : Int) * den - num ≥ 0 := by
    have : (num : Int) ≤ (T : Int) * den := by exact_mod_cast h
    linarith
  have h2 : ((T : Nat) : Int) * den < ((roundRaw num den : Nat) : Int) * den := by
    have hd : (0 : Int) < den := by exact_mod_cast hden
    have : (T : Int) < (roundRaw num den : Int) := by exact_mod_cast hcon
    exact mul_lt_mul_of_pos_right this hd
  rw [abs_of_nonneg (by linarith), abs_of_nonneg h1] at hn
  linarith

/-- Rounding does not go below a representable lower bound. -/
theorem le_roundRaw_of_le (num den T : Nat) (hden : 0 < den) (hq : num / den < 2 ^ 1047)
    (hT : Rep T) (h : T * den ≤ num) : T ≤ roundRaw num den := by
  by_contra hcon
  push_neg at hcon
  have hn := roundRaw_nearest num den hden hq T hT
  have h1 : ((T : Nat) : Int) * den - num ≤ 0 := by
    have : (T : Int) * den ≤ (num : Int) := by exact_mod_cast h
    linarith
  have h2 : ((roundRaw num den : Nat) : Int) * den < ((T : Nat) : Int) * den := by
    have hd : (0 : Int) < den := by exact_mod_cast hden
    have : (roundRaw num den : Int) < (T : Int) := by exact_mod_cast hcon
    exact mul_lt_mul_of_pos_right this hd
  rw [abs_of_nonpos (by linarith), abs_of_nonpos h1] at hn
  linarith

/-- A representable magnitude is rounded to itself. -/
theorem roundRaw_exact (k den : Nat) (hden : 0 < den) (hk : Rep k) (hk' : k < 2 ^ 1047) :
    roundRaw (k * den) den = k :=
  le_antisymm (roundRaw_le_of_le _ _ k hden hk hk' (le_refl _))
    (le_roundRaw_of_le _ _ k hden (by rw [Nat.mul_div_cancel _ hden]; exact hk') hk (le_refl _))

/-- The rounding error is at most half the spacing of the binade: for a magnitude below
`2^(24+s)` units it is at most `2^s / 2` units. -/
theorem roundRaw_error (num den s : Nat) (hden : 0 < den) (hs : 24 + s < 1047)
    (h : num < 2 ^ (24 + s) * den) :
    2 * |((roundRaw num den : Nat) : Int) * den - num| ≤ 2 ^ s * (den : Int) := by
  have hq : num / den < 2 ^ 1047 := by
    have h1 : num / den < 2 ^ (24 + s) := by
      rw [Nat.div_lt_iff_lt_mul hden]; exact h
    exact lt_trans h1 (Nat.pow_lt_pow_right (by norm_num) hs)
  have hd0 : 0 < den * 2 ^ s := Nat.mul_pos hden (Nat.two_pow_pos _)
  have hm : num / (den * 2 ^ s) < 2 ^ 24 := by
    rw [Nat.div_lt_iff_lt_mul hd0]
    calc num < 2 ^ (24 + s) * den := h
      _ = 2 ^ 24 * (den * 2 ^ s) := by rw [pow_add]; ring
  have hlo := roundRaw_nearest num den hden hq (num / (den * 2 ^ s) * 2 ^ s)
    (rep_mul_pow _ s (le_of_lt hm))
  have hhi := roundRaw_nearest num den hden hq ((num / (den * 2 ^ s) + 1) * 2 ^ s)
    (rep_mul_pow _ s hm)
  have hdm := Nat.div_add_mod num (den * 2 ^ s)
  have hr := Nat.mod_lt num hd0
  generalize num / (den * 2 ^ s) = m at hlo hhi hdm
  generalize num % (den * 2 ^ s) = r at hdm hr
  have hnumZ : (num : Int) = (den : Int) * 2 ^ s * m + r := by
    have : (num : Int) = ((den * 2 ^ s * m + r : Nat) : Int) := by rw [hdm]
    rw [this]; push_cast; ring
  have hrZ : (r : Int) < (den : Int) * 2 ^ s := by exact_mod_cast hr
  have hr0 : (0 : Int) ≤ r := Int.natCast_nonneg r
  have e1 : ((m * 2 ^ s : Nat) : Int) * den - num = -(r : Int) := by
    rw [hnumZ]; push_cast; ring
  have e2 : (((m + 1) * 2 ^ s : Nat) : Int) * den - num = (den : Int) * 2 ^ s - r := by
    rw [hnumZ]; push_cast; ring
  rw [e1, abs_neg, abs_of_nonneg hr0] at hlo
  rw [e2, abs_of_nonneg (show (0 : Int) ≤ (den : Int) * 2 ^ s - r by linarith)] at hhi
  have : (2 : Int) ^ s * den = (den : Int) * 2 ^ s := by ring
  linarith

end F32
namespace F32

/-! ### Operations on finite values -/

theorem ofMag_fin (s : Bool) (num den : Nat) (h : roundRaw num den ≤ maxMag) :
    ofMag s num den = fin s (roundRaw num den) := by
  unfold ofMag roundMag
  rw [if_pos h]

theorem rep_two_pow (t : Nat) : Rep (2 ^ t) := ⟨1, t, by norm_num, by rw [one_mul]⟩

theorem one_le_maxMag : 2 ^ 149 ≤ maxMag := by
  unfold maxMag
  calc (2 : Nat) ^ 149 ≤ 2 ^ 253 := Nat.pow_le_pow_right (by norm_num) (by norm_num)
    _ = 1 * 2 ^ 253 := (one_mul _).symm
    _ ≤ (2 ^ 24 - 1) * 2 ^ 253 := Nat.mul_le_mul_right _ (by norm_num)

theorem lt_of_le_maxMag (k : Nat) (h : k ≤ maxMag) : k < 2 ^ 1047 :=
  lt_of_le_of_lt h maxMag_lt

/-- `0.0f + f = f` for a finite non-zero `f`. -/
theorem zero_add_finite (f : F32) (hf : f.Finite) (hz : f.isZero = false) : zero + f = f := by
  obtain ⟨s, k, rfl, hrep, hmax⟩ := hf
  have hk : k ≠ 0 := by simpa [isZero] using hz
  have hr : roundRaw k 1 = k := by
    have := roundRaw_exact k 1 Nat.one_pos hrep (lt_of_le_maxMag k hmax)
    rwa [Nat.mul_one] at this
  show add (fin false 0) (fin s k) = fin s k
  cases s
  · simp only [add, if_true, Nat.zero_add]
    rw [ofMag_fin _ _ _ (by rw [hr]; exact hmax), hr]
  · have h0 : ¬ (0 = k) := fun h => hk h.symm
    simp only [add, Bool.false_eq_true, if_false, h0, Nat.not_lt_zero, Nat.sub_zero]
    rw [ofMag_fin _ _ _ (by rw [hr]; exact hmax), hr]

/-- `f / f = 1.0f` for a finite non-zero `f`. -/
theorem div_self_finite (f : F32) (hf : f.Finite) (hz : f.isZero = false) : f / f = one := by
  obtain ⟨s, k, rfl, -, hmax⟩ := hf
  have hk : k ≠ 0 := by simpa [isZero] using hz
  have hr : roundRaw (k * 2 ^ 149) k = 2 ^ 149 := by
    have := roundRaw_exact (2 ^ 149) k (Nat.pos_of_ne_zero hk) (rep_two_pow 149)
      (lt_of_le_maxMag _ one_le_maxMag)
    rwa [Nat.mul_comm] at this
  show div (fin s k) (fin s k) = one
  simp only [div, hk, if_false, Bool.xor_self]
  rw [ofMag_fin _ _ _ (by rw [hr]; exact one_le_maxMag), hr]
  rfl

set_option maxRecDepth 100000 in
/-- A byte normalized by `255.0f`, multiplied by the weight `1.0f`, added to `0.0f` and scaled
back by `255.0f` is converted to the same byte. -/
theorem byte_round_trip (v : Nat) (hv : v < 256) :
    toByte ((zero + ofInt v / ofInt 255 * one) * ofInt 255) = v := by
  revert v
  decide

end F32
namespace F32

/-! ### Error bounds for the operations -/

theorem rep_zero : Rep 0 := ⟨0, 0, by norm_num, by norm_num⟩

theorem two_pow_le_maxMag (e : Nat) (he : e ≤ 276) : 2 ^ e ≤ maxMag := by
  unfold maxMag
  calc (2 : Nat) ^ e ≤ 2 ^ 276 := Nat.pow_le_pow_right (by norm_num) he
    _ = 2 ^ 23 * 2 ^ 253 := by rw [← pow_add]
    _ ≤ (2 ^ 24 - 1) * 2 ^ 253 := Nat.mul_le_mul_right _ (by norm_num)

/-- Rounding a magnitude below `2^(24+e)` units: the result is finite, at most `2^(24+e)`, and
within `2^e / 2` units of the magnitude. -/
theorem round_bound (s : Bool) (num den e : Nat) (hden : 0 < den) (he : 24 + e ≤ 276)
    (h : num < 2 ^ (24 + e) * den) :
    ∃ k, ofMag s num den = fin s k ∧ Rep k ∧ k ≤ 2 ^ (24 + e) ∧
      2 * |(k : Int) * den - num| ≤ 2 ^ e * (den : Int) := by
  have hT : Rep (2 ^ (24 + e)) := rep_two_pow _
  have hT' : 2 ^ (24 + e) < 2 ^ 1047 := Nat.pow_lt_pow_right (by norm_num) (by omega)
  have hle := roundRaw_le_of_le num den _ hden hT hT' (le_of_lt h)
  have hq := div_lt_of_le_mul num den _ hden hT' (le_of_lt h)
  exact ⟨roundRaw num den, ofMag_fin _ _ _ (le_trans hle (two_pow_le_maxMag _ he)),
    roundRaw_rep _ _ hq, hle, roundRaw_error num den e hden (by omega) h⟩

/-- The same with denominator one. -/
theorem round_bound_one (s : Bool) (num e : Nat) (he : 24 + e ≤ 276)
    (h : num < 2 ^ (24 + e)) :
    ∃ k, ofMag s num 1 = fin s k ∧ Rep k ∧ k ≤ 2 ^ (24 + e) ∧
      2 * |(k : Int) - num| ≤ 2 ^ e := by
  obtain ⟨k, h1, h2, h3, h4⟩ := round_bound s num 1 e Nat.one_pos he (by rwa [Nat.mul_one])
  refine ⟨k, h1, h2, h3, ?_⟩
  simpa using h4

/-- The sum of two finite values whose magnitudes add up to less than `2^(24+e)` units is
finite and within `2^e / 2` units of the exact sum. -/
theorem add_fin (s t : Bool) (a b e : Nat) (he : 24 + e ≤ 276) (h : a + b < 2 ^ (24 + e)) :
    ∃ u k, fin s a + fin t b = fin u k ∧ Rep k ∧ k ≤ 2 ^ (24 + e) ∧
      2 * |toInt (fin u k) - (toInt (fin s a) + toInt (fin t b))| ≤ 2 ^ e := by
  have hpos : (0 : Int) ≤ 2 ^ e := by positivity
  have key : ∀ (s : Bool) (x y : Nat), y ≤ x → x + y < 2 ^ (24 + e) →
      (∃ k, ofMag s (x + y) 1 = fin s k ∧ Rep k ∧ k ≤ 2 ^ (24 + e) ∧
        2 * |(k : Int) - ((x : Int) + y)| ≤ 2 ^ e) ∧
      (∃ k, ofMag s (x - y) 1 = fin s k ∧ Rep k ∧ k ≤ 2 ^ (24 + e) ∧
        2 * |(k : Int) - ((x : Int) - y)| ≤ 2 ^ e) := by
    intro s x y hyx hxy
    constructor
    · obtain ⟨k, h1, h2, h3, h4⟩ := round_bound_one s (x + y) e he hxy
      exact ⟨k, h1, h2, h3, by push_cast at h4; exact h4⟩
    · obtain ⟨k, h1, h2, h3, h4⟩ := round_bound_one s (x - y) e he (by omega)
      exact ⟨k, h1, h2, h3, by rw [Nat.cast_sub hyx] at h4; exact h4⟩
  show ∃ u k, add (fin s a) (fin t b) = fin u k ∧ _
  rcases Nat.lt_trichotomy a b with hab | hab | hab
  · obtain ⟨⟨k1, p1, q1, r1, e1⟩, ⟨k2, p2, q2, r2, e2⟩⟩ :=
      key t b a (le_of_lt hab) (by omega)
    have hne : ¬ a = b := by omega
    have hnl : ¬ b < a := by omega
    cases s <;> cases t
    · obtain ⟨k, p, q, r, e'⟩ := (key false b a (le_of_lt hab) (by omega)).1
      refine ⟨false, k, ?_, q, r, ?_⟩
      · simp only [add, if_true, Nat.add_comm a b]; exact p
      · simp only [toInt, Bool.false_eq_true, if_false]
        have : (k : Int) - ((a : Int) + b) = (k : Int) - ((b : Int) + a) := by ring
        rw [this]; exact e'
    · refine ⟨true, k2, ?_, q2, r2, ?_⟩
      · simp only [add, Bool.false_eq_true, if_false, hne, hnl]; exact p2
      · simp only [toInt, Bool.false_eq_true, if_false, if_true]
        have : -(k2 : Int) - ((a : Int) + -(b : Int)) = -((k2 : Int) - ((b : Int) - a)) := by
          ring
        rw [this, abs_neg]; exact e2
    · refine ⟨false, k2, ?_, q2, r2, ?_⟩
      · simp only [add, Bool.true_eq_false, if_false, hne, hnl]; exact p2
      · simp only [toInt, Bool.false_eq_true, if_false, if_true]
        have : (k2 : Int) - (-(a : Int) + (b : Int)) = (k2 : Int) - ((b : Int) - a) := by ring
        rw [this]; exact e2
    · refine ⟨true, k1, ?_, q1, r1, ?_⟩
      · simp only [add, if_true, Nat.add_comm a b]; exact p1
      · simp only [toInt, if_true]
        have : -(k1 : Int) - (-(a : Int) + -(b : Int)) = -((k1 : Int) - ((b : Int) + a)) := by
          ring
        rw [this, abs_neg]; exact e1
  · subst hab
    cases s <;> cases t
    · obtain ⟨k, p, q, r, e'⟩ := (key false a a (le_refl _) h).1
      exact ⟨false, k, by simp only [add, if_true]; exact p, q, r,
        by simp only [toInt, Bool.false_eq_true, if_false]; exact e'⟩
    · refine ⟨false, 0, by simp only [add, Bool.false_eq_true, if_false, if_true], rep_zero,
        Nat.zero_le _, ?_⟩
      simp only [toInt, Bool.false_eq_true, if_false, if_true]
      simp
    · refine ⟨false, 0, by simp only [add, Bool.true_eq_false, if_false, if_true], rep_zero,
        Nat.zero_le _, ?_⟩
      simp only [toInt, Bool.false_eq_true, if_false, if_true]
      simp
    · obtain ⟨k, p, q, r, e'⟩ := (key true a a (le_refl _) h).1
      refine ⟨true, k, by simp only [add, if_true]; exact p, q, r, ?_⟩
      simp only [toInt, if_true]
      have : -(k : Int) - (-(a : Int) + -(a : Int)) = -((k : Int) - ((a : Int) + a)) := by ring
      rw [this, abs_neg]; exact e'
  · obtain ⟨⟨k1, p1, q1, r1, e1⟩, ⟨k2, p2, q2, r2, e2⟩⟩ :=
      key s a b (le_of_lt hab) h
    have hne : ¬ a = b := by omega
    cases s <;> cases t
    · refine ⟨false, k1, ?_, q1, r1, ?_⟩
      · simp only [add, if_true]; exact p1
      · simp only [toInt, Bool.false_eq_true, if_false]; exact e1
    · refine ⟨false, k2, ?_, q2, r2, ?_⟩
      · simp only [add, Bool.false_eq_true, if_false, hne, hab, if_true]; exact p2
      · simp only [toInt, Bool.false_eq_true, if_false, if_true]
        have : (k2 : Int) - ((a : Int) + -(b : Int)) = (k2 : Int) - ((a : Int) - b) := by ring
        rw [this]; exact e2
    · refine ⟨true, k2, ?_, q2, r2, ?_⟩
      · simp only [add, Bool.true_eq_false, if_false, hne, hab, if_true]; exact p2
      · simp only [toInt, Bool.false_eq_true, if_false, if_true]
        have : -(k2 : Int) - (-(a : Int) + (b : Int)) = -((k2 : Int) - ((a : Int) - b)) := by
          ring
        rw [this, abs_neg]; exact e2
    · refine ⟨true, k1, ?_, q1, r1, ?_⟩
      · simp only [add, if_true]; exact p1
      · simp only [toInt, if_true]
        have : -(k1 : Int) - (-(a : Int) + -(b : Int)) = -((k1 : Int) - ((a : Int) + b)) := by
          ring
        rw [this, abs_neg]; exact e1

/-- The conversion of an integer of magnitude below `2^24` is exact. -/
theorem ofInt_exact (c : Int) (hc : c.natAbs < 2 ^ 24) :
    ofInt c = fin (decide (c < 0)) (c.natAbs * 2 ^ 149) := by
  have hrep : Rep (c.natAbs * 2 ^ 149) := rep_mul_pow _ _ (le_of_lt hc)
  have hlt : c.natAbs * 2 ^ 149 < 2 ^ 24 * 2 ^ 149 := Nat.mul_lt_mul_of_pos_right hc (by positivity)
  have hle : c.natAbs * 2 ^ 149 ≤ maxMag :=
    le_trans (le_of_lt hlt) (by rw [← pow_add]; exact two_pow_le_maxMag _ (by norm_num))
  have hr : roundRaw (c.natAbs * 2 ^ 149) 1 = c.natAbs * 2 ^ 149 := by
    have := roundRaw_exact _ 1 Nat.one_pos hrep (lt_of_le_maxMag _ hle)
    rwa [Nat.mul_one] at this
  unfold ofInt
  rw [ofMag_fin _ _ _ (by rw [hr]; exact hle), hr]

theorem rep_double (k : Nat) (hk : Rep k) : Rep (k * 2) := by
  obtain ⟨m, t, hm, rfl⟩ := hk
  exact ⟨m, t + 1, hm, by rw [pow_succ, Nat.mul_assoc]⟩

/-- The product of a finite value of magnitude at most `2^200` units and an integer among
`-2, …, 2` is exact. -/
theorem mul_small (s : Bool) (k : Nat) (c : Int) (hk : Rep k) (hk' : k ≤ 2 ^ 200)
    (hc : c.natAbs ≤ 2) :
    ∃ u, fin s k * ofInt c = fin u (k * c.natAbs) ∧ Rep (k * c.natAbs) ∧
      toInt (fin u (k * c.natAbs)) = toInt (fin s k) * c := by
  have hrep : Rep (k * c.natAbs) := by
    have h3 : c.natAbs = 0 ∨ c.natAbs = 1 ∨ c.natAbs = 2 := by omega
    rcases h3 with h | h | h <;> rw [h]
    · exact rep_zero
    · rw [Nat.mul_one]; exact hk
    · exact rep_double k hk
  have hle : k * c.natAbs ≤ maxMag := by
    have : k * c.natAbs ≤ 2 ^ 200 * 2 := Nat.mul_le_mul hk' hc
    refine le_trans this ?_
    have e : (2 : Nat) ^ 200 * 2 = 2 ^ 201 := (pow_succ 2 200).symm
    rw [e]; exact two_pow_le_maxMag _ (by norm_num)
  have hr : roundRaw (k * (c.natAbs * 2 ^ 149)) (2 ^ 149) = k * c.natAbs := by
    have := roundRaw_exact (k * c.natAbs) (2 ^ 149) (by positivity) hrep
      (lt_of_le_maxMag _ hle)
    rwa [Nat.mul_assoc] at this
  refine ⟨xor s (decide (c < 0)), ?_, hrep, ?_⟩
  · rw [ofInt_exact c (lt_of_le_of_lt hc (by norm_num))]
    show mul (fin s k) (fin _ _) = _
    simp only [mul]
    rw [ofMag_fin _ _ _ (by rw [hr]; exact hle), hr]
  · have hcn : (c.natAbs : Int) = |c| := Int.natCast_natAbs c
    by_cases h0 : c < 0
    · have : |c| = -c := abs_of_neg h0
      cases s <;> simp [toInt, h0, hcn, this]
    · have : |c| = c := abs_of_nonneg (not_lt.1 h0)
      cases s <;> simp [toInt, h0, hcn, this]

end F32
namespace F32

/-! ### The three terms of the luminance -/

set_option maxRecDepth 100000 in
theorem gray_term21 (v : Nat) (hv : v < 256) :
    (lit 21 100 * (ofInt v / ofInt 255)).isFinite = true ∧
    toInt (lit 21 100 * (ofInt v / ofInt 255)) * 25500 ≤ 21 * v * 2 ^ 149 + 25500 * 2 ^ 123 ∧
    21 * v * 2 ^ 149 ≤ toInt (lit 21 100 * (ofInt v / ofInt 255)) * 25500 + 25500 * 2 ^ 123 := by
  revert v
  decide

set_option maxRecDepth 100000 in
theorem gray_term71 (v : Nat) (hv : v < 256) :
    (lit 71 100 * (ofInt v / ofInt 255)).isFinite = true ∧
    toInt (lit 71 100 * (ofInt v / ofInt 255)) * 25500 ≤ 71 * v * 2 ^ 149 + 25500 * 2 ^ 125 ∧
    71 * v * 2 ^ 149 ≤ toInt (lit 71 100 * (ofInt v / ofInt 255)) * 25500 + 25500 * 2 ^ 125 := by
  revert v
  decide

set_option maxRecDepth 100000 in
theorem gray_term7 (v : Nat) (hv : v < 256) :
    (lit 7 100 * (ofInt v / ofInt 255)).isFinite = true ∧
    toInt (lit 7 100 * (ofInt v / ofInt 255)) * 25500 ≤ 7 * v * 2 ^ 149 + 25500 * 2 ^ 122 ∧
    7 * v * 2 ^ 149 ≤ toInt (lit 7 100 * (ofInt v / ofInt 255)) * 25500 + 25500 * 2 ^ 122 := by
  revert v
  decide

end F32
namespace F32

/-! ### A sum of small integer multiples of one value, and the square root -/

/-- One step of the accumulation `acc + g * c` for a value `g` of magnitude at most `1.0f` and
an integer `c` among `-2, …, 2`: if `acc` is within `n * 2^127` units of `P * g` with
`|P| ≤ 4` and `n ≤ 8`, the new accumulator is within `(n + 1) * 2^127` units of
`(P + c) * g`. -/
theorem sobel_step (s : Bool) (k : Nat) (hk : Rep k) (hk' : k ≤ 2 ^ 149) (acc : F32)
    (P n c : Int)
    (hacc : ∃ u a, acc = fin u a ∧ |toInt (fin u a) - P * toInt (fin s k)| ≤ n * 2 ^ 127)
    (hP : |P| ≤ 4) (hc : c.natAbs ≤ 2) (hn : n ≤ 8) :
    ∃ u a, acc + fin s k * ofInt c = fin u a ∧
      |toInt (fin u a) - (P + c) * toInt (fin s k)| ≤ (n + 1) * 2 ^ 127 := by
  obtain ⟨u, a, rfl, herr⟩ := hacc
  obtain ⟨v, hv, -, hT⟩ := mul_small s k c hk
    (le_trans hk' (Nat.pow_le_pow_right (by norm_num) (by norm_num))) hc
  rw [hv]
  have Ha : |toInt (fin u a)| = (a : Int) := by cases u <;> simp [toInt]
  have Hk : |toInt (fin s k)| = (k : Int) := by cases s <;> simp [toInt]
  have e127 : (2 : Int) ^ 127 = 170141183460469231731687303715884105728 := by norm_num
  have e128 : (2 : Int) ^ 128 = 340282366920938463463374607431768211456 := by norm_num
  have n149 : (2 : Nat) ^ 149 = 713623846352979940529142984724747568191373312 := by norm_num
  have n152 : (2 : Nat) ^ (24 + 128) = 5708990770823839524233143877797980545530986496 := by
    norm_num
  have hPT : |P * toInt (fin s k)| ≤ 4 * (k : Int) := by
    rw [abs_mul, Hk]
    exact mul_le_mul_of_nonneg_right hP (Int.natCast_nonneg k)
  have hcn : (c.natAbs : Int) ≤ 2 := by exact_mod_cast hc
  have hkc : ((k * c.natAbs : Nat) : Int) ≤ 2 * (k : Int) := by
    rw [Nat.cast_mul]
    have := mul_le_mul_of_nonneg_left hcn (Int.natCast_nonneg k)
    linarith
  have hsum : a + k * c.natAbs < 2 ^ (24 + 128) := by
    rw [n152]
    rw [n149] at hk'
    rw [e127] at herr
    rw [abs_eq_max_neg] at herr hPT Ha
    omega
  obtain ⟨w, b, hb, -, -, herr2⟩ := add_fin u v a (k * c.natAbs) 128 (by norm_num) hsum
  refine ⟨w, b, hb, ?_⟩
  rw [hT] at herr2
  have e : (P + c) * toInt (fin s k) = P * toInt (fin s k) + toInt (fin s k) * c := by ring
  rw [e]
  generalize P * toInt (fin s k) = X at *
  generalize toInt (fin s k) * c = Y at *
  rw [e127] at herr ⊢
  rw [e128] at herr2
  rw [abs_eq_max_neg] at herr herr2 ⊢
  omega

/-- The accumulation of `g * c` over a list of integers `c` among `-2, …, 2` whose partial
sums stay within `-4, …, 4`. -/
theorem sobel_fold (s : Bool) (k : Nat) (hk : Rep k) (hk' : k ≤ 2 ^ 149) (cs : List Int) :
    ∀ (acc : F32) (P n : Int),
      (∃ u a, acc = fin u a ∧ |toInt (fin u a) - P * toInt (fin s k)| ≤ n * 2 ^ 127) →
      n + cs.length ≤ 9 → (∀ c ∈ cs, c.natAbs ≤ 2) →
      (∀ m, m ≤ cs.length → |P + (cs.take m).sum| ≤ 4) →
      ∃ u a, cs.foldl (fun acc c => acc + fin s k * ofInt c) acc = fin u a ∧
        |toInt (fin u a) - (P + cs.sum) * toInt (fin s k)| ≤ (n + cs.length) * 2 ^ 127 := by
  induction cs with
  | nil =>
    intro acc P n hacc _ _ _
    obtain ⟨u, a, h1, h2⟩ := hacc
    refine ⟨u, a, h1, ?_⟩
    simp only [List.sum_nil, add_zero, List.length_nil, Nat.cast_zero]
    exact h2
  | cons c cs ih =>
    intro acc P n hacc hn hc hpre
    have hP : |P| ≤ 4 := by simpa using hpre 0 (Nat.zero_le _)
    have hlen : ((c :: cs).length : Int) = (cs.length : Int) + 1 := by simp
    have hstep := sobel_step s k hk hk' acc P n c hacc hP (hc c (List.mem_cons_self _ _))
      (by rw [hlen] at hn; linarith [Int.natCast_nonneg cs.length])
    have := ih (acc + fin s k * ofInt c) (P + c) (n + 1) hstep
      (by rw [hlen] at hn; linarith)
      (fun c' hc' => hc c' (List.mem_cons_of_mem _ hc'))
      (fun m hm => by
        have := hpre (m + 1) (by simpa using hm)
        simpa [List.take_succ_cons, List.sum_cons, add_assoc] using this)
    obtain ⟨u, a, h1, h2⟩ := this
    refine ⟨u, a, by simpa using h1, ?_⟩
    rw [List.sum_cons, hlen]
    have e1 : P + (c + cs.sum) = P + c + cs.sum := by ring
    have e2 : n + ((cs.length : Int) + 1) = n + 1 + cs.length := by ring
    rw [e1, e2]
    exact h2

theorem sqrtIter_sq_le (n : Nat) : ∀ (fuel guess : Nat), guess ≤ fuel →
    sqrtIter fuel n guess * sqrtIter fuel n guess ≤ n := by
  intro fuel
  induction fuel with
  | zero =>
    intro guess hg
    have : guess = 0 := by omega
    subst this
    simp [sqrtIter]
  | succ fuel ih =>
    intro guess hg
    simp only [sqrtIter]
    split
    · rename_i hlt
      exact ih _ (by omega)
    · rename_i hge
      rcases Nat.eq_zero_or_pos guess with h0 | h0
      · subst h0; simp
      · have h1 : guess ≤ n / guess := by omega
        exact (Nat.le_div_iff_mul_le h0).1 h1

theorem isqrt_sq_le (n : Nat) : isqrt n * isqrt n ≤ n := by
  unfold isqrt
  exact sqrtIter_sq_le n _ _ (le_refl _)

/-- The square root of a non-negative finite value of at most `T * T` (for a representable
magnitude `T`, in units of `2^-149` scaled accordingly) is finite, non-negative and at most
`T`. -/
theorem sqrt_le (c T : Nat) (hT : Rep T) (hT' : T ≤ maxMag) (h : c * 2 ^ 149 ≤ T * T) :
    ∃ k, sqrt (fin false c) = fin false k ∧ k ≤ T := by
  by_cases hc : c = 0
  · subst hc
    exact ⟨0, by simp [sqrt], Nat.zero_le _⟩
  have hTlt := lt_of_le_maxMag T hT'
  obtain ⟨r, hrdef⟩ : ∃ r, r = isqrt (c * 2 ^ 149 * 2 ^ 128) := ⟨_, rfl⟩
  have hr := isqrt_sq_le (c * 2 ^ 149 * 2 ^ 128)
  rw [← hrdef] at hr
  have hn : c * 2 ^ 149 * 2 ^ 128 ≤ (T * 2 ^ 64) * (T * 2 ^ 64) := by
    have e : (T * 2 ^ 64) * (T * 2 ^ 64) = T * T * 2 ^ 128 := by ring
    rw [e]
    exact Nat.mul_le_mul_right _ h
  have hrT : r ≤ T * 2 ^ 64 := by
    by_contra hlt
    have hlt := Nat.lt_of_not_le hlt
    have := Nat.mul_lt_mul'' hlt hlt
    omega
  by_cases hsq : r * r = c * 2 ^ 149 * 2 ^ 128
  · have hb := roundRaw_le_of_le r (2 ^ 64) T (by positivity) hT hTlt hrT
    refine ⟨roundRaw r (2 ^ 64), ?_, hb⟩
    have : sqrt (fin false c) = ofMag false r (2 ^ 64) := by
      simp only [sqrt, hc, if_false, Bool.false_eq_true, ← hrdef, hsq, if_true]
    rw [this, ofMag_fin _ _ _ (le_trans hb hT')]
  · have hne : r ≠ T * 2 ^ 64 := by
      intro heq
      apply hsq
      rw [heq] at hr ⊢
      omega
    have hlt : 2 * r + 1 ≤ T * 2 ^ 65 := by
      have e : T * 2 ^ 65 = 2 * (T * 2 ^ 64) := by ring
      rw [e]
      omega
    have hb := roundRaw_le_of_le (2 * r + 1) (2 ^ 65) T (by positivity) hT hTlt hlt
    refine ⟨roundRaw (2 * r + 1) (2 ^ 65), ?_, hb⟩
    have : sqrt (fin false c) = ofMag false (2 * r + 1) (2 ^ 65) := by
      simp only [sqrt, hc, if_false, Bool.false_eq_true, ← hrdef, hsq]
    rw [this, ofMag_fin _ _ _ (le_trans hb hT')]

/-- A value of magnitude at most `B` is not `≥` a threshold above `B`. -/
theorem not_ge_of_lt (s : Bool) (k B : Nat) (thr : F32) (hk : k ≤ B)
    (hthr : fin false B < thr) : ¬ (fin s k ≥ thr) := by
  show ¬ (le thr (fin s k) = true)
  have hthr' : lt (fin false B) thr = true := hthr
  generalize maxMag = M at *
  cases thr with
  | nan => simp [le, key]
  | inf t =>
    cases t <;> cases s <;> simp [lt, le, key] at hthr' ⊢ <;> omega
  | fin t b =>
    cases s <;> cases t <;> simp [lt, le, key] at hthr' ⊢ <;> omega

end F32
namespace F32

/-! ### Sums of non-negative values and normalization -/

/-- The rounding error of a sum is at most `2^-24` times the rounded sum. -/
theorem roundRaw_rel (num : Nat) (hq : num < 2 ^ 1047) :
    2 ^ 24 * |((roundRaw num 1 : Nat) : Int) - num| ≤ (roundRaw num 1 : Nat) := by
  obtain ⟨s, m, r, hnum, hr, hm, hs, hcase⟩ := roundRaw_cases num 1 (by rwa [Nat.div_one])
  clear hq
  rw [Nat.one_mul] at hnum hr hcase
  have hr' : r < 2 ^ s := by
    rcases hr with h | h
    · exact h
    · exact absurd h (by norm_num)
  have hp : (0 : Int) < 2 ^ s := by positivity
  have hnumZ : (num : Int) = m * 2 ^ s + r := by exact_mod_cast hnum
  have hrZ : (r : Int) < 2 ^ s := by exact_mod_cast hr'
  rcases hs with hs | hs
  · subst hs
    have hr0 : r = 0 := by simpa using hr'
    subst hr0
    rcases hcase with ⟨hR, -⟩ | ⟨-, h2⟩
    · rw [hR, hnum]; simp
    · simp at h2
  · have hmZ : (2 : Int) ^ 23 ≤ m := by exact_mod_cast hs
    have hms : (2 : Int) ^ 23 * 2 ^ s ≤ m * 2 ^ s := mul_le_mul_of_nonneg_right hmZ hp.le
    rcases hcase with ⟨hR, h2⟩ | ⟨hR, h2⟩
    · rw [hR]
      have h2Z : 2 * (r : Int) ≤ 2 ^ s := by exact_mod_cast h2
      have e : (((m * 2 ^ s : Nat) : Int)) - num = -(r : Int) := by
        rw [hnumZ]; push_cast; ring
      rw [e, abs_neg, abs_of_nonneg (Int.natCast_nonneg r)]
      push_cast
      have : (2 : Int) ^ 24 = 2 * 2 ^ 23 := by norm_num
      nlinarith
    · rw [hR]
      have h2Z : (2 : Int) ^ s ≤ 2 * r := by exact_mod_cast h2
      have e : ((((m + 1) * 2 ^ s : Nat) : Int)) - num = 2 ^ s - (r : Int) := by
        rw [hnumZ]; push_cast; ring
      rw [e, abs_of_nonneg (by linarith)]
      push_cast
      have : (2 : Int) ^ 24 = 2 * 2 ^ 23 := by norm_num
      nlinarith

theorem add_nonneg (a b : Nat) : fin false a + fin false b = ofMag false (a + b) 1 := by
  show add _ _ = _
  simp [add]

theorem inf_add_fin (b : Nat) : inf false + fin false b = inf false := rfl

/-- Once a sum of non-negative finite terms has overflowed it stays `+inf`. -/
theorem foldl_inf {ι : Type} (f : ι → F32) (l : List ι)
    (hf : ∀ i ∈ l, ∃ k, f i = fin false k) :
    l.foldl (fun acc i => acc + f i) (inf false) = inf false := by
  induction l with
  | nil => rfl
  | cons i l ih =>
    obtain ⟨k, hk⟩ := hf i (List.mem_cons_self _ _)
    rw [List.foldl_cons, hk, inf_add_fin]
    exact ih (fun j hj => hf j (List.mem_cons_of_mem _ hj))

/-- The binary32 sum of non-negative finite terms, when finite: it is at least the initial
value and each term, and it differs from the exact sum by at most `2^-24` times itself for
each addition. -/
theorem foldl_sum_rel {ι : Type} (f : ι → F32) (a : ι → Nat) (l : List ι) :
    ∀ (c : Nat), Rep c → c ≤ maxMag →
      (∀ i ∈ l, f i = fin false (a i) ∧ Rep (a i) ∧ a i ≤ maxMag) →
      (l.foldl (fun acc i => acc + f i) (fin false c)).isFinite = true →
      ∃ s, l.foldl (fun acc i => acc + f i) (fin false c) = fin false s ∧ Rep s ∧
        s ≤ maxMag ∧ c ≤ s ∧ (∀ i ∈ l, a i ≤ s) ∧
        2 ^ 24 * |(s : Int) - ((c : Int) + (l.map (fun i => (a i : Int))).sum)|
          ≤ (l.length : Int) * s := by
  induction l with
  | nil =>
    intro c hc hc' _ _
    exact ⟨c, rfl, hc, hc', le_refl _, by simp, by simp⟩
  | cons i l ih =>
    intro c hc hc' hf hfin
    obtain ⟨hi, hirep, hile⟩ := hf i (List.mem_cons_self _ _)
    have hf' : ∀ j ∈ l, f j = fin false (a j) ∧ Rep (a j) ∧ a j ≤ maxMag :=
      fun j hj => hf j (List.mem_cons_of_mem _ hj)
    rw [List.foldl_cons, hi, add_nonneg] at hfin ⊢
    have hlt : c + a i < 2 ^ 1047 := by
      have h1 := lt_of_le_maxMag c hc'
      have h2 := lt_of_le_maxMag (a i) hile
      have h3 : (2 : Nat) ^ 1047 = 2 ^ 1046 + 2 ^ 1046 := by
        rw [← Nat.two_mul, ← pow_succ']
      have h4 : maxMag < 2 ^ 1046 := by
        unfold maxMag
        calc (2 ^ 24 - 1) * 2 ^ 253 < 2 ^ 24 * 2 ^ 253 :=
              Nat.mul_lt_mul_of_pos_right (by norm_num) (by positivity)
          _ = 2 ^ 277 := by rw [← pow_add]
          _ ≤ 2 ^ 1046 := Nat.pow_le_pow_right (by norm_num) (by norm_num)
      clear h1 h2
      generalize (2 : Nat) ^ 1047 = X at *
      generalize (2 : Nat) ^ 1046 = Y at *
      omega
    have hq : (c + a i) / 1 < 2 ^ 1047 := by rwa [Nat.div_one]
    by_cases hov : roundRaw (c + a i) 1 ≤ maxMag
    · rw [ofMag_fin _ _ _ hov] at hfin ⊢
      have hrep := roundRaw_rep (c + a i) 1 hq
      have h1 : c ≤ roundRaw (c + a i) 1 :=
        le_roundRaw_of_le _ 1 c Nat.one_pos hq hc (by omega)
      have h2 : a i ≤ roundRaw (c + a i) 1 :=
        le_roundRaw_of_le _ 1 (a i) Nat.one_pos hq hirep (by omega)
      have h3 := roundRaw_rel (c + a i) hlt
      obtain ⟨s, hs, hsrep, hsle, hcs, hall, herr⟩ := ih _ hrep hov hf' hfin
      refine ⟨s, hs, hsrep, hsle, le_trans h1 hcs, ?_, ?_⟩
      · intro j hj
        rcases List.mem_cons.1 hj with rfl | hj
        · exact le_trans h2 hcs
        · exact hall j hj
      · clear hlt hq
        rw [List.map_cons, List.sum_cons, List.length_cons]
        push_cast at h3 herr ⊢
        have hcsZ : ((roundRaw (c + a i) 1 : Nat) : Int) ≤ s := by exact_mod_cast hcs
        generalize ((roundRaw (c + a i) 1 : Nat) : Int) = R at *
        generalize (List.map (fun i => (a i : Int)) l).sum = Sg at *
        clear ih
        rw [abs_eq_max_neg] at h3 herr ⊢
        have hsn : (0 : Int) ≤ s := Int.natCast_nonneg s
        have e : (((l.length : Nat) : Int) + 1) * (s : Int) = (l.length : Int) * s + s := by
          ring
        rw [e]
        generalize ((l.length : Nat) : Int) * (s : Int) = LS at *
        omega
    · have : ofMag false (c + a i) 1 = inf false := by
        unfold ofMag roundMag
        rw [if_neg hov]
      rw [this, foldl_inf f l (fun j hj => ⟨a j, (hf' j hj).1⟩)] at hfin
      simp [isFinite] at hfin

/-- The quotient of a non-negative finite value by a finite value that is at least as large
and not zero: it is at most `1.0f` and within `2^-24` of the exact quotient. -/
theorem div_norm (a s : Nat) (has : a ≤ s) (hs : 0 < s) :
    ∃ k, fin false a / fin false s = fin false k ∧ Rep k ∧ k ≤ 2 ^ 149 ∧
      |(k : Int) * s - (a : Int) * 2 ^ 149| ≤ 2 ^ 125 * (s : Int) := by
  have hlt : a * 2 ^ 149 < 2 ^ (24 + 126) * s := by
    have h1 : a * 2 ^ 149 ≤ s * 2 ^ 149 := Nat.mul_le_mul_right _ has
    have h2 : s * 2 ^ 149 < 2 ^ (24 + 126) * s := by
      rw [Nat.mul_comm]
      exact Nat.mul_lt_mul_of_pos_right (by norm_num) hs
    exact lt_of_le_of_lt h1 h2
  obtain ⟨k, h1, h2, -, h4⟩ := round_bound false (a * 2 ^ 149) s 126 hs (by norm_num) hlt
  have hk : k ≤ 2 ^ 149 := by
    have hle : roundRaw (a * 2 ^ 149) s ≤ 2 ^ 149 :=
      roundRaw_le_of_le _ s _ hs (rep_two_pow 149)
        (lt_of_le_maxMag _ (two_pow_le_maxMag _ (by norm_num)))
        (by rw [Nat.mul_comm]; exact Nat.mul_le_mul_left _ has)
    have hfin := ofMag_fin false _ _ (le_trans hle (two_pow_le_maxMag 149 (by norm_num)))
    rw [hfin] at h1
    have : roundRaw (a * 2 ^ 149) s = k := by
      injection h1
    rw [← this]; exact hle
  refine ⟨k, ?_, h2, hk, ?_⟩
  · show div _ _ = _
    have hs0 : s ≠ 0 := by omega
    simp only [div, hs0, if_false, Bool.xor_self]
    exact h1
  · rw [Nat.cast_mul, Nat.cast_pow, Nat.cast_ofNat] at h4
    have e : (2 : Int) ^ 126 = 2 * 2 ^ 125 := by norm_num
    rw [e] at h4
    linarith

end F32
namespace F32

/-! ### A weighted window sum of normalized bytes -/

set_option maxRecDepth 100000 in
/-- A byte divided by `255.0f`: the quotient is non-negative, at most `1.0f` and within
`2^-25` of the exact quotient. -/
theorem byte_div (v : Nat) (hv : v < 256) :
    ofInt v / ofInt 255 = fin false (toInt (ofInt v / ofInt 255)).toNat ∧
    0 ≤ toInt (ofInt v / ofInt 255) ∧
    toInt (ofInt v / ofInt 255) ≤ 2 ^ 149 ∧
    toInt (ofInt v / ofInt 255) * 255 ≤ v * 2 ^ 149 + 255 * 2 ^ 124 ∧
    v * 2 ^ 149 ≤ toInt (ofInt v / ofInt 255) * 255 + 255 * 2 ^ 124 := by
  revert v
  decide

/-- The product of two non-negative values of at most `1.0f` each is non-negative, at most
`1.0f` and within `2^-24` of the exact product. -/
theorem mul_unit (q k : Nat) (hq : q ≤ 2 ^ 149) (hk : k ≤ 2 ^ 149) :
    ∃ p, fin false q * fin false k = fin false p ∧ p ≤ 2 ^ 149 ∧
      |(p : Int) * 2 ^ 149 - (q : Int) * k| ≤ 2 ^ 125 * 2 ^ 149 := by
  have hqk : q * k ≤ 2 ^ 149 * 2 ^ 149 := Nat.mul_le_mul hq hk
  have hlt : q * k < 2 ^ (24 + 126) * 2 ^ 149 :=
    lt_of_le_of_lt hqk (Nat.mul_lt_mul_of_pos_right (by norm_num) (by positivity))
  obtain ⟨p, h1, -, -, h4⟩ := round_bound false (q * k) (2 ^ 149) 126 (by positivity)
    (by norm_num) hlt
  have hle : roundRaw (q * k) (2 ^ 149) ≤ 2 ^ 149 :=
    roundRaw_le_of_le _ _ _ (by positivity) (rep_two_pow 149)
      (lt_of_le_maxMag _ (two_pow_le_maxMag _ (by norm_num))) hqk
  have hp : p ≤ 2 ^ 149 := by
    have hfin := ofMag_fin false _ _ (le_trans hle (two_pow_le_maxMag 149 (by norm_num)))
    rw [hfin] at h1
    have : roundRaw (q * k) (2 ^ 149) = p := by injection h1
    rw [← this]; exact hle
  refine ⟨p, ?_, hp, ?_⟩
  · show mul _ _ = _
    simp only [mul, Bool.xor_self]
    exact h1
  · rw [Nat.cast_mul, Nat.cast_pow, Nat.cast_ofNat] at h4
    have e : (2 : Int) ^ 126 = 2 * 2 ^ 125 := by norm_num
    rw [e] at h4
    linarith

/-- The binary32 sum of non-negative finite terms that stays below `2.0f`: it differs from
the exact sum by at most `2^-24` for each addition. -/
theorem foldl_sum_abs {ι : Type} (f : ι → F32) (p : ι → Nat) (l : List ι) :
    ∀ (c : Nat), (∀ i ∈ l, f i = fin false (p i)) →
      (c : Int) + (l.map (fun i => (p i : Int))).sum + (l.length : Int) * 2 ^ 125 < 2 ^ 150 →
      ∃ s, l.foldl (fun acc i => acc + f i) (fin false c) = fin false s ∧
        |(s : Int) - ((c : Int) + (l.map (fun i => (p i : Int))).sum)|
          ≤ (l.length : Int) * 2 ^ 125 := by
  induction l with
  | nil =>
    intro c _ _
    exact ⟨c, rfl, by simp⟩
  | cons i l ih =>
    intro c hf hlt
    have hi := hf i (List.mem_cons_self _ _)
    have hf' : ∀ j ∈ l, f j = fin false (p j) := fun j hj => hf j (List.mem_cons_of_mem _ hj)
    rw [List.foldl_cons, hi, add_nonneg]
    simp only [List.map_cons, List.sum_cons, List.length_cons, Nat.cast_add, Nat.cast_one]
      at hlt ⊢
    have hsum_nonneg : (0 : Int) ≤ (l.map (fun i => (p i : Int))).sum :=
      List.sum_nonneg (by
        intro x hx
        obtain ⟨j, -, rfl⟩ := List.mem_map.1 hx
        exact Int.natCast_nonneg _)
    have hlen : (0 : Int) ≤ (l.length : Int) * 2 ^ 125 :=
      mul_nonneg (Int.natCast_nonneg _) (pow_nonneg (by norm_num) _)
    have e125 : (2 : Int) ^ 125 = 42535295865117307932921825928971026432 := by norm_num
    have e126 : (2 : Int) ^ 126 = 85070591730234615865843651857942052864 := by norm_num
    have e150 : (2 : Int) ^ 150 = 1427247692705959881058285969449495136382746624 := by
      norm_num
    have n150 : (2 : Nat) ^ (24 + 126) = 1427247692705959881058285969449495136382746624 := by
      norm_num
    have hcp : c + p i < 2 ^ (24 + 126) := by
      rw [n150]
      rw [e150, e125] at hlt
      rw [e125] at hlen
      generalize (l.map (fun i => (p i : Int))).sum = Sg at *
      generalize ((l.length : Nat) : Int) = L at *
      omega
    obtain ⟨c', h1, -, -, h4⟩ := round_bound_one false (c + p i) 126 (by norm_num) hcp
    rw [h1]
    rw [Nat.cast_add] at h4
    obtain ⟨s, hs, herr⟩ := ih c' hf' (by
      rw [e126] at h4
      rw [e150, e125] at hlt ⊢
      generalize (l.map (fun i => (p i : Int))).sum = Sg at *
      generalize ((l.length : Nat) : Int) = L at *
      rw [abs_eq_max_neg] at h4
      omega)
    refine ⟨s, hs, ?_⟩
    rw [e126] at h4
    rw [e125] at herr ⊢
    generalize (l.map (fun i => (p i : Int))).sum = Sg at *
    generalize ((l.length : Nat) : Int) = L at *
    rw [abs_eq_max_neg] at h4 herr ⊢
    omega

/-- A non-negative value below `2.0f` times `255.0f`: the product is non-negative and within
`2^-16` of the exact product. -/
theorem mul_255 (s : Nat) (hs : s < 2 ^ 150) :
    ∃ t, fin false s * ofInt 255 = fin false t ∧ |(t : Int) - 255 * s| ≤ 2 ^ 133 := by
  have h255 : ofInt 255 = fin false (255 * 2 ^ 149) := by
    have := ofInt_exact 255 (by norm_num)
    simpa using this
  have hlt : s * (255 * 2 ^ 149) < 2 ^ (24 + 134) * 2 ^ 149 := by
    have h1 : s * (255 * 2 ^ 149) = (s * 255) * 2 ^ 149 := by ring
    rw [h1]
    refine Nat.mul_lt_mul_of_pos_right ?_ (by positivity)
    have h2 : s * 255 < 2 ^ 150 * 255 := Nat.mul_lt_mul_of_pos_right hs (by norm_num)
    have h3 : (2 : Nat) ^ 150 * 255 ≤ 2 ^ (24 + 134) := by norm_num
    omega
  obtain ⟨t, h1, -, -, h4⟩ := round_bound false (s * (255 * 2 ^ 149)) (2 ^ 149) 134
    (by positivity) (by norm_num) hlt
  refine ⟨t, ?_, ?_⟩
  · rw [h255]
    show mul _ _ = _
    simp only [mul, Bool.xor_self]
    exact h1
  · simp only [Nat.cast_mul, Nat.cast_pow, Nat.cast_ofNat] at h4
    have hP : (0 : Int) < 2 ^ 149 := by positivity
    have e : (t : Int) * 2 ^ 149 - (s : Int) * (255 * 2 ^ 149)
        = ((t : Int) - 255 * s) * 2 ^ 149 := by ring
    rw [e, abs_mul, abs_of_pos hP] at h4
    have e2 : (2 : Int) ^ 134 = 2 * 2 ^ 133 := by norm_num
    rw [e2] at h4
    have h5 : |(t : Int) - 255 * s| * 2 ^ 149 ≤ 2 ^ 133 * 2 ^ 149 := by linarith
    exact le_of_mul_le_mul_right h5 hP

/-- The byte of a non-negative value below `256.0f` is its integer part. -/
theorem toByte_nonneg (t : Nat) (ht : t < 256 * 2 ^ 149) :
    toByte (fin false t) = t / 2 ^ 149 := by
  have h1 : t / 2 ^ 149 < 256 := by
    rw [Nat.div_lt_iff_lt_mul (by positivity)]
    exact ht
  simp only [toByte, Bool.false_eq_true, if_false]
  rw [if_pos (lt_trans h1 (by norm_num)), Nat.mod_eq_of_lt h1]

end F32
namespace F32

/-! ### Values that are not zero -/

theorem ofMag_cases (s : Bool) (num den : Nat) :
    (∃ k, ofMag s num den = fin s k ∧ k = roundRaw num den ∧ k ≤ maxMag) ∨
      ofMag s num den = inf s := by
  unfold ofMag roundMag
  by_cases h : roundRaw num den ≤ maxMag
  · rw [if_pos h]
    exact Or.inl ⟨_, rfl, rfl, h⟩
  · rw [if_neg h]
    exact Or.inr rfl

/-- A rounded magnitude of at least one unit is not zero. -/
theorem roundRaw_pos (num den : Nat) (hden : 0 < den) (h : den ≤ num)
    (hq : num / den < 2 ^ 1047) : 0 < roundRaw num den := by
  have h1 : Rep 1 := ⟨1, 0, by norm_num, by norm_num⟩
  have := le_roundRaw_of_le num den 1 hden hq h1 (by rw [Nat.one_mul]; exact h)
  omega

theorem posOrNaN_ofMag (num den : Nat) (hden : 0 < den) (h : den ≤ num)
    (hq : num / den < 2 ^ 1047) : (ofMag false num den).PosOrNaN := by
  rcases ofMag_cases false num den with ⟨k, h1, h2, h3⟩ | h1
  · exact Or.inr (Or.inr ⟨k, h1, by rw [h2]; exact roundRaw_pos num den hden h hq, h3⟩)
  · exact Or.inr (Or.inl h1)

theorem nonNegOrNaN_ofMag (num den : Nat) : (ofMag false num den).NonNegOrNaN := by
  rcases ofMag_cases false num den with ⟨k, h1, -, h3⟩ | h1
  · exact Or.inr (Or.inr ⟨k, h1, h3⟩)
  · exact Or.inr (Or.inl h1)

theorem PosOrNaN.isZero {f : F32} (h : f.PosOrNaN) : f.isZero = false := by
  rcases h with rfl | rfl | ⟨k, rfl, hk, -⟩
  · rfl
  · rfl
  · simp only [F32.isZero, beq_eq_false_iff_ne]
    omega

theorem PosOrNaN.nonNeg {f : F32} (h : f.PosOrNaN) : f.NonNegOrNaN := by
  rcases h with rfl | rfl | ⟨k, rfl, -, hk⟩
  · exact Or.inl rfl
  · exact Or.inr (Or.inl rfl)
  · exact Or.inr (Or.inr ⟨k, rfl, hk⟩)

theorem sum_lt_of_le_maxMag (a b : Nat) (ha : a ≤ maxMag) (hb : b ≤ maxMag) :
    (a + b) / 1 < 2 ^ 1047 := by
  rw [Nat.div_one]
  have h4 : maxMag < 2 ^ 1046 := by
    unfold maxMag
    calc (2 ^ 24 - 1) * 2 ^ 253 < 2 ^ 24 * 2 ^ 253 :=
          Nat.mul_lt_mul_of_pos_right (by norm_num) (by positivity)
      _ = 2 ^ 277 := by rw [← pow_add]
      _ ≤ 2 ^ 1046 := Nat.pow_le_pow_right (by norm_num) (by norm_num)
  have h3 : (2 : Nat) ^ 1047 = 2 ^ 1046 + 2 ^ 1046 := by
    rw [← Nat.two_mul, ← pow_succ']
  generalize (2 : Nat) ^ 1047 = X at *
  generalize (2 : Nat) ^ 1046 = Y at *
  generalize maxMag = M at *
  omega

theorem nan_add (y : F32) : nan + y = nan := by
  cases y <;> rfl

/-- Adding a value that is not negative to a positive one, or a positive one to a value that
is not negative, gives a value that is not zero. -/
theorem add_pos (x y : F32) (hx : x.NonNegOrNaN) (hy : y.NonNegOrNaN)
    (h : x.PosOrNaN ∨ y.PosOrNaN) : (x + y).PosOrNaN := by
  rcases hx with rfl | rfl | ⟨a, rfl, ha⟩
  · exact Or.inl (nan_add y)
  · rcases hy with rfl | rfl | ⟨b, rfl, hb⟩
    · exact Or.inl rfl
    · exact Or.inr (Or.inl rfl)
    · exact Or.inr (Or.inl rfl)
  · rcases hy with rfl | rfl | ⟨b, rfl, hb⟩
    · exact Or.inl rfl
    · exact Or.inr (Or.inl rfl)
    · rw [add_nonneg]
      have hpos : 0 < a + b := by
        rcases h with h | h
        · rcases h with h | h | ⟨k, hk, hk0, -⟩
          · exact absurd h (by simp)
          · exact absurd h (by simp)
          · injection hk with _ hk
            omega
        · rcases h with h | h | ⟨k, hk, hk0, -⟩
          · exact absurd h (by simp)
          · exact absurd h (by simp)
          · injection hk with _ hk
            omega
      exact posOrNaN_ofMag (a + b) 1 Nat.one_pos hpos (sum_lt_of_le_maxMag a b ha hb)

theorem add_nonNeg (x y : F32) (hx : x.NonNegOrNaN) (hy : y.NonNegOrNaN) :
    (x + y).NonNegOrNaN := by
  rcases hx with rfl | rfl | ⟨a, rfl, ha⟩
  · exact Or.inl (nan_add y)
  · rcases hy with rfl | rfl | ⟨b, rfl, hb⟩
    · exact Or.inl rfl
    · exact Or.inr (Or.inl rfl)
    · exact Or.inr (Or.inl rfl)
  · rcases hy with rfl | rfl | ⟨b, rfl, hb⟩
    · exact Or.inl rfl
    · exact Or.inr (Or.inl rfl)
    · rw [add_nonneg]
      exact nonNegOrNaN_ofMag _ _

/-- A sum of values that are not negative, one of which is positive, is not zero. -/
theorem foldl_sum_pos {ι : Type} (f : ι → F32) (l : List ι)
    (hf : ∀ i ∈ l, (f i).NonNegOrNaN) :
    ∀ acc : F32, acc.NonNegOrNaN → (acc.PosOrNaN ∨ ∃ i ∈ l, (f i).PosOrNaN) →
      (l.foldl (fun acc i => acc + f i) acc).PosOrNaN := by
  induction l with
  | nil =>
    intro acc _ h
    rcases h with h | ⟨i, hi, -⟩
    · exact h
    · exact absurd hi (List.not_mem_nil i)
  | cons j l ih =>
    intro acc hacc h
    have hj := hf j (List.mem_cons_self _ _)
    have hf' : ∀ i ∈ l, (f i).NonNegOrNaN := fun i hi => hf i (List.mem_cons_of_mem _ hi)
    rw [List.foldl_cons]
    refine ih hf' (acc + f j) (add_nonNeg _ _ hacc hj) ?_
    rcases h with h | ⟨i, hi, hpi⟩
    · exact Or.inl (add_pos _ _ hacc hj (Or.inl h))
    · rcases List.mem_cons.1 hi with rfl | hi
      · exact Or.inl (add_pos _ _ hacc hj (Or.inr hpi))
      · exact Or.inr ⟨i, hi, hpi⟩

/-- The quotient of a value with the sign bit clear by a positive finite value is not
negative. -/
theorem div_signClear (x : F32) (d : Nat) (hd : 0 < d) (hx : x.SignClear) :
    (x / fin false d).NonNegOrNaN := by
  have hd0 : d ≠ 0 := by omega
  rcases hx with rfl | rfl | ⟨k, rfl⟩
  · exact Or.inl rfl
  · exact Or.inr (Or.inl rfl)
  · show (div _ _).NonNegOrNaN
    simp only [div, hd0, if_false, Bool.xor_self]
    exact nonNegOrNaN_ofMag _ _

/-- The quotient `1.0f / d` for a positive finite `d` is positive. -/
theorem one_div_pos (d : Nat) (hd : 0 < d) (hd' : d ≤ maxMag) :
    (one / fin false d).PosOrNaN := by
  have hd0 : d ≠ 0 := by omega
  show (div (fin false (2 ^ 149)) (fin false d)).PosOrNaN
  simp only [div, hd0, if_false, Bool.xor_self]
  have h1 : d ≤ 2 ^ 149 * 2 ^ 149 := by
    have := lt_of_le_of_lt hd' (show maxMag < 2 ^ 277 by
      unfold maxMag
      calc (2 ^ 24 - 1) * 2 ^ 253 < 2 ^ 24 * 2 ^ 253 :=
            Nat.mul_lt_mul_of_pos_right (by norm_num) (by positivity)
        _ = 2 ^ 277 := by rw [← pow_add])
    have h2 : (2 : Nat) ^ 277 ≤ 2 ^ 149 * 2 ^ 149 := by
      rw [← pow_add]; exact Nat.pow_le_pow_right (by norm_num) (by norm_num)
    omega
  refine posOrNaN_ofMag _ _ hd h1 ?_
  calc 2 ^ 149 * 2 ^ 149 / d ≤ 2 ^ 149 * 2 ^ 149 := Nat.div_le_self _ _
    _ = 2 ^ 298 := by rw [← pow_add]
    _ < 2 ^ 1047 := Nat.pow_lt_pow_right (by norm_num) (by norm_num)

/-- The quotient `-0.0f / x` for a positive `x`, finite or infinite, is `-0.0f`. -/
theorem negZero_div (x : F32) (hx : x = inf false ∨ ∃ k, x = fin false k ∧ 0 < k) :
    fin true 0 / x = fin true 0 := by
  rcases hx with rfl | ⟨k, rfl, hk⟩
  · rfl
  · have hk0 : k ≠ 0 := by omega
    show div _ _ = _
    simp only [div, hk0, if_false, Nat.zero_mul, Bool.xor_false]
    have hr : roundRaw 0 k = 0 := by
      have := roundRaw_exact 0 k hk rep_zero (by positivity)
      rwa [Nat.zero_mul] at this
    rw [ofMag_fin _ _ _ (by rw [hr]; exact Nat.zero_le _), hr]

set_option maxRecDepth 100000 in
theorem sqrt_two_pi : sqrt (ofInt 2 * pi) = fin false (10513561 * 2 ^ 127) := by decide

/-- For a finite `sigma` between `2^-75` and `2^126`: `2.0f * sigma * sigma` is positive (or
`+inf`), and `sqrt(2.0f * pi) * sigma` is positive and finite. -/
theorem sigma_divisors (ks : Nat) (hrep : Rep ks) (hlo : 2 ^ 74 ≤ ks) (hhi : ks ≤ 2 ^ 275) :
    (ofInt 2 * fin false ks * fin false ks = inf false ∨
      ∃ k, ofInt 2 * fin false ks * fin false ks = fin false k ∧ 0 < k) ∧
    (∃ d, sqrt (ofInt 2 * pi) * fin false ks = fin false d ∧ 0 < d ∧ d ≤ maxMag) := by
  have h2 : ofInt 2 = fin false (2 * 2 ^ 149) := by
    have := ofInt_exact 2 (by norm_num)
    simpa using this
  have hks : 0 < ks := lt_of_lt_of_le (by positivity) hlo
  constructor
  · have e1 : ofInt 2 * fin false ks = fin false (ks * 2) := by
      rw [h2]
      show mul _ _ = _
      simp only [mul, Bool.xor_self]
      have hle : ks * 2 ≤ maxMag := by
        have : ks * 2 ≤ 2 ^ 275 * 2 := Nat.mul_le_mul_right _ hhi
        have e : (2 : Nat) ^ 275 * 2 = 2 ^ 276 := (pow_succ 2 275).symm
        rw [e] at this
        exact le_trans this (two_pow_le_maxMag 276 (le_refl _))
      have hr : roundRaw (2 * 2 ^ 149 * ks) (2 ^ 149) = ks * 2 := by
        have := roundRaw_exact (ks * 2) (2 ^ 149) (by positivity) (rep_double ks hrep)
          (lt_of_le_maxMag _ hle)
        have e : ks * 2 * 2 ^ 149 = 2 * 2 ^ 149 * ks := by ring
        rwa [e] at this
      rw [ofMag_fin _ _ _ (by rw [hr]; exact hle), hr]
    rw [e1]
    show mul _ _ = inf false ∨ ∃ k, mul _ _ = fin false k ∧ 0 < k
    simp only [mul, Bool.xor_self]
    have hnum : 2 ^ 149 ≤ ks * 2 * ks := by
      have h1 : 2 ^ 74 * 2 * 2 ^ 74 ≤ ks * 2 * ks :=
        Nat.mul_le_mul (Nat.mul_le_mul_right _ hlo) hlo
      have e : (2 : Nat) ^ 74 * 2 * 2 ^ 74 = 2 ^ 149 := by norm_num
      omega
    have hq : ks * 2 * ks / 2 ^ 149 < 2 ^ 1047 := by
      have h1 : ks * 2 * ks ≤ 2 ^ 275 * 2 * 2 ^ 275 :=
        Nat.mul_le_mul (Nat.mul_le_mul_right _ hhi) hhi
      have e : (2 : Nat) ^ 275 * 2 * 2 ^ 275 = 2 ^ 551 := by
        rw [← pow_succ, ← pow_add]
      calc ks * 2 * ks / 2 ^ 149 ≤ ks * 2 * ks := Nat.div_le_self _ _
        _ ≤ 2 ^ 551 := by rw [← e]; exact h1
        _ < 2 ^ 1047 := Nat.pow_lt_pow_right (by norm_num) (by norm_num)
    rcases posOrNaN_ofMag (ks * 2 * ks) (2 ^ 149) (by positivity) hnum hq with h | h | ⟨k, h, hk, -⟩
    · rcases ofMag_cases false (ks * 2 * ks) (2 ^ 149) with ⟨k, h1, -, -⟩ | h1
      · rw [h1] at h; exact absurd h (by simp)
      · rw [h1] at h; exact absurd h (by simp)
    · exact Or.inl h
    · exact Or.inr ⟨k, h, hk⟩
  · rw [sqrt_two_pi]
    show ∃ d, mul _ _ = fin false d ∧ 0 < d ∧ d ≤ maxMag
    simp only [mul, Bool.xor_self]
    have hnum : 2 ^ 149 ≤ 10513561 * 2 ^ 127 * ks := by
      have h1 : 10513561 * 2 ^ 127 * 2 ^ 74 ≤ 10513561 * 2 ^ 127 * ks :=
        Nat.mul_le_mul_left _ hlo
      have e : (2 : Nat) ^ 149 ≤ 10513561 * 2 ^ 127 * 2 ^ 74 := by norm_num
      omega
    have hup : 10513561 * 2 ^ 127 * ks ≤ maxMag * 2 ^ 149 := by
      have h1 : 10513561 * 2 ^ 127 * ks ≤ 10513561 * 2 ^ 127 * 2 ^ 275 :=
        Nat.mul_le_mul_left _ hhi
      have e : 10513561 * 2 ^ 127 * 2 ^ 275 ≤ maxMag * 2 ^ 149 := by
        unfold maxMag
        have e1 : 10513561 * 2 ^ 127 * 2 ^ 275 = 10513561 * 2 ^ 402 := by
          rw [Nat.mul_assoc, ← pow_add]
        have e2 : (2 ^ 24 - 1) * 2 ^ 253 * 2 ^ 149 = (2 ^ 24 - 1) * 2 ^ 402 := by
          rw [Nat.mul_assoc, ← pow_add]
        rw [e1, e2]
        exact Nat.mul_le_mul_right _ (by norm_num)
      exact le_trans h1 e
    have hrepM : Rep maxMag := ⟨2 ^ 24 - 1, 253, by norm_num, rfl⟩
    have hle := roundRaw_le_of_le _ (2 ^ 149) maxMag (by positivity) hrepM maxMag_lt hup
    have hq := div_lt_of_le_mul _ (2 ^ 149) maxMag (by positivity) maxMag_lt hup
    refine ⟨roundRaw (10513561 * 2 ^ 127 * ks) (2 ^ 149), ofMag_fin _ _ _ hle,
      roundRaw_pos _ _ (by positivity) hnum hq, hle⟩

end F32
namespace F32

/-! ### Weights for a `sigma` between `2^-75` and `2^126` -/

/-- For a finite `sigma` between `2^-75` and `2^126` the divisor `sqrt(2.0f * pi) * sigma` is
finite and at least `2^-74`. -/
theorem sigma_divisor_lower (ks : Nat) (hlo : 2 ^ 74 ≤ ks) (hhi : ks ≤ 2 ^ 275) :
    ∃ d, sqrt (ofInt 2 * pi) * fin false ks = fin false d ∧ 2 ^ 75 ≤ d ∧ d ≤ maxMag := by
  rw [sqrt_two_pi]
  show ∃ d, mul _ _ = fin false d ∧ 2 ^ 75 ≤ d ∧ d ≤ maxMag
  simp only [mul, Bool.xor_self]
  have hnum : 2 ^ 75 * 2 ^ 149 ≤ 10513561 * 2 ^ 127 * ks := by
    have h1 : 10513561 * 2 ^ 127 * 2 ^ 74 ≤ 10513561 * 2 ^ 127 * ks :=
      Nat.mul_le_mul_left _ hlo
    have e : (2 : Nat) ^ 75 * 2 ^ 149 ≤ 10513561 * 2 ^ 127 * 2 ^ 74 := by norm_num
    omega
  have hup : 10513561 * 2 ^ 127 * ks ≤ maxMag * 2 ^ 149 := by
    have h1 : 10513561 * 2 ^ 127 * ks ≤ 10513561 * 2 ^ 127 * 2 ^ 275 :=
      Nat.mul_le_mul_left _ hhi
    have e : 10513561 * 2 ^ 127 * 2 ^ 275 ≤ maxMag * 2 ^ 149 := by
      unfold maxMag
      have e1 : 10513561 * 2 ^ 127 * 2 ^ 275 = 10513561 * 2 ^ 402 := by
        rw [Nat.mul_assoc, ← pow_add]
      have e2 : (2 ^ 24 - 1) * 2 ^ 253 * 2 ^ 149 = (2 ^ 24 - 1) * 2 ^ 402 := by
        rw [Nat.mul_assoc, ← pow_add]
      rw [e1, e2]
      exact Nat.mul_le_mul_right _ (by norm_num)
    exact le_trans h1 e
  have hrepM : Rep maxMag := ⟨2 ^ 24 - 1, 253, by norm_num, rfl⟩
  have hle := roundRaw_le_of_le _ (2 ^ 149) maxMag (by positivity) hrepM maxMag_lt hup
  have hq := div_lt_of_le_mul _ (2 ^ 149) maxMag (by positivity) maxMag_lt hup
  exact ⟨roundRaw (10513561 * 2 ^ 127 * ks) (2 ^ 149), ofMag_fin _ _ _ hle,
    le_roundRaw_of_le _ _ _ (by positivity) hq (rep_two_pow 75) hnum, hle⟩

/-- The quotient of a non-negative value of at most `1.0f` by a finite divisor of at least
`2^-74` is finite, non-negative and at most `2^74`. -/
theorem unit_div (e d : Nat) (he : e ≤ 2 ^ 149) (hd : 2 ^ 75 ≤ d) :
    ∃ k, fin false e / fin false d = fin false k ∧ Rep k ∧ k ≤ 2 ^ 223 := by
  have hd0 : 0 < d := lt_of_lt_of_le (by positivity) hd
  have hd1 : d ≠ 0 := by omega
  have hnum : e * 2 ^ 149 ≤ 2 ^ 223 * d := by
    have h1 : e * 2 ^ 149 ≤ 2 ^ 149 * 2 ^ 149 := Nat.mul_le_mul_right _ he
    have h2 : 2 ^ 223 * 2 ^ 75 ≤ 2 ^ 223 * d := Nat.mul_le_mul_left _ hd
    have e1 : (2 : Nat) ^ 149 * 2 ^ 149 = 2 ^ 223 * 2 ^ 75 := by
      rw [← pow_add, ← pow_add]
    omega
  have hT : (2 : Nat) ^ 223 < 2 ^ 1047 := Nat.pow_lt_pow_right (by norm_num) (by norm_num)
  have hle := roundRaw_le_of_le _ d _ hd0 (rep_two_pow 223) hT hnum
  have hq := div_lt_of_le_mul _ d _ hd0 hT hnum
  refine ⟨roundRaw (e * 2 ^ 149) d, ?_, roundRaw_rep _ _ hq, hle⟩
  show div _ _ = _
  simp only [div, hd1, if_false, Bool.xor_self]
  exact ofMag_fin _ _ _ (le_trans hle (two_pow_le_maxMag 223 (by norm_num)))

/-- The quotient `1.0f / d` for a finite `d` of at least `2^-74` is finite and positive. -/
theorem one_div_finite (d : Nat) (hd : 2 ^ 75 ≤ d) (hd' : d ≤ maxMag) :
    ∃ k, one / fin false d = fin false k ∧ Rep k ∧ 0 < k ∧ k ≤ 2 ^ 223 := by
  obtain ⟨k, h1, h2, h3⟩ := unit_div (2 ^ 149) d (le_refl _) hd
  have h1' : one / fin false d = fin false k := h1
  have hd0 : 0 < d := lt_of_lt_of_le (by positivity) hd
  have hpos := (one_div_pos d hd0 hd').isZero
  rw [h1'] at hpos
  simp only [isZero, beq_eq_false_iff_ne] at hpos
  exact ⟨k, h1', h2, by omega, h3⟩

/-- The argument of `exp` in `Weight`: `-float(n) / x` for `n` of at most `2^24` and a
positive `x`, finite or infinite, is not NaN and not above zero. -/
theorem neg_div_nonpos (n : Nat) (hn : n ≤ 2 ^ 24) (x : F32)
    (hx : x = inf false ∨ ∃ k, x = fin false k ∧ 0 < k) :
    -ofInt (n : Int) / x ≤ zero := by
  have hlt : n * 2 ^ 149 < 2 ^ (24 + 150) := by
    have h1 : n * 2 ^ 149 ≤ 2 ^ 24 * 2 ^ 149 := Nat.mul_le_mul_right _ hn
    have h2 : (2 : Nat) ^ 24 * 2 ^ 149 < 2 ^ (24 + 150) := by
      rw [← pow_add]; exact Nat.pow_lt_pow_right (by norm_num) (by norm_num)
    omega
  obtain ⟨k, h1, -, -, -⟩ := round_bound_one false (n * 2 ^ 149) 150 (by norm_num) hlt
  have hof : ofInt (n : Int) = fin false k := by
    unfold ofInt
    have e1 : decide ((n : Int) < 0) = false := by simp
    rw [e1, Int.natAbs_ofNat]
    exact h1
  rw [hof]
  show le (div (neg (fin false k)) x) zero = true
  rcases hx with rfl | ⟨kx, rfl, hkx⟩
  · simp [neg, div, le, key, zero]
  · have hkx0 : kx ≠ 0 := by omega
    simp only [neg, div, hkx0, if_false, Bool.not_false, Bool.xor_false]
    rcases ofMag_cases true (k * 2 ^ 149) kx with ⟨r, hr, -, -⟩ | hr
    · rw [hr]
      simp [le, key, zero]
    · rw [hr]
      simp only [le, key, zero, if_true, Bool.false_eq_true, if_false, decide_eq_true_eq]
      have : (0 : Int) ≤ (maxMag : Int) := Int.natCast_nonneg _
      push_cast
      omega

/-- The binary32 sum of non-negative finite terms of at most `2^74` each stays finite while
the number of terms is below `2^24`. -/
theorem foldl_sum_bounded {ι : Type} (f : ι → F32) (a : ι → Nat) (l : List ι) :
    ∀ (c j : Nat), c ≤ j * 2 ^ 223 → j + l.length ≤ 2 ^ 24 →
      (∀ i ∈ l, f i = fin false (a i) ∧ a i ≤ 2 ^ 223) →
      ∃ s, l.foldl (fun acc i => acc + f i) (fin false c) = fin false s ∧
        s ≤ (j + l.length) * 2 ^ 223 := by
  induction l with
  | nil =>
    intro c j hc _ _
    exact ⟨c, rfl, by simpa using hc⟩
  | cons i l ih =>
    intro c j hc hj hf
    obtain ⟨hi, hib⟩ := hf i (List.mem_cons_self _ _)
    have hf' : ∀ k ∈ l, f k = fin false (a k) ∧ a k ≤ 2 ^ 223 :=
      fun k hk => hf k (List.mem_cons_of_mem _ hk)
    rw [List.length_cons] at hj
    have hrep : Rep ((j + 1) * 2 ^ 223) := rep_mul_pow _ _ (by omega)
    have hTle : (j + 1) * 2 ^ 223 ≤ 2 ^ 247 := by
      have h1 : (j + 1) * 2 ^ 223 ≤ 2 ^ 24 * 2 ^ 223 := Nat.mul_le_mul_right _ (by omega)
      have e : (2 : Nat) ^ 24 * 2 ^ 223 = 2 ^ 247 := by rw [← pow_add]
      omega
    have hTmax : (j + 1) * 2 ^ 223 ≤ maxMag :=
      le_trans hTle (two_pow_le_maxMag 247 (by norm_num))
    have hsum : c + a i ≤ (j + 1) * 2 ^ 223 * 1 := by
      rw [Nat.mul_one, Nat.add_mul, Nat.one_mul]
      omega
    have hle := roundRaw_le_of_le (c + a i) 1 _ Nat.one_pos hrep (lt_of_le_maxMag _ hTmax) hsum
    rw [List.foldl_cons, hi, add_nonneg, ofMag_fin _ _ _ (le_trans hle hTmax)]
    obtain ⟨s, hs, hsb⟩ := ih _ (j + 1) hle (by omega) hf'
    refine ⟨s, hs, ?_⟩
    rw [List.length_cons]
    have e : j + (l.length + 1) = j + 1 + l.length := by omega
    rw [e]
    exact hsb

end F32

/-! ## The kernels in binary32 -/

theorem sobelGrad32_eq (inp : List Nat) (w h x y : Nat) :
    Binary32.sobelGrad inp w h x y
      = (Binary32.sobelSum Gx inp w h x y, Binary32.sobelSum Gy inp w h x y) := by
  simp only [Binary32.sobelGrad, forLoopInt_sobel, Binary32.sobelSum, Binary32.sobelOffsets,
    Binary32.neighbourLuminance, List.foldl_cons, List.foldl_nil]

/-- The pixel written by the binary32 `EdgeBinarize` in a processed row. -/
theorem EdgeBinarize32_pixelAt (inp : List Nat) (w h : Nat) (threshold : F32)
    (startRow endRow W : Nat) (hW : 1 ≤ W) (hrows : startRow ≤ endRow) (x y : Nat)
    (hx : x < w) (hy : y < h) (hys : startRow ≤ y) (hye : y < endRow) :
    pixelAt (Binary32.EdgeBinarize inp w h threshold startRow endRow W) w x y
      = if F32.sqrt (Binary32.sobelSum Gx inp w h x y * Binary32.sobelSum Gx inp w h x y
            + Binary32.sobelSum Gy inp w h x y * Binary32.sobelSum Gy inp w h x y) ≥ threshold
        then (0, 0, 0, 255) else (255, 255, 255, 255) := by
  have hp := rowMajor_pixelAt w h (fun x y => Binary32.sobelBinary inp w h threshold x y)
    (fun x y => Binary32.sobelBinary inp w h threshold x y)
    (fun x y => Binary32.sobelBinary inp w h threshold x y) (fun _ _ => 255)
    W startRow endRow hW hrows x y hx hy hys hye
  have hE : Binary32.EdgeBinarize inp w h threshold startRow endRow W
      = runFanOut W startRow endRow (fun start stop => forLoop start stop (fun y out =>
        forLoop 0 w (fun x out =>
          writePixel out ((y * w + x) * 4) (Binary32.sobelBinary inp w h threshold x y)
            (Binary32.sobelBinary inp w h threshold x y)
            (Binary32.sobelBinary inp w h threshold x y) 255) out))
        (List.replicate (w * h * 4) 0) := rfl
  rw [hE, hp]
  simp only [Binary32.sobelBinary, sobelGrad32_eq]
  split <;> rfl

/-! ### Weights and window sums in binary32 -/

/-- Storing `f k` at index `k` for `k = 0, …, n-1` while accumulating the stored values with
an arbitrary operation. -/
theorem fill_and_fold {α : Type} (z : α) (op : α → α → α) (f : Nat → α) (N n : Nat)
    (hn : n ≤ N) :
    ((List.range n).foldl (fun (st : List α × α) k =>
        (st.1.set k (f k), op st.2 ((st.1.set k (f k)).getD k z))) (List.replicate N z, z)).1.length
        = N ∧
    (∀ j, j < n → ((List.range n).foldl (fun (st : List α × α) k =>
        (st.1.set k (f k), op st.2 ((st.1.set k (f k)).getD k z)))
        (List.replicate N z, z)).1.getD j z = f j) ∧
    ((List.range n).foldl (fun (st : List α × α) k =>
        (st.1.set k (f k), op st.2 ((st.1.set k (f k)).getD k z))) (List.replicate N z, z)).2
        = (List.range n).foldl (fun acc k => op acc (f k)) z := by
  induction n with
  | zero => simp
  | succ n ih =>
    obtain ⟨hlen, hget, hsum⟩ := ih (by omega)
    rw [List.range_succ, List.foldl_append, List.foldl_append]
    simp only [List.foldl_cons, List.foldl_nil]
    generalize (List.range n).foldl (fun (st : List α × α) k =>
        (st.1.set k (f k), op st.2 ((st.1.set k (f k)).getD k z))) (List.replicate N z, z) = st
      at hlen hget hsum ⊢
    simp only [List.length_set, getD_set]
    refine ⟨hlen, ?_, ?_⟩
    · intro j hj
      by_cases hjn : n = j
      · subst hjn
        rw [if_pos ⟨rfl, by omega⟩]
      · rw [if_neg (fun hc => hjn hc.1)]
        exact hget j (by omega)
    · rw [hsum, if_pos ⟨trivial, by omega⟩]

/-- Replacing the first `n` entries of a list in place by their image under `g`. -/
theorem map_in_place {α : Type} (z : α) (g : α → α) (l : List α) (n : Nat) :
    (forLoop 0 n (fun i ws => ws.set i (g (ws.getD i z))) l).length = l.length ∧
    ∀ j, (forLoop 0 n (fun i ws => ws.set i (g (ws.getD i z))) l).getD j z
      = if j < n ∧ j < l.length then g (l.getD j z) else l.getD j z := by
  induction n with
  | zero => simp [forLoop]
  | succ n ih =>
    obtain ⟨hlen, hget⟩ := ih
    rw [forLoop_succ _ _ _ _ (Nat.zero_le _)]
    refine ⟨by rw [List.length_set, hlen], fun j => ?_⟩
    rw [getD_set, hlen, hget, hget]
    by_cases hjn : n = j
    · subst hjn
      by_cases hl : n < l.length
      · simp [hl]
      · simp [hl]
    · by_cases hl : j < l.length
      · by_cases hj : j < n
        · simp [hjn, hl, hj, Nat.lt_succ_of_lt hj]
        · have : ¬ j < n + 1 := by omega
          simp [hjn, hj, this]
      · simp [hjn, hl]

theorem rawWeights32_spec (m : Libm32) (radius : Nat) (sigma : F32) :
    (Binary32.rawWeights m radius sigma).1.length = 2 * radius + 1 ∧
    (∀ j, j < 2 * radius + 1 → (Binary32.rawWeights m radius sigma).1.getD j F32.zero
        = Binary32.Weight m (-(radius : Int) + (j : Int)) sigma) ∧
    (Binary32.rawWeights m radius sigma).2 = Binary32.weightSum m radius sigma := by
  have hn : ((radius : Int) + 1 - -(radius : Int)).toNat = 2 * radius + 1 := by omega
  have hraw : Binary32.rawWeights m radius sigma
      = (List.range (2 * radius + 1)).foldl (fun (st : List F32 × F32) k =>
          (st.1.set k (Binary32.Weight m (-(radius : Int) + (k : Int)) sigma),
            st.2 + (st.1.set k
              (Binary32.Weight m (-(radius : Int) + (k : Int)) sigma)).getD k F32.zero))
          (List.replicate (2 * radius + 1) F32.zero, F32.zero) := by
    rw [Binary32.rawWeights, forLoopInt_eq_range, hn]
    refine List.foldl_ext _ _ _ (fun st k _ => ?_)
    have hk : (-(radius : Int) + (k : Int) + (radius : Int)).toNat = k := by omega
    simp only [hk]
  obtain ⟨hlen, hget, hsum⟩ := fill_and_fold F32.zero (fun a b => a + b)
    (fun k => Binary32.Weight m (-(radius : Int) + (k : Int)) sigma)
    (2 * radius + 1) (2 * radius + 1) (le_refl _)
  rw [hraw]
  refine ⟨hlen, hget, ?_⟩
  rw [hsum, Binary32.weightSum, intRange, hn, List.foldl_map]

/-- The weight vector of the binary32 `Horizontal` and `Vertical` holds the normalized
weights. -/
theorem gaussWeights32_getD (m : Libm32) (radius : Nat) (sigma : F32) (i : Int)
    (hlo : -(radius : Int) ≤ i) (hhi : i ≤ radius) :
    (Binary32.gaussWeights m radius sigma).getD (i + (radius : Int)).toNat F32.zero
      = Binary32.normWeight m radius sigma i := by
  obtain ⟨hlen, hget, hsum⟩ := rawWeights32_spec m radius sigma
  have hj : (i + (radius : Int)).toNat < 2 * radius + 1 := by omega
  have hi : -(radius : Int) + ((i + (radius : Int)).toNat : Int) = i := by omega
  simp only [Binary32.gaussWeights]
  rw [(map_in_place F32.zero (fun v => v / (Binary32.rawWeights m radius sigma).2) _ _).2,
    hlen, if_pos ⟨hj, hj⟩, hget _ hj, hsum, hi]
  rfl

theorem gaussWeights32_length (m : Libm32) (radius : Nat) (sigma : F32) :
    (Binary32.gaussWeights m radius sigma).length = 2 * radius + 1 := by
  simp only [Binary32.gaussWeights]
  rw [(map_in_place F32.zero (fun v => v / (Binary32.rawWeights m radius sigma).2) _ _).1,
    (rawWeights32_spec m radius sigma).1]

/-- A loop that accumulates three sums at once accumulates each of them. -/
theorem foldl_triple {α ι : Type} (op : α → α → α) (F G H : ι → α) (l : List ι) (a b c : α) :
    l.foldl (fun (acc : α × α × α) i => (op acc.1 (F i), op acc.2.1 (G i), op acc.2.2 (H i)))
        (a, b, c)
      = (l.foldl (fun acc i => op acc (F i)) a, l.foldl (fun acc i => op acc (G i)) b,
          l.foldl (fun acc i => op acc (H i)) c) := by
  induction l generalizing a b c with
  | nil => rfl
  | cons i l ih =>
    simp only [List.foldl_cons]
    rw [ih]

theorem foldl_congr_mem {α ι : Type} (f g : α → ι → α) (l : List ι) (a : α)
    (h : ∀ acc, ∀ i ∈ l, f acc i = g acc i) : l.foldl f a = l.foldl g a := by
  induction l generalizing a with
  | nil => rfl
  | cons i l ih =>
    simp only [List.foldl_cons]
    rw [h a i (List.mem_cons_self _ _)]
    exact ih _ (fun acc j hj => h acc j (List.mem_cons_of_mem _ hj))

/-- The window loop of the binary32 `HORIZONTAL_BLUR` accumulates, per channel, the products of
the normalized sample and its weight. -/
theorem horizontalSums32_eq (ws : List F32) (wt : Int → F32) (inp : List Nat)
    (w radius x y : Nat)
    (hws : ∀ i : Int, -(radius : Int) ≤ i → i ≤ radius →
      ws.getD (i + (radius : Int)).toNat F32.zero = wt i) :
    Binary32.horizontalSums ws inp w radius x y
      = (Binary32.blurSum wt (sampleH inp w x y 0) radius,
         Binary32.blurSum wt (sampleH inp w x y 1) radius,
         Binary32.blurSum wt (sampleH inp w x y 2) radius) := by
  simp only [Binary32.horizontalSums, forLoopInt]
  rw [foldl_triple (fun a b => a + b)]
  simp only [Binary32.blurSum, sampleH, Nat.add_zero]
  refine Prod.ext ?_ (Prod.ext ?_ ?_)
  all_goals
    refine foldl_congr_mem _ _ _ _ (fun acc i hi => ?_)
    rw [mem_intRange] at hi
    simp only [hws i hi.1 hi.2]

/-- The window loop of the binary32 `VERTICAL_BLUR`. -/
theorem verticalSums32_eq (ws : List F32) (wt : Int → F32) (inp : List Nat)
    (w h radius x y : Nat)
    (hws : ∀ i : Int, -(radius : Int) ≤ i → i ≤ radius →
      ws.getD (i + (radius : Int)).toNat F32.zero = wt i) :
    Binary32.verticalSums ws inp w h radius x y
      = (Binary32.blurSum wt (sampleV inp w h x y 0) radius,
         Binary32.blurSum wt (sampleV inp w h x y 1) radius,
         Binary32.blurSum wt (sampleV inp w h x y 2) radius) := by
  simp only [Binary32.verticalSums, forLoopInt]
  rw [foldl_triple (fun a b => a + b)]
  simp only [Binary32.blurSum, sampleV, Nat.add_zero]
  refine Prod.ext ?_ (Prod.ext ?_ ?_)
  all_goals
    refine foldl_congr_mem _ _ _ _ (fun acc i hi => ?_)
    rw [mem_intRange] at hi
    simp only [hws i hi.1 hi.2]

/-- The pixel written by the binary32 `Horizontal` in a processed row. -/
theorem Horizontal32_pixelAt (m : Libm32) (inp : List Nat) (w h radius : Nat) (sigma : F32)
    (startRow endRow W : Nat) (hW : 1 ≤ W) (hrows : startRow ≤ endRow) (x y : Nat)
    (hx : x < w) (hy : y < h) (hys : startRow ≤ y) (hye : y < endRow) :
    pixelAt (Binary32.Horizontal m inp w h radius sigma startRow endRow W) w x y
      = (Binary32.blurByte (Binary32.normWeight m radius sigma) (sampleH inp w x y 0) radius,
         Binary32.blurByte (Binary32.normWeight m radius sigma) (sampleH inp w x y 1) radius,
         Binary32.blurByte (Binary32.normWeight m radius sigma) (sampleH inp w x y 2) radius,
         255) := by
  have hs := horizontalSums32_eq (Binary32.gaussWeights m radius sigma)
    (Binary32.normWeight m radius sigma) inp w radius x y
    (fun i hlo hhi => gaussWeights32_getD m radius sigma i hlo hhi)
  have hp := rowMajor_pixelAt w h
    (fun x y => F32.toByte ((Binary32.horizontalSums (Binary32.gaussWeights m radius sigma)
      inp w radius x y).1 * F32.ofInt 255))
    (fun x y => F32.toByte ((Binary32.horizontalSums (Binary32.gaussWeights m radius sigma)
      inp w radius x y).2.1 * F32.ofInt 255))
    (fun x y => F32.toByte ((Binary32.horizontalSums (Binary32.gaussWeights m radius sigma)
      inp w radius x y).2.2 * F32.ofInt 255))
    (fun _ _ => 255) W startRow endRow hW hrows x y hx hy hys hye
  simp only [hs] at hp
  exact hp

/-- The pixel written by the binary32 `Vertical`, for every pixel of the image. -/
theorem Vertical32_pixelAt (m : Libm32) (inp : List Nat) (w h radius : Nat) (sigma : F32)
    (startRow endRow W : Nat) (hW : 1 ≤ W) (x y : Nat) (hx : x < w) (hy : y < h) :
    pixelAt (Binary32.Vertical m inp w h radius sigma startRow endRow W) w x y
      = (Binary32.blurByte (Binary32.normWeight m radius sigma) (sampleV inp w h x y 0) radius,
         Binary32.blurByte (Binary32.normWeight m radius sigma) (sampleV inp w h x y 1) radius,
         Binary32.blurByte (Binary32.normWeight m radius sigma) (sampleV inp w h x y 2) radius,
         255) := by
  have hs := verticalSums32_eq (Binary32.gaussWeights m radius sigma)
    (Binary32.normWeight m radius sigma) inp w h radius x y
    (fun i hlo hhi => gaussWeights32_getD m radius sigma i hlo hhi)
  have hp := colMajor_pixelAt w h
    (fun x y => F32.toByte ((Binary32.verticalSums (Binary32.gaussWeights m radius sigma)
      inp w h radius x y).1 * F32.ofInt 255))
    (fun x y => F32.toByte ((Binary32.verticalSums (Binary32.gaussWeights m radius sigma)
      inp w h radius x y).2.1 * F32.ofInt 255))
    (fun x y => F32.toByte ((Binary32.verticalSums (Binary32.gaussWeights m radius sigma)
      inp w h radius x y).2.2 * F32.ofInt 255))
    (fun _ _ => 255) W hW x y hx hy
  simp only [hs] at hp
  exact hp
/-! ### Hatching in binary32 -/

theorem flat_pixelAt (w h W : Nat) (hW : 1 ≤ W) (val : Nat → Nat) (x y : Nat) (hx : x < w)
    (hy : y < h) :
    pixelAt (runFanOut W 0 (w * h) (fun lo hi => forLoop lo hi (fun i out =>
        writePixel out ((i / w * w + i % w) * 4) (val i) (val i) (val i) 255))
      (List.replicate (w * h * 4) 0)) w x y
      = (val (y * w + x), val (y * w + x), val (y * w + x), 255) := by
  have hp := fun c' hc' => flat_pixel (fun lo hi => forLoop lo hi (fun i out =>
      writePixel out ((i / w * w + i % w) * 4) (val i) (val i) (val i) 255)) _ W w h hW
    (fun lo hi => fills_flat w val val val (fun _ => 255) lo hi) x y c' hx hy hc'
  have e0 := hp 0 (by omega)
  have e1 := hp 1 (by omega)
  have e2 := hp 2 (by omega)
  have e3 := hp 3 (by omega)
  have d0 : ((y * w + x) * 4 + 0) / 4 = y * w + x := by omega
  have d1 : ((y * w + x) * 4 + 1) / 4 = y * w + x := by omega
  have d2 : ((y * w + x) * 4 + 2) / 4 = y * w + x := by omega
  have d3 : ((y * w + x) * 4 + 3) / 4 = y * w + x := by omega
  have m0 : ((y * w + x) * 4 + 0) % 4 = 0 := by omega
  have m1 : ((y * w + x) * 4 + 1) % 4 = 1 := by omega
  have m2 : ((y * w + x) * 4 + 2) % 4 = 2 := by omega
  have m3 : ((y * w + x) * 4 + 3) % 4 = 3 := by omega
  simp only [d0, m0] at e0
  simp only [d1, m1] at e1
  simp only [d2, m2] at e2
  simp only [d3, m3] at e3
  simp only [pixelAt]
  rw [e0, e1, e2, e3]
  simp [pixelByte]

theorem toByte32_one : F32.toByte (F32.one * F32.ofInt 255) = 255 := by decide

theorem toByte32_zero : F32.toByte (F32.zero * F32.ofInt 255) = 0 := by decide

/-- The pixel written by the binary32 `Hatching`: white or black by the comparisons of the
binary32 luminance with the threshold and of the hatch line with `c`. -/
theorem Hatching32_pixelAt (m : Libm32) (inp : List Nat) (w h : Nat) (a b c threshold : F32)
    (inv : Bool) (W : Nat) (hW : 1 ≤ W) (x y : Nat) (hx : x < w) (hy : y < h) :
    pixelAt (Binary32.Hatching m inp w h a b c threshold inv W) w x y
      = if inv = false then
          (if Binary32.GrayNuance inp ((y * w + x) * 4) > threshold
              ∨ m.sin (a * (F32.ofInt x / F32.ofInt w) + b * (F32.ofInt y / F32.ofInt h)) > c
            then (255, 255, 255, 255) else (0, 0, 0, 255))
        else
          (if Binary32.GrayNuance inp ((y * w + x) * 4) < threshold
              ∨ ¬ m.sin (a * (F32.ofInt x / F32.ofInt w) + b * (F32.ofInt y / F32.ofInt h)) > c
            then (255, 255, 255, 255) else (0, 0, 0, 255)) := by
  have hp := flat_pixelAt w h W hW (fun i => F32.toByte
    (Binary32.hatchBackground m inp w h a b c threshold inv i * F32.ofInt 255)) x y hx hy
  have hH : Binary32.Hatching m inp w h a b c threshold inv W
      = runFanOut W 0 (w * h) (fun lo hi => forLoop lo hi (fun i out =>
        writePixel out ((i / w * w + i % w) * 4)
          (F32.toByte (Binary32.hatchBackground m inp w h a b c threshold inv i * F32.ofInt 255))
          (F32.toByte (Binary32.hatchBackground m inp w h a b c threshold inv i * F32.ofInt 255))
          (F32.toByte (Binary32.hatchBackground m inp w h a b c threshold inv i * F32.ofInt 255))
          255)) (List.replicate (w * h * 4) 0) := rfl
  rw [hH, hp]
  obtain ⟨-, -, hxm, hyd⟩ := pixel_decode w x y 0 hx (by omega)
  simp only [Binary32.hatchBackground, hxm, hyd]
  cases inv
  · by_cases hg : Binary32.GrayNuance inp ((y * w + x) * 4) > threshold
    · simp [hg, toByte32_one]
    · by_cases hl : m.sin (a * (F32.ofInt x / F32.ofInt w) + b * (F32.ofInt y / F32.ofInt h)) > c
      · simp [hg, hl, toByte32_one]
      · simp [hg, hl, toByte32_zero]
  · by_cases hg : Binary32.GrayNuance inp ((y * w + x) * 4) < threshold
    · simp [hg, toByte32_one]
    · by_cases hl : m.sin (a * (F32.ofInt x / F32.ofInt w) + b * (F32.ofInt y / F32.ofInt h)) > c
      · simp [hg, hl, toByte32_zero]
      · simp [hg, hl, toByte32_one]

/-! ### Claims on the binary32 kernels: Sobel and hatching -/

/-- C5 (as stated) fails: a black 1×1 image hatched with parameters `(200, 200, 0.95f)`,
threshold `0.25f` and `invertBackground` true comes out white although `gray >= threshold`
does not hold. -/
theorem Hatching_binary32_white_counterexample :
    pixelAt (Binary32.Hatching Libm32.annexF [0, 0, 0, 255] 1 1 (F32.ofInt 200) (F32.ofInt 200)
        (F32.lit 95 100) (F32.lit 1 4) true 1) 1 0 0 = (255, 255, 255, 255) ∧
    ¬ (Binary32.GrayNuance [0, 0, 0, 255] ((0 * 1 + 0) * 4) ≥ F32.lit 1 4
        ∧ ¬ Libm32.annexF.sin (F32.ofInt 200 * (F32.ofInt (0 : Nat) / F32.ofInt (1 : Nat))
            + F32.ofInt 200 * (F32.ofInt (0 : Nat) / F32.ofInt (1 : Nat))) > F32.lit 95 100) := by
  refine ⟨?_, by decide⟩
  rw [Hatching32_pixelAt Libm32.annexF [0, 0, 0, 255] 1 1 _ _ _ _ true 1 (by decide) 0 0
    (by decide) (by decide)]
  decide

/-- C5 (amended): with `invertBackground` true, `Hatching` writes white at pixel `(x, y)`
exactly when `gray < threshold` or not `hatchLine > c`, the comparisons being those of
binary32. -/
theorem Hatching_binary32_white (m : Libm32) (inp : List Nat) (w h : Nat)
    (a b c threshold : F32) (W : Nat) (hW : 1 ≤ W) (x y : Nat) (hx : x < w) (hy : y < h) :
    pixelAt (Binary32.Hatching m inp w h a b c threshold true W) w x y = (255, 255, 255, 255)
      ↔ (Binary32.GrayNuance inp ((y * w + x) * 4) < threshold
          ∨ ¬ m.sin (a * (F32.ofInt x / F32.ofInt w) + b * (F32.ofInt y / F32.ofInt h)) > c) := by
  rw [Hatching32_pixelAt m inp w h a b c threshold true W hW x y hx hy]
  simp only [Bool.true_eq_false, if_false]
  split <;> simp_all

theorem Hatching_binary32_white_witness :
    pixelAt (Binary32.Hatching Libm32.annexF [0, 0, 0, 255] 1 1 (F32.ofInt 200) (F32.ofInt 200)
        (F32.lit 95 100) (F32.lit 1 4) true 1) 1 0 0 = (255, 255, 255, 255)
      ↔ (Binary32.GrayNuance [0, 0, 0, 255] ((0 * 1 + 0) * 4) < F32.lit 1 4
          ∨ ¬ Libm32.annexF.sin (F32.ofInt 200 * (F32.ofInt (0 : Nat) / F32.ofInt (1 : Nat))
              + F32.ofInt 200 * (F32.ofInt (0 : Nat) / F32.ofInt (1 : Nat))) > F32.lit 95 100) :=
  Hatching_binary32_white Libm32.annexF [0, 0, 0, 255] 1 1 (F32.ofInt 200) (F32.ofInt 200)
    (F32.lit 95 100) (F32.lit 1 4) 1 (by decide) 0 0 (by decide) (by decide)

/-- C6 (as stated) fails: a white 1×1 image hatched with parameters `(200, 200, -0.5f)`,
threshold `0.25f` and `invertBackground` true comes out black although `gray < threshold`
does not hold (the hatch line at pixel `(0, 0)` is `sin(+0) = +0`). -/
theorem Hatching_binary32_black_counterexample :
    pixelAt (Binary32.Hatching Libm32.annexF [255, 255, 255, 255] 1 1 (F32.ofInt 200)
        (F32.ofInt 200) (-F32.lit 1 2) (F32.lit 1 4) true 1) 1 0 0 = (0, 0, 0, 255) ∧
    ¬ (Binary32.GrayNuance [255, 255, 255, 255] ((0 * 1 + 0) * 4) < F32.lit 1 4
        ∧ Libm32.annexF.sin (F32.ofInt 200 * (F32.ofInt (0 : Nat) / F32.ofInt (1 : Nat))
            + F32.ofInt 200 * (F32.ofInt (0 : Nat) / F32.ofInt (1 : Nat))) ≤ -F32.lit 1 2) := by
  refine ⟨?_, by decide⟩
  rw [Hatching32_pixelAt Libm32.annexF [255, 255, 255, 255] 1 1 _ _ _ _ true 1 (by decide) 0 0
    (by decide) (by decide)]
  decide

/-- C6 (amended): with `invertBackground` true, `Hatching` writes black at pixel `(x, y)`
exactly when `gray < threshold` does not hold and `hatchLine > c`, and white in every other
case, the comparisons being those of binary32. -/
theorem Hatching_binary32_black (m : Libm32) (inp : List Nat) (w h : Nat)
    (a b c threshold : F32) (W : Nat) (hW : 1 ≤ W) (x y : Nat) (hx : x < w) (hy : y < h) :
    (pixelAt (Binary32.Hatching m inp w h a b c threshold true W) w x y = (0, 0, 0, 255)
      ↔ (¬ Binary32.GrayNuance inp ((y * w + x) * 4) < threshold
          ∧ m.sin (a * (F32.ofInt x / F32.ofInt w) + b * (F32.ofInt y / F32.ofInt h)) > c)) ∧
    (¬ (¬ Binary32.GrayNuance inp ((y * w + x) * 4) < threshold
          ∧ m.sin (a * (F32.ofInt x / F32.ofInt w) + b * (F32.ofInt y / F32.ofInt h)) > c) →
      pixelAt (Binary32.Hatching m inp w h a b c threshold true W) w x y
        = (255, 255, 255, 255)) := by
  rw [Hatching32_pixelAt m inp w h a b c threshold true W hW x y hx hy]
  simp only [Bool.true_eq_false, if_false]
  by_cases hg : Binary32.GrayNuance inp ((y * w + x) * 4) < threshold
  · simp [hg]
  · by_cases hl : m.sin (a * (F32.ofInt x / F32.ofInt w) + b * (F32.ofInt y / F32.ofInt h)) > c
    · simp [hg, hl]
    · simp [hg, hl]

theorem Hatching_binary32_black_witness :
    pixelAt (Binary32.Hatching Libm32.annexF [255, 255, 255, 255] 1 1 (F32.ofInt 200)
        (F32.ofInt 200) (-F32.lit 1 2) (F32.lit 1 4) true 1) 1 0 0 = (0, 0, 0, 255)
      ↔ (¬ Binary32.GrayNuance [255, 255, 255, 255] ((0 * 1 + 0) * 4) < F32.lit 1 4
          ∧ Libm32.annexF.sin (F32.ofInt 200 * (F32.ofInt (0 : Nat) / F32.ofInt (1 : Nat))
              + F32.ofInt 200 * (F32.ofInt (0 : Nat) / F32.ofInt (1 : Nat)))
            > -F32.lit 1 2) :=
  (Hatching_binary32_black Libm32.annexF [255, 255, 255, 255] 1 1 (F32.ofInt 200)
    (F32.ofInt 200) (-F32.lit 1 2) (F32.lit 1 4) 1 (by decide) 0 0 (by decide) (by decide)).1

/-! ### Claims on the binary32 kernels: the two blur passes -/

theorem blurSum_congr (wt : Int → F32) (s₁ s₂ : Int → Nat) (radius : Nat)
    (hs : ∀ i : Int, -(radius : Int) ≤ i → i ≤ radius → s₁ i = s₂ i) :
    Binary32.blurSum wt s₁ radius = Binary32.blurSum wt s₂ radius := by
  unfold Binary32.blurSum
  refine foldl_congr_mem _ _ _ _ (fun acc i hi => ?_)
  rw [mem_intRange] at hi
  rw [hs i hi.1 hi.2]

/-- The samples that the binary32 `Vertical` reads from the output of `Horizontal` are the bytes
that `Horizontal` wrote in the clamped rows. -/
theorem sampleV_Horizontal32 (m : Libm32) (inp : List Nat) (w h radius : Nat) (sigma : F32)
    (W : Nat) (hW : 1 ≤ W) (x y ch : Nat) (hx : x < w) (hy : y < h) (hch : ch < 3) (j : Int) :
    sampleV (Binary32.Horizontal m inp w h radius sigma 0 h W) w h x y ch j
      = Binary32.blurByte (Binary32.normWeight m radius sigma)
          (sampleH inp w x (clamp ((y : Int) + j) 0 ((h : Int) - 1)).toNat ch) radius := by
  have hcy := clamp_bounds ((y : Int) + j) h (by omega)
  obtain ⟨e, -, -, hny⟩ := clamped_index w h (x : Int) _ (by omega) (by exact_mod_cast hx)
    hcy.1 hcy.2
  simp only [sampleV]
  rw [e, Int.toNat_natCast]
  have hp := Horizontal32_pixelAt m inp w h radius sigma 0 h W hW (Nat.zero_le _)
    x _ hx hny (Nat.zero_le _) hny
  obtain ⟨g0, g1, g2, -⟩ := pixelAt_getD (Binary32.Horizontal m inp w h radius sigma 0 h W)
    w x (clamp ((y : Int) + j) 0 ((h : Int) - 1)).toNat
  rw [hp] at g0 g1 g2
  have hcases : ch = 0 ∨ ch = 1 ∨ ch = 2 := by omega
  rcases hcases with rfl | rfl | rfl
  · rw [g0]
  · rw [g1]
  · rw [g2]

set_option maxRecDepth 100000 in
theorem normWeight32_equal_weights (i : Int) (hlo : -1 ≤ i) (hhi : i ≤ 1) :
    Binary32.normWeight Libm32.annexF 1 (F32.ofInt (2 ^ 64)) i
      = F32.fin false (11184810 * 2 ^ 124) := by
  have hi : i = -1 ∨ i = 0 ∨ i = 1 := by omega
  rcases hi with rfl | rfl | rfl <;> decide

theorem toRat_third : (F32.fin false (11184810 * 2 ^ 124)).toRat = 11184810 / 2 ^ 25 := by
  simp only [F32.toRat, Bool.false_eq_true, if_false]
  norm_num

set_option maxRecDepth 100000 in
/-- C7 (as stated) fails: for the 1×1 image `(1,1,1,255)`, radius 1 and `sigma = 2^64`, where
every `exp` argument is `-0` and the three normalized weights are `11184810 / 2^25` each,
`Horizontal` writes the byte 1 although the sum of the weights times the sample is
`3 * 11184810 / 2^25 < 1`, whose truncation is 0. -/
theorem blur_binary32_counterexample :
    pixelAt (Binary32.Horizontal Libm32.annexF [1, 1, 1, 255] 1 1 1 (F32.ofInt (2 ^ 64)) 0 1 1)
        1 0 0 = (1, 1, 1, 255) ∧
    Binary32.exactBlurByte (Binary32.normWeight Libm32.annexF 1 (F32.ofInt (2 ^ 64)))
        (sampleH [1, 1, 1, 255] 1 0 0 0) 1 = 0 := by
  refine ⟨by decide, ?_⟩
  have hs : ∀ i : Int, sampleH [1, 1, 1, 255] 1 0 0 0 i = 1 := by
    intro i
    have hc : clamp i 0 0 = 0 := by
      simp only [clamp]; omega
    simp [sampleH, hc]
  simp only [Binary32.exactBlurByte, Nat.cast_one, sum_Icc_sobel, hs,
    normWeight32_equal_weights (-1) (by decide) (by decide),
    normWeight32_equal_weights 0 (by decide) (by decide),
    normWeight32_equal_weights 1 (by decide) (by decide), toRat_third]
  rw [Int.floor_eq_iff]
  norm_num

/-- C7 (amended): for every pixel `(x, y)` in the processed range, `Horizontal` writes for each
of R, G, B the byte `static_cast<unsigned char>(s * 255.0f)`, where `s` is the binary32 sum,
accumulated from `0.0f` for `i = -radius, …, radius`, of `(channel / 255.0f) * w_i` with the
channel sampled at `(clamp(x+i, 0, width-1), y)`, in row `y` only; `Vertical` writes the same
with the channel sampled at `(x, clamp(y+i, 0, height-1))`, in column `x` only; `w_i` is
`Weight(i, sigma)` divided in binary32 by the binary32 sum of the weights; both write alpha
255 whatever the input alpha is. -/
theorem blur_binary32_pixel (m : Libm32) (inp : List Nat) (w h radius : Nat) (sigma : F32)
    (startRow endRow W : Nat) (hW : 1 ≤ W) (hrows : startRow ≤ endRow) (x y : Nat)
    (hx : x < w) (hy : y < h) :
    ((startRow ≤ y ∧ y < endRow) →
      pixelAt (Binary32.Horizontal m inp w h radius sigma startRow endRow W) w x y
        = (Binary32.blurByte (Binary32.normWeight m radius sigma) (sampleH inp w x y 0) radius,
           Binary32.blurByte (Binary32.normWeight m radius sigma) (sampleH inp w x y 1) radius,
           Binary32.blurByte (Binary32.normWeight m radius sigma) (sampleH inp w x y 2) radius,
           255)) ∧
    pixelAt (Binary32.Vertical m inp w h radius sigma startRow endRow W) w x y
      = (Binary32.blurByte (Binary32.normWeight m radius sigma) (sampleV inp w h x y 0) radius,
         Binary32.blurByte (Binary32.normWeight m radius sigma) (sampleV inp w h x y 1) radius,
         Binary32.blurByte (Binary32.normWeight m radius sigma) (sampleV inp w h x y 2) radius,
         255) ∧
    (∀ i : Int, Binary32.normWeight m radius sigma i
      = Binary32.Weight m i sigma / Binary32.weightSum m radius sigma) ∧
    (∀ (wt : Int → F32) (sample : Int → Nat),
      Binary32.blurByte wt sample radius
        = F32.toByte ((intRange (-(radius : Int)) radius).foldl
            (fun acc i => acc + F32.ofInt (sample i) / F32.ofInt 255 * wt i) F32.zero
            * F32.ofInt 255)) :=
  ⟨fun hrow => Horizontal32_pixelAt m inp w h radius sigma startRow endRow W hW hrows x y hx hy
      hrow.1 hrow.2,
    Vertical32_pixelAt m inp w h radius sigma startRow endRow W hW x y hx hy,
    fun _ => rfl, fun _ _ => rfl⟩

set_option maxRecDepth 100000 in
theorem blur_binary32_pixel_witness :
    pixelAt (Binary32.Vertical Libm32.annexF [3, 3, 3, 255] 1 1 1 (F32.ofInt (2 ^ 64)) 0 1 1)
        1 0 0
      = (Binary32.blurByte (Binary32.normWeight Libm32.annexF 1 (F32.ofInt (2 ^ 64)))
            (sampleV [3, 3, 3, 255] 1 1 0 0 0) 1,
         Binary32.blurByte (Binary32.normWeight Libm32.annexF 1 (F32.ofInt (2 ^ 64)))
            (sampleV [3, 3, 3, 255] 1 1 0 0 1) 1,
         Binary32.blurByte (Binary32.normWeight Libm32.annexF 1 (F32.ofInt (2 ^ 64)))
            (sampleV [3, 3, 3, 255] 1 1 0 0 2) 1,
         255) :=
  (blur_binary32_pixel Libm32.annexF [3, 3, 3, 255] 1 1 1 (F32.ofInt (2 ^ 64)) 0 1 1
    (by decide) (by decide) 0 0 (by decide) (by decide)).2.1

/-- The pixel written by the binary32 `Vertical` applied to the output of `Horizontal`. -/
theorem Vertical_Horizontal32_pixelAt (m : Libm32) (inp : List Nat) (w h radius : Nat)
    (sigma : F32) (W : Nat) (hW : 1 ≤ W) (x y : Nat) (hx : x < w) (hy : y < h) :
    pixelAt (Binary32.Vertical m
        (Binary32.Horizontal m inp w h radius sigma 0 h W) w h radius sigma 0 h W) w x y
      = (Binary32.blurByte (Binary32.normWeight m radius sigma) (fun j =>
            Binary32.blurByte (Binary32.normWeight m radius sigma)
              (sampleH inp w x (clamp ((y : Int) + j) 0 ((h : Int) - 1)).toNat 0) radius) radius,
         Binary32.blurByte (Binary32.normWeight m radius sigma) (fun j =>
            Binary32.blurByte (Binary32.normWeight m radius sigma)
              (sampleH inp w x (clamp ((y : Int) + j) 0 ((h : Int) - 1)).toNat 1) radius) radius,
         Binary32.blurByte (Binary32.normWeight m radius sigma) (fun j =>
            Binary32.blurByte (Binary32.normWeight m radius sigma)
              (sampleH inp w x (clamp ((y : Int) + j) 0 ((h : Int) - 1)).toNat 2) radius) radius,
         255) := by
  rw [Vertical32_pixelAt m _ w h radius sigma 0 h W hW x y hx hy]
  simp only [Binary32.blurByte]
  rw [blurSum_congr _ _ _ radius (fun j _ _ =>
      sampleV_Horizontal32 m inp w h radius sigma W hW x y 0 hx hy (by omega) j),
    blurSum_congr _ _ _ radius (fun j _ _ =>
      sampleV_Horizontal32 m inp w h radius sigma W hW x y 1 hx hy (by omega) j),
    blurSum_congr _ _ _ radius (fun j _ _ =>
      sampleV_Horizontal32 m inp w h radius sigma W hW x y 2 hx hy (by omega) j)]
  rfl

set_option maxRecDepth 100000 in
/-- C16 (as stated) fails: for the 1×1 image `(1,1,1,255)`, radius 1 and `sigma = 2^64`, where
the three normalized weights are `11184810 / 2^25` each, `Vertical` applied to the output of
`Horizontal` writes the byte 1 although the separable 2-D sum is
`(3 * 11184810 / 2^25)^2 < 1`, whose truncation is 0. -/
theorem separable_binary32_counterexample :
    pixelAt (Binary32.Vertical Libm32.annexF
        (Binary32.Horizontal Libm32.annexF [1, 1, 1, 255] 1 1 1 (F32.ofInt (2 ^ 64)) 0 1 1)
        1 1 1 (F32.ofInt (2 ^ 64)) 0 1 1) 1 0 0 = (1, 1, 1, 255) ∧
    Binary32.exactBlur2DByte (Binary32.normWeight Libm32.annexF 1 (F32.ofInt (2 ^ 64)))
        (fun i j => [1, 1, 1, 255].getD
          (((clamp ((0 : Int) + j) 0 ((1 : Int) - 1) * 1
            + clamp ((0 : Int) + i) 0 ((1 : Int) - 1)) * 4).toNat + 0) 0) 1 = 0 := by
  refine ⟨by decide, ?_⟩
  have hc : ∀ i : Int, clamp (0 + i) 0 (1 - 1) = 0 := by
    intro i
    simp only [clamp]; omega
  simp only [Binary32.exactBlur2DByte, Nat.cast_one, sum_Icc_sobel, hc,
    normWeight32_equal_weights (-1) (by decide) (by decide),
    normWeight32_equal_weights 0 (by decide) (by decide),
    normWeight32_equal_weights 1 (by decide) (by decide), toRat_third]
  rw [Int.floor_eq_iff]
  norm_num

/-- C16 (amended): for every image, radius and sigma, `Vertical` applied to the output of
`Horizontal` over all rows writes at every pixel `(x, y)`, for each of R, G and B, the byte of
the binary32 vertical window sum of the bytes that `Horizontal` wrote in the clamped rows, each
of which is the byte of the binary32 horizontal window sum of the input in that row (the
horizontal sums are truncated to bytes before the vertical pass, and every operation is rounded
to binary32), with alpha 255. -/
theorem Vertical_Horizontal_binary32 (m : Libm32) (inp : List Nat) (w h radius : Nat)
    (sigma : F32) (W : Nat) (hW : 1 ≤ W) (x y : Nat) (hx : x < w) (hy : y < h) :
    pixelAt (Binary32.Vertical m
        (Binary32.Horizontal m inp w h radius sigma 0 h W) w h radius sigma 0 h W) w x y
      = (Binary32.blurByte (Binary32.normWeight m radius sigma) (fun j =>
            Binary32.blurByte (Binary32.normWeight m radius sigma)
              (sampleH inp w x (clamp ((y : Int) + j) 0 ((h : Int) - 1)).toNat 0) radius) radius,
         Binary32.blurByte (Binary32.normWeight m radius sigma) (fun j =>
            Binary32.blurByte (Binary32.normWeight m radius sigma)
              (sampleH inp w x (clamp ((y : Int) + j) 0 ((h : Int) - 1)).toNat 1) radius) radius,
         Binary32.blurByte (Binary32.normWeight m radius sigma) (fun j =>
            Binary32.blurByte (Binary32.normWeight m radius sigma)
              (sampleH inp w x (clamp ((y : Int) + j) 0 ((h : Int) - 1)).toNat 2) radius) radius,
         255) ∧
    (∀ (j : Int) (ch : Nat), ch < 3 →
      sampleV (Binary32.Horizontal m inp w h radius sigma 0 h W) w h x y ch j
        = Binary32.blurByte (Binary32.normWeight m radius sigma)
            (sampleH inp w x (clamp ((y : Int) + j) 0 ((h : Int) - 1)).toNat ch) radius) :=
  ⟨Vertical_Horizontal32_pixelAt m inp w h radius sigma W hW x y hx hy,
    fun j ch hch => sampleV_Horizontal32 m inp w h radius sigma W hW x y ch hx hy hch j⟩

set_option maxRecDepth 100000 in
theorem Vertical_Horizontal_binary32_witness :
    sampleV (Binary32.Horizontal Libm32.annexF [6, 6, 6, 255] 1 1 1 (F32.ofInt (2 ^ 64)) 0 1 1)
        1 1 0 0 0 1
      = Binary32.blurByte (Binary32.normWeight Libm32.annexF 1 (F32.ofInt (2 ^ 64)))
          (sampleH [6, 6, 6, 255] 1 0
            (clamp (((0 : Nat) : Int) + 1) 0 (((1 : Nat) : Int) - 1)).toNat 0) 1 :=
  (Vertical_Horizontal_binary32 Libm32.annexF [6, 6, 6, 255] 1 1 1 (F32.ofInt (2 ^ 64)) 1
    (by decide) 0 0 (by decide) (by decide)).2 1 0 (by decide)

/-! ### Weights for a `sigma` between `2^-75` and `2^126` -/

theorem intRange_length (radius : Nat) :
    (intRange (-(radius : Int)) radius).length = 2 * radius + 1 := by
  simp only [intRange, List.length_map, List.length_range]
  omega

theorem nonNeg_eq (f : F32) (h : f.NonNeg) :
    f = F32.fin false (F32.toInt f).toNat ∧ F32.Rep (F32.toInt f).toNat
      ∧ (F32.toInt f).toNat ≤ F32.maxMag := by
  obtain ⟨k, rfl, h1, h2⟩ := h
  have e : (F32.toInt (F32.fin false k)).toNat = k := by simp [F32.toInt]
  rw [e]
  exact ⟨rfl, h1, h2⟩

/-- A finite `sigma` between `2^-75` and `2^126` is a positive finite value in that range of
units. -/
theorem sigma_range (sigma : F32) (hs : sigma.Finite) (hlo : F32.fin false (2 ^ 74) ≤ sigma)
    (hhi : sigma ≤ F32.fin false (2 ^ 275)) :
    ∃ k, sigma = F32.fin false k ∧ F32.Rep k ∧ 2 ^ 74 ≤ k ∧ k ≤ 2 ^ 275 := by
  obtain ⟨s, k, rfl, hrep, -⟩ := hs
  have h1 : F32.le (F32.fin false (2 ^ 74)) (F32.fin s k) = true := hlo
  have h2 : F32.le (F32.fin s k) (F32.fin false (2 ^ 275)) = true := hhi
  have hp : (0 : Int) < 2 ^ 74 := by positivity
  cases s
  · simp only [F32.le, F32.key, Bool.false_eq_true, if_false, decide_eq_true_eq] at h1 h2
    exact ⟨k, rfl, hrep, by exact_mod_cast h1, by exact_mod_cast h2⟩
  · simp only [F32.le, F32.key, Bool.false_eq_true, if_false, if_true, decide_eq_true_eq] at h1
    have : (0 : Int) ≤ k := Int.natCast_nonneg k
    generalize (2 : Int) ^ 74 = X at *
    push_cast at h1
    omega

/-- For a finite `sigma` between `2^-75` and `2^126` and `exp(-0) = 1`, the weight
`Weight(0, sigma)` is finite and not zero. -/
theorem Weight32_zero_finite (m : Libm32) (sigma : F32) (hs : sigma.Finite)
    (hlo : F32.fin false (2 ^ 74) ≤ sigma) (hhi : sigma ≤ F32.fin false (2 ^ 275))
    (hexp0 : m.exp (F32.fin true 0) = F32.one) :
    (Binary32.Weight m 0 sigma).Finite ∧ (Binary32.Weight m 0 sigma).isZero = false := by
  obtain ⟨k, rfl, hrep, h1, h2⟩ := sigma_range sigma hs hlo hhi
  obtain ⟨hX, -⟩ := F32.sigma_divisors k hrep h1 h2
  obtain ⟨d, hd, hd75, hdle⟩ := F32.sigma_divisor_lower k h1 h2
  obtain ⟨w, hw, hwrep, hw0, hwle⟩ := F32.one_div_finite d hd75 hdle
  have e0 : -F32.ofInt (0 * 0) = F32.fin true 0 := by decide
  have hW : Binary32.Weight m 0 (F32.fin false k) = F32.fin false w := by
    unfold Binary32.Weight
    rw [hd, e0, F32.negZero_div _ hX, hexp0]
    exact hw
  rw [hW]
  refine ⟨⟨false, w, rfl, hwrep, le_trans hwle (F32.two_pow_le_maxMag 223 (by norm_num))⟩, ?_⟩
  simp only [F32.isZero, beq_eq_false_iff_ne]
  omega

/-- For a radius of at most 4096, a finite `sigma` between `2^-75` and `2^126`, and a `libm`
whose `exp` maps `-0` to 1 and every argument that is not above zero to a finite value between
0 and 1, the raw weights are finite and non-negative and their binary32 sum is finite and not
zero. -/
theorem weights_wellformed (m : Libm32) (radius : Nat) (sigma : F32) (hr : radius ≤ 4096)
    (hs : sigma.Finite) (hlo : F32.fin false (2 ^ 74) ≤ sigma)
    (hhi : sigma ≤ F32.fin false (2 ^ 275)) (hexp0 : m.exp (F32.fin true 0) = F32.one)
    (hexp : ∀ x : F32, x ≤ F32.zero →
      ∃ e, m.exp x = F32.fin false e ∧ F32.Rep e ∧ e ≤ 2 ^ 149) :
    (∀ i : Int, -(radius : Int) ≤ i → i ≤ radius → (Binary32.Weight m i sigma).NonNeg) ∧
    (Binary32.weightSum m radius sigma).isFinite = true ∧
    (Binary32.weightSum m radius sigma).isZero = false := by
  obtain ⟨hW0fin, hW0nz⟩ := Weight32_zero_finite m sigma hs hlo hhi hexp0
  obtain ⟨k, rfl, hrep, h1, h2⟩ := sigma_range sigma hs hlo hhi
  obtain ⟨hX, -⟩ := F32.sigma_divisors k hrep h1 h2
  obtain ⟨d, hd, hd75, hdle⟩ := F32.sigma_divisor_lower k h1 h2
  have hW : ∀ i : Int, -(radius : Int) ≤ i → i ≤ radius →
      ∃ a, Binary32.Weight m i (F32.fin false k) = F32.fin false a ∧ F32.Rep a
        ∧ a ≤ 2 ^ 223 := by
    intro i hi1 hi2
    have hn : i.natAbs ≤ 4096 := by omega
    have hnn : i.natAbs * i.natAbs ≤ 2 ^ 24 := by
      have := Nat.mul_le_mul hn hn
      norm_num at this ⊢
      exact this
    have hii : i * i = ((i.natAbs * i.natAbs : Nat) : Int) := by
      rw [Int.natCast_mul, Int.natAbs_mul_self']
    obtain ⟨e, he, -, hele⟩ := hexp
      (-F32.ofInt (i * i) / (F32.ofInt 2 * F32.fin false k * F32.fin false k)) (by
        rw [hii]; exact F32.neg_div_nonpos _ hnn _ hX)
    obtain ⟨a, ha, harep, hale⟩ := F32.unit_div e d hele hd75
    refine ⟨a, ?_, harep, hale⟩
    unfold Binary32.Weight
    rw [hd, he]
    exact ha
  have hNN : ∀ i : Int, -(radius : Int) ≤ i → i ≤ radius →
      (Binary32.Weight m i (F32.fin false k)).NonNeg := by
    intro i hi1 hi2
    obtain ⟨a, ha, harep, hale⟩ := hW i hi1 hi2
    exact ⟨a, ha, harep, le_trans hale (F32.two_pow_le_maxMag 223 (by norm_num))⟩
  have hf : ∀ i ∈ intRange (-(radius : Int)) radius,
      Binary32.Weight m i (F32.fin false k)
          = F32.fin false (F32.toInt (Binary32.Weight m i (F32.fin false k))).toNat
        ∧ F32.Rep (F32.toInt (Binary32.Weight m i (F32.fin false k))).toNat
        ∧ (F32.toInt (Binary32.Weight m i (F32.fin false k))).toNat ≤ F32.maxMag := by
    intro i hi
    rw [mem_intRange] at hi
    exact nonNeg_eq _ (hNN i hi.1 hi.2)
  have hfb : ∀ i ∈ intRange (-(radius : Int)) radius,
      Binary32.Weight m i (F32.fin false k)
          = F32.fin false (F32.toInt (Binary32.Weight m i (F32.fin false k))).toNat
        ∧ (F32.toInt (Binary32.Weight m i (F32.fin false k))).toNat ≤ 2 ^ 223 := by
    intro i hi
    refine ⟨(hf i hi).1, ?_⟩
    rw [mem_intRange] at hi
    obtain ⟨a, ha, -, hale⟩ := hW i hi.1 hi.2
    rw [ha]
    simpa [F32.toInt] using hale
  obtain ⟨s, hs1, -⟩ := F32.foldl_sum_bounded (fun i => Binary32.Weight m i (F32.fin false k))
    (fun i => (F32.toInt (Binary32.Weight m i (F32.fin false k))).toNat)
    (intRange (-(radius : Int)) radius) 0 0 (by simp)
    (by rw [intRange_length]; norm_num; omega) hfb
  have hS : Binary32.weightSum m radius (F32.fin false k) = F32.fin false s := hs1
  have hfin : (Binary32.weightSum m radius (F32.fin false k)).isFinite = true := by
    rw [hS]; rfl
  refine ⟨hNN, hfin, ?_⟩
  obtain ⟨s2, hs2, -, -, -, hall, -⟩ := F32.foldl_sum_rel
    (fun i => Binary32.Weight m i (F32.fin false k))
    (fun i => (F32.toInt (Binary32.Weight m i (F32.fin false k))).toNat)
    (intRange (-(radius : Int)) radius) 0 F32.rep_zero (Nat.zero_le _) hf hfin
  have hS2 : Binary32.weightSum m radius (F32.fin false k) = F32.fin false s2 := hs2
  have h0 : (0 : Int) ∈ intRange (-(radius : Int)) radius :=
    (mem_intRange _ _ _).2 ⟨by omega, by omega⟩
  have ha0 := hall 0 h0
  obtain ⟨w, hw, -, -⟩ := hW 0 (by omega) (by omega)
  rw [hw] at hW0nz ha0
  simp only [F32.isZero, beq_eq_false_iff_ne] at hW0nz
  have e : (F32.toInt (F32.fin false w)).toNat = w := by simp [F32.toInt]
  rw [hS2]
  simp only [F32.isZero, beq_eq_false_iff_ne]
  rw [e] at ha0
  omega

/-! ### Claims on the binary32 kernels: `Horizontal` with radius zero -/

theorem Horizontal32_length (m : Libm32) (inp : List Nat) (w h radius : Nat) (sigma : F32)
    (startRow endRow W : Nat) (hW : 1 ≤ W) (hrows : startRow ≤ endRow) :
    (Binary32.Horizontal m inp w h radius sigma startRow endRow W).length = w * h * 4 :=
  rowMajor_length w h
    (fun x y => F32.toByte ((Binary32.horizontalSums (Binary32.gaussWeights m radius sigma)
      inp w radius x y).1 * F32.ofInt 255))
    (fun x y => F32.toByte ((Binary32.horizontalSums (Binary32.gaussWeights m radius sigma)
      inp w radius x y).2.1 * F32.ofInt 255))
    (fun x y => F32.toByte ((Binary32.horizontalSums (Binary32.gaussWeights m radius sigma)
      inp w radius x y).2.2 * F32.ofInt 255))
    (fun _ _ => 255) W startRow endRow hW hrows

theorem intRange_zero : intRange (-((0 : Nat) : Int)) ((0 : Nat) : Int) = [0] := by decide

/-- With radius 0 the only normalized weight is `Weight(0, sigma) / (0.0f + Weight(0, sigma))`,
which is `1.0f` when `Weight(0, sigma)` is finite and not zero. -/
theorem normWeight32_radius_zero (m : Libm32) (sigma : F32)
    (hfin : (Binary32.Weight m 0 sigma).Finite)
    (hnz : (Binary32.Weight m 0 sigma).isZero = false) :
    Binary32.normWeight m 0 sigma 0 = F32.one := by
  simp only [Binary32.normWeight, Binary32.weightSum, intRange_zero, List.foldl_cons,
    List.foldl_nil]
  rw [F32.zero_add_finite _ hfin hnz, F32.div_self_finite _ hfin hnz]

theorem sampleH_zero (inp : List Nat) (w x y ch : Nat) (hx : x < w) :
    sampleH inp w x y ch 0 = inp.getD ((y * w + x) * 4 + ch) 0 := by
  have hcl : clamp ((x : Int) + 0) 0 ((w : Int) - 1) = x := by
    simp only [clamp]; omega
  have hidx : ((((y : Int) * (w : Int) + (x : Int)) * 4)).toNat = (y * w + x) * 4 := by
    have : (((y : Int) * (w : Int) + (x : Int)) * 4) = (((y * w + x) * 4 : Nat) : Int) := by
      push_cast; ring
    rw [this, Int.toNat_natCast]
  simp only [sampleH, hcl, hidx]

/-- With radius 0 and a finite non-zero `Weight(0, sigma)` the byte stored for a channel is the
sampled byte. -/
theorem blurByte32_radius_zero (m : Libm32) (sigma : F32)
    (hfin : (Binary32.Weight m 0 sigma).Finite)
    (hnz : (Binary32.Weight m 0 sigma).isZero = false) (sample : Int → Nat)
    (hs : sample 0 ≤ 255) :
    Binary32.blurByte (Binary32.normWeight m 0 sigma) sample 0 = sample 0 := by
  simp only [Binary32.blurByte, Binary32.blurSum, intRange_zero, List.foldl_cons,
    List.foldl_nil, normWeight32_radius_zero m sigma hfin hnz]
  exact F32.byte_round_trip _ (Nat.lt_succ_of_le hs)

set_option maxRecDepth 100000 in
/-- C8 (as stated) fails in two ways.  With `sigma = 1`, `Horizontal` with radius 0 turns the
1×1 image `(10,20,30,40)` into `(10,20,30,255)`: the alpha byte is not copied.  With the
positive `sigma = 1e-23f` the product `2.0f * sigma * sigma` underflows to `0.0f`, the weight
`Weight(0, sigma)` is NaN, and so is each product converted to a byte, for which the input
`(10,20,30,255)` is not reproduced (the conversion of NaN gives 0 here). -/
theorem Horizontal_binary32_radius_zero_counterexample :
    Binary32.Horizontal Libm32.annexF [10, 20, 30, 40] 1 1 0 (F32.ofInt 1) 0 1 1
        = [10, 20, 30, 255] ∧
    F32.zero < F32.lit 1 (10 ^ 23) ∧
    F32.ofInt 2 * F32.lit 1 (10 ^ 23) * F32.lit 1 (10 ^ 23) = F32.zero ∧
    Binary32.Weight Libm32.annexF 0 (F32.lit 1 (10 ^ 23)) = F32.nan ∧
    Binary32.blurSum (Binary32.normWeight Libm32.annexF 0 (F32.lit 1 (10 ^ 23)))
        (sampleH [10, 20, 30, 255] 1 0 0 0) 0 * F32.ofInt 255 = F32.nan ∧
    Binary32.Horizontal Libm32.annexF [10, 20, 30, 255] 1 1 0 (F32.lit 1 (10 ^ 23)) 0 1 1
        ≠ [10, 20, 30, 255] := by
  decide

/-- C8 (amended): for every image of bytes with width and height at least 1 and every `sigma`
for which the binary32 value `Weight(0, sigma)` is finite and not zero, `Horizontal` called
with radius 0 over all rows copies R, G and B of every pixel and writes alpha 255; hence the
output equals the input byte for byte exactly when every alpha byte of the input is 255.
`Weight(0, sigma)` is finite and not zero for every finite `sigma` between `2^-75` and `2^126`
(in units of `2^-149`: between `2^74` and `2^275`) when `exp(-0) = 1`. -/
theorem Horizontal_binary32_radius_zero (m : Libm32) (inp : List Nat) (w h W : Nat)
    (sigma : F32) (hW : 1 ≤ W) (hlen : inp.length = w * h * 4) (hbyte : ∀ v ∈ inp, v ≤ 255)
    (hfin : (Binary32.Weight m 0 sigma).Finite)
    (hnz : (Binary32.Weight m 0 sigma).isZero = false) :
    (Binary32.Horizontal m inp w h 0 sigma 0 h W).length = w * h * 4 ∧
    (∀ x y, x < w → y < h →
      pixelAt (Binary32.Horizontal m inp w h 0 sigma 0 h W) w x y
        = ((pixelAt inp w x y).1, (pixelAt inp w x y).2.1, (pixelAt inp w x y).2.2.1, 255)) ∧
    (Binary32.Horizontal m inp w h 0 sigma 0 h W = inp
      ↔ ∀ x y, x < w → y < h → (pixelAt inp w x y).2.2.2 = 255) ∧
    (∀ sigma2 : F32, sigma2.Finite → F32.fin false (2 ^ 74) ≤ sigma2 →
      sigma2 ≤ F32.fin false (2 ^ 275) → m.exp (F32.fin true 0) = F32.one →
      (Binary32.Weight m 0 sigma2).Finite ∧ (Binary32.Weight m 0 sigma2).isZero = false) := by
  have hL := Horizontal32_length m inp w h 0 sigma 0 h W hW (Nat.zero_le _)
  have hpix : ∀ x y, x < w → y < h →
      pixelAt (Binary32.Horizontal m inp w h 0 sigma 0 h W) w x y
        = ((pixelAt inp w x y).1, (pixelAt inp w x y).2.1, (pixelAt inp w x y).2.2.1, 255) := by
    intro x y hx hy
    rw [Horizontal32_pixelAt m inp w h 0 sigma 0 h W hW (Nat.zero_le _)
      x y hx hy (Nat.zero_le _) hy]
    have hb : ∀ ch, sampleH inp w x y ch 0 ≤ 255 := fun ch => by
      rw [sampleH_zero inp w x y ch hx]
      exact getD_le_255 inp hbyte _
    rw [blurByte32_radius_zero m sigma hfin hnz _ (hb 0),
      blurByte32_radius_zero m sigma hfin hnz _ (hb 1),
      blurByte32_radius_zero m sigma hfin hnz _ (hb 2),
      sampleH_zero inp w x y 0 hx, sampleH_zero inp w x y 1 hx, sampleH_zero inp w x y 2 hx]
    rfl
  refine ⟨hL, hpix, ?_, fun sigma2 g1 g2 g3 g4 => Weight32_zero_finite m sigma2 g1 g2 g3 g4⟩
  constructor
  · intro heq x y hx hy
    have := hpix x y hx hy
    rw [heq] at this
    have h4 := congrArg (fun p : Nat × Nat × Nat × Nat => p.2.2.2) this
    exact h4
  · intro halpha
    refine buffer_ext _ _ w h hL hlen (fun x y hx hy => ?_)
    rw [hpix x y hx hy, ← halpha x y hx hy]

set_option maxRecDepth 100000 in
theorem Horizontal_binary32_radius_zero_witness :
    pixelAt (Binary32.Horizontal Libm32.annexF [10, 20, 30, 40] 1 1 0 (F32.ofInt 1) 0 1 1) 1 0 0
      = ((pixelAt [10, 20, 30, 40] 1 0 0).1, (pixelAt [10, 20, 30, 40] 1 0 0).2.1,
          (pixelAt [10, 20, 30, 40] 1 0 0).2.2.1, 255) :=
  (Horizontal_binary32_radius_zero Libm32.annexF [10, 20, 30, 40] 1 1 1 (F32.ofInt 1)
    (by decide) (by decide) (by decide)
    ⟨false, 13386282 * 2 ^ 124, by decide, ⟨13386282, 124, by decide, rfl⟩, by decide⟩
    (by decide)).2.1 0 0 (by decide) (by decide)

/-! ### Claims on the binary32 kernels: the luminance -/

theorem exists_fin_of_isFinite (x : F32) (h : x.isFinite = true) : ∃ s k, x = F32.fin s k := by
  cases x with
  | fin s k => exact ⟨s, k, rfl⟩
  | inf s => simp [F32.isFinite] at h
  | nan => simp [F32.isFinite] at h

theorem abs_toInt (s : Bool) (k : Nat) : |F32.toInt (F32.fin s k)| = (k : Int) := by
  cases s <;> simp [F32.toInt]

/-- The binary32 luminance of a pixel of bytes is finite, at most `1.0f`, and within `2^-22`
of `(21 R + 71 G + 7 B) / 25500`; values are in units of `2^-149`. -/
theorem GrayNuance32_bound (inp : List Nat) (index : Nat)
    (hR : inp.getD (index + 0) 0 ≤ 255) (hG : inp.getD (index + 1) 0 ≤ 255)
    (hB : inp.getD (index + 2) 0 ≤ 255) :
    ∃ s k, Binary32.GrayNuance inp index = F32.fin s k ∧ F32.Rep k ∧ k ≤ 2 ^ 149 ∧
      |F32.toInt (F32.fin s k) * 25500
        - (21 * (inp.getD (index + 0) 0 : Int) + 71 * (inp.getD (index + 1) 0 : Int)
            + 7 * (inp.getD (index + 2) 0 : Int)) * 2 ^ 149| ≤ 25500 * 2 ^ 127 := by
  unfold Binary32.GrayNuance
  generalize inp.getD (index + 0) 0 = R at *
  generalize inp.getD (index + 1) 0 = G at *
  generalize inp.getD (index + 2) 0 = B at *
  obtain ⟨f1, l1, u1⟩ := F32.gray_term21 R (by omega)
  obtain ⟨f2, l2, u2⟩ := F32.gray_term71 G (by omega)
  obtain ⟨f3, l3, u3⟩ := F32.gray_term7 B (by omega)
  obtain ⟨s1, a, ha⟩ := exists_fin_of_isFinite _ f1
  obtain ⟨s2, b, hb⟩ := exists_fin_of_isFinite _ f2
  obtain ⟨s3, c, hc⟩ := exists_fin_of_isFinite _ f3
  simp only [ha, hb, hc] at l1 u1 l2 u2 l3 u3 ⊢
  have A1 := abs_toInt s1 a
  have A2 := abs_toInt s2 b
  have A3 := abs_toInt s3 c
  have e149 : (2 : Int) ^ 149 = 713623846352979940529142984724747568191373312 := by norm_num
  have e127 : (2 : Int) ^ 127 = 170141183460469231731687303715884105728 := by norm_num
  have e125 : (2 : Int) ^ 125 = 42535295865117307932921825928971026432 := by norm_num
  have e123 : (2 : Int) ^ 123 = 10633823966279326983230456482242756608 := by norm_num
  have e122 : (2 : Int) ^ 122 = 5316911983139663491615228241121378304 := by norm_num
  have n149 : (2 : Nat) ^ (24 + 125) = 713623846352979940529142984724747568191373312 := by
    norm_num
  have n149b : (2 : Nat) ^ 149 = 713623846352979940529142984724747568191373312 := by
    norm_num
  rw [e149, e123] at l1 u1
  rw [e149, e125] at l2 u2
  rw [e149, e122] at l3 u3
  rw [abs_eq_max_neg] at A1 A2 A3
  have hab : a + b < 2 ^ (24 + 125) := by
    rw [n149]; omega
  obtain ⟨u, k, hk, -, hle, herr⟩ := F32.add_fin s1 s2 a b 125 (by norm_num) hab
  rw [hk]
  have B1 := abs_toInt u k
  rw [e125, abs_eq_max_neg] at herr
  rw [abs_eq_max_neg] at B1
  have hkc : k + c < 2 ^ (24 + 125) := by
    rw [n149]; omega
  obtain ⟨u', k', hk', hrep', hle', herr'⟩ := F32.add_fin u s3 k c 125 (by norm_num) hkc
  rw [hk']
  refine ⟨u', k', rfl, hrep', hle', ?_⟩
  rw [e125, abs_eq_max_neg] at herr'
  rw [e149, e127, abs_eq_max_neg]
  omega

theorem toRat_fin (s : Bool) (k : Nat) :
    (F32.fin s k).toRat = (F32.toInt (F32.fin s k) : ℚ) / 2 ^ 149 := by
  cases s <;> simp [F32.toRat, F32.toInt]

set_option maxRecDepth 100000 in
/-- C17 (as stated) fails: for the white pixel `(255,255,255,255)` the luminance computed by
`GrayNuance` is the binary32 value `16609443 / 2^24`, which differs from
`(21*255 + 71*255 + 7*255) / 25500 = 99/100`. -/
theorem GrayNuance_binary32_counterexample :
    Binary32.GrayNuance [255, 255, 255, 255] 0 = F32.fin false (16609443 * 2 ^ 125) ∧
    (Binary32.GrayNuance [255, 255, 255, 255] 0).toRat = 16609443 / 2 ^ 24 ∧
    (Binary32.GrayNuance [255, 255, 255, 255] 0).toRat
      ≠ (21 * 255 + 71 * 255 + 7 * 255) / 25500 := by
  have h : Binary32.GrayNuance [255, 255, 255, 255] 0 = F32.fin false (16609443 * 2 ^ 125) := by
    decide
  refine ⟨h, ?_, ?_⟩
  · rw [h]
    simp only [F32.toRat, Bool.false_eq_true, if_false]
    norm_num
  · rw [h]
    simp only [F32.toRat, Bool.false_eq_true, if_false]
    norm_num

/-- C17 (amended): for bytes R, G, B at `index`, `index+1`, `index+2`, `GrayNuance(in, index)`
is a finite binary32 value within `2^-22` of `(21*R + 71*G + 7*B) / 25500`, and it does not
depend on any other byte of the buffer, in particular not on the alpha byte at `index+3`. -/
theorem GrayNuance_binary32 (inp : List Nat) (index : Nat)
    (hR : inp.getD (index + 0) 0 ≤ 255) (hG : inp.getD (index + 1) 0 ≤ 255)
    (hB : inp.getD (index + 2) 0 ≤ 255) :
    (Binary32.GrayNuance inp index).isFinite = true ∧
    |(Binary32.GrayNuance inp index).toRat
        - (21 * (inp.getD (index + 0) 0 : ℚ) + 71 * (inp.getD (index + 1) 0 : ℚ)
            + 7 * (inp.getD (index + 2) 0 : ℚ)) / 25500| ≤ 1 / 2 ^ 22 ∧
    (∀ inp2 : List Nat, inp2.getD (index + 0) 0 = inp.getD (index + 0) 0 →
      inp2.getD (index + 1) 0 = inp.getD (index + 1) 0 →
      inp2.getD (index + 2) 0 = inp.getD (index + 2) 0 →
      Binary32.GrayNuance inp2 index = Binary32.GrayNuance inp index) := by
  obtain ⟨s, k, hk, -, -, herr⟩ := GrayNuance32_bound inp index hR hG hB
  refine ⟨by rw [hk]; rfl, ?_, ?_⟩
  · rw [hk, toRat_fin]
    generalize F32.toInt (F32.fin s k) = T at herr ⊢
    have hq : |(T : ℚ) * 25500
        - (21 * (inp.getD (index + 0) 0 : ℚ) + 71 * (inp.getD (index + 1) 0 : ℚ)
            + 7 * (inp.getD (index + 2) 0 : ℚ)) * 2 ^ 149| ≤ 25500 * 2 ^ 127 := by
      exact_mod_cast herr
    have e : (T : ℚ) / 2 ^ 149
        - (21 * (inp.getD (index + 0) 0 : ℚ) + 71 * (inp.getD (index + 1) 0 : ℚ)
            + 7 * (inp.getD (index + 2) 0 : ℚ)) / 25500
        = ((T : ℚ) * 25500
        - (21 * (inp.getD (index + 0) 0 : ℚ) + 71 * (inp.getD (index + 1) 0 : ℚ)
            + 7 * (inp.getD (index + 2) 0 : ℚ)) * 2 ^ 149) / (25500 * 2 ^ 149) := by
      field_simp
      ring
    rw [e, abs_div, abs_of_pos (show (0 : ℚ) < 25500 * 2 ^ 149 by positivity),
      div_le_iff₀ (by positivity)]
    refine le_trans hq (le_of_eq ?_)
    norm_num
  · intro inp2 h0 h1 h2
    simp only [Binary32.GrayNuance, h0, h1, h2]

set_option maxRecDepth 100000 in
theorem GrayNuance_binary32_witness :
    (Binary32.GrayNuance [250, 237, 248, 7] 0).isFinite = true ∧
    |(Binary32.GrayNuance [250, 237, 248, 7] 0).toRat
        - (21 * (([250, 237, 248, 7] : List Nat).getD (0 + 0) 0 : ℚ)
            + 71 * (([250, 237, 248, 7] : List Nat).getD (0 + 1) 0 : ℚ)
            + 7 * (([250, 237, 248, 7] : List Nat).getD (0 + 2) 0 : ℚ)) / 25500| ≤ 1 / 2 ^ 22 :=
  ⟨(GrayNuance_binary32 [250, 237, 248, 7] 0 (by decide) (by decide) (by decide)).1,
    (GrayNuance_binary32 [250, 237, 248, 7] 0 (by decide) (by decide) (by decide)).2.1⟩

/-! ### Claims on the binary32 kernels: Sobel on a uniform image -/

theorem EdgeBinarize32_length (inp : List Nat) (w h : Nat) (threshold : F32)
    (startRow endRow W : Nat) (hW : 1 ≤ W) (hrows : startRow ≤ endRow) :
    (Binary32.EdgeBinarize inp w h threshold startRow endRow W).length = w * h * 4 :=
  rowMajor_length w h (fun x y => Binary32.sobelBinary inp w h threshold x y)
    (fun x y => Binary32.sobelBinary inp w h threshold x y)
    (fun x y => Binary32.sobelBinary inp w h threshold x y) (fun _ _ => 255)
    W startRow endRow hW hrows

/-- In a uniform image every clamped neighbour has the luminance of the common colour. -/
theorem neighbourLuminance32_uniform (inp : List Nat) (w h r g b a : Nat)
    (hunif : ∀ x y, x < w → y < h → pixelAt inp w x y = (r, g, b, a))
    (x y : Nat) (hx : x < w) (hy : y < h) (i j : Int) :
    Binary32.neighbourLuminance inp w h x y i j = Binary32.GrayNuance [r, g, b] 0 := by
  have hcx := clamp_bounds ((x : Int) + i) w (by omega)
  have hcy := clamp_bounds ((y : Int) + j) h (by omega)
  obtain ⟨e, -, hnx, hny⟩ := clamped_index w h _ _ hcx.1 hcx.2 hcy.1 hcy.2
  have hp := hunif _ _ hnx hny
  simp only [pixelAt, Prod.mk.injEq] at hp
  obtain ⟨p0, p1, p2, -⟩ := hp
  simp only [Binary32.neighbourLuminance, Binary32.GrayNuance, e, p0, p1, p2]
  rfl

/-- On a uniform image both Sobel sums are accumulations of the one luminance times the kernel
entries in the order of the loops. -/
theorem sobelSum32_uniform (inp : List Nat) (w h r g b a : Nat)
    (hunif : ∀ x y, x < w → y < h → pixelAt inp w x y = (r, g, b, a))
    (x y : Nat) (hx : x < w) (hy : y < h) :
    Binary32.sobelSum Gx inp w h x y
      = ([-1, 0, 1, -2, 0, 2, -1, 0, 1] : List Int).foldl
          (fun acc c => acc + Binary32.GrayNuance [r, g, b] 0 * F32.ofInt c) F32.zero ∧
    Binary32.sobelSum Gy inp w h x y
      = ([-1, -2, -1, 0, 0, 0, 1, 2, 1] : List Int).foldl
          (fun acc c => acc + Binary32.GrayNuance [r, g, b] 0 * F32.ofInt c) F32.zero := by
  simp only [Binary32.sobelSum, Binary32.sobelOffsets, List.foldl_cons, List.foldl_nil,
    neighbourLuminance32_uniform inp w h r g b a hunif x y hx hy]
  exact ⟨rfl, rfl⟩

set_option maxRecDepth 100000 in
/-- The accumulation over the entries of either kernel stays within `9 * 2^127` units of
zero. -/
theorem sobel_residue (s : Bool) (k : Nat) (hk : F32.Rep k) (hk' : k ≤ 2 ^ 149)
    (cs : List Int)
    (hcs : cs = [-1, 0, 1, -2, 0, 2, -1, 0, 1] ∨ cs = [-1, -2, -1, 0, 0, 0, 1, 2, 1]) :
    ∃ u a, cs.foldl (fun acc c => acc + F32.fin s k * F32.ofInt c) F32.zero = F32.fin u a ∧
      a ≤ 9 * 2 ^ 127 := by
  have h0 : ∃ u a, F32.zero = F32.fin u a
      ∧ |F32.toInt (F32.fin u a) - 0 * F32.toInt (F32.fin s k)| ≤ (0 : Int) * 2 ^ 127 :=
    ⟨false, 0, rfl, by simp [F32.toInt]⟩
  have hlen : cs.length = 9 := by rcases hcs with rfl | rfl <;> rfl
  have hsum : cs.sum = 0 := by rcases hcs with rfl | rfl <;> rfl
  have hsmall : ∀ c ∈ cs, c.natAbs ≤ 2 := by rcases hcs with rfl | rfl <;> decide
  have hpre : ∀ m, m ≤ cs.length → |0 + (cs.take m).sum| ≤ 4 := by
    rw [hlen]
    intro m hm
    rw [abs_le]
    have : ∀ m, m ≤ 9 → -4 ≤ 0 + (cs.take m).sum ∧ 0 + (cs.take m).sum ≤ 4 := by
      rcases hcs with rfl | rfl <;> decide
    exact this m hm
  obtain ⟨u, a, h1, h2⟩ := F32.sobel_fold s k hk hk' cs F32.zero 0 0 h0
    (by rw [hlen]; norm_num) hsmall hpre
  refine ⟨u, a, h1, ?_⟩
  rw [hsum, hlen] at h2
  have Ha : |F32.toInt (F32.fin u a)| = (a : Int) := abs_toInt u a
  have h3 : (a : Int) ≤ 9 * 2 ^ 127 := by
    rw [← Ha]
    simpa using h2
  exact_mod_cast h3

/-- The magnitude `sqrt(gx * gx + gy * gy)` of two finite values of at most `9 * 2^127` units
each is finite, non-negative and at most `2^-17`, that is `2^132` units. -/
theorem magnitude_le (u v : Bool) (a b : Nat) (ha : a ≤ 9 * 2 ^ 127) (hb : b ≤ 9 * 2 ^ 127) :
    ∃ k, F32.sqrt (F32.fin u a * F32.fin u a + F32.fin v b * F32.fin v b) = F32.fin false k
      ∧ k ≤ 2 ^ 132 := by
  have n127 : (2 : Nat) ^ 127 = 170141183460469231731687303715884105728 := by norm_num
  have hsq : ∀ a : Nat, a ≤ 9 * 2 ^ 127 → a * a < 2 ^ (24 + 88) * 2 ^ 149 := by
    intro a ha
    have h1 : a * a ≤ (9 * 2 ^ 127) * (9 * 2 ^ 127) := Nat.mul_le_mul ha ha
    have h2 : (9 * 2 ^ 127) * (9 * 2 ^ 127) < 2 ^ (24 + 88) * 2 ^ 149 := by norm_num
    exact lt_of_le_of_lt h1 h2
  obtain ⟨ka, h1, -, h2, -⟩ := F32.round_bound false (a * a) (2 ^ 149) 88 (by positivity)
    (by norm_num) (hsq a ha)
  obtain ⟨kb, h3, -, h4, -⟩ := F32.round_bound false (b * b) (2 ^ 149) 88 (by positivity)
    (by norm_num) (hsq b hb)
  have e1 : F32.fin u a * F32.fin u a = F32.fin false ka := by
    show F32.mul _ _ = _
    simp only [F32.mul, Bool.xor_self]
    exact h1
  have e2 : F32.fin v b * F32.fin v b = F32.fin false kb := by
    show F32.mul _ _ = _
    simp only [F32.mul, Bool.xor_self]
    exact h3
  have hab : ka + kb < 2 ^ (24 + 90) := by
    have : (2 : Nat) ^ (24 + 90) = 4 * 2 ^ (24 + 88) := by norm_num
    have : 0 < (2 : Nat) ^ (24 + 88) := by positivity
    omega
  obtain ⟨kc, h5, -, h6, -⟩ := F32.round_bound_one false (ka + kb) 90 (by norm_num) hab
  have e3 : F32.fin false ka + F32.fin false kb = F32.fin false kc := by
    show F32.add _ _ = _
    simp only [F32.add, if_true]
    exact h5
  rw [e1, e2, e3]
  refine F32.sqrt_le kc (2 ^ 132) (F32.rep_two_pow _) (F32.two_pow_le_maxMag _ (by norm_num)) ?_
  calc kc * 2 ^ 149 ≤ 2 ^ (24 + 90) * 2 ^ 149 := Nat.mul_le_mul_right _ h6
    _ ≤ 2 ^ 132 * 2 ^ 132 := by norm_num

/-- On a uniform image of bytes, a threshold above `2^-17` gives a white pixel everywhere. -/
theorem EdgeBinarize32_uniform_pixel (inp : List Nat) (w h W : Nat) (threshold : F32)
    (r g b a : Nat) (hW : 1 ≤ W) (hr : r ≤ 255) (hg : g ≤ 255) (hb : b ≤ 255)
    (hthr : F32.fin false (2 ^ 132) < threshold)
    (hunif : ∀ x y, x < w → y < h → pixelAt inp w x y = (r, g, b, a))
    (x y : Nat) (hx : x < w) (hy : y < h) :
    pixelAt (Binary32.EdgeBinarize inp w h threshold 0 h W) w x y = (255, 255, 255, 255) := by
  obtain ⟨hgx, hgy⟩ := sobelSum32_uniform inp w h r g b a hunif x y hx hy
  rw [EdgeBinarize32_pixelAt inp w h threshold 0 h W hW (Nat.zero_le _) x y hx hy
    (Nat.zero_le _) hy, hgx, hgy]
  obtain ⟨s, k, hk, hrep, hle, -⟩ := GrayNuance32_bound [r, g, b] 0 hr hg hb
  rw [hk]
  obtain ⟨u1, a1, h1, h2⟩ := sobel_residue s k hrep hle _ (Or.inl rfl)
  obtain ⟨u2, a2, h3, h4⟩ := sobel_residue s k hrep hle _ (Or.inr rfl)
  rw [h1, h3]
  obtain ⟨km, h5, h6⟩ := magnitude_le u1 u2 a1 a2 h2 h4
  rw [h5, if_neg (F32.not_ge_of_lt false km (2 ^ 132) threshold h6 hthr)]

set_option maxRecDepth 100000 in
/-- C13 (as stated) fails: for the uniform white 1×1 image and the positive threshold `2^-24`,
the binary32 accumulation leaves `gradY = 2^-24`, the magnitude `2^-24` reaches the
threshold, and `EdgeBinarize` writes the black pixel `(0,0,0,255)`. -/
theorem EdgeBinarize_binary32_uniform_counterexample :
    F32.zero < F32.fin false (2 ^ 125) ∧
    Binary32.sobelSum Gx [255, 255, 255, 255] 1 1 0 0 = F32.fin false 0 ∧
    Binary32.sobelSum Gy [255, 255, 255, 255] 1 1 0 0 = F32.fin false (2 ^ 125) ∧
    Binary32.EdgeBinarize [255, 255, 255, 255] 1 1 (F32.fin false (2 ^ 125)) 0 1 1
      = [0, 0, 0, 255] := by
  decide

set_option maxRecDepth 100000 in
/-- C13 (amended): for every width and height, every uniform image of bytes and every
threshold above `2^-17` (the binary32 value of `2^132` units of `2^-149`), `EdgeBinarize` over
all rows yields `(255,255,255,255)` at every pixel; in particular a 4×4 all-black image with
threshold `0.1f` gives an all-white output. -/
theorem EdgeBinarize_binary32_uniform (inp : List Nat) (w h W : Nat) (threshold : F32)
    (r g b a : Nat) (hW : 1 ≤ W) (hr : r ≤ 255) (hg : g ≤ 255) (hb : b ≤ 255)
    (hthr : F32.fin false (2 ^ 132) < threshold)
    (hunif : ∀ x, x < w → ∀ y, y < h → pixelAt inp w x y = (r, g, b, a)) :
    (∀ x y, x < w → y < h →
      pixelAt (Binary32.EdgeBinarize inp w h threshold 0 h W) w x y = (255, 255, 255, 255)) ∧
    Binary32.EdgeBinarize inp w h threshold 0 h W = List.replicate (w * h * 4) 255 ∧
    Binary32.EdgeBinarize (List.replicate 16 [0, 0, 0, 255]).flatten 4 4 (F32.lit 1 10) 0 4 W
      = List.replicate 64 255 := by
  have hgen : ∀ (inp : List Nat) (w h : Nat) (threshold : F32) (r g b a : Nat),
      r ≤ 255 → g ≤ 255 → b ≤ 255 → F32.fin false (2 ^ 132) < threshold →
      (∀ x y, x < w → y < h → pixelAt inp w x y = (r, g, b, a)) →
      Binary32.EdgeBinarize inp w h threshold 0 h W = List.replicate (w * h * 4) 255 := by
    intro inp w h threshold r g b a hr hg hb hthr hunif
    refine buffer_ext _ _ w h
      (EdgeBinarize32_length inp w h threshold 0 h W hW (Nat.zero_le _))
      (by simp) (fun x y hx hy => ?_)
    rw [EdgeBinarize32_uniform_pixel inp w h W threshold r g b a hW hr hg hb hthr
      hunif x y hx hy, pixelAt_replicate w h 255 x y hx hy]
  have hunif2 : ∀ x y, x < w → y < h → pixelAt inp w x y = (r, g, b, a) :=
    fun x y hx hy => hunif x hx y hy
  refine ⟨fun x y hx hy => EdgeBinarize32_uniform_pixel inp w h W threshold r g b a hW hr hg hb
    hthr hunif2 x y hx hy, hgen inp w h threshold r g b a hr hg hb hthr hunif2, ?_⟩
  have hblack : ∀ x, x < 4 → ∀ y, y < 4 →
      pixelAt (List.replicate 16 [0, 0, 0, 255]).flatten 4 x y = (0, 0, 0, 255) := by decide
  exact hgen _ 4 4 (F32.lit 1 10) 0 0 0 255 (by decide) (by decide) (by decide) (by decide)
    (fun x y hx hy => hblack x hx y hy)

set_option maxRecDepth 100000 in
theorem EdgeBinarize_binary32_uniform_witness :
    Binary32.EdgeBinarize [255, 255, 255, 10, 255, 255, 255, 10] 2 1 (F32.lit 3 10) 0 1 3
      = List.replicate (2 * 1 * 4) 255 :=
  (EdgeBinarize_binary32_uniform [255, 255, 255, 10, 255, 255, 255, 10] 2 1 3 (F32.lit 3 10)
    255 255 255 10 (by decide) (by decide) (by decide) (by decide) (by decide)
    (by decide)).2.1

/-! ### Claims on the binary32 kernels: normalization of the weights -/

theorem abs_sum_sub_le {ι : Type} (x y : ι → Int) (B : Int) (l : List ι)
    (h : ∀ i ∈ l, |x i - y i| ≤ B) :
    |(l.map x).sum - (l.map y).sum| ≤ (l.length : Int) * B := by
  induction l with
  | nil => simp
  | cons i l ih =>
    have h1 := h i (List.mem_cons_self _ _)
    have h2 := ih (fun j hj => h j (List.mem_cons_of_mem _ hj))
    simp only [List.map_cons, List.sum_cons, List.length_cons]
    push_cast
    have e : x i + (l.map x).sum - (y i + (l.map y).sum)
        = (x i - y i) + ((l.map x).sum - (l.map y).sum) := by ring
    rw [e]
    have := abs_add (x i - y i) ((l.map x).sum - (l.map y).sum)
    linarith

/-- The normalized weights in units of `2^-149`: when the raw weights are finite and
non-negative and their binary32 sum is finite and not zero, every normalized weight is finite,
non-negative and at most `1.0f`, and the exact sum of the normalized weights differs from one
by at most `(2 * radius + 1) * 2^126` units. -/
theorem normWeight32_units (m : Libm32) (radius : Nat) (sigma : F32)
    (hW : ∀ i : Int, -(radius : Int) ≤ i → i ≤ radius → (Binary32.Weight m i sigma).NonNeg)
    (hfin : (Binary32.weightSum m radius sigma).isFinite = true)
    (hnz : (Binary32.weightSum m radius sigma).isZero = false) :
    (∀ i : Int, -(radius : Int) ≤ i → i ≤ radius →
      ∃ k, Binary32.normWeight m radius sigma i = F32.fin false k ∧ F32.Rep k ∧ k ≤ 2 ^ 149) ∧
    |((intRange (-(radius : Int)) radius).map
        (fun i => F32.toInt (Binary32.normWeight m radius sigma i))).sum - 2 ^ 149|
      ≤ (2 * (radius : Int) + 1) * 2 ^ 126 := by
  have hf : ∀ i ∈ intRange (-(radius : Int)) radius,
      Binary32.Weight m i sigma = F32.fin false (F32.toInt (Binary32.Weight m i sigma)).toNat
        ∧ F32.Rep (F32.toInt (Binary32.Weight m i sigma)).toNat
        ∧ (F32.toInt (Binary32.Weight m i sigma)).toNat ≤ F32.maxMag := by
    intro i hi
    rw [mem_intRange] at hi
    exact nonNeg_eq _ (hW i hi.1 hi.2)
  have hsum := F32.foldl_sum_rel (fun i => Binary32.Weight m i sigma)
    (fun i => (F32.toInt (Binary32.Weight m i sigma)).toNat)
    (intRange (-(radius : Int)) radius) 0 F32.rep_zero (Nat.zero_le _) hf hfin
  obtain ⟨s, hs, -, -, -, hall, herr⟩ := hsum
  have hS : Binary32.weightSum m radius sigma = F32.fin false s := hs
  have hs0 : 0 < s := by
    rw [hS] at hnz
    simp only [F32.isZero, beq_eq_false_iff_ne] at hnz
    omega
  have hnorm : ∀ i ∈ intRange (-(radius : Int)) radius,
      ∃ k, Binary32.normWeight m radius sigma i = F32.fin false k ∧ F32.Rep k ∧ k ≤ 2 ^ 149 ∧
        |(k : Int) * s - ((F32.toInt (Binary32.Weight m i sigma)).toNat : Int) * 2 ^ 149|
          ≤ 2 ^ 125 * (s : Int) := by
    intro i hi
    obtain ⟨k, h1, h2, h3, h4⟩ := F32.div_norm _ s (hall i hi) hs0
    refine ⟨k, ?_, h2, h3, h4⟩
    unfold Binary32.normWeight
    rw [hS, (hf i hi).1]
    exact h1
  refine ⟨fun i h1 h2 => ?_, ?_⟩
  · obtain ⟨k, e1, e2, e3, -⟩ := hnorm i ((mem_intRange _ _ _).2 ⟨h1, h2⟩)
    exact ⟨k, e1, e2, e3⟩
  · have hB := abs_sum_sub_le
      (fun i => F32.toInt (Binary32.normWeight m radius sigma i) * (s : Int))
      (fun i => ((F32.toInt (Binary32.Weight m i sigma)).toNat : Int) * 2 ^ 149)
      (2 ^ 125 * (s : Int)) (intRange (-(radius : Int)) radius) (by
        intro i hi
        obtain ⟨k, e1, -, -, e4⟩ := hnorm i hi
        beta_reduce
        rw [e1]
        have e : F32.toInt (F32.fin false k) = (k : Int) := by simp [F32.toInt]
        rw [e]
        exact e4)
    rw [intRange_length] at hB herr
    have e1 : ((intRange (-(radius : Int)) radius).map
        (fun i => F32.toInt (Binary32.normWeight m radius sigma i) * (s : Int))).sum
        = ((intRange (-(radius : Int)) radius).map
          (fun i => F32.toInt (Binary32.normWeight m radius sigma i))).sum * s := by
      rw [← List.sum_map_mul_right]
    have e2 : ((intRange (-(radius : Int)) radius).map
        (fun i => ((F32.toInt (Binary32.Weight m i sigma)).toNat : Int) * 2 ^ 149)).sum
        = ((intRange (-(radius : Int)) radius).map
          (fun i => ((F32.toInt (Binary32.Weight m i sigma)).toNat : Int))).sum * 2 ^ 149 := by
      rw [← List.sum_map_mul_right]
    rw [e1, e2] at hB
    generalize ((intRange (-(radius : Int)) radius).map
        (fun i => F32.toInt (Binary32.normWeight m radius sigma i))).sum = K at hB ⊢
    generalize ((intRange (-(radius : Int)) radius).map
        (fun i => ((F32.toInt (Binary32.Weight m i sigma)).toNat : Int))).sum = A at hB herr
    simp only [Nat.cast_add, Nat.cast_mul, Nat.cast_ofNat, Nat.cast_one, Nat.cast_zero,
      zero_add] at hB herr
    have hsZ : (0 : Int) < s := by exact_mod_cast hs0
    -- `|K s - A P| ≤ n 2^125 s` and `2^24 |s - A| ≤ n s` give `|K - P| s ≤ n 2^126 s`
    have h3 : |K - 2 ^ 149| * (s : Int) ≤ ((2 * (radius : Int) + 1) * 2 ^ 126) * s := by
      have e3 : (K - 2 ^ 149) * (s : Int)
          = (K * s - A * 2 ^ 149) + 2 ^ 125 * (2 ^ 24 * (A - s)) := by ring
      have h4 : |(K - 2 ^ 149) * (s : Int)|
          ≤ |K * s - A * 2 ^ 149| + 2 ^ 125 * (2 ^ 24 * |(s : Int) - A|) := by
        rw [e3]
        refine le_trans (abs_add _ _) ?_
        rw [abs_mul, abs_mul, abs_of_pos (show (0 : Int) < 2 ^ 125 by positivity),
          abs_of_pos (show (0 : Int) < 2 ^ 24 by positivity), abs_sub_comm A s]
      rw [abs_mul, abs_of_pos hsZ] at h4
      have h5 : (2 : Int) ^ 125 * (2 ^ 24 * |(s : Int) - A|)
          ≤ 2 ^ 125 * ((2 * (radius : Int) + 1) * s) :=
        mul_le_mul_of_nonneg_left herr (by positivity)
      have e6 : (2 * (radius : Int) + 1) * 2 ^ 126 * s
          = (2 * (radius : Int) + 1) * (2 ^ 125 * s) + 2 ^ 125 * ((2 * (radius : Int) + 1) * s) := by
        ring
      rw [e6]
      linarith
    exact le_of_mul_le_mul_right h3 hsZ

theorem toRat_eq_toInt (f : F32) : f.toRat = (F32.toInt f : ℚ) / 2 ^ 149 := by
  cases f with
  | fin s k => exact toRat_fin s k
  | inf s => simp [F32.toRat, F32.toInt]
  | nan => simp [F32.toRat, F32.toInt]

theorem sum_toRat {ι : Type} (f : ι → F32) (l : List ι) :
    (l.map (fun i => (f i).toRat)).sum
      = (((l.map (fun i => F32.toInt (f i))).sum : Int) : ℚ) / 2 ^ 149 := by
  induction l with
  | nil => simp
  | cons i l ih =>
    simp only [List.map_cons, List.sum_cons, ih, toRat_eq_toInt (f i)]
    push_cast
    ring

set_option maxRecDepth 100000 in
/-- C9 (as stated) fails.  With radius 1 and `sigma = 2^64` (every `exp` argument is `-0`) the
three normalized weights computed by the program are `11184810 / 2^25` each, and their exact
sum is `33554430 / 2^25`, not 1.  With the positive `sigma = 2^127` the product
`sqrt(2 pi) * sigma` overflows, every raw weight is `0.0f`, their sum is `0.0f`, and the three
normalized weights are NaN, which are not positive. -/
theorem gaussWeights_binary32_counterexample :
    Binary32.gaussWeights Libm32.annexF 1 (F32.ofInt (2 ^ 64))
      = [F32.fin false (11184810 * 2 ^ 124), F32.fin false (11184810 * 2 ^ 124),
          F32.fin false (11184810 * 2 ^ 124)] ∧
    (F32.fin false (11184810 * 2 ^ 124)).toRat + (F32.fin false (11184810 * 2 ^ 124)).toRat
      + (F32.fin false (11184810 * 2 ^ 124)).toRat ≠ 1 ∧
    F32.zero < F32.ofInt (2 ^ 127) ∧
    Binary32.gaussWeights Libm32.annexF 1 (F32.ofInt (2 ^ 127)) = [F32.nan, F32.nan, F32.nan] ∧
    ¬ (F32.zero < F32.nan) := by
  refine ⟨by decide, ?_, by decide, by decide, by decide⟩
  rw [toRat_third]
  norm_num

/-- C9 (amended): for every radius and every sigma for which the binary32 values
`Weight(i, sigma)`, `i = -radius, …, radius`, are finite and non-negative and their binary32
sum is finite and not zero, the vector computed by `Horizontal` and `Vertical` has
`2 * radius + 1` entries; entry `i + radius` is `Weight(i, sigma)` divided in binary32 by the
binary32 sum of the weights; every entry is finite, non-negative and at most 1; and the exact
sum of the entries is within `(2 * radius + 1) / 2^23` of 1.  The three conditions hold for
every radius of at most 4096 and every finite `sigma` between `2^-75` and `2^126` (in units of
`2^-149`: between `2^74` and `2^275`) when `exp` maps `-0` to 1 and every argument that is not
above zero to a finite value between 0 and 1. -/
theorem gaussWeights_binary32 (m : Libm32) (radius : Nat) (sigma : F32)
    (hW : ∀ i : Int, -(radius : Int) ≤ i → i ≤ radius → (Binary32.Weight m i sigma).NonNeg)
    (hfin : (Binary32.weightSum m radius sigma).isFinite = true)
    (hnz : (Binary32.weightSum m radius sigma).isZero = false) :
    (Binary32.gaussWeights m radius sigma).length = 2 * radius + 1 ∧
    (∀ i : Int, -(radius : Int) ≤ i → i ≤ radius →
      (Binary32.gaussWeights m radius sigma).getD (i + (radius : Int)).toNat F32.zero
          = Binary32.Weight m i sigma / Binary32.weightSum m radius sigma ∧
        (Binary32.Weight m i sigma / Binary32.weightSum m radius sigma).NonNeg ∧
        0 ≤ (Binary32.Weight m i sigma / Binary32.weightSum m radius sigma).toRat ∧
        (Binary32.Weight m i sigma / Binary32.weightSum m radius sigma).toRat ≤ 1) ∧
    |Finset.sum (Finset.Icc (-(radius : Int)) radius)
        (fun i => ((Binary32.gaussWeights m radius sigma).getD
          (i + (radius : Int)).toNat F32.zero).toRat) - 1|
      ≤ (2 * (radius : ℚ) + 1) / 2 ^ 23 ∧
    (∀ (radius2 : Nat) (sigma2 : F32), radius2 ≤ 4096 → sigma2.Finite →
      F32.fin false (2 ^ 74) ≤ sigma2 → sigma2 ≤ F32.fin false (2 ^ 275) →
      m.exp (F32.fin true 0) = F32.one →
      (∀ x : F32, x ≤ F32.zero → ∃ e, m.exp x = F32.fin false e ∧ F32.Rep e ∧ e ≤ 2 ^ 149) →
      (∀ i : Int, -(radius2 : Int) ≤ i → i ≤ radius2 →
        (Binary32.Weight m i sigma2).NonNeg) ∧
      (Binary32.weightSum m radius2 sigma2).isFinite = true ∧
      (Binary32.weightSum m radius2 sigma2).isZero = false) := by
  obtain ⟨hk, hsum⟩ := normWeight32_units m radius sigma hW hfin hnz
  refine ⟨gaussWeights32_length m radius sigma, fun i h1 h2 => ?_, ?_,
    fun radius2 sigma2 g1 g2 g3 g4 g5 g6 =>
      weights_wellformed m radius2 sigma2 g1 g2 g3 g4 g5 g6⟩
  · obtain ⟨k, e1, e2, e3⟩ := hk i h1 h2
    have e1' : Binary32.Weight m i sigma / Binary32.weightSum m radius sigma
        = F32.fin false k := e1
    refine ⟨gaussWeights32_getD m radius sigma i h1 h2, ?_, ?_, ?_⟩
    · rw [e1']
      exact ⟨k, rfl, e2, le_trans e3 (F32.two_pow_le_maxMag 149 (by norm_num))⟩
    · rw [e1']
      simp only [F32.toRat, Bool.false_eq_true, if_false]
      positivity
    · rw [e1']
      simp only [F32.toRat, Bool.false_eq_true, if_false]
      rw [div_le_one (by positivity)]
      exact_mod_cast e3
  · have hcongr : Finset.sum (Finset.Icc (-(radius : Int)) radius)
        (fun i => ((Binary32.gaussWeights m radius sigma).getD
          (i + (radius : Int)).toNat F32.zero).toRat)
        = Finset.sum (Finset.Icc (-(radius : Int)) radius)
          (fun i => (Binary32.normWeight m radius sigma i).toRat) := by
      refine Finset.sum_congr rfl (fun i hi => ?_)
      rw [Finset.mem_Icc] at hi
      rw [gaussWeights32_getD m radius sigma i hi.1 hi.2]
    rw [hcongr, ← sum_intRange, sum_toRat]
    generalize ((intRange (-(radius : Int)) radius).map
        (fun i => F32.toInt (Binary32.normWeight m radius sigma i))).sum = K at hsum ⊢
    have hq : |(K : ℚ) - 2 ^ 149| ≤ (2 * (radius : ℚ) + 1) * 2 ^ 126 := by
      exact_mod_cast hsum
    have e : (K : ℚ) / 2 ^ 149 - 1 = ((K : ℚ) - 2 ^ 149) / 2 ^ 149 := by
      field_simp
    rw [e, abs_div, abs_of_pos (show (0 : ℚ) < 2 ^ 149 by positivity),
      div_le_div_iff₀ (by positivity) (by positivity)]
    have e2 : (2 * (radius : ℚ) + 1) * 2 ^ 149 = ((2 * (radius : ℚ) + 1) * 2 ^ 126) * 2 ^ 23 := by
      rw [mul_assoc, ← pow_add]
    rw [e2]
    exact mul_le_mul_of_nonneg_right hq (by positivity)

set_option maxRecDepth 100000 in
theorem gaussWeights_binary32_witness :
    (Binary32.gaussWeights Libm32.annexF 1 (F32.ofInt (2 ^ 64))).length = 2 * 1 + 1 ∧
    |Finset.sum (Finset.Icc (-((1 : Nat) : Int)) (1 : Nat))
        (fun i => ((Binary32.gaussWeights Libm32.annexF 1 (F32.ofInt (2 ^ 64))).getD
          (i + ((1 : Nat) : Int)).toNat F32.zero).toRat) - 1|
      ≤ (2 * ((1 : Nat) : ℚ) + 1) / 2 ^ 23 :=
  ⟨(gaussWeights_binary32 Libm32.annexF 1 (F32.ofInt (2 ^ 64))
      (fun i h1 h2 => by
        have hi : i = -1 ∨ i = 0 ∨ i = 1 := by omega
        rcases hi with rfl | rfl | rfl <;>
          exact ⟨13386282 * 2 ^ 60, by decide, ⟨13386282, 60, by decide, rfl⟩, by decide⟩)
      (by decide) (by decide)).1,
    (gaussWeights_binary32 Libm32.annexF 1 (F32.ofInt (2 ^ 64))
      (fun i h1 h2 => by
        have hi : i = -1 ∨ i = 0 ∨ i = 1 := by omega
        rcases hi with rfl | rfl | rfl <;>
          exact ⟨13386282 * 2 ^ 60, by decide, ⟨13386282, 60, by decide, rfl⟩, by decide⟩)
      (by decide) (by decide)).2.2.1⟩

/-! ### Claims on the binary32 kernels: the blurred value and the sampled window -/

theorem abs_sum_sub_le_sum {ι : Type} (x y B : ι → Int) (l : List ι)
    (h : ∀ i ∈ l, |x i - y i| ≤ B i) :
    |(l.map x).sum - (l.map y).sum| ≤ (l.map B).sum := by
  induction l with
  | nil => simp
  | cons i l ih =>
    have h1 := h i (List.mem_cons_self _ _)
    have h2 := ih (fun j hj => h j (List.mem_cons_of_mem _ hj))
    simp only [List.map_cons, List.sum_cons]
    have e : x i + (l.map x).sum - (y i + (l.map y).sum)
        = (x i - y i) + ((l.map x).sum - (l.map y).sum) := by ring
    rw [e]
    have := abs_add (x i - y i) ((l.map x).sum - (l.map y).sum)
    linarith

theorem sum_le_sum_add {ι : Type} (x y : ι → Int) (B : Int) (l : List ι)
    (h : ∀ i ∈ l, x i ≤ y i + B) :
    (l.map x).sum ≤ (l.map y).sum + (l.length : Int) * B := by
  induction l with
  | nil => simp
  | cons i l ih =>
    have h1 := h i (List.mem_cons_self _ _)
    have h2 := ih (fun j hj => h j (List.mem_cons_of_mem _ hj))
    simp only [List.map_cons, List.sum_cons, List.length_cons]
    push_cast
    linarith

theorem sum_le_sum_int {ι : Type} (x y : ι → Int) (l : List ι)
    (h : ∀ i ∈ l, x i ≤ y i) : (l.map x).sum ≤ (l.map y).sum := by
  have := sum_le_sum_add x y 0 l (fun i hi => by simpa using h i hi)
  simpa using this

/-- The terms of the window sum: for a byte sample and a weight of at most `1.0f`, the term
`(sample / 255.0f) * weight` is finite and non-negative, at most the weight plus `2^-24`, and
`255` times the term is within `255 * 2^-24 + 255 * 2^-25 * weight` of sample times weight
(units of `2^-149`, scaled by `2^149`). -/
theorem blur_term (v k : Nat) (hv : v ≤ 255) (hk : k ≤ 2 ^ 149) :
    ∃ p : Nat, F32.ofInt v / F32.ofInt 255 * F32.fin false k = F32.fin false p ∧
      (p : Int) ≤ k + 2 ^ 125 ∧
      |255 * 2 ^ 149 * (p : Int) - 2 ^ 149 * ((v : Int) * k)|
        ≤ 255 * 2 ^ 125 * 2 ^ 149 + 255 * 2 ^ 124 * (k : Int) := by
  obtain ⟨e1, e2, e3, e4, e5⟩ := F32.byte_div v (by omega)
  obtain ⟨q, hq⟩ : ∃ q : Nat, F32.toInt (F32.ofInt v / F32.ofInt 255) = q :=
    ⟨_, (Int.toNat_of_nonneg e2).symm⟩
  rw [hq] at e1 e3 e4 e5
  rw [Int.toNat_natCast] at e1
  have hqP : q ≤ 2 ^ 149 := by exact_mod_cast e3
  obtain ⟨p, h1, -, h3⟩ := F32.mul_unit q k hqP hk
  refine ⟨p, by rw [e1]; exact h1, ?_, ?_⟩
  · have hkZ : (0 : Int) ≤ k := Int.natCast_nonneg k
    have hqk : (q : Int) * k ≤ 2 ^ 149 * k := mul_le_mul_of_nonneg_right e3 hkZ
    have hP : (0 : Int) < 2 ^ 149 := by positivity
    have h4 : (p : Int) * 2 ^ 149 ≤ ((k : Int) + 2 ^ 125) * 2 ^ 149 := by
      have := (abs_le.1 h3).2
      linarith
    exact le_of_mul_le_mul_right h4 hP
  · have hkZ : (0 : Int) ≤ k := Int.natCast_nonneg k
    have e : 255 * 2 ^ 149 * (p : Int) - 2 ^ 149 * ((v : Int) * k)
        = 255 * ((p : Int) * 2 ^ 149 - (q : Int) * k) + (k : Int) * ((q : Int) * 255 - v * 2 ^ 149) := by
      ring
    rw [e]
    refine le_trans (abs_add _ _) ?_
    rw [abs_mul, abs_mul, abs_of_nonneg hkZ, abs_of_pos (show (0 : Int) < 255 by norm_num)]
    have h5 : |(q : Int) * 255 - v * 2 ^ 149| ≤ 255 * 2 ^ 124 := by
      rw [abs_le]
      constructor <;> linarith
    have h6 : (k : Int) * |(q : Int) * 255 - v * 2 ^ 149| ≤ k * (255 * 2 ^ 124) :=
      mul_le_mul_of_nonneg_left h5 hkZ
    linarith

theorem sum_affine {ι : Type} (c1 c2 : Int) (y : ι → Int) (l : List ι) :
    (l.map (fun i => c1 + c2 * y i)).sum = (l.length : Int) * c1 + c2 * (l.map y).sum := by
  induction l with
  | nil => simp
  | cons i l ih =>
    simp only [List.map_cons, List.sum_cons, List.length_cons, ih]
    push_cast
    ring

theorem sum_mul_left_int {ι : Type} (c : Int) (y : ι → Int) (l : List ι) :
    (l.map (fun i => c * y i)).sum = c * (l.map y).sum := by
  have := sum_affine 0 c y l
  simpa using this

/-- The byte stored for a window of byte samples between `lo` and `hi`, with weights that are
finite, non-negative, at most `1.0f` and whose exact sum is within `(2 radius + 1) * 2^-23` of
one, for a radius of at most 4096: the value converted is finite, non-negative and below
`hi + 1`, and the byte is at least `lo - 1` and at most `hi`. -/
theorem blurByte32_window (wt : Int → F32) (radius : Nat) (hr : radius ≤ 4096)
    (hk : ∀ i : Int, -(radius : Int) ≤ i → i ≤ radius →
      ∃ k, wt i = F32.fin false k ∧ F32.Rep k ∧ k ≤ 2 ^ 149)
    (hsum : |((intRange (-(radius : Int)) radius).map (fun i => F32.toInt (wt i))).sum
        - 2 ^ 149| ≤ (2 * (radius : Int) + 1) * 2 ^ 126)
    (sample : Int → Nat) (lo hi : Nat) (hhi : hi ≤ 255)
    (hs : ∀ i : Int, -(radius : Int) ≤ i → i ≤ radius → lo ≤ sample i ∧ sample i ≤ hi) :
    ∃ t, Binary32.blurSum wt sample radius * F32.ofInt 255 = F32.fin false t ∧
      t < (hi + 1) * 2 ^ 149 ∧
      lo - 1 ≤ Binary32.blurByte wt sample radius ∧
      Binary32.blurByte wt sample radius ≤ hi := by
  have hterm : ∀ i ∈ intRange (-(radius : Int)) radius,
      F32.ofInt (sample i) / F32.ofInt 255 * wt i
          = F32.fin false (F32.toInt (F32.ofInt (sample i) / F32.ofInt 255 * wt i)).toNat ∧
        (((F32.toInt (F32.ofInt (sample i) / F32.ofInt 255 * wt i)).toNat : Nat) : Int)
          ≤ F32.toInt (wt i) + 2 ^ 125 ∧
        |255 * 2 ^ 149
            * (((F32.toInt (F32.ofInt (sample i) / F32.ofInt 255 * wt i)).toNat : Nat) : Int)
          - 2 ^ 149 * ((sample i : Int) * F32.toInt (wt i))|
          ≤ 255 * 2 ^ 125 * 2 ^ 149 + 255 * 2 ^ 124 * F32.toInt (wt i) ∧
        (lo : Int) * F32.toInt (wt i) ≤ (sample i : Int) * F32.toInt (wt i) ∧
        (sample i : Int) * F32.toInt (wt i) ≤ (hi : Int) * F32.toInt (wt i) := by
    intro i hi'
    rw [mem_intRange] at hi'
    obtain ⟨k, e1, -, e3⟩ := hk i hi'.1 hi'.2
    obtain ⟨hlo, hhi'⟩ := hs i hi'.1 hi'.2
    obtain ⟨p, h1, h2, h3⟩ := blur_term (sample i) k (le_trans hhi' hhi) e3
    rw [e1, h1]
    have ek : F32.toInt (F32.fin false k) = (k : Int) := by simp [F32.toInt]
    have ep : (F32.toInt (F32.fin false p)).toNat = p := by simp [F32.toInt]
    rw [ek, ep]
    have hkZ : (0 : Int) ≤ k := Int.natCast_nonneg k
    refine ⟨rfl, h2, h3, ?_, ?_⟩
    · exact mul_le_mul_of_nonneg_right (by exact_mod_cast hlo) hkZ
    · exact mul_le_mul_of_nonneg_right (by exact_mod_cast hhi') hkZ
  have hn := intRange_length radius
  -- the three sums
  have ha := sum_le_sum_add
    (fun i => (((F32.toInt (F32.ofInt (sample i) / F32.ofInt 255 * wt i)).toNat : Nat) : Int))
    (fun i => F32.toInt (wt i)) (2 ^ 125) _ (fun i hi' => (hterm i hi').2.1)
  have hb := abs_sum_sub_le_sum
    (fun i => 255 * 2 ^ 149
      * (((F32.toInt (F32.ofInt (sample i) / F32.ofInt 255 * wt i)).toNat : Nat) : Int))
    (fun i => 2 ^ 149 * ((sample i : Int) * F32.toInt (wt i)))
    (fun i => 255 * 2 ^ 125 * 2 ^ 149 + 255 * 2 ^ 124 * F32.toInt (wt i)) _
    (fun i hi' => (hterm i hi').2.2.1)
  have hc1 := sum_le_sum_int (fun i => (lo : Int) * F32.toInt (wt i))
    (fun i => (sample i : Int) * F32.toInt (wt i)) _ (fun i hi' => (hterm i hi').2.2.2.1)
  have hc2 := sum_le_sum_int (fun i => (sample i : Int) * F32.toInt (wt i))
    (fun i => (hi : Int) * F32.toInt (wt i)) _ (fun i hi' => (hterm i hi').2.2.2.2)
  rw [sum_mul_left_int] at hb hc1 hc2
  rw [sum_mul_left_int, sum_affine] at hb
  rw [hn] at ha hb
  have hfold := F32.foldl_sum_abs (fun i => F32.ofInt (sample i) / F32.ofInt 255 * wt i)
    (fun i => (F32.toInt (F32.ofInt (sample i) / F32.ofInt 255 * wt i)).toNat)
    (intRange (-(radius : Int)) radius) 0 (fun i hi' => (hterm i hi').1)
  rw [hn] at hfold
  generalize ((intRange (-(radius : Int)) radius).map
    (fun i => (((F32.toInt (F32.ofInt (sample i) / F32.ofInt 255 * wt i)).toNat : Nat) : Int))).sum
    = Sp at ha hb hfold
  generalize ((intRange (-(radius : Int)) radius).map
    (fun i => (sample i : Int) * F32.toInt (wt i))).sum = V at hb hc1 hc2
  generalize ((intRange (-(radius : Int)) radius).map (fun i => F32.toInt (wt i))).sum
    = A at ha hb hc1 hc2 hsum
  have e124 : (2 : Int) ^ 124 = 21267647932558653966460912964485513216 := by norm_num
  have e125 : (2 : Int) ^ 125 = 42535295865117307932921825928971026432 := by norm_num
  have e126 : (2 : Int) ^ 126 = 85070591730234615865843651857942052864 := by norm_num
  have e133 : (2 : Int) ^ 133 = 10889035741470030830827987437816582766592 := by norm_num
  have e149 : (2 : Int) ^ 149 = 713623846352979940529142984724747568191373312 := by norm_num
  have e150 : (2 : Int) ^ 150 = 1427247692705959881058285969449495136382746624 := by norm_num
  have n149 : (2 : Nat) ^ 149 = 713623846352979940529142984724747568191373312 := by norm_num
  have n150 : (2 : Nat) ^ 150 = 1427247692705959881058285969449495136382746624 := by norm_num
  have hrZ : (radius : Int) ≤ 4096 := by exact_mod_cast hr
  have hrN : (0 : Int) ≤ radius := Int.natCast_nonneg radius
  simp only [Nat.cast_add, Nat.cast_mul, Nat.cast_ofNat, Nat.cast_one, Nat.cast_zero, zero_add]
    at ha hb hfold
  rw [abs_le] at hsum hb
  rw [e126, e149] at hsum
  rw [e125] at ha
  rw [e124, e125, e149] at hb
  rw [e125, e150] at hfold
  obtain ⟨s, hs1, hs2⟩ := hfold (by omega)
  rw [abs_le] at hs2
  have hs150 : s < 2 ^ 150 := by
    rw [n150]; omega
  obtain ⟨t, ht1, ht2⟩ := F32.mul_255 s hs150
  rw [abs_le, e133] at ht2
  have hbs : Binary32.blurSum wt sample radius = F32.fin false s := hs1
  have hloZ : (0 : Int) ≤ lo := Int.natCast_nonneg lo
  have hhiZ : (hi : Int) ≤ 255 := by exact_mod_cast hhi
  have hhi0 : (0 : Int) ≤ hi := Int.natCast_nonneg hi
  have hlohi : (lo : Int) ≤ hi := by
    obtain ⟨h1, h2⟩ := hs 0 (by omega) (by omega)
    exact_mod_cast le_trans h1 h2
  -- the two products with the sum of the weights
  have hA1 : A ≤ 713623846352979940529142984724747568191373312
      + 8193 * 85070591730234615865843651857942052864 := by omega
  have hA2 : 713623846352979940529142984724747568191373312
      - 8193 * 85070591730234615865843651857942052864 ≤ A := by omega
  have hV1 := mul_le_mul_of_nonneg_left hA1 hhi0
  have hV2 := mul_le_mul_of_nonneg_left hA2 hloZ
  have htup : (t : Int) < ((hi : Int) + 1) * 713623846352979940529142984724747568191373312 := by
    omega
  have htlo : ((lo : Int) - 1) * 713623846352979940529142984724747568191373312 ≤ t := by
    omega
  have htN : t < (hi + 1) * 2 ^ 149 := by
    rw [n149]; exact_mod_cast htup
  have ht256 : t < 256 * 2 ^ 149 :=
    lt_of_lt_of_le htN (Nat.mul_le_mul_right _ (by omega))
  have hbyte : Binary32.blurByte wt sample radius = t / 2 ^ 149 := by
    unfold Binary32.blurByte
    rw [hbs, ht1, F32.toByte_nonneg t ht256]
  refine ⟨t, by rw [hbs]; exact ht1, htN, ?_, ?_⟩
  · rw [hbyte, Nat.le_div_iff_mul_le (by positivity), n149]
    rcases Nat.eq_zero_or_pos lo with h0 | h0
    · subst h0; simp
    · have : ((lo - 1 : Nat) : Int) = (lo : Int) - 1 := by
        rw [Nat.cast_sub h0]; simp
      have h := htlo
      rw [← this] at h
      exact_mod_cast h
  · rw [hbyte]
    have := (Nat.div_lt_iff_lt_mul (show 0 < 2 ^ 149 by positivity)).2 htN
    omega

/-- The blurred byte of one channel, for byte samples and weights normalized in binary32. -/
theorem blur32_sample_bound (m : Libm32) (radius : Nat) (sigma : F32) (hr : radius ≤ 4096)
    (hW : ∀ i : Int, -(radius : Int) ≤ i → i ≤ radius → (Binary32.Weight m i sigma).NonNeg)
    (hfin : (Binary32.weightSum m radius sigma).isFinite = true)
    (hnz : (Binary32.weightSum m radius sigma).isZero = false)
    (sample : Int → Nat) (hb : ∀ i, sample i ≤ 255) :
    (∃ t, Binary32.blurSum (Binary32.normWeight m radius sigma) sample radius * F32.ofInt 255
        = F32.fin false t ∧ t < 256 * 2 ^ 149) ∧
    (∀ lo hi : Nat,
      (∀ i : Int, -(radius : Int) ≤ i → i ≤ radius → lo ≤ sample i ∧ sample i ≤ hi) →
      lo - 1 ≤ Binary32.blurByte (Binary32.normWeight m radius sigma) sample radius ∧
      Binary32.blurByte (Binary32.normWeight m radius sigma) sample radius ≤ hi) ∧
    Binary32.blurByte (Binary32.normWeight m radius sigma) sample radius ≤ 255 ∧
    (∀ c : Nat, (∀ i : Int, -(radius : Int) ≤ i → i ≤ radius → sample i = c) →
      Binary32.blurByte (Binary32.normWeight m radius sigma) sample radius = c ∨
      Binary32.blurByte (Binary32.normWeight m radius sigma) sample radius + 1 = c) := by
  obtain ⟨hk, hsum⟩ := normWeight32_units m radius sigma hW hfin hnz
  have key : ∀ lo hi : Nat,
      (∀ i : Int, -(radius : Int) ≤ i → i ≤ radius → lo ≤ sample i ∧ sample i ≤ hi) →
      ∃ t, Binary32.blurSum (Binary32.normWeight m radius sigma) sample radius * F32.ofInt 255
          = F32.fin false t ∧ t < 256 * 2 ^ 149 ∧
        lo - 1 ≤ Binary32.blurByte (Binary32.normWeight m radius sigma) sample radius ∧
        Binary32.blurByte (Binary32.normWeight m radius sigma) sample radius ≤ hi := by
    intro lo hi hs
    obtain ⟨t, h1, h2, h3, h4⟩ := blurByte32_window (Binary32.normWeight m radius sigma)
      radius hr hk hsum sample lo (min hi 255) (Nat.min_le_right _ _)
      (fun i hi1 hi2 => ⟨(hs i hi1 hi2).1, le_min (hs i hi1 hi2).2 (hb i)⟩)
    refine ⟨t, h1, lt_of_lt_of_le h2 (Nat.mul_le_mul_right _ ?_), h3,
      le_trans h4 (Nat.min_le_left _ _)⟩
    have := Nat.min_le_right hi 255
    omega
  refine ⟨?_, fun lo hi hs => ?_, ?_, fun c hc => ?_⟩
  · obtain ⟨t, h1, h2, -, -⟩ := key 0 255 (fun i _ _ => ⟨Nat.zero_le _, hb i⟩)
    exact ⟨t, h1, h2⟩
  · obtain ⟨t, -, -, h3, h4⟩ := key lo hi hs
    exact ⟨h3, h4⟩
  · obtain ⟨t, -, -, -, h4⟩ := key 0 255 (fun i _ _ => ⟨Nat.zero_le _, hb i⟩)
    exact h4
  · obtain ⟨t, -, -, h3, h4⟩ := key c c (fun i h1 h2 => by rw [hc i h1 h2]; exact ⟨le_refl _, le_refl _⟩)
    omega

theorem Horizontal32_getD (m : Libm32) (inp : List Nat) (w h radius : Nat) (sigma : F32)
    (startRow endRow W : Nat) (hW : 1 ≤ W) (hrows : startRow ≤ endRow) (x y : Nat)
    (hx : x < w) (hy : y < h) (hys : startRow ≤ y) (hye : y < endRow) (ch : Nat)
    (hch : ch < 3) :
    (Binary32.Horizontal m inp w h radius sigma startRow endRow W).getD
        ((y * w + x) * 4 + ch) 0
      = Binary32.blurByte (Binary32.normWeight m radius sigma) (sampleH inp w x y ch) radius := by
  have hp := Horizontal32_pixelAt m inp w h radius sigma startRow endRow W hW hrows
    x y hx hy hys hye
  simp only [pixelAt, Prod.mk.injEq] at hp
  obtain ⟨h0, h1, h2, -⟩ := hp
  have hc : ch = 0 ∨ ch = 1 ∨ ch = 2 := by omega
  rcases hc with rfl | rfl | rfl
  · exact h0
  · exact h1
  · exact h2

theorem Vertical32_getD (m : Libm32) (inp : List Nat) (w h radius : Nat) (sigma : F32)
    (startRow endRow W : Nat) (hW : 1 ≤ W) (x y : Nat) (hx : x < w) (hy : y < h) (ch : Nat)
    (hch : ch < 3) :
    (Binary32.Vertical m inp w h radius sigma startRow endRow W).getD
        ((y * w + x) * 4 + ch) 0
      = Binary32.blurByte (Binary32.normWeight m radius sigma) (sampleV inp w h x y ch)
          radius := by
  have hp := Vertical32_pixelAt m inp w h radius sigma startRow endRow W hW x y hx hy
  simp only [pixelAt, Prod.mk.injEq] at hp
  obtain ⟨h0, h1, h2, -⟩ := hp
  have hc : ch = 0 ∨ ch = 1 ∨ ch = 2 := by omega
  rcases hc with rfl | rfl | rfl
  · exact h0
  · exact h1
  · exact h2

theorem pixelAt_channel_eq (b₁ b₂ : List Nat) (w x₁ y₁ x₂ y₂ : Nat)
    (h : pixelAt b₁ w x₁ y₁ = pixelAt b₂ w x₂ y₂) (ch : Nat) (hch : ch < 4) :
    b₁.getD ((y₁ * w + x₁) * 4 + ch) 0 = b₂.getD ((y₂ * w + x₂) * 4 + ch) 0 := by
  simp only [pixelAt, Prod.mk.injEq] at h
  obtain ⟨h0, h1, h2, h3⟩ := h
  have hc : ch = 0 ∨ ch = 1 ∨ ch = 2 ∨ ch = 3 := by omega
  rcases hc with rfl | rfl | rfl | rfl
  · exact h0
  · exact h1
  · exact h2
  · exact h3

/-- In a uniform image every sample of either window is the channel of the common colour. -/
theorem sample_uniform (inp : List Nat) (w h : Nat) (p : Nat × Nat × Nat × Nat)
    (hunif : ∀ x y, x < w → y < h → pixelAt inp w x y = p)
    (x y : Nat) (hx : x < w) (hy : y < h) (ch : Nat) (hch : ch < 4) (i : Int) :
    sampleH inp w x y ch i = inp.getD ((y * w + x) * 4 + ch) 0 ∧
    sampleV inp w h x y ch i = inp.getD ((y * w + x) * 4 + ch) 0 := by
  have hw : 0 < w := by omega
  have hh : 0 < h := by omega
  obtain ⟨cx0, cx1⟩ := clamp_bounds ((x : Int) + i) w hw
  obtain ⟨cy0, cy1⟩ := clamp_bounds ((y : Int) + i) h hh
  constructor
  · obtain ⟨e, -, hnx, -⟩ := clamped_index w h (clamp ((x : Int) + i) 0 ((w : Int) - 1)) y
      cx0 cx1 (by omega) (by exact_mod_cast hy)
    simp only [sampleH]
    rw [e, Int.toNat_natCast]
    exact pixelAt_channel_eq inp inp w _ y x y
      ((hunif _ y hnx hy).trans (hunif x y hx hy).symm) ch hch
  · obtain ⟨e, -, -, hny⟩ := clamped_index w h x (clamp ((y : Int) + i) 0 ((h : Int) - 1))
      (by omega) (by exact_mod_cast hx) cy0 cy1
    simp only [sampleV]
    rw [e, Int.toNat_natCast]
    exact pixelAt_channel_eq inp inp w x _ x y
      ((hunif x _ hx hny).trans (hunif x y hx hy).symm) ch hch

set_option maxRecDepth 100000 in
/-- C26 (as stated) fails: for the uniform 1×1 image `(3,3,3,255)`, radius 1 and
`sigma = 2^64` (every `exp` argument is `-0`, the normalized weights are `11184810 / 2^25`
each) both `Horizontal` and `Vertical` write `(2,2,2,255)`: the bytes written are below the
least sample of the window, and the uniform colour is not kept. -/
theorem blur_binary32_window_counterexample :
    pixelAt (Binary32.Horizontal Libm32.annexF [3, 3, 3, 255] 1 1 1 (F32.ofInt (2 ^ 64)) 0 1 1)
        1 0 0 = (2, 2, 2, 255) ∧
    pixelAt (Binary32.Vertical Libm32.annexF [3, 3, 3, 255] 1 1 1 (F32.ofInt (2 ^ 64)) 0 1 1)
        1 0 0 = (2, 2, 2, 255) ∧
    (∀ i : Int, -1 ≤ i → i ≤ 1 → sampleH [3, 3, 3, 255] 1 0 0 0 i = 3) := by
  refine ⟨by decide, by decide, fun i h1 h2 => ?_⟩
  have hi : i = -1 ∨ i = 0 ∨ i = 1 := by omega
  rcases hi with rfl | rfl | rfl <;> decide

/-- C26 (amended): for every radius of at most 4096 and every sigma for which the binary32
weights `Weight(i, sigma)`, `i = -radius, …, radius`, are finite and non-negative with a finite
non-zero binary32 sum, for every image of bytes and every processed pixel, each R, G, B value
that `Horizontal` and `Vertical` convert to a byte is a finite non-negative `float` below 256,
so the cast does not overflow; the byte written is at most the greatest sample of that channel
over the clamped window and at least the least sample minus one, hence within 0..255; on a
uniform-colour image each of R, G, B is kept or lowered by one.  The three conditions on the
weights hold for every radius of at most 4096 and every finite `sigma` between `2^-75` and
`2^126` (in units of `2^-149`: between `2^74` and `2^275`) when `exp` maps `-0` to 1 and every
argument that is not above zero to a finite value between 0 and 1. -/
theorem blur_binary32_window (m : Libm32) (radius : Nat) (sigma : F32) (hr : radius ≤ 4096)
    (hWt : ∀ i : Int, -(radius : Int) ≤ i → i ≤ radius → (Binary32.Weight m i sigma).NonNeg)
    (hfin : (Binary32.weightSum m radius sigma).isFinite = true)
    (hnz : (Binary32.weightSum m radius sigma).isZero = false)
    (inp : List Nat) (hbyte : ∀ v ∈ inp, v ≤ 255) (w h startRow endRow W : Nat) (hW : 1 ≤ W)
    (hrows : startRow ≤ endRow) (x y : Nat) (hx : x < w) (hy : y < h) (ch : Nat)
    (hch : ch < 3) :
    ((startRow ≤ y ∧ y < endRow) →
      (∃ t, Binary32.blurSum (Binary32.normWeight m radius sigma) (sampleH inp w x y ch) radius
            * F32.ofInt 255 = F32.fin false t ∧ t < 256 * 2 ^ 149 ∧
          (Binary32.Horizontal m inp w h radius sigma startRow endRow W).getD
            ((y * w + x) * 4 + ch) 0 = F32.toByte (F32.fin false t)) ∧
      (∀ lo hi : Nat,
        (∀ i : Int, -(radius : Int) ≤ i → i ≤ radius →
          lo ≤ sampleH inp w x y ch i ∧ sampleH inp w x y ch i ≤ hi) →
        lo - 1 ≤ (Binary32.Horizontal m inp w h radius sigma startRow endRow W).getD
            ((y * w + x) * 4 + ch) 0 ∧
        (Binary32.Horizontal m inp w h radius sigma startRow endRow W).getD
            ((y * w + x) * 4 + ch) 0 ≤ hi) ∧
      (Binary32.Horizontal m inp w h radius sigma startRow endRow W).getD
          ((y * w + x) * 4 + ch) 0 ≤ 255 ∧
      ((∀ x2 y2, x2 < w → y2 < h → pixelAt inp w x2 y2 = pixelAt inp w 0 0) →
        (Binary32.Horizontal m inp w h radius sigma startRow endRow W).getD
            ((y * w + x) * 4 + ch) 0 = inp.getD ((y * w + x) * 4 + ch) 0 ∨
        (Binary32.Horizontal m inp w h radius sigma startRow endRow W).getD
            ((y * w + x) * 4 + ch) 0 + 1 = inp.getD ((y * w + x) * 4 + ch) 0)) ∧
    ((∃ t, Binary32.blurSum (Binary32.normWeight m radius sigma) (sampleV inp w h x y ch) radius
            * F32.ofInt 255 = F32.fin false t ∧ t < 256 * 2 ^ 149 ∧
          (Binary32.Vertical m inp w h radius sigma startRow endRow W).getD
            ((y * w + x) * 4 + ch) 0 = F32.toByte (F32.fin false t)) ∧
      (∀ lo hi : Nat,
        (∀ i : Int, -(radius : Int) ≤ i → i ≤ radius →
          lo ≤ sampleV inp w h x y ch i ∧ sampleV inp w h x y ch i ≤ hi) →
        lo - 1 ≤ (Binary32.Vertical m inp w h radius sigma startRow endRow W).getD
            ((y * w + x) * 4 + ch) 0 ∧
        (Binary32.Vertical m inp w h radius sigma startRow endRow W).getD
            ((y * w + x) * 4 + ch) 0 ≤ hi) ∧
      (Binary32.Vertical m inp w h radius sigma startRow endRow W).getD
          ((y * w + x) * 4 + ch) 0 ≤ 255 ∧
      ((∀ x2 y2, x2 < w → y2 < h → pixelAt inp w x2 y2 = pixelAt inp w 0 0) →
        (Binary32.Vertical m inp w h radius sigma startRow endRow W).getD
            ((y * w + x) * 4 + ch) 0 = inp.getD ((y * w + x) * 4 + ch) 0 ∨
        (Binary32.Vertical m inp w h radius sigma startRow endRow W).getD
            ((y * w + x) * 4 + ch) 0 + 1 = inp.getD ((y * w + x) * 4 + ch) 0)) ∧
    (∀ (radius2 : Nat) (sigma2 : F32), radius2 ≤ 4096 → sigma2.Finite →
      F32.fin false (2 ^ 74) ≤ sigma2 → sigma2 ≤ F32.fin false (2 ^ 275) →
      m.exp (F32.fin true 0) = F32.one →
      (∀ x : F32, x ≤ F32.zero → ∃ e, m.exp x = F32.fin false e ∧ F32.Rep e ∧ e ≤ 2 ^ 149) →
      (∀ i : Int, -(radius2 : Int) ≤ i → i ≤ radius2 →
        (Binary32.Weight m i sigma2).NonNeg) ∧
      (Binary32.weightSum m radius2 sigma2).isFinite = true ∧
      (Binary32.weightSum m radius2 sigma2).isZero = false) := by
  have hbH : ∀ i, sampleH inp w x y ch i ≤ 255 := fun i => getD_le_255 inp hbyte _
  have hbV : ∀ i, sampleV inp w h x y ch i ≤ 255 := fun i => getD_le_255 inp hbyte _
  obtain ⟨⟨tH, a1, a2⟩, a3, a4, a5⟩ := blur32_sample_bound m radius sigma hr hWt hfin hnz
    (sampleH inp w x y ch) hbH
  obtain ⟨⟨tV, b1, b2⟩, b3, b4, b5⟩ := blur32_sample_bound m radius sigma hr hWt hfin hnz
    (sampleV inp w h x y ch) hbV
  have eV := Vertical32_getD m inp w h radius sigma startRow endRow W hW x y hx hy ch hch
  refine ⟨fun hrow => ?_, ?_, fun radius2 sigma2 g1 g2 g3 g4 g5 g6 =>
    weights_wellformed m radius2 sigma2 g1 g2 g3 g4 g5 g6⟩
  · have eH := Horizontal32_getD m inp w h radius sigma startRow endRow W hW hrows x y hx hy
      hrow.1 hrow.2 ch hch
    rw [eH]
    refine ⟨⟨tH, a1, a2, ?_⟩, a3, a4, fun hunif => ?_⟩
    · unfold Binary32.blurByte
      rw [a1]
    · exact a5 _ (fun i _ _ =>
        (sample_uniform inp w h _ hunif x y hx hy ch (by omega) i).1)
  · rw [eV]
    refine ⟨⟨tV, b1, b2, ?_⟩, b3, b4, fun hunif => ?_⟩
    · unfold Binary32.blurByte
      rw [b1]
    · exact b5 _ (fun i _ _ =>
        (sample_uniform inp w h _ hunif x y hx hy ch (by omega) i).2)

set_option maxRecDepth 100000 in
theorem blur_binary32_window_witness :
    (Binary32.Vertical Libm32.annexF [3, 3, 3, 255] 1 1 1 (F32.ofInt (2 ^ 64)) 0 1 1).getD
        ((0 * 1 + 0) * 4 + 0) 0 ≤ 255 :=
  (blur_binary32_window Libm32.annexF 1 (F32.ofInt (2 ^ 64)) (by decide)
    (fun i h1 h2 => by
      have hi : i = -1 ∨ i = 0 ∨ i = 1 := by omega
      rcases hi with rfl | rfl | rfl <;>
        exact ⟨13386282 * 2 ^ 60, by decide, ⟨13386282, 60, by decide, rfl⟩, by decide⟩)
    (by decide) (by decide) [3, 3, 3, 255] (by decide) 1 1 0 1 1 (by decide) (by decide) 0 0
    (by decide) (by decide) 0 (by decide)).2.1.2.2.1

/-! ### Claims on the checked kernels: divisions by zero -/

theorem foldlM_some {σ α : Type} (f : σ → α → Option σ) (g : σ → α → σ)
    (h : ∀ s a, f s a = some (g s a)) (l : List α) (s : σ) :
    l.foldlM f s = some (l.foldl g s) := by
  induction l generalizing s with
  | nil => rfl
  | cons a l ih =>
    rw [List.foldlM_cons, h, List.foldl_cons]
    exact ih _

theorem loopM_some {σ : Type} (lo hi : Nat) (body : Nat → σ → Option σ) (body2 : Nat → σ → σ)
    (h : ∀ i s, body i s = some (body2 i s)) (s : σ) :
    Checked.loopM lo hi body s = some (forLoop lo hi body2 s) :=
  foldlM_some _ _ (fun s i => h i s) _ s

theorem loopIntM_some {σ : Type} (lo hi : Int) (body : Int → σ → Option σ)
    (body2 : Int → σ → σ) (h : ∀ i s, body i s = some (body2 i s)) (s : σ) :
    Checked.loopIntM lo hi body s = some (forLoopInt lo hi body2 s) :=
  foldlM_some _ _ (fun s i => h i s) _ s

theorem fdiv_some (a b : F32) (hb : b.isZero = false) : Checked.fdiv a b = some (a / b) := by
  simp [Checked.fdiv, hb]

theorem fdiv_255 (a : F32) : Checked.fdiv a (F32.ofInt 255) = some (a / F32.ofInt 255) :=
  fdiv_some a _ (by decide)

theorem runFanOut_some (W s e : Nat) (hW : 1 ≤ W)
    (task : Nat → Nat → List Nat → Option (List Nat)) (task2 : Nat → Nat → List Nat → List Nat)
    (h : ∀ lo hi out, task lo hi out = some (task2 lo hi out)) (out : List Nat) :
    Checked.runFanOut W s e task out = some (runFanOut W s e task2 out) := by
  have hW0 : W ≠ 0 := by omega
  simp only [Checked.runFanOut, Checked.idiv, hW0, if_false, Option.bind_eq_bind,
    Option.some_bind]
  rw [foldlM_some _ (fun acc t => task2 (workerRange W s e t).1 (workerRange W s e t).2 acc)
    (fun acc t => by rw [h]; rfl)]
  simp only [runFanOut, fanOut, List.foldl_map]

theorem GrayNuance_checked (inp : List Nat) (index : Nat) :
    Checked.GrayNuance inp index = some (Binary32.GrayNuance inp index) := by
  simp only [Checked.GrayNuance, fdiv_255, Option.bind_eq_bind, Option.some_bind,
    Option.pure_def]
  rfl

theorem EdgeBinarize_checked (inp : List Nat) (w h : Nat) (threshold : F32)
    (startRow endRow W : Nat) (hW : 1 ≤ W) :
    Checked.EdgeBinarize inp w h threshold startRow endRow W
      = some (Binary32.EdgeBinarize inp w h threshold startRow endRow W) := by
  have hgrad : ∀ x y, Checked.sobelGrad inp w h x y = some (Binary32.sobelGrad inp w h x y) := by
    intro x y
    unfold Checked.sobelGrad Binary32.sobelGrad
    refine loopIntM_some _ _ _ _ (fun j acc => ?_) _
    refine loopIntM_some _ _ _ _ (fun i acc => ?_) _
    simp only [GrayNuance_checked, Option.bind_eq_bind, Option.some_bind, Option.pure_def]
  have hbin : ∀ x y, Checked.sobelBinary inp w h threshold x y
      = some (Binary32.sobelBinary inp w h threshold x y) := by
    intro x y
    simp only [Checked.sobelBinary, hgrad, Option.bind_eq_bind, Option.some_bind,
      Option.pure_def]
    rfl
  unfold Checked.EdgeBinarize Binary32.EdgeBinarize
  refine runFanOut_some W startRow endRow hW _ _ (fun lo hi out => ?_) _
  unfold Checked.SOBEL_BINARY_EDGE Binary32.SOBEL_BINARY_EDGE
  refine loopM_some _ _ _ _ (fun y out => ?_) _
  refine loopM_some _ _ _ _ (fun x out => ?_) _
  simp only [hbin, Option.bind_eq_bind, Option.some_bind, Option.pure_def]

theorem Weight_checked (m : Libm32) (mu : Int) (sigma : F32)
    (h1 : (F32.ofInt 2 * sigma * sigma).isZero = false)
    (h2 : (F32.sqrt (F32.ofInt 2 * F32.pi) * sigma).isZero = false) :
    Checked.Weight m mu sigma = some (Binary32.Weight m mu sigma) := by
  simp only [Checked.Weight, fdiv_some _ _ h1, fdiv_some _ _ h2, Option.bind_eq_bind,
    Option.some_bind]
  rfl

theorem gaussWeights_checked (m : Libm32) (radius : Nat) (sigma : F32)
    (h1 : (F32.ofInt 2 * sigma * sigma).isZero = false)
    (h2 : (F32.sqrt (F32.ofInt 2 * F32.pi) * sigma).isZero = false)
    (h3 : (Binary32.weightSum m radius sigma).isZero = false) :
    Checked.gaussWeights m radius sigma = some (Binary32.gaussWeights m radius sigma) := by
  have hraw : Checked.rawWeights m radius sigma = some (Binary32.rawWeights m radius sigma) := by
    unfold Checked.rawWeights Binary32.rawWeights
    refine loopIntM_some _ _ _ _ (fun i st => ?_) _
    simp only [Weight_checked m i sigma h1 h2, Option.bind_eq_bind, Option.some_bind,
      Option.pure_def]
  have hsum : (Binary32.rawWeights m radius sigma).2.isZero = false := by
    rw [(rawWeights32_spec m radius sigma).2.2]
    exact h3
  simp only [Checked.gaussWeights, hraw, Option.bind_eq_bind, Option.some_bind]
  unfold Binary32.gaussWeights
  refine loopM_some _ _ _ _ (fun i ws => ?_) _
  simp only [fdiv_some _ _ hsum, Option.bind_eq_bind, Option.some_bind, Option.pure_def]

theorem Horizontal_checked (m : Libm32) (inp : List Nat) (w h radius : Nat) (sigma : F32)
    (startRow endRow W : Nat) (hW : 1 ≤ W)
    (h1 : (F32.ofInt 2 * sigma * sigma).isZero = false)
    (h2 : (F32.sqrt (F32.ofInt 2 * F32.pi) * sigma).isZero = false)
    (h3 : (Binary32.weightSum m radius sigma).isZero = false) :
    Checked.Horizontal m inp w h radius sigma startRow endRow W
      = some (Binary32.Horizontal m inp w h radius sigma startRow endRow W) := by
  simp only [Checked.Horizontal, gaussWeights_checked m radius sigma h1 h2 h3,
    Option.bind_eq_bind, Option.some_bind]
  unfold Binary32.Horizontal
  refine runFanOut_some W startRow endRow hW _ _ (fun lo hi out => ?_) _
  unfold Checked.HORIZONTAL_BLUR Binary32.HORIZONTAL_BLUR
  refine loopM_some _ _ _ _ (fun y out => ?_) _
  refine loopM_some _ _ _ _ (fun x out => ?_) _
  have hs : Checked.horizontalSums (Binary32.gaussWeights m radius sigma) inp w radius x y
      = some (Binary32.horizontalSums (Binary32.gaussWeights m radius sigma) inp w radius
          x y) := by
    unfold Checked.horizontalSums Binary32.horizontalSums
    refine loopIntM_some _ _ _ _ (fun i acc => ?_) _
    simp only [fdiv_255, Option.bind_eq_bind, Option.some_bind, Option.pure_def]
  simp only [hs, Option.bind_eq_bind, Option.some_bind, Option.pure_def]

theorem Vertical_checked (m : Libm32) (inp : List Nat) (w h radius : Nat) (sigma : F32)
    (startRow endRow W : Nat) (hW : 1 ≤ W)
    (h1 : (F32.ofInt 2 * sigma * sigma).isZero = false)
    (h2 : (F32.sqrt (F32.ofInt 2 * F32.pi) * sigma).isZero = false)
    (h3 : (Binary32.weightSum m radius sigma).isZero = false) :
    Checked.Vertical m inp w h radius sigma startRow endRow W
      = some (Binary32.Vertical m inp w h radius sigma startRow endRow W) := by
  simp only [Checked.Vertical, gaussWeights_checked m radius sigma h1 h2 h3,
    Option.bind_eq_bind, Option.some_bind]
  unfold Binary32.Vertical
  refine runFanOut_some W 0 w hW _ _ (fun lo hi out => ?_) _
  unfold Checked.VERTICAL_BLUR Binary32.VERTICAL_BLUR
  refine loopM_some _ _ _ _ (fun x out => ?_) _
  refine loopM_some _ _ _ _ (fun y out => ?_) _
  have hs : Checked.verticalSums (Binary32.gaussWeights m radius sigma) inp w h radius x y
      = some (Binary32.verticalSums (Binary32.gaussWeights m radius sigma) inp w h radius
          x y) := by
    unfold Checked.verticalSums Binary32.verticalSums
    refine loopIntM_some _ _ _ _ (fun i acc => ?_) _
    simp only [fdiv_255, Option.bind_eq_bind, Option.some_bind, Option.pure_def]
  simp only [hs, Option.bind_eq_bind, Option.some_bind, Option.pure_def]

/-- The conversion of a positive `int` to `float` is not zero. -/
theorem ofInt_pos_ne_zero (n : Nat) (h1 : 1 ≤ n) (h2 : n < 2 ^ 31) :
    (F32.ofInt (n : Int)).isZero = false := by
  have hq : n * 2 ^ 149 / 1 < 2 ^ 1047 := by
    rw [Nat.div_one]
    calc n * 2 ^ 149 < 2 ^ 31 * 2 ^ 149 := Nat.mul_lt_mul_of_pos_right h2 (by positivity)
      _ = 2 ^ 180 := by rw [← pow_add]
      _ ≤ 2 ^ 1047 := Nat.pow_le_pow_right (by norm_num) (by norm_num)
  have hle : 2 ^ 149 ≤ F32.roundRaw (n * 2 ^ 149) 1 :=
    F32.le_roundRaw_of_le _ 1 _ Nat.one_pos hq (F32.rep_two_pow 149)
      (by rw [Nat.mul_one]; exact Nat.le_mul_of_pos_left _ h1)
  have hpos : 0 < F32.roundRaw (n * 2 ^ 149) 1 := lt_of_lt_of_le (by positivity) hle
  have hn : (n : Int).natAbs = n := Int.natAbs_ofNat n
  unfold F32.ofInt F32.ofMag F32.roundMag
  rw [hn]
  split
  · rename_i k hk
    split at hk
    · injection hk with hk
      subst hk
      simp only [F32.isZero, beq_eq_false_iff_ne]
      omega
    · exact absurd hk (by simp)
  · rfl

theorem Hatching_checked (m : Libm32) (inp : List Nat) (w h : Nat) (a b c threshold : F32)
    (inv : Bool) (W : Nat) (hW : 1 ≤ W) (hw : 1 ≤ w) (hw2 : w < 2 ^ 31) (hh : 1 ≤ h)
    (hh2 : h < 2 ^ 31) :
    Checked.Hatching m inp w h a b c threshold inv W
      = some (Binary32.Hatching m inp w h a b c threshold inv W) := by
  unfold Checked.Hatching Binary32.Hatching
  refine runFanOut_some W 0 (w * h) hW _ _ (fun lo hi out => ?_) _
  unfold Checked.HATCHING Binary32.HATCHING
  refine loopM_some _ _ _ _ (fun i out => ?_) _
  have hw0 : w ≠ 0 := by omega
  simp only [Checked.idiv, Checked.imod, hw0, if_false,
    fdiv_some _ _ (ofInt_pos_ne_zero w hw hw2), fdiv_some _ _ (ofInt_pos_ne_zero h hh hh2),
    GrayNuance_checked, Option.bind_eq_bind, Option.some_bind, Option.pure_def]
  rfl

theorem Combine_checked (ins : List (List Nat)) (w h W : Nat) (hW : 1 ≤ W) :
    Checked.Combine ins w h W = some (Binary32.Combine ins w h W) := by
  unfold Checked.Combine Binary32.Combine
  refine runFanOut_some W 0 (w * h) hW _ _ (fun lo hi out => ?_) _
  unfold Checked.COMBINE_IMAGES Binary32.COMBINE_IMAGES
  refine foldlM_some _ _ (fun combined i => ?_) _ _
  have hs : Checked.combineMins ins i = some (Binary32.combineMins ins i) := by
    unfold Checked.combineMins Binary32.combineMins
    refine loopM_some _ _ _ _ (fun t acc => ?_) _
    simp only [fdiv_255, Option.bind_eq_bind, Option.some_bind, Option.pure_def]
  simp only [hs, Option.bind_eq_bind, Option.some_bind, Option.pure_def]

/-- For a finite `sigma` between `2^-75` and `2^126` and a `libm` whose `exp` maps `-0` to 1
and never returns a negative value or `-0`, the three divisors that depend on `sigma` are not
zero. -/
theorem sigma_range_divisors (m : Libm32) (radius : Nat) (sigma : F32) (hs : sigma.Finite)
    (hlo : F32.fin false (2 ^ 74) ≤ sigma) (hhi : sigma ≤ F32.fin false (2 ^ 275))
    (hexp0 : m.exp (F32.fin true 0) = F32.one) (hexp : ∀ x, (m.exp x).SignClear) :
    (F32.ofInt 2 * sigma * sigma).isZero = false ∧
    (F32.sqrt (F32.ofInt 2 * F32.pi) * sigma).isZero = false ∧
    (Binary32.weightSum m radius sigma).isZero = false := by
  obtain ⟨k, rfl, hrep, h1, h2⟩ := sigma_range sigma hs hlo hhi
  obtain ⟨hX, d, hd, hd0, hdle⟩ := F32.sigma_divisors k hrep h1 h2
  refine ⟨?_, ?_, ?_⟩
  · rcases hX with h | ⟨x, h, hx⟩
    · rw [h]; rfl
    · rw [h]
      simp only [F32.isZero, beq_eq_false_iff_ne]
      omega
  · rw [hd]
    simp only [F32.isZero, beq_eq_false_iff_ne]
    omega
  · have hW : ∀ i : Int, (Binary32.Weight m i (F32.fin false k)).NonNegOrNaN := by
      intro i
      unfold Binary32.Weight
      rw [hd]
      exact F32.div_signClear _ d hd0 (hexp _)
    have hW0 : (Binary32.Weight m 0 (F32.fin false k)).PosOrNaN := by
      unfold Binary32.Weight
      have e0 : -F32.ofInt (0 * 0) = F32.fin true 0 := by decide
      rw [hd, e0, F32.negZero_div _ hX, hexp0]
      exact F32.one_div_pos d hd0 hdle
    have h0 : (0 : Int) ∈ intRange (-(radius : Int)) radius :=
      (mem_intRange _ _ _).2 ⟨by omega, by omega⟩
    exact (F32.foldl_sum_pos (fun i => Binary32.Weight m i (F32.fin false k)) _
      (fun i _ => hW i) F32.zero (Or.inr (Or.inr ⟨0, rfl, Nat.zero_le _⟩))
      (Or.inr ⟨0, h0, hW0⟩)).isZero

set_option maxRecDepth 100000 in
/-- C20 (as stated) fails in three ways.  With a pool of no workers every kernel divides the
extent by zero (here with `sigma = 2^64`, where every `exp` argument is `-0`).  With one worker
and the positive `sigma = 1e-23f`, the divisor `2.0f * sigma * sigma` of `Weight` underflows to
`0.0f`.  With one worker and `sigma = 2^127`, `sqrt(2 pi) * sigma` overflows, every raw weight
is `0.0f`, and the normalization divides by the sum `0.0f`. -/
theorem no_division_by_zero_binary32_counterexample :
    (Checked.EdgeBinarize [0, 0, 0, 255] 1 1 (F32.lit 3 10) 0 1 0 = none ∧
      Checked.Horizontal Libm32.annexF [0, 0, 0, 255] 1 1 1 (F32.ofInt (2 ^ 64)) 0 1 0 = none ∧
      Checked.Vertical Libm32.annexF [0, 0, 0, 255] 1 1 1 (F32.ofInt (2 ^ 64)) 0 1 0 = none ∧
      Checked.Hatching Libm32.annexF [0, 0, 0, 255] 1 1 (F32.ofInt 200) (F32.ofInt 200)
        (F32.lit 95 100) (F32.lit 1 4) false 0 = none ∧
      Checked.Combine [[0, 0, 0, 255]] 1 1 0 = none) ∧
    (F32.zero < F32.lit 1 (10 ^ 23) ∧
      F32.ofInt 2 * F32.lit 1 (10 ^ 23) * F32.lit 1 (10 ^ 23) = F32.zero ∧
      Checked.Horizontal Libm32.annexF [0, 0, 0, 255] 1 1 1 (F32.lit 1 (10 ^ 23)) 0 1 1 = none ∧
      Checked.Vertical Libm32.annexF [0, 0, 0, 255] 1 1 1 (F32.lit 1 (10 ^ 23)) 0 1 1 = none) ∧
    (F32.zero < F32.ofInt (2 ^ 127) ∧
      Checked.Weight Libm32.annexF 0 (F32.ofInt (2 ^ 127)) = some F32.zero ∧
      Binary32.weightSum Libm32.annexF 1 (F32.ofInt (2 ^ 127)) = F32.zero ∧
      Checked.Horizontal Libm32.annexF [0, 0, 0, 255] 1 1 1 (F32.ofInt (2 ^ 127)) 0 1 1 = none ∧
      Checked.Vertical Libm32.annexF [0, 0, 0, 255] 1 1 1 (F32.ofInt (2 ^ 127)) 0 1 1 = none) := by
  decide

/-- C20 (amended): for every kernel call (`EdgeBinarize`, `Horizontal`, `Vertical`,
`Hatching`, `Combine`) with a worker count of at least 1, width and height between 1 and
`2^31 - 1`, a radius of at least 0, a finite `sigma` between `2^-75` and `2^126`, and a `libm`
whose `exp` maps `-0` to 1 and never returns a negative value or `-0`, no division has a zero
divisor: each kernel with checked divisions returns the buffer of the kernel.  For any `sigma`,
`Horizontal` and `Vertical` divide by no zero as soon as the three divisors
`2.0f * sigma * sigma`, `sqrt(2.0f * pi) * sigma` and the sum of the weights are not zero. -/
theorem no_division_by_zero_binary32 (m : Libm32) (inp : List Nat) (ins : List (List Nat))
    (w h radius : Nat) (sigma threshold a b c : F32) (inv : Bool) (startRow endRow W : Nat)
    (hW : 1 ≤ W) (hw : 1 ≤ w) (hw2 : w < 2 ^ 31) (hh : 1 ≤ h) (hh2 : h < 2 ^ 31)
    (hs : sigma.Finite) (hlo : F32.fin false (2 ^ 74) ≤ sigma)
    (hhi : sigma ≤ F32.fin false (2 ^ 275))
    (hexp0 : m.exp (F32.fin true 0) = F32.one) (hexp : ∀ x, (m.exp x).SignClear) :
    Checked.EdgeBinarize inp w h threshold startRow endRow W
      = some (Binary32.EdgeBinarize inp w h threshold startRow endRow W) ∧
    Checked.Horizontal m inp w h radius sigma startRow endRow W
      = some (Binary32.Horizontal m inp w h radius sigma startRow endRow W) ∧
    Checked.Vertical m inp w h radius sigma startRow endRow W
      = some (Binary32.Vertical m inp w h radius sigma startRow endRow W) ∧
    Checked.Hatching m inp w h a b c threshold inv W
      = some (Binary32.Hatching m inp w h a b c threshold inv W) ∧
    Checked.Combine ins w h W = some (Binary32.Combine ins w h W) ∧
    (∀ sigma2 : F32, (F32.ofInt 2 * sigma2 * sigma2).isZero = false →
      (F32.sqrt (F32.ofInt 2 * F32.pi) * sigma2).isZero = false →
      (Binary32.weightSum m radius sigma2).isZero = false →
      Checked.Horizontal m inp w h radius sigma2 startRow endRow W
          = some (Binary32.Horizontal m inp w h radius sigma2 startRow endRow W) ∧
        Checked.Vertical m inp w h radius sigma2 startRow endRow W
          = some (Binary32.Vertical m inp w h radius sigma2 startRow endRow W)) := by
  obtain ⟨h1, h2, h3⟩ := sigma_range_divisors m radius sigma hs hlo hhi hexp0 hexp
  exact ⟨EdgeBinarize_checked inp w h threshold startRow endRow W hW,
    Horizontal_checked m inp w h radius sigma startRow endRow W hW h1 h2 h3,
    Vertical_checked m inp w h radius sigma startRow endRow W hW h1 h2 h3,
    Hatching_checked m inp w h a b c threshold inv W hW hw hw2 hh hh2,
    Combine_checked ins w h W hW,
    fun sigma2 g1 g2 g3 =>
      ⟨Horizontal_checked m inp w h radius sigma2 startRow endRow W hW g1 g2 g3,
        Vertical_checked m inp w h radius sigma2 startRow endRow W hW g1 g2 g3⟩⟩

set_option maxRecDepth 100000 in
theorem no_division_by_zero_binary32_witness :
    Checked.Horizontal Libm32.annexF [10, 20, 30, 40] 1 1 1 (F32.ofInt (2 ^ 64)) 0 1 1
      = some (Binary32.Horizontal Libm32.annexF [10, 20, 30, 40] 1 1 1 (F32.ofInt (2 ^ 64))
          0 1 1) :=
  (no_division_by_zero_binary32 Libm32.annexF [10, 20, 30, 40] [[10, 20, 30, 40]] 1 1 1
    (F32.ofInt (2 ^ 64)) (F32.lit 3 10) (F32.ofInt 200) (F32.ofInt 200) (F32.lit 95 100) false 0 1 1
    (by decide) (by decide) (by decide) (by decide) (by decide)
    ⟨false, 2 ^ 213, by decide, ⟨1, 213, by decide, by decide⟩, by decide⟩
    (by decide) (by decide) (by decide)
    (fun x => by
      unfold Libm32.annexF
      by_cases hx : x.isZero = true
      · exact Or.inr (Or.inr ⟨2 ^ 149, by simp [hx, F32.one]⟩)
      · exact Or.inl (by simp [hx]))).2.1

end SketchEffect
